import Mathlib

/-!
# Colfer C codec: `marshal_len`, `marshal`, `unmarshal`

A shallow embedding of the C functions that `src/c.go` generates from the template
`cTemplate`, one triple per struct of the schema.  The template is instantiated per
field; the embedding interprets the same template over a schema value, so one Lean function
stands for every generated instance.

Conventions of the embedding

* An octet buffer is a `List Nat`; the octets `marshal` writes through `*p++` are returned
  in the order they are written, and its return value `p - buf` is the length of that list.
* In `unmarshal` the pointer `p` is the pair of its offset from `data` and the octets that
  start at it; a read through `*p` of an empty rest is a read outside the buffer
  (`Halt.fault`).  Addresses themselves are not modelled, so pointer addition does not wrap.
* `size_t`, `time_t`, `long` and the `uint_fast64_t` temporaries are 64 bits wide,
  `uint_fast32_t` is 32 bits wide: arithmetic on them is taken modulo `2 ^ 64` and `2 ^ 32`
  wherever the C value can leave that range.
* `float` and `double` values are carried as their IEEE-754 bit patterns; the only
  floating-point operation of the code, the comparison with zero, is `isZero32`/`isZero64`.
* `errno` is part of the results: `marshal_len` returns the value of `errno` it leaves
  behind next to its `size_t`, `unmarshal` returns either the octet count or the `errno`.
-/

namespace Colfer

/-! ## Schema model (`Packages`, `Struct`, `Field` of the generator) -/

/-- The declared type of a field, `.Type`; any name other than the twelve built-in ones is a
reference `.TypeRef` to a struct of the schema. -/
inductive FType where
  | bool | uint8 | uint16 | uint32 | uint64 | int32 | int64
  | float32 | float64 | timestamp | text | binary
  | ref (s : Nat)
  deriving DecidableEq, Repr

/-- A field of a struct: `.Index`, `.Type` and `.TypeList`. -/
structure Field where
  Index : Nat
  Ty : FType
  TypeList : Bool
  deriving DecidableEq, Repr

/-- The structs of a schema, by number: `S s` is `.Fields` of struct `s`.  A reference
`FType.ref s` may point back to the struct it occurs in. -/
abbrev Schema := Nat → List Field

/-- The values `errno` is set to. -/
inductive Errno where
  | EWOULDBLOCK | EFBIG | EILSEQ
  deriving DecidableEq, Repr

/-! ## Value model (the generated C structs) -/

/-- The value of one struct member.

* `bool`: a `char` used as a truth value;
* `uint`: `uint8_t`, `uint16_t`, `uint32_t` or `uint64_t`;
* `int`: `int32_t` or `int64_t`;
* `float`: the bit pattern of a `float` or `double`; `floats`: the `list`/`len` pair of them;
* `timespec`: `tv_sec` and `tv_nsec`;
* `blob`: `colfer_text` or `colfer_binary`, the `len` octets behind the pointer;
  `blobs`: the `list`/`len` pair of them;
* `ref`: a pointer to a nested struct, `none` for `NULL`; `refs`: the `list`/`len` pair of
  nested structs. -/
inductive Val where
  | bool (b : Bool)
  | uint (x : Nat)
  | int (x : Int)
  | float (bits : Nat)
  | floats (list : List Nat)
  | timespec (tv_sec : Int) (tv_nsec : Int)
  | blob (octets : List Nat)
  | blobs (list : List (List Nat))
  | ref (r : Option (List Val))
  | refs (list : List (List Val))
  deriving Repr

/-- A struct value: its members in the order of `.Fields`. -/
abbrev Rec := List Val

/-- The member of a `calloc`ed struct for a field. -/
def zeroVal (f : Field) : Val :=
  match f.Ty, f.TypeList with
  | .bool, _ => .bool false
  | .uint8, _ => .uint 0
  | .uint16, _ => .uint 0
  | .uint32, _ => .uint 0
  | .uint64, _ => .uint 0
  | .int32, _ => .int 0
  | .int64, _ => .int 0
  | .float32, false => .float 0
  | .float32, true => .floats []
  | .float64, false => .float 0
  | .float64, true => .floats []
  | .timestamp, _ => .timespec 0 0
  | .text, false => .blob []
  | .text, true => .blobs []
  | .binary, false => .blob []
  | .binary, true => .blobs []
  | .ref _, false => .ref none
  | .ref _, true => .refs []

/-- A zero-initialised struct. -/
def zeroRec (fields : List Field) : Rec := fields.map zeroVal

/-- `x != 0.0f` is false exactly for the two bit patterns of zero; a NaN compares unequal. -/
def isZero32 (bits : Nat) : Bool := bits == 0 || bits == 0x80000000

/-- `x != 0.0` is false exactly for the two bit patterns of zero. -/
def isZero64 (bits : Nat) : Bool := bits == 0 || bits == 0x8000000000000000

/-- Conversion of an `int32_t` to `uint_fast32_t`. -/
def toU32 (x : Int) : Nat := (x % 2 ^ 32).toNat

/-- Conversion of an `int64_t` or `time_t` to `uint_fast64_t`. -/
def toU64 (x : Int) : Nat := (x % 2 ^ 64).toNat

/-- Conversion of a `uint_fast32_t` to `int32_t`. -/
def toI32 (x : Nat) : Int := if x % 2 ^ 32 < 2 ^ 31 then (x % 2 ^ 32 : Nat) else (x % 2 ^ 32 : Nat) - 2 ^ 32

/-- Conversion of a `uint64_t` to `int64_t`. -/
def toI64 (x : Nat) : Int := if x % 2 ^ 64 < 2 ^ 63 then (x % 2 ^ 64 : Nat) else (x % 2 ^ 64 : Nat) - 2 ^ 64

/-! ## `marshal_len` -/

/-- The loop `for (; x > 127; x >>= 7, ++l);` on a `size_t l`.  The first argument bounds the
number of rounds; a 64-bit `x` is zero after ten shifts. -/
def lenLoop : Nat → Nat → Nat → Nat
  | 0, _, l => l
  | k + 1, x, l => if x > 127 then lenLoop k (x >>> 7) ((l + 1) % 2 ^ 64) else l

/-- The loop `for (; x > 127 && l < max; x >>= 7, ++l);` of the `int64` case. -/
def lenLoopMax : Nat → Nat → Nat → Nat → Nat
  | 0, _, l, _ => l
  | k + 1, x, l, max => if x > 127 ∧ l < max then lenLoopMax k (x >>> 7) ((l + 1) % 2 ^ 64) max else l

/-- The element loop of a text or binary list in `marshal_len`:
`for (i = 0; i < n; ++i) { len = a[i].len; if (len > colfer_size_max) return 0; ... }`.
`none` is the early `errno = EFBIG; return 0;`. -/
def lenBlobs (size_max : Nat) : List (List Nat) → Nat → Option Nat
  | [], l => some l
  | a :: as, l =>
    if a.length > size_max then none
    else lenBlobs size_max as (lenLoop 10 a.length ((l + a.length + 1) % 2 ^ 64))

mutual
/-- The code of `marshal_len` for one field, from `l` and `errno` before it to `l` and `errno`
after it; `none` is `errno = EFBIG; return 0;`.  A nested `marshal_len` is
`lenFields size_max list_max S (S s) r 1 e` with the final test applied. -/
def lenField (size_max list_max : Nat) (S : Schema) (f : Field) :
    Val → Nat → Option Errno → Option (Nat × Option Errno)
  | .bool b, l, e =>
    match f.Ty with
    | .bool => some (if b then (l + 1) % 2 ^ 64 else l, e)
    | _ => some (l, e)
  | .uint x, l, e =>
    match f.Ty with
    | .uint8 => some (if x ≠ 0 then (l + 2) % 2 ^ 64 else l, e)
    | .uint16 => some (if x ≠ 0 then (l + (if x < 256 then 2 else 3)) % 2 ^ 64 else l, e)
    | .uint32 =>
      some (if x ≠ 0 then
              (if x ≥ 2 ^ 21 then (l + 5) % 2 ^ 64 else lenLoop 10 x ((l + 2) % 2 ^ 64))
            else l, e)
    | .uint64 =>
      some (if x ≠ 0 then
              (if x ≥ 2 ^ 49 then (l + 9) % 2 ^ 64 else lenLoop 10 x ((l + 2) % 2 ^ 64))
            else l, e)
    | _ => some (l, e)
  | .int v, l, e =>
    match f.Ty with
    | .int32 =>
      let x := toU32 v
      some (if x ≠ 0 then
              (let x := if x &&& 2 ^ 31 ≠ 0 then ((2 ^ 32 - 1 - x) + 1) % 2 ^ 32 else x
               lenLoop 10 x ((l + 2) % 2 ^ 64))
            else l, e)
    | .int64 =>
      let x := toU64 v
      some (if x ≠ 0 then
              (let x := if x &&& 2 ^ 63 ≠ 0 then ((2 ^ 64 - 1 - x) + 1) % 2 ^ 64 else x
               let max := (l + 10) % 2 ^ 64
               lenLoopMax 10 x ((l + 2) % 2 ^ 64) max)
            else l, e)
    | _ => some (l, e)
  | .float bits, l, e =>
    match f.Ty, f.TypeList with
    | .float32, false => some (if !isZero32 bits then (l + 5) % 2 ^ 64 else l, e)
    | .float64, false => some (if !isZero64 bits then (l + 9) % 2 ^ 64 else l, e)
    | _, _ => some (l, e)
  | .floats list, l, e =>
    match f.Ty, f.TypeList with
    | .float32, true =>
      let n := list.length
      if n ≠ 0 then
        if n > list_max then none
        else some (lenLoop 10 n ((l + (n * 4 + 2)) % 2 ^ 64), e)
      else some (l, e)
    | .float64, true =>
      let n := list.length
      if n ≠ 0 then
        if n > list_max then none
        else some (lenLoop 10 n ((l + (n * 8 + 2)) % 2 ^ 64), e)
      else some (l, e)
    | _, _ => some (l, e)
  | .timespec tv_sec tv_nsec, l, e =>
    match f.Ty with
    | .timestamp =>
      if tv_sec ≠ 0 ∨ tv_nsec ≠ 0 then
        let s := tv_sec + Int.tdiv tv_nsec 1000000000
        some ((l + (if s ≥ 2 ^ 32 ∨ s < 0 then 13 else 9)) % 2 ^ 64, e)
      else some (l, e)
    | _ => some (l, e)
  | .blob octets, l, e =>
    match f.Ty, f.TypeList with
    | .text, false | .binary, false =>
      let n := octets.length
      if n > size_max then none
      else some (if n ≠ 0 then lenLoop 10 n ((l + (2 + n)) % 2 ^ 64) else l, e)
    | _, _ => some (l, e)
  | .blobs list, l, e =>
    match f.Ty, f.TypeList with
    | .text, true | .binary, true =>
      let n := list.length
      if n ≠ 0 then
        if n > list_max then none
        else
          match lenBlobs size_max list l with
          | none => none
          | some l =>
            let l := lenLoop 10 n ((l + 2) % 2 ^ 64)
            if l > size_max then none else some (l, e)
      else some (l, e)
    | _, _ => some (l, e)
  | .ref none, l, e => some (l, e)
  | .ref (some r), l, e =>
    match f.Ty, f.TypeList with
    | .ref s, false =>
      let c := lenFields size_max list_max S (S s) r 1 e
      some ((l + (1 + c.1)) % 2 ^ 64, c.2)
    | _, _ => some (l, e)
  | .refs list, l, e =>
    match f.Ty, f.TypeList with
    | .ref s, true =>
      let n := list.length
      if n ≠ 0 then
        if n > list_max then none
        else
          let c := lenRefs size_max list_max S (S s) list l e
          let l := lenLoop 10 n ((c.1 + 2) % 2 ^ 64)
          if l > size_max then none else some (l, c.2)
      else some (l, e)
    | _, _ => some (l, e)

/-- The body of `marshal_len` from the field `fields.head` on, with the final test
`if (l > colfer_size_max)`: the returned `size_t` and the `errno` left behind. -/
def lenFields (size_max list_max : Nat) (S : Schema) :
    List Field → List Val → Nat → Option Errno → Nat × Option Errno
  | f :: fs, v :: vs, l, e =>
    match lenField size_max list_max S f v l e with
    | none => (0, some .EFBIG)
    | some (l, e) => lenFields size_max list_max S fs vs l e
  | _, _, l, e => if l > size_max then (0, some .EFBIG) else (l, e)

/-- The loop `for (i = 0; i < n; ++i) l += T_marshal_len(&a[i]);` over a list of nested
structs with fields `fields`. -/
def lenRefs (size_max list_max : Nat) (S : Schema) (fields : List Field) :
    List (List Val) → Nat → Option Errno → Nat × Option Errno
  | [], l, e => (l, e)
  | a :: as, l, e =>
    let c := lenFields size_max list_max S fields a 1 e
    lenRefs size_max list_max S fields as ((l + c.1) % 2 ^ 64) c.2
end

/-- The function `T_marshal_len(o)` of struct `sid`: the returned `size_t` and the value it
leaves in `errno` (`none`: untouched). -/
def marshal_len (size_max list_max : Nat) (S : Schema) (sid : Nat) (o : Rec) :
    Nat × Option Errno :=
  lenFields size_max list_max S (S sid) o 1 none

/-! ## `marshal` -/

/-- The store `*p++ = {{.Index}};` of a tag octet. -/
def tag (f : Field) : Nat := f.Index % 256

/-- The store `*p++ = {{.Index}} | 128;` of a tag octet with the high bit set. -/
def tagHi (f : Field) : Nat := (f.Index ||| 128) % 256

/-- The varint loop `for (; x >= 128; x >>= 7) *p++ = x | 128; *p++ = x;`.  The first argument
bounds the number of continuation octets: with 8 it is the `int64` loop, which adds the test
`p < max` for `max = p + 8`; with 10 it never stops a 64-bit `x`. -/
def putVarint : Nat → Nat → List Nat
  | 0, x => [x % 256]
  | k + 1, x => if x ≥ 128 then (x ||| 128) % 256 :: putVarint k (x >>> 7) else [x % 256]

/-- The four stores `*p++ = x >> 24; *p++ = x >> 16; *p++ = x >> 8; *p++ = x;`. -/
def be32 (x : Nat) : List Nat :=
  [(x >>> 24) % 256, (x >>> 16) % 256, (x >>> 8) % 256, x % 256]

/-- The eight stores `*p++ = x >> 56; ... *p++ = x;`. -/
def be64 (x : Nat) : List Nat :=
  [(x >>> 56) % 256, (x >>> 48) % 256, (x >>> 40) % 256, (x >>> 32) % 256,
   (x >>> 24) % 256, (x >>> 16) % 256, (x >>> 8) % 256, x % 256]

/-- The element loop of a text or binary list in `marshal`: the varint of `text->len` through
a `uint_fast32_t`, then the `memcpy` of the octets. -/
def putBlobs : List (List Nat) → List Nat
  | [] => []
  | a :: as => putVarint 10 (a.length % 2 ^ 32) ++ a ++ putBlobs as

/-- The element loop of a `float` list (`width = 32`) or `double` list (`width = 64`). -/
def putFloats (wide : Bool) : List Nat → List Nat
  | [] => []
  | x :: xs => (if wide then be64 x else be32 x) ++ putFloats wide xs

/-- The seconds of a timestamp after `s += ns / nano; ns %= nano; if (ns < 0) { --s; ... }`. -/
def normSec (tv_sec tv_nsec : Int) : Int :=
  let s := tv_sec + Int.tdiv tv_nsec 1000000000
  let ns := Int.tmod tv_nsec 1000000000
  if ns < 0 then s - 1 else s

/-- The nanoseconds of a timestamp after `ns %= nano; if (ns < 0) { ...; ns += nano; }`. -/
def normNsec (tv_nsec : Int) : Int :=
  let ns := Int.tmod tv_nsec 1000000000
  if ns < 0 then ns + 1000000000 else ns

mutual
/-- The octets `marshal` writes for one field. -/
def putField (S : Schema) (f : Field) : Val → List Nat
  | .bool b =>
    match f.Ty with
    | .bool => if b then [tag f] else []
    | _ => []
  | .uint x =>
    match f.Ty with
    | .uint8 => if x ≠ 0 then [tag f, x % 256] else []
    | .uint16 =>
      if x ≠ 0 then
        if x < 256 then [tagHi f, x % 256] else [tag f, (x >>> 8) % 256, x % 256]
      else []
    | .uint32 =>
      if x ≠ 0 then
        if x < 2 ^ 21 then tag f :: putVarint 10 x else tagHi f :: be32 x
      else []
    | .uint64 =>
      if x ≠ 0 then
        if x < 2 ^ 49 then tag f :: putVarint 10 x else tagHi f :: be64 x
      else []
    | _ => []
  | .int v =>
    match f.Ty with
    | .int32 =>
      let x := toU32 v
      if x ≠ 0 then
        if x &&& 2 ^ 31 ≠ 0 then tagHi f :: putVarint 10 (((2 ^ 32 - 1 - x) + 1) % 2 ^ 32)
        else tag f :: putVarint 10 x
      else []
    | .int64 =>
      let x := toU64 v
      if x ≠ 0 then
        if x &&& 2 ^ 63 ≠ 0 then tagHi f :: putVarint 8 (((2 ^ 64 - 1 - x) + 1) % 2 ^ 64)
        else tag f :: putVarint 8 x
      else []
    | _ => []
  | .float bits =>
    match f.Ty, f.TypeList with
    | .float32, false => if !isZero32 bits then tag f :: be32 bits else []
    | .float64, false => if !isZero64 bits then tag f :: be64 bits else []
    | _, _ => []
  | .floats list =>
    match f.Ty, f.TypeList with
    | .float32, true =>
      let n := list.length
      if n ≠ 0 then tag f :: (putVarint 10 (n % 2 ^ 32) ++ putFloats false list) else []
    | .float64, true =>
      let n := list.length
      if n ≠ 0 then tag f :: (putVarint 10 (n % 2 ^ 32) ++ putFloats true list) else []
    | _, _ => []
  | .timespec tv_sec tv_nsec =>
    match f.Ty with
    | .timestamp =>
      if tv_sec ≠ 0 ∨ tv_nsec ≠ 0 then
        let x := toU64 (normSec tv_sec tv_nsec)
        let ns := toU64 (normNsec tv_nsec)
        if x < 2 ^ 32 then tag f :: (be32 x ++ be32 ns)
        else tagHi f :: (be64 x ++ be32 ns)
      else []
    | _ => []
  | .blob octets =>
    match f.Ty, f.TypeList with
    | .text, false | .binary, false =>
      let n := octets.length
      if n ≠ 0 then tag f :: (putVarint 10 (n % 2 ^ 32) ++ octets) else []
    | _, _ => []
  | .blobs list =>
    match f.Ty, f.TypeList with
    | .text, true | .binary, true =>
      let count := list.length
      if count ≠ 0 then tag f :: (putVarint 10 (count % 2 ^ 32) ++ putBlobs list) else []
    | _, _ => []
  | .ref none => []
  | .ref (some r) =>
    match f.Ty, f.TypeList with
    | .ref s, false => tag f :: (putFields S (S s) r ++ [127])
    | _, _ => []
  | .refs list =>
    match f.Ty, f.TypeList with
    | .ref s, true =>
      let n := list.length
      if n ≠ 0 then tag f :: (putVarint 10 (n % 2 ^ 32) ++ putRefs S (S s) list) else []
    | _, _ => []

/-- The octets `marshal` writes for the fields from `fields.head` on, before the final
`*p++ = 127;`. -/
def putFields (S : Schema) : List Field → List Val → List Nat
  | f :: fs, v :: vs => putField S f v ++ putFields S fs vs
  | _, _ => []

/-- The loop `for (i = 0; i < n; ++i) p += T_marshal(&a[i], p);`. -/
def putRefs (S : Schema) (fields : List Field) : List (List Val) → List Nat
  | [] => []
  | a :: as => (putFields S fields a ++ [127]) ++ putRefs S fields as
end

/-- The function `T_marshal(o, buf)` of struct `sid`: the octets written to `buf`; the
returned count is the length of the list. -/
def marshal (S : Schema) (sid : Nat) (o : Rec) : List Nat :=
  putFields S (S sid) o ++ [127]

/-! ## `unmarshal` -/

/-- How `unmarshal` stops when it does not return an octet count. -/
inductive Halt where
  /-- The statement pair `errno = e; return 0;`.  The flag tells which of them it is: `true`
  for those guarded by a comparison of `p` with `end`, `false` for the others.  It is
  bookkeeping of the embedding, not program state. -/
  | fail (e : Errno) (pastEnd : Bool)
  /-- A read through `*p` outside the octets of `data`. -/
  | fault
  /-- The embedding ran out of nesting depth; no run of the C code ends this way. -/
  | fuel
  deriving DecidableEq, Repr

/-- The variables of `unmarshal` between two fields: `header`, and `p` as its offset from
`data` together with the octets from `p` on. -/
structure Cur where
  header : Nat
  p : Nat
  d : List Nat
  deriving DecidableEq, Repr

/-- The statement `header = *p++;`. -/
def next (p : Nat) (d : List Nat) : Except Halt Cur :=
  match d with
  | [] => .error .fault
  | h :: d => .ok ⟨h, p + 1, d⟩

/-- The continuation loop of the integer fields, entered after `x &= 127`:
`for (int shift = 7; ; shift += 7) { b = *p++; if (p >= end) { errno = enderr; return 0; }
if (b <= 127) { x |= b << shift; break; } x |= (b & 127) << shift; }` on an `x` of `w` bits.
`lim = some 35` adds the loop test `shift < 35` of `int32`; `cut = some 56` adds the disjunct
`|| shift == 56` of `int64`.  The result is `x`, `p` and the octets from `p` on.  A shift by
the width of `x` or more, which the loops without a test of `shift` come to on an overlong
varint, is undefined in C; the embedding drops the bits shifted out. -/
def intLoop (w : Nat) (lim cut : Option Nat) (end_ : Nat) (enderr : Errno) :
    List Nat → Nat → Nat → Nat → Except Halt (Nat × Nat × List Nat)
  | d, x, shift, p =>
    if lim.all (fun m => shift < m) then
      match d with
      | [] => .error .fault
      | b :: d =>
        if p + 1 ≥ end_ then .error (.fail enderr true)
        else if b ≤ 127 ∨ cut = some shift then .ok ((x ||| (b <<< shift)) % 2 ^ w, p + 1, d)
        else intLoop w lim cut end_ enderr d ((x ||| ((b &&& 127) <<< shift)) % 2 ^ w)
          (shift + 7) (p + 1)
    else .ok (x, p, d)

/-- The continuation loop of the lengths and counts, entered after `n &= 127`:
`for (int shift = 7; ; shift += 7) { if (p >= end) { errno = enderr; return 0; }
size_t c = *p++; if (c <= 127) { n |= c << shift; break; } n |= (c & 127) << shift; }`.
`lim = some 64` adds the loop test `shift < sizeof(size_t) * CHAR_BIT` of the text field.
A shift by 64 or more, which the loops without that test come to on an overlong varint, is
undefined in C; the embedding drops the bits shifted out. -/
def lenVarLoop (lim : Option Nat) (end_ : Nat) (enderr : Errno) :
    List Nat → Nat → Nat → Nat → Except Halt (Nat × Nat × List Nat)
  | d, n, shift, p =>
    if lim.all (fun m => shift < m) then
      if p ≥ end_ then .error (.fail enderr true)
      else
        match d with
        | [] => .error .fault
        | c :: d =>
          if c ≤ 127 then .ok ((n ||| (c <<< shift)) % 2 ^ 64, p + 1, d)
          else lenVarLoop lim end_ enderr d ((n ||| ((c &&& 127) <<< shift)) % 2 ^ 64)
            (shift + 7) (p + 1)
    else .ok (n, p, d)

/-- The test `if (p+k >= end) { errno = enderr; return 0; }` in front of the reads `r`. -/
def within {α : Type} (end_ : Nat) (enderr : Errno) (p k : Nat) (r : Except Halt α) :
    Except Halt α :=
  if p + k ≥ end_ then .error (.fail enderr true) else r

/-- The statements `if (p >= end) { errno = enderr; return 0; } header = *p++;`. -/
def nextChk (end_ : Nat) (enderr : Errno) (p : Nat) (d : List Nat) : Except Halt Cur :=
  if p ≥ end_ then .error (.fail enderr true) else next p d

/-- The statements `o->f = x; header = *p++;` after the reads `r` of `x`: the member and the
variables after them.  When `r` returns early the member is left as it was. -/
def finish {α : Type} (v : Val) (mk : α → Val) (r : Except Halt (α × Nat × List Nat)) :
    Val × Except Halt Cur :=
  match r with
  | .error h => (v, .error h)
  | .ok (x, p, d) => (mk x, next p d)

/-- The read of a length or count:
`if (p >= end) { errno = enderr; return 0; } size_t n = *p++; if (n > 127) { n &= 127; ... }`. -/
def getLen (lim : Option Nat) (end_ : Nat) (enderr : Errno) (p : Nat) (d : List Nat) :
    Except Halt (Nat × Nat × List Nat) :=
  if p ≥ end_ then .error (.fail enderr true)
  else
    match d with
    | [] => .error .fault
    | n :: d =>
      if n > 127 then lenVarLoop lim end_ enderr d (n &&& 127) 7 (p + 1)
      else .ok (n, p + 1, d)

/-- The read of a count and its test `if (n > colfer_list_max) { errno = EFBIG; return 0; }`. -/
def getCount (list_max : Nat) (end_ : Nat) (enderr : Errno) (p : Nat) (d : List Nat) :
    Except Halt (Nat × Nat × List Nat) :=
  match getLen none end_ enderr p d with
  | .error h => .error h
  | .ok (n, p, d) => if n > list_max then .error (.fail .EFBIG false) else .ok (n, p, d)

/-- The read of a varint into an integer of `w` bits:
`if (p+1 >= end) { errno = enderr; return 0; } x = *p++; if (x > 127) { x &= 127; ... }`. -/
def getInt (w : Nat) (lim cut : Option Nat) (end_ : Nat) (enderr : Errno) (p : Nat)
    (d : List Nat) : Except Halt (Nat × Nat × List Nat) :=
  if p + 1 ≥ end_ then .error (.fail enderr true)
  else
    match d with
    | [] => .error .fault
    | x :: d =>
      if x > 127 then intLoop w lim cut end_ enderr d (x &&& 127) 7 (p + 1)
      else .ok (x, p + 1, d)

/-- One read `x = *p++;`. -/
def getU8 (p : Nat) (d : List Nat) : Except Halt (Nat × Nat × List Nat) :=
  match d with
  | x :: d => .ok (x, p + 1, d)
  | _ => .error .fault

/-- Two reads `x = *p++; x <<= 8; x | *p++`. -/
def getBE16 (p : Nat) (d : List Nat) : Except Halt (Nat × Nat × List Nat) :=
  match d with
  | b0 :: b1 :: d => .ok (((b0 <<< 8) ||| b1) % 2 ^ 16, p + 2, d)
  | _ => .error .fault

/-- Four reads `x = *p++; x <<= 24; x |= *p++ << 16; x |= *p++ << 8; x |= *p++;`. -/
def getBE32 (p : Nat) (d : List Nat) : Except Halt (Nat × Nat × List Nat) :=
  match d with
  | b0 :: b1 :: b2 :: b3 :: d =>
    .ok (((b0 <<< 24) ||| (b1 <<< 16) ||| (b2 <<< 8) ||| b3) % 2 ^ 32, p + 4, d)
  | _ => .error .fault

/-- Eight reads `x = *p++; x <<= 56; x |= *p++ << 48; ... x |= *p++;`. -/
def getBE64 (p : Nat) (d : List Nat) : Except Halt (Nat × Nat × List Nat) :=
  match d with
  | b0 :: b1 :: b2 :: b3 :: b4 :: b5 :: b6 :: b7 :: d =>
    .ok (((b0 <<< 56) ||| (b1 <<< 48) ||| (b2 <<< 40) ||| (b3 <<< 32) ||| (b4 <<< 24)
      ||| (b5 <<< 16) ||| (b6 <<< 8) ||| b7) % 2 ^ 64, p + 8, d)
  | _ => .error .fault

/-- The reads of a timestamp: the seconds, 8 octets converted through `int64_t` for the tag
with the high bit and 4 octets otherwise, then 4 octets of nanoseconds; the result is
`tv_sec` and `tv_nsec`. -/
def getTime (wide : Bool) (p : Nat) (d : List Nat) : Except Halt ((Int × Int) × Nat × List Nat) :=
  match (if wide then getBE64 p d else getBE32 p d) with
  | .error h => .error h
  | .ok (x, p, d) =>
    match getBE32 p d with
    | .error h => .error h
    | .ok (ns, p, d) => .ok ((if wide then toI64 x else (x : Int), (ns : Int)), p, d)

/-- The element loop `for (; n; --n, ++fp) { ... }` of a `float` or `double` list. -/
def getFloats (wide : Bool) : Nat → Nat → List Nat → Except Halt (List Nat × Nat × List Nat)
  | 0, p, d => .ok ([], p, d)
  | n + 1, p, d =>
    match (if wide then getBE64 p d else getBE32 p d) with
    | .error h => .error h
    | .ok (x, p, d) =>
      match getFloats wide n p d with
      | .error h => .error h
      | .ok (xs, p, d) => .ok (x :: xs, p, d)

/-- The reads of a `float` or `double` list: the count with its test against
`colfer_list_max`, the test `if (p+n*4 >= end)` (`n*8` for `double`) on a `size_t` product, and
the elements. -/
def getFloatList (wide : Bool) (list_max : Nat) (end_ : Nat) (enderr : Errno) (p : Nat)
    (d : List Nat) : Except Halt (List Nat × Nat × List Nat) :=
  match getCount list_max end_ enderr p d with
  | .error h => .error h
  | .ok (n, p, d) =>
    within end_ enderr p ((n * (if wide then 8 else 4)) % 2 ^ 64) (getFloats wide n p d)

/-- The copy `memcpy(a, p, n); p += n;` of `n` octets. -/
def getOctets (n : Nat) (p : Nat) (d : List Nat) : Except Halt (List Nat × Nat × List Nat) :=
  if n ≤ d.length then .ok (d.take n, p + n, d.drop n) else .error .fault

/-- The reads of a text or binary: the length, the test
`if (n > colfer_size_max) { errno = EFBIG; return 0; }`, the test `if (p+n >= end)` and the
octets.  `lim = some 64` is the loop test of the text field. -/
def getBlob (lim : Option Nat) (size_max : Nat) (end_ : Nat) (enderr : Errno) (p : Nat)
    (d : List Nat) : Except Halt (List Nat × Nat × List Nat) :=
  match getLen lim end_ enderr p d with
  | .error h => .error h
  | .ok (n, p, d) =>
    if n > size_max then .error (.fail .EFBIG false)
    else within end_ enderr p n (getOctets n p d)

/-- An entry of the array `malloc(n * sizeof(colfer_text))` that the element loop did not
write.  Its content is indeterminate in C; the embedding shows it as the empty text, and the
theorems state nothing about it. -/
def uninit : List Nat := []

/-- The element loop `for (; n; --n, ++text) { ... }` of a text or binary list.  Next to the
outcome it returns the array that `o->f.list` points to, which was allocated with the
declared count of entries and stored in `o` together with `o->f.len` before the loop: when
the loop returns early, the entries from the failing one on are not written. -/
def getBlobs (size_max : Nat) (end_ : Nat) (enderr : Errno) :
    Nat → Nat → List Nat → List (List Nat) × Except Halt (Nat × List Nat)
  | 0, p, d => ([], .ok (p, d))
  | n + 1, p, d =>
    match getBlob none size_max end_ enderr p d with
    | .error h => (List.replicate (n + 1) uninit, .error h)
    | .ok (a, p, d) =>
      let r := getBlobs size_max end_ enderr n p d
      (a :: r.1, r.2)

/-- A nested `T_unmarshal`: struct number, `o`, `data` and `datalen` to the struct left
behind in `o` and the returned count or the way it stopped. -/
abbrev Callee := Nat → Rec → List Nat → Nat → Rec × Except Halt Nat

/-- What the caller of a nested `T_unmarshal` that returned 0 passes on:
`if (errno == EWOULDBLOCK) errno = enderr; return read;`. -/
def promote (enderr : Errno) : Halt → Halt
  | .fail e b => .fail (if e = .EWOULDBLOCK then enderr else e) b
  | h => h

/-- The element loop `for (size_t i = 0; i < n; ++i) { read = T_unmarshal(&a[i], p, end - p);
if (!read) { ...; return read; } p += read; }` over a `calloc`ed array. -/
def getRefs (call : Callee) (fields : List Field) (s : Nat) (end_ : Nat) (enderr : Errno) :
    Nat → Nat → List Nat → Except Halt (List Rec × Nat × List Nat)
  | 0, p, d => .ok ([], p, d)
  | n + 1, p, d =>
    match call s (zeroRec fields) d (end_ - p) with
    | (_, .error h) => .error (promote enderr h)
    | (a, .ok read) =>
      match getRefs call fields s end_ enderr n (p + read) (d.drop read) with
      | .error h => .error h
      | .ok (as, p, d) => .ok (a :: as, p, d)

/-- The code of `unmarshal` for one field: the member of `o` after it, and either the
variables after it or the way `unmarshal` stopped in it.  `end_` is the offset of `end` from
`data`; `end - p` is taken at a `p` that has not passed `end`. -/
def getField (size_max list_max : Nat) (S : Schema) (call : Callee) (end_ : Nat)
    (enderr : Errno) (f : Field) (v : Val) (c : Cur) : Val × Except Halt Cur :=
  match f.Ty, f.TypeList with
  | .bool, _ =>
    if c.header = f.Index then (.bool true, nextChk end_ enderr c.p c.d)
    else (v, .ok c)
  | .uint8, _ =>
    if c.header = f.Index then finish v .uint (within end_ enderr c.p 1 (getU8 c.p c.d))
    else (v, .ok c)
  | .uint16, _ =>
    if c.header = f.Index then finish v .uint (within end_ enderr c.p 2 (getBE16 c.p c.d))
    else if c.header = f.Index ||| 128 then
      finish v .uint (within end_ enderr c.p 1 (getU8 c.p c.d))
    else (v, .ok c)
  | .uint32, _ =>
    if c.header = f.Index then finish v .uint (getInt 32 none none end_ enderr c.p c.d)
    else if c.header = f.Index ||| 128 then
      finish v .uint (within end_ enderr c.p 4 (getBE32 c.p c.d))
    else (v, .ok c)
  | .uint64, _ =>
    if c.header = f.Index then finish v .uint (getInt 64 none none end_ enderr c.p c.d)
    else if c.header = f.Index ||| 128 then
      finish v .uint (within end_ enderr c.p 8 (getBE64 c.p c.d))
    else (v, .ok c)
  | .int32, _ =>
    if c.header &&& 127 = f.Index then
      finish v
        (fun x => .int (toI32 (if c.header &&& 128 ≠ 0 then ((2 ^ 32 - 1 - x) + 1) % 2 ^ 32
          else x)))
        (getInt 32 (some 35) none end_ enderr c.p c.d)
    else (v, .ok c)
  | .int64, _ =>
    if c.header &&& 127 = f.Index then
      finish v
        (fun x => .int (toI64 (if c.header &&& 128 ≠ 0 then ((2 ^ 64 - 1 - x) + 1) % 2 ^ 64
          else x)))
        (getInt 64 none (some 56) end_ enderr c.p c.d)
    else (v, .ok c)
  | .float32, false =>
    if c.header = f.Index then finish v .float (within end_ enderr c.p 4 (getBE32 c.p c.d))
    else (v, .ok c)
  | .float64, false =>
    if c.header = f.Index then finish v .float (within end_ enderr c.p 8 (getBE64 c.p c.d))
    else (v, .ok c)
  | .float32, true =>
    if c.header = f.Index then
      finish v .floats (getFloatList false list_max end_ enderr c.p c.d)
    else (v, .ok c)
  | .float64, true =>
    if c.header = f.Index then
      finish v .floats (getFloatList true list_max end_ enderr c.p c.d)
    else (v, .ok c)
  | .timestamp, _ =>
    if c.header &&& 127 = f.Index then
      if c.header &&& 128 ≠ 0 then
        finish v (fun t => .timespec t.1 t.2) (within end_ enderr c.p 12 (getTime true c.p c.d))
      else
        finish v (fun t => .timespec t.1 t.2) (within end_ enderr c.p 8 (getTime false c.p c.d))
    else (v, .ok c)
  | .text, false =>
    if c.header = f.Index then finish v .blob (getBlob (some 64) size_max end_ enderr c.p c.d)
    else (v, .ok c)
  | .binary, false =>
    if c.header = f.Index then finish v .blob (getBlob none size_max end_ enderr c.p c.d)
    else (v, .ok c)
  | .text, true | .binary, true =>
    if c.header = f.Index then
      match getCount list_max end_ enderr c.p c.d with
      | .error h => (v, .error h)
      | .ok (n, p, d) =>
        match getBlobs size_max end_ enderr n p d with
        | (as, .error h) => (.blobs as, .error h)
        | (as, .ok (p, d)) => (.blobs as, nextChk end_ enderr p d)
    else (v, .ok c)
  | .ref s, false =>
    if c.header = f.Index then
      match call s (zeroRec (S s)) c.d (end_ - c.p) with
      | (r, .error h) => (.ref (some r), .error (promote enderr h))
      | (r, .ok read) => (.ref (some r), nextChk end_ enderr (c.p + read) (c.d.drop read))
    else (v, .ok c)
  | .ref s, true =>
    if c.header = f.Index then
      match getCount list_max end_ enderr c.p c.d with
      | .error h => (v, .error h)
      | .ok (n, p, d) =>
        match getRefs call (S s) s end_ enderr n p d with
        | .error h => (v, .error h)
        | .ok (as, p, d) => (.refs as, nextChk end_ enderr p d)
    else (v, .ok c)

/-- The code of `unmarshal` for the fields from `fields.head` on: the members of `o` and the
variables before the final test of `header`. -/
def getFields (size_max list_max : Nat) (S : Schema) (call : Callee) (end_ : Nat)
    (enderr : Errno) : List Field → List Val → Cur → List Val × Except Halt Cur
  | f :: fs, v :: vs, c =>
    match getField size_max list_max S call end_ enderr f v c with
    | (v, .error h) => (v :: vs, .error h)
    | (v, .ok c) =>
      let r := getFields size_max list_max S call end_ enderr fs vs c
      (v :: r.1, r.2)
  | _, vs, c => (vs, .ok c)

/-- The body of `unmarshal` after `end` and `enderr` are set up: the first test
`if (p >= end)`, the read of the first `header`, the fields and the final test of `header`. -/
def unmarshalRun (size_max list_max : Nat) (S : Schema) (call : Callee)
    (fields : List Field) (o : Rec) (data : List Nat) (end_ : Nat) (enderr : Errno) :
    Rec × Except Halt Nat :=
  if 0 ≥ end_ then (o, .error (.fail enderr true))
  else
    match next 0 data with
    | .error h => (o, .error h)
    | .ok c =>
      match getFields size_max list_max S call end_ enderr fields o c with
      | (o, .error h) => (o, .error h)
      | (o, .ok c) =>
        if c.header ≠ 127 then (o, .error (.fail .EILSEQ false))
        else (o, .ok c.p)

/-- The body of `T_unmarshal(o, data, datalen)` for a struct with fields `fields`, its nested
calls going to `call`: `end` is `data + datalen` with `enderr = EWOULDBLOCK` if
`datalen < colfer_size_max`, and `data + colfer_size_max` with `enderr = EFBIG` otherwise. -/
def unmarshalBody (size_max list_max : Nat) (S : Schema) (call : Callee)
    (fields : List Field) (o : Rec) (data : List Nat) (datalen : Nat) :
    Rec × Except Halt Nat :=
  unmarshalRun size_max list_max S call fields o data
    (if datalen < size_max then datalen else size_max)
    (if datalen < size_max then Errno.EWOULDBLOCK else Errno.EFBIG)

/-- The function `unmarshal` with its nested calls unfolded to depth `k`. -/
def unmarshalAux (size_max list_max : Nat) (S : Schema) : Nat → Callee
  | 0 => fun sid o data datalen =>
    unmarshalBody size_max list_max S (fun _ o _ _ => (o, .error .fuel)) (S sid) o data datalen
  | k + 1 => fun sid o data datalen =>
    unmarshalBody size_max list_max S (unmarshalAux size_max list_max S k) (S sid) o data
      datalen

/-- The function `T_unmarshal(o, data, datalen)` of struct `sid`: the struct left behind in
`o`, and the returned octet count or the way the call stopped.  A nested call gets fewer than
`datalen` octets, so `datalen` levels of calls are all a run can use. -/
def unmarshal (size_max list_max : Nat) (S : Schema) (sid : Nat) (o : Rec) (data : List Nat)
    (datalen : Nat) : Rec × Except Halt Nat :=
  unmarshalAux size_max list_max S datalen sid o data datalen

/-! ## The schema of the end-to-end scenarios -/

/-- Schema `O { 0: x uint32; 1: s text; 2: ts timestamp; 3: vs [ ]float32 }`. -/
def schemaO : Schema := fun _ =>
  [⟨0, .uint32, false⟩, ⟨1, .text, false⟩, ⟨2, .timestamp, false⟩, ⟨3, .float32, true⟩]

/-- A value of schema `O`. -/
def valueO (x : Nat) (s : List Nat) (tv_sec tv_nsec : Int) (vs : List Nat) : Rec :=
  [.uint x, .blob s, .timespec tv_sec tv_nsec, .floats vs]

/-- Schema `P { 0: child Q; 1: kids [ ]Q }`, `Q { 0: vs [ ]float32; 1: a uint8; 2: b uint8 }`. -/
def schemaP : Schema := fun s =>
  if s = 0 then [⟨0, .ref 1, false⟩, ⟨1, .ref 1, true⟩]
  else [⟨0, .float32, true⟩, ⟨1, .uint8, false⟩, ⟨2, .uint8, false⟩]

/-! ## Notions the statements use -/

/-- The zero value of a field's type: `false`, 0, 0.0 (either sign), the timestamp (0, 0), an
empty text, binary or list, an absent nested record. -/
def isZeroVal (f : Field) : Val → Bool
  | .bool b => !b
  | .uint x => x == 0
  | .int x => x == 0
  | .float bits =>
    match f.Ty with
    | .float64 => isZero64 bits
    | _ => isZero32 bits
  | .floats list => list.isEmpty
  | .timespec tv_sec tv_nsec => tv_sec == 0 && tv_nsec == 0
  | .blob octets => octets.isEmpty
  | .blobs list => list.isEmpty
  | .ref r => r.isNone
  | .refs list => list.isEmpty

/-- Every member of a struct is at the zero value of its field. -/
def allZero : List Field → List Val → Bool
  | f :: fs, v :: vs => isZeroVal f v && allZero fs vs
  | _, _ => true

/-- The top-level tag stream of a record: for each field that `marshal` writes octets for, the
first of them (the tag) and the rest (the payload). -/
def tagPairs (S : Schema) : List Field → List Val → List (Nat × List Nat)
  | f :: fs, v :: vs =>
    match putField S f v with
    | [] => tagPairs S fs vs
    | t :: payload => (t, payload) :: tagPairs S fs vs
  | _, _ => []

/-! ## Notions of the limiter proofs -/

/-- A way of stopping that agrees with the limiter `enderr`: a stop at a comparison of `p` with
`end` reports `enderr`, and `EWOULDBLOCK` is reported only if `enderr` is `EWOULDBLOCK`. -/
def HaltOK (enderr : Errno) (h : Halt) : Prop :=
  ∀ e b, h = .fail e b → (b = true → e = enderr) ∧ (enderr ≠ .EWOULDBLOCK → e ≠ .EWOULDBLOCK)

/-- A read that started at offset `p` stopped in agreement with the limiter or ended at an
offset not before `p`. -/
def StepOK {α : Type} (enderr : Errno) (p : Nat) : Except Halt (α × Nat × List Nat) → Prop
  | .error h => HaltOK enderr h
  | .ok (_, p', _) => p ≤ p'

/-- The same for the variables after a field. -/
def CurOK (enderr : Errno) (p : Nat) : Except Halt Cur → Prop
  | .error h => HaltOK enderr h
  | .ok c => p ≤ c.p

/-- The same for an element loop. -/
def PosOK (enderr : Errno) (p : Nat) : Except Halt (Nat × List Nat) → Prop
  | .error h => HaltOK enderr h
  | .ok (p', _) => p ≤ p'

/-- A nested `unmarshal` that, given fewer than `colfer_size_max` octets, stops in agreement with
the limiter `EWOULDBLOCK`. -/
def CallOK (size_max : Nat) (call : Callee) : Prop :=
  ∀ s o d dl, dl < size_max → ∀ h, (call s o d dl).2 = .error h → HaltOK .EWOULDBLOCK h

/-- The limiter of a call: `enderr` as `unmarshal` sets it up. -/
def limiter (size_max datalen : Nat) : Errno :=
  if datalen < size_max then .EWOULDBLOCK else .EFBIG

/-! ## Notions of the declared-length limits -/

/-- The nested calls of `unmarshalAux ... k`. -/
def calleeOf (size_max list_max : Nat) (S : Schema) : Nat → Callee
  | 0 => fun _ o _ _ => (o, .error .fuel)
  | k + 1 => unmarshalAux size_max list_max S k

/-- The offset of `end` from `data` that `unmarshal` sets up. -/
def endOf (size_max datalen : Nat) : Nat := if datalen < size_max then datalen else size_max

/-- A run of `unmarshal` on a struct with fields `fields` decodes the fields before number `i`
and comes to field `i`, which is `f`, with the variables `c`. -/
def Enters (size_max list_max : Nat) (S : Schema) (call : Callee) (end_ : Nat)
    (enderr : Errno) (fields : List Field) (o : Rec) (data : List Nat) (i : Nat) (f : Field)
    (c : Cur) : Prop :=
  fields.get? i = some f ∧ i < o.length ∧ 0 < end_ ∧
  ∃ c0, next 0 data = .ok c0 ∧
    (getFields size_max list_max S call end_ enderr (fields.take i) o c0).2 = .ok c

/-- Field `f`, entered with the variables `c`, has its tag in `header` and a completely read
varint over its limit: the length of a text or binary over `colfer_size_max`, the element
count of a list over `colfer_list_max`, or the length of an element of a text or binary list
(after `j` elements read) over `colfer_size_max`. -/
def OverLimit (size_max list_max : Nat) (end_ : Nat) (enderr : Errno) (f : Field) (c : Cur) :
    Prop :=
  c.header = f.Index ∧
  match f.Ty, f.TypeList with
  | .text, false => ∃ n p d, getLen (some 64) end_ enderr c.p c.d = .ok (n, p, d) ∧ n > size_max
  | .binary, false => ∃ n p d, getLen none end_ enderr c.p c.d = .ok (n, p, d) ∧ n > size_max
  | .float32, true | .float64, true | .ref _, true =>
    ∃ n p d, getLen none end_ enderr c.p c.d = .ok (n, p, d) ∧ n > list_max
  | .text, true | .binary, true =>
    ∃ n p d, getLen none end_ enderr c.p c.d = .ok (n, p, d) ∧
      (n > list_max ∨
        ∃ j as p1 d1 len p2 d2, j < n ∧
          getBlobs size_max end_ enderr j p d = (as, .ok (p1, d1)) ∧
          getLen none end_ enderr p1 d1 = .ok (len, p2, d2) ∧ len > size_max)
  | _, _ => False

/-- A run of `unmarshal` (with `k` levels of nested calls) on struct `sid` comes to a declared
length or count over its limit: in a field of the struct itself, in the struct a field refers
to, or in an element of a list of structs, at any depth. -/
inductive Breach (size_max list_max : Nat) (S : Schema) :
    Nat → Nat → Rec → List Nat → Nat → Prop
  | here (k sid : Nat) (o : Rec) (data : List Nat) (datalen i : Nat) (f : Field) (c : Cur) :
      Enters size_max list_max S (calleeOf size_max list_max S k) (endOf size_max datalen)
        (limiter size_max datalen) (S sid) o data i f c →
      OverLimit size_max list_max (endOf size_max datalen) (limiter size_max datalen) f c →
      Breach size_max list_max S k sid o data datalen
  | nested (k sid : Nat) (o : Rec) (data : List Nat) (datalen i : Nat) (f : Field) (c : Cur)
      (s : Nat) :
      Enters size_max list_max S (calleeOf size_max list_max S (k + 1))
        (endOf size_max datalen) (limiter size_max datalen) (S sid) o data i f c →
      f.Ty = .ref s → f.TypeList = false → c.header = f.Index →
      Breach size_max list_max S k s (zeroRec (S s)) c.d (endOf size_max datalen - c.p) →
      Breach size_max list_max S (k + 1) sid o data datalen
  | element (k sid : Nat) (o : Rec) (data : List Nat) (datalen i : Nat) (f : Field) (c : Cur)
      (s n p : Nat) (d : List Nat) (j : Nat) (as : List Rec) (p1 : Nat) (d1 : List Nat) :
      Enters size_max list_max S (calleeOf size_max list_max S (k + 1))
        (endOf size_max datalen) (limiter size_max datalen) (S sid) o data i f c →
      f.Ty = .ref s → f.TypeList = true → c.header = f.Index →
      getCount list_max (endOf size_max datalen) (limiter size_max datalen) c.p c.d
        = .ok (n, p, d) →
      j < n →
      getRefs (calleeOf size_max list_max S (k + 1)) (S s) s (endOf size_max datalen)
        (limiter size_max datalen) j p d = .ok (as, p1, d1) →
      Breach size_max list_max S k s (zeroRec (S s)) d1 (endOf size_max datalen - p1) →
      Breach size_max list_max S (k + 1) sid o data datalen

/-! ## Notions of the round trip -/

mutual
/-- The test `P` holds of the member `v` of field `f` and of every member below it. -/
def allVal (P : Field → Val → Bool) (S : Schema) (f : Field) : Val → Bool
  | .ref (some r) =>
    P f (.ref (some r)) &&
      (match f.Ty with
       | .ref s => allFields P S (S s) r
       | _ => true)
  | .refs list =>
    P f (.refs list) &&
      (match f.Ty with
       | .ref s => allRefs P S (S s) list
       | _ => true)
  | v => P f v

/-- The test `P` holds of every member of a struct with fields `fields`, at any depth. -/
def allFields (P : Field → Val → Bool) (S : Schema) : List Field → List Val → Bool
  | f :: fs, v :: vs => allVal P S f v && allFields P S fs vs
  | _, _ => true

/-- The test `P` holds of every member of every struct of a list, at any depth. -/
def allRefs (P : Field → Val → Bool) (S : Schema) (fields : List Field) :
    List (List Val) → Bool
  | [] => true
  | a :: as => allFields P S fields a && allRefs P S fields as
end

/-- The member `v` is a value of the C type of field `f`: the constructor matches the type and
the list flag, an integer lies in the range of its type, a `float` or `double` is a pattern of
32 or 64 bits, the seconds of a timestamp stay in `time_t` when the nanoseconds are carried
into them, a list has at most `list_max` elements, and a nested struct has one member per
field. -/
def typed (list_max : Nat) (S : Schema) (f : Field) : Val → Bool
  | .bool _ => f.Ty == .bool
  | .uint x =>
    match f.Ty with
    | .uint8 => decide (x < 2 ^ 8)
    | .uint16 => decide (x < 2 ^ 16)
    | .uint32 => decide (x < 2 ^ 32)
    | .uint64 => decide (x < 2 ^ 64)
    | _ => false
  | .int x =>
    match f.Ty with
    | .int32 => decide (-2 ^ 31 ≤ x ∧ x < 2 ^ 31)
    | .int64 => decide (-2 ^ 63 ≤ x ∧ x < 2 ^ 63)
    | _ => false
  | .float bits =>
    match f.Ty, f.TypeList with
    | .float32, false => decide (bits < 2 ^ 32)
    | .float64, false => decide (bits < 2 ^ 64)
    | _, _ => false
  | .floats list =>
    match f.Ty, f.TypeList with
    | .float32, true =>
      decide (list.length ≤ list_max) && list.all (fun x => decide (x < 2 ^ 32))
    | .float64, true =>
      decide (list.length ≤ list_max) && list.all (fun x => decide (x < 2 ^ 64))
    | _, _ => false
  | .timespec tv_sec tv_nsec =>
    match f.Ty with
    | .timestamp =>
      decide (-2 ^ 63 ≤ tv_sec ∧ tv_sec < 2 ^ 63 ∧ -2 ^ 63 ≤ tv_nsec ∧ tv_nsec < 2 ^ 63 ∧
        -2 ^ 63 ≤ normSec tv_sec tv_nsec ∧ normSec tv_sec tv_nsec < 2 ^ 63)
    | _ => false
  | .blob _ =>
    match f.Ty, f.TypeList with
    | .text, false | .binary, false => true
    | _, _ => false
  | .blobs list =>
    match f.Ty, f.TypeList with
    | .text, true | .binary, true => decide (list.length ≤ list_max)
    | _, _ => false
  | .ref none =>
    match f.Ty, f.TypeList with
    | .ref _, false => true
    | _, _ => false
  | .ref (some r) =>
    match f.Ty, f.TypeList with
    | .ref s, false => decide (r.length = (S s).length)
    | _, _ => false
  | .refs list =>
    match f.Ty, f.TypeList with
    | .ref s, true =>
      decide (list.length ≤ list_max) && list.all (fun r => decide (r.length = (S s).length))
    | _, _ => false

/-- The struct `o` is a value of struct `sid` of the schema whose lists, at any depth, have at
most `list_max` elements. -/
def wellFormed (list_max : Nat) (S : Schema) (fields : List Field) (o : Rec) : Bool :=
  decide (o.length = fields.length) && allFields (typed list_max S) S fields o

/-- The member is not a `float` or `double` of the bit pattern of negative zero. -/
def notNegZero (f : Field) : Val → Bool
  | .float bits =>
    match f.Ty with
    | .float64 => bits != 0x8000000000000000
    | _ => bits != 0x80000000
  | _ => true

/-- The member is not a timestamp other than (0, 0) that `marshal` normalizes to (0, 0). -/
def notZeroNorm (_ : Field) : Val → Bool
  | .timespec tv_sec tv_nsec =>
    (tv_sec == 0 && tv_nsec == 0) || !(normSec tv_sec tv_nsec == 0 && normNsec tv_nsec == 0)
  | _ => true

mutual
/-- The member `unmarshal` stores for the octets `marshal` writes for the member `v`: a
timestamp other than (0, 0) becomes the normalized pair `marshal` writes; with `z` set, a
`float` or `double` of either zero bit pattern becomes positive zero (it is not written); the
other members are `v` itself. -/
def backVal (z : Bool) (S : Schema) (f : Field) : Val → Val
  | .float bits =>
    match f.Ty with
    | .float64 => .float (if z && isZero64 bits then 0 else bits)
    | _ => .float (if z && isZero32 bits then 0 else bits)
  | .timespec tv_sec tv_nsec =>
    if tv_sec ≠ 0 ∨ tv_nsec ≠ 0 then .timespec (normSec tv_sec tv_nsec) (normNsec tv_nsec)
    else .timespec tv_sec tv_nsec
  | .ref (some r) =>
    match f.Ty with
    | .ref s => .ref (some (backFields z S (S s) r))
    | _ => .ref (some r)
  | .refs list =>
    match f.Ty with
    | .ref s => .refs (backRefs z S (S s) list)
    | _ => .refs list
  | v => v

/-- The struct `unmarshal` stores for the octets `marshal` writes for a struct. -/
def backFields (z : Bool) (S : Schema) : List Field → List Val → List Val
  | f :: fs, v :: vs => backVal z S f v :: backFields z S fs vs
  | _, vs => vs

/-- The structs `unmarshal` stores for the octets `marshal` writes for a list of structs. -/
def backRefs (z : Bool) (S : Schema) (fields : List Field) : List (List Val) → List (List Val)
  | [] => []
  | a :: as => backFields z S fields a :: backRefs z S fields as
end

/-- The struct `o` with every timestamp other than (0, 0) replaced by its normalized pair of
seconds and nanoseconds. -/
def normalize (S : Schema) (fields : List Field) (o : Rec) : Rec := backFields false S fields o

/-- The field indices of a struct are pairwise different and at most 126. -/
def validFields (fields : List Field) : Prop :=
  (fields.map Field.Index).Nodup ∧ ∀ f ∈ fields, f.Index ≤ 126

/-- The nested call `call` decodes the octets that `marshal` writes for a well-formed struct of
at most `N` octets within the limits, whatever octets follow them. -/
def CallRT (size_max list_max : Nat) (S : Schema) (call : Callee) (N : Nat) : Prop :=
  ∀ (s : Nat) (r : Rec) (d : List Nat) (datalen : Nat),
    wellFormed list_max S (S s) r = true →
    (marshal S s r).length ≤ N → (marshal S s r).length ≤ datalen →
    (marshal S s r).length ≤ size_max → (marshal S s r).length < 2 ^ 32 →
    call s (zeroRec (S s)) (marshal S s r ++ d) datalen
      = (backFields true S (S s) r, .ok (marshal S s r).length)

/-- Schema `F { 0: f float32; 1: d float64; 2: t timestamp; 3: next F }`, a struct that
refers to itself. -/
def schemaF : Schema := fun _ =>
  [⟨0, .float32, false⟩, ⟨1, .float64, false⟩, ⟨2, .timestamp, false⟩, ⟨3, .ref 0, false⟩]

/-! ## Notions of the field dispatch -/

/-- The test of `header` that guards the code of field `f` in `unmarshal`:
`header == idx` for most types, also `header == (idx | 128)` for `uint16`, `uint32` and
`uint64`, and `(header & 127) == idx` for `int32`, `int64` and the timestamp. -/
def accepts (f : Field) (header : Nat) : Bool :=
  match f.Ty with
  | .uint16 | .uint32 | .uint64 => header == f.Index || header == f.Index ||| 128
  | .int32 | .int64 | .timestamp => header &&& 127 == f.Index
  | _ => header == f.Index

/-! ## The encodings as the format describes them -/

/-- The `n` octets of `x` in big-endian order, most significant octet first. -/
def bigEndian : Nat → Nat → List Nat
  | 0, _ => []
  | n + 1, x => (x / 256 ^ n) % 256 :: bigEndian n x

/-- The unsigned LEB128 varint of `x` with `fuel` octets to spare after the first. -/
def leb128Aux : Nat → Nat → List Nat
  | 0, x => [x]
  | fuel + 1, x => if x < 128 then [x] else (x % 128 + 128) :: leb128Aux fuel (x / 128)

/-- The unsigned LEB128 varint of `x`: seven bits per octet, least significant group first,
the high bit set on every octet but the last. -/
def leb128 (x : Nat) : List Nat := leb128Aux x x

/-- The varint of an `int64` magnitude as the format describes it: the LEB128 varint when it
has at most 8 octets, and otherwise its first 8 octets followed by a 9th octet that holds
the top 8 bits of the 64 whole. -/
def varint9 (x : Nat) : List Nat :=
  if x < 2 ^ 56 then leb128 x else (leb128 x).take 8 ++ [x / 2 ^ 56]

/-! ## More schemas of the scenarios -/

/-- The schema of one struct with the `int32` field 0 and the `int64` field 1. -/
def schemaI : Schema := fun _ => [⟨0, .int32, false⟩, ⟨1, .int64, false⟩]

/-- The schema of one struct with the single `int32` field `idx`. -/
def schemaInt32 (idx : Nat) : Schema := fun _ => [⟨idx, .int32, false⟩]

/-- Schema `T { 0: names [ ]text; 1: next T; 2: kids [ ]T }`. -/
def schemaT : Schema := fun _ => [⟨0, .text, true⟩, ⟨1, .ref 0, false⟩, ⟨2, .ref 0, true⟩]

/-! ## Notions of the termination proofs -/

/-- A read that started at offset `p` stopped in a way that satisfies `Q` or ended at an
offset not before `p`. -/
def Keeps (Q : Halt → Prop) {α : Type} (p : Nat) : Except Halt (α × Nat × List Nat) → Prop
  | .error h => Q h
  | .ok (_, p', _) => p ≤ p'

/-- The same for the variables after a field. -/
def KeepsCur (Q : Halt → Prop) (p : Nat) : Except Halt Cur → Prop
  | .error h => Q h
  | .ok c => p ≤ c.p

/-- The same for an element loop. -/
def KeepsPos (Q : Halt → Prop) (p : Nat) : Except Halt (Nat × List Nat) → Prop
  | .error h => Q h
  | .ok (p', _) => p ≤ p'

/-- The nested `unmarshal` that answers only calls with fewer than `m` octets; a call with
`m` octets or more ends like a run of the embedding that is out of nesting depth. -/
def restrict (m : Nat) (call : Callee) : Callee :=
  fun s o d dl => if dl < m then call s o d dl else (o, .error .fuel)

/-! ## Notions of the bounded reads -/

/-- The shape of the reads that take `K` octets without a test of their own: the value is
a function of these octets, and with fewer than `K` octets left the read leaves the data. -/
def rawRead {α : Type} (K : Nat) (f : List Nat → α) (p : Nat) (d : List Nat) :
    Except Halt (α × Nat × List Nat) :=
  if K ≤ d.length then .ok (f (d.take K), p + K, d.drop K) else .error .fault

/-- A read did not leave the data and, when it returned a value, ended before `end` with
the data reaching `end`. -/
def SafeLt (end_ : Nat) {α : Type} : Except Halt (α × Nat × List Nat) → Prop
  | .error h => h ≠ .fault
  | .ok (_, p', d') => p' < end_ ∧ end_ ≤ p' + d'.length

/-- The same with an end at `end` at the latest. -/
def SafeLe (end_ : Nat) {α : Type} : Except Halt (α × Nat × List Nat) → Prop
  | .error h => h ≠ .fault
  | .ok (_, p', d') => p' ≤ end_ ∧ end_ ≤ p' + d'.length

/-- The same for the variables after a field. -/
def SafeCur (end_ : Nat) : Except Halt Cur → Prop
  | .error h => h ≠ .fault
  | .ok c => c.p ≤ end_ ∧ end_ ≤ c.p + c.d.length

/-- The same for an element loop. -/
def SafePos (end_ : Nat) : Except Halt (Nat × List Nat) → Prop
  | .error h => h ≠ .fault
  | .ok (p', d') => p' ≤ end_ ∧ end_ ≤ p' + d'.length

/-- The outcome of a read on data with the octets `t` appended, from its outcome without
them. -/
def extR {α : Type} (t : List Nat) :
    Except Halt (α × Nat × List Nat) → Except Halt (α × Nat × List Nat)
  | .error h => .error h
  | .ok (x, p, d) => .ok (x, p, d ++ t)

/-- The same for the variables after a field. -/
def extC (t : List Nat) : Except Halt Cur → Except Halt Cur
  | .error h => .error h
  | .ok c => .ok ⟨c.header, c.p, c.d ++ t⟩

/-- The same for an element loop. -/
def extP (t : List Nat) : Except Halt (Nat × List Nat) → Except Halt (Nat × List Nat)
  | .error h => .error h
  | .ok (p, d) => .ok (p, d ++ t)

/-- A nested `unmarshal` that, given data of at least `datalen` octets, does not leave the
data, returns at most `datalen`, and does not depend on the octets after the first
`datalen`. -/
def CallSafe (call : Callee) : Prop :=
  ∀ (s : Nat) (o : Rec) (d : List Nat) (dl : Nat), dl ≤ d.length →
    (call s o d dl).2 ≠ .error .fault ∧ (∀ n, (call s o d dl).2 = .ok n → n ≤ dl) ∧
    ∀ t, call s o (d ++ t) dl = call s o d dl

/-! ## The generator: reserved words of C -/

/-- The constant `cKeywords`. -/
def cKeywords : String :=
  "auto break case char const continue default do double else enum extern float for goto if int long register return short signed sizeof static struct switch typedef union unsigned void volatile while"

/-- The white space of `unicode.IsSpace`, which `strings.Fields` splits at. -/
def isSpace (c : Char) : Bool :=
  c.toNat == 0x20 || c.toNat == 0x09 || c.toNat == 0x0A || c.toNat == 0x0B ||
  c.toNat == 0x0C || c.toNat == 0x0D ||
  c.toNat == 0x85 || c.toNat == 0xA0 || c.toNat == 0x1680 ||
  (0x2000 ≤ c.toNat && c.toNat ≤ 0x200A) || c.toNat == 0x2028 || c.toNat == 0x2029 ||
  c.toNat == 0x202F || c.toNat == 0x205F || c.toNat == 0x3000

/-- The loop of `strings.Fields` over the characters of a string: `word` holds the characters
of the field being read, last one first. -/
def fieldsAux : List Char → List Char → List String
  | [], [] => []
  | [], word => [String.mk word.reverse]
  | c :: cs, word =>
    if isSpace c then
      match word with
      | [] => fieldsAux cs []
      | _ => String.mk word.reverse :: fieldsAux cs []
    else fieldsAux cs (c :: word)

/-- The function `strings.Fields`: the maximal runs of characters of `s` that are not white
space, in order. -/
def Fields (s : String) : List String := fieldsAux s.data []

/-- The function `IsCKeyword`: `for _, k := range strings.Fields(cKeywords)` with
`if k == s { return true }`, and `return false` after the loop. -/
def IsCKeyword (s : String) : Bool := (Fields cKeywords).any (fun k => k == s)

/-- The statements `f.NameNative = name.SnakeCase(f.Name); if IsCKeyword(f.NameNative)
{ f.NameNative += "_" }` of `GenerateC`, from the result `snake` of `name.SnakeCase`. -/
def nameNative (snake : String) : String :=
  if IsCKeyword snake then snake ++ "_" else snake

/-- The 32 words of `cKeywords`. -/
def keywordList : List String :=
  ["auto", "break", "case", "char", "const", "continue", "default", "do", "double", "else",
   "enum", "extern", "float", "for", "goto", "if", "int", "long", "register", "return",
   "short", "signed", "sizeof", "static", "struct", "switch", "typedef", "union", "unsigned",
   "void", "volatile", "while"]

/-! ## Notions of the postcondition of a successful `unmarshal` -/

/-- The variables `c` of `unmarshal` agree with the input `data`: `p` is past the first octet
and has not passed `end`, the octets from `p` on are those of `data`, and `header` is the
octet of `data` before `p`. -/
def CurAt (data : List Nat) (end_ : Nat) (c : Cur) : Prop :=
  1 ≤ c.p ∧ c.p ≤ end_ ∧ c.d = data.drop c.p ∧ data[c.p - 1]? = some c.header

/-! ## Notions of the agreement of `marshal_len` with `marshal` -/

/-- The member `v` is in the range where `marshal_len` and `marshal` are compared: a timestamp
has its nanoseconds in `0 .. 999999999` and its seconds in the 64 bits of `time_t`, and the
length of a text or binary and the count of a list are below `2^32`, the width taken for
`uint_fast32_t`. -/
def normalizedVal : Val → Bool
  | .timespec tv_sec tv_nsec =>
    decide (0 ≤ tv_nsec ∧ tv_nsec < 1000000000 ∧ -2 ^ 63 ≤ tv_sec ∧ tv_sec < 2 ^ 63)
  | .blob octets => decide (octets.length < 2 ^ 32)
  | .blobs list => decide (list.length < 2 ^ 32) && list.all (fun a => decide (a.length < 2 ^ 32))
  | .floats list => decide (list.length < 2 ^ 32)
  | .refs list => decide (list.length < 2 ^ 32)
  | _ => true

/-- The function `marshal_len` returns nonzero for the struct that the member `v` of field `f`
refers to, and for every element when `v` is a list of structs. -/
def sizedVal (size_max list_max : Nat) (S : Schema) (f : Field) : Val → Bool
  | .ref (some r) =>
    match f.Ty with
    | .ref s => decide ((marshal_len size_max list_max S s r).1 ≠ 0)
    | _ => true
  | .refs list =>
    match f.Ty with
    | .ref s => list.all (fun r => decide ((marshal_len size_max list_max S s r).1 ≠ 0))
    | _ => true
  | _ => true

end Colfer

/-! ## Theorems -/

namespace Colfer

/-- C2, at the failing input: for schema `O` and the timestamp `(0, -1)`, `marshal_len` returns
10 while `marshal` writes 14 octets (the extended form of second `-1`). -/
theorem marshal_len_short_of_marshal :
    marshal_len (2 ^ 24) (2 ^ 16) schemaO 0 (valueO 0 [] 0 (-1) []) = (10, none) ∧
    marshal schemaO 0 (valueO 0 [] 0 (-1) []) =
      [0x82, 0xFF, 0xFF, 0xFF, 0xFF, 0xFF, 0xFF, 0xFF, 0xFF, 0x3B, 0x9A, 0xC9, 0xFF, 0x7F] ∧
    (marshal schemaO 0 (valueO 0 [] 0 (-1) [])).length = 14 := by
  refine ⟨?_, ?_, ?_⟩ <;> rfl

/-- C3, at the failing input: with `colfer_list_max = 2`, a nested record holding a list of
three elements makes the nested `marshal_len` return 0 with `EFBIG`, yet the outer
`marshal_len` returns 2; the same happens for an element of a list of records. -/
theorem marshal_len_nested_list_unchecked :
    marshal_len 100 2 schemaP 1 [.floats [1, 2, 3], .uint 0, .uint 0] = (0, some .EFBIG) ∧
    marshal_len 100 2 schemaP 0 [.ref (some [.floats [1, 2, 3], .uint 0, .uint 0]), .refs []]
      = (2, some .EFBIG) ∧
    marshal_len 100 2 schemaP 0 [.ref none, .refs [[.floats [1, 2, 3], .uint 0, .uint 0]]]
      = (3, some .EFBIG) := by
  refine ⟨?_, ?_, ?_⟩ <;> rfl

/-- C4, at the failing inputs: with `colfer_size_max = 12` the timestamp `(0, -1)` of schema
`O` has size 10 although 14 octets are written; with `colfer_size_max = 4` a nested record of
5 octets (size 0, `EFBIG`) leaves the outer size at 2 although 7 octets are written. -/
theorem marshal_len_nonzero_beyond_size_max :
    marshal_len 12 (2 ^ 16) schemaO 0 (valueO 0 [] 0 (-1) []) = (10, none) ∧
    (marshal schemaO 0 (valueO 0 [] 0 (-1) [])).length = 14 ∧
    marshal_len 4 (2 ^ 16) schemaP 1 [.floats [], .uint 7, .uint 9] = (0, some .EFBIG) ∧
    marshal_len 4 (2 ^ 16) schemaP 0 [.ref (some [.floats [], .uint 7, .uint 9]), .refs []]
      = (2, some .EFBIG) ∧
    (marshal schemaP 0 [.ref (some [.floats [], .uint 7, .uint 9]), .refs []]).length = 7 := by
  refine ⟨?_, ?_, ?_, ?_, ?_⟩ <;> rfl

/-- C5, at the failing input: with `colfer_size_max = 12` the timestamp `(0, -1)` of schema `O`
has size 10 and an encoding of 14 octets; `unmarshal` of its first 13 octets with
`datalen = 13` stops with `EFBIG`, not with `EWOULDBLOCK`. -/
theorem unmarshal_prefix_efbig :
    (marshal_len 12 (2 ^ 16) schemaO 0 (valueO 0 [] 0 (-1) [])).1 = 10 ∧
    (marshal schemaO 0 (valueO 0 [] 0 (-1) [])).length = 14 ∧
    (unmarshal 12 (2 ^ 16) schemaO 0 (zeroRec (schemaO 0))
      ((marshal schemaO 0 (valueO 0 [] 0 (-1) [])).take 13) 13).2
      = .error (.fail .EFBIG true) := by
  refine ⟨?_, ?_, ?_⟩ <;> rfl

/-! ### Zero values are omitted -/

theorem putField_zero (S : Schema) (f : Field) (v : Val) (h : isZeroVal f v = true) :
    putField S f v = [] := by
  cases v with
  | bool b =>
    have : b = false := by simpa [isZeroVal] using h
    subst this
    simp only [putField]; split <;> simp
  | uint x =>
    have : x = 0 := by simpa [isZeroVal] using h
    subst this
    simp only [putField]; split <;> simp
  | int x =>
    have : x = 0 := by simpa [isZeroVal] using h
    subst this
    simp only [putField]; split <;> simp [toU32, toU64]
  | float bits =>
    simp only [putField]
    split <;> simp_all [isZeroVal]
  | floats l =>
    have : l = [] := by simpa [isZeroVal] using h
    subst this
    simp only [putField]; split <;> simp
  | timespec s ns =>
    have : s = 0 ∧ ns = 0 := by simpa [isZeroVal] using h
    obtain ⟨rfl, rfl⟩ := this
    simp only [putField]; split <;> simp
  | blob o =>
    have : o = [] := by simpa [isZeroVal] using h
    subst this
    simp only [putField]; split <;> simp
  | blobs l =>
    have : l = [] := by simpa [isZeroVal] using h
    subst this
    simp only [putField]; split <;> simp
  | ref r =>
    have : r = none := by simpa [isZeroVal] using h
    subst this
    simp only [putField]
  | refs l =>
    have : l = [] := by simpa [isZeroVal] using h
    subst this
    simp only [putField]; split <;> simp

theorem lenField_zero (size_max list_max : Nat) (S : Schema) (f : Field) (v : Val)
    (l : Nat) (e : Option Errno) (h : isZeroVal f v = true) :
    lenField size_max list_max S f v l e = some (l, e) := by
  cases v with
  | bool b =>
    have : b = false := by simpa [isZeroVal] using h
    subst this
    simp only [lenField]; split <;> simp
  | uint x =>
    have : x = 0 := by simpa [isZeroVal] using h
    subst this
    simp only [lenField]; split <;> simp
  | int x =>
    have : x = 0 := by simpa [isZeroVal] using h
    subst this
    simp only [lenField]; split <;> simp [toU32, toU64]
  | float bits =>
    simp only [lenField]
    split <;> simp_all [isZeroVal]
  | floats l =>
    have : l = [] := by simpa [isZeroVal] using h
    subst this
    simp only [lenField]; split <;> simp
  | timespec s ns =>
    have : s = 0 ∧ ns = 0 := by simpa [isZeroVal] using h
    obtain ⟨rfl, rfl⟩ := this
    simp only [lenField]; split <;> simp
  | blob o =>
    have : o = [] := by simpa [isZeroVal] using h
    subst this
    simp only [lenField]; split <;> simp
  | blobs l =>
    have : l = [] := by simpa [isZeroVal] using h
    subst this
    simp only [lenField]; split <;> simp
  | ref r =>
    have : r = none := by simpa [isZeroVal] using h
    subst this
    simp only [lenField]
  | refs l =>
    have : l = [] := by simpa [isZeroVal] using h
    subst this
    simp only [lenField]; split <;> simp

theorem putFields_eraseIdx (S : Schema) :
    ∀ (fields : List Field) (vals : List Val) (i : Nat) (hf : i < fields.length)
      (hv : i < vals.length),
      isZeroVal (fields.get ⟨i, hf⟩) (vals.get ⟨i, hv⟩) = true →
      putFields S (fields.eraseIdx i) (vals.eraseIdx i) = putFields S fields vals
  | [], _, _, hf, _, _ => by simp at hf
  | _ :: _, [], _, _, hv, _ => by simp at hv
  | f :: fs, v :: vs, 0, _, _, hz => by
    have hz' : isZeroVal f v = true := by simpa using hz
    simp [putFields, putField_zero S f v hz']
  | f :: fs, v :: vs, i + 1, hf, hv, hz => by
    have hf' : i < fs.length := by simpa using hf
    have hv' : i < vs.length := by simpa using hv
    have hz' : isZeroVal (fs.get ⟨i, hf'⟩) (vs.get ⟨i, hv'⟩) = true := by simpa using hz
    simp [putFields, putFields_eraseIdx S fs vs i hf' hv' hz']

theorem putFields_allZero (S : Schema) :
    ∀ (fields : List Field) (vals : List Val), allZero fields vals = true →
      putFields S fields vals = []
  | [], _, _ => by simp [putFields]
  | _ :: _, [], _ => by simp [putFields]
  | f :: fs, v :: vs, h => by
    simp only [allZero, Bool.and_eq_true] at h
    simp [putFields, putField_zero S f v h.1, putFields_allZero S fs vs h.2]

theorem lenFields_allZero (size_max list_max : Nat) (S : Schema) (l : Nat) (e : Option Errno)
    (hl : l ≤ size_max) :
    ∀ (fields : List Field) (vals : List Val), allZero fields vals = true →
      lenFields size_max list_max S fields vals l e = (l, e)
  | [], _, _ => by simp [lenFields]; omega
  | _ :: _, [], _ => by simp [lenFields]; omega
  | f :: fs, v :: vs, h => by
    simp only [allZero, Bool.and_eq_true] at h
    simp only [lenFields, lenField_zero size_max list_max S f v l e h.1]
    exact lenFields_allZero size_max list_max S l e hl fs vs h.2

theorem isZeroVal_zeroVal (f : Field) : isZeroVal f (zeroVal f) = true := by
  unfold zeroVal
  split <;> simp_all [isZeroVal, isZero32, isZero64]

theorem allZero_zeroRec : ∀ fields : List Field, allZero fields (zeroRec fields) = true
  | [] => rfl
  | f :: fs => by
    simp only [zeroRec, List.map_cons, allZero, Bool.and_eq_true]
    exact ⟨isZeroVal_zeroVal f, allZero_zeroRec fs⟩

/-- C7: if member `i` of `o` is at the zero value of field `i`, `marshal` writes for `o` what the
marshal code generated without that field writes for `o` without that member; a struct whose
members are all at their zero value (the zero-initialised struct is one) is written as the
single octet `0x7F`, and `marshal_len` returns 1 for it once `colfer_size_max` admits one
octet. -/
theorem zero_value_omitted (size_max list_max : Nat) (S : Schema) (sid : Nat) (o : Rec)
    (i : Nat) (hf : i < (S sid).length) (hv : i < o.length)
    (hz : isZeroVal ((S sid).get ⟨i, hf⟩) (o.get ⟨i, hv⟩) = true) :
    marshal S sid o = putFields S ((S sid).eraseIdx i) (o.eraseIdx i) ++ [127] ∧
    (∀ z : Rec, allZero (S sid) z = true →
      marshal S sid z = [127] ∧
      (1 ≤ size_max → marshal_len size_max list_max S sid z = (1, none))) ∧
    allZero (S sid) (zeroRec (S sid)) = true := by
  refine ⟨?_, ?_, allZero_zeroRec _⟩
  · simp only [marshal, putFields_eraseIdx S (S sid) o i hf hv hz]
  · intro z hzero
    exact ⟨by simp [marshal, putFields_allZero S _ _ hzero],
      fun hmax => lenFields_allZero size_max list_max S 1 none hmax _ _ hzero⟩

/-- C7 at schema `O`: the value `{x: 300}` and its timestamp member. -/
theorem zero_value_omitted_witness :
    marshal schemaO 0 (valueO 300 [] 0 0 []) =
      putFields schemaO ((schemaO 0).eraseIdx 2) ((valueO 300 [] 0 0 []).eraseIdx 2) ++ [127] ∧
    (∀ z : Rec, allZero (schemaO 0) z = true →
      marshal schemaO 0 z = [127] ∧
      (1 ≤ 2 ^ 24 → marshal_len (2 ^ 24) (2 ^ 16) schemaO 0 z = (1, none))) ∧
    allZero (schemaO 0) (zeroRec (schemaO 0)) = true :=
  zero_value_omitted (2 ^ 24) (2 ^ 16) schemaO 0 (valueO 300 [] 0 0 []) 2 (by decide)
    (by decide) (by decide)

/-! ### The shape of a record -/

set_option maxRecDepth 100000 in
theorem or_128_of_lt : ∀ i < 128, i ||| 128 = i + 128 := by decide

theorem tag_eq (f : Field) (h : f.Index ≤ 126) : tag f = f.Index := by
  unfold tag; omega

theorem tagHi_eq (f : Field) (h : f.Index ≤ 126) : tagHi f = f.Index + 128 := by
  unfold tagHi; rw [or_128_of_lt _ (by omega)]; omega

theorem putField_head (S : Schema) (f : Field) (v : Val) (t : Nat) (payload : List Nat)
    (h : putField S f v = t :: payload) : t = tag f ∨ t = tagHi f := by
  cases v with
  | ref r =>
    cases r with
    | none => simp [putField] at h
    | some r =>
      simp only [putField] at h
      split at h <;> simp_all
  | timespec s ns =>
    simp only [putField] at h
    split at h
    · split at h
      · split at h <;> simp_all
      · simp at h
    · simp at h
  | _ =>
    simp only [putField] at h
    split at h <;> (try split at h) <;> (try split at h) <;> simp_all

theorem head_bounds (f : Field) (h : f.Index ≤ 126) (t : Nat)
    (ht : t = tag f ∨ t = tagHi f) : t % 128 = f.Index ∧ t ≠ 127 := by
  rcases ht with rfl | rfl
  · rw [tag_eq f h]; omega
  · rw [tagHi_eq f h]; omega

theorem tagPairs_flatten (S : Schema) :
    ∀ (fields : List Field) (vals : List Val),
      ((tagPairs S fields vals).map (fun tp => tp.1 :: tp.2)).flatten = putFields S fields vals
  | [], _ => by simp [tagPairs, putFields]
  | _ :: _, [] => by simp [tagPairs, putFields]
  | f :: fs, v :: vs => by
    simp only [tagPairs, putFields]
    cases h : putField S f v with
    | nil => simpa using tagPairs_flatten S fs vs
    | cons t payload => simp [tagPairs_flatten S fs vs]

theorem tagPairs_sublist (S : Schema) :
    ∀ (fields : List Field) (vals : List Val), (∀ f ∈ fields, f.Index ≤ 126) →
      ((tagPairs S fields vals).map (fun tp => tp.1 % 128)).Sublist (fields.map Field.Index)
  | [], _, _ => by simp [tagPairs]
  | _ :: _, [], _ => by simp [tagPairs]
  | f :: fs, v :: vs, h => by
    have ih := tagPairs_sublist S fs vs (fun g hg => h g (List.mem_cons_of_mem _ hg))
    simp only [tagPairs]
    cases hp : putField S f v with
    | nil => simpa using ih.cons _
    | cons t payload =>
      have := head_bounds f (h f (List.mem_cons_self _ _)) t (putField_head S f v t payload hp)
      simp only [List.map_cons, this.1]
      exact ih.cons₂ _

theorem tagPairs_ne (S : Schema) :
    ∀ (fields : List Field) (vals : List Val), (∀ f ∈ fields, f.Index ≤ 126) →
      ∀ tp ∈ tagPairs S fields vals, tp.1 ≠ 127
  | [], _, _ => by simp [tagPairs]
  | _ :: _, [], _ => by simp [tagPairs]
  | f :: fs, v :: vs, h => by
    have ih := tagPairs_ne S fs vs (fun g hg => h g (List.mem_cons_of_mem _ hg))
    simp only [tagPairs]
    cases hp : putField S f v with
    | nil => simpa using ih
    | cons t payload =>
      have := head_bounds f (h f (List.mem_cons_self _ _)) t (putField_head S f v t payload hp)
      intro tp htp
      rcases List.mem_cons.1 htp with rfl | htp
      · exact this.2
      · exact ih tp htp

/-- C8: for a struct whose field indices are at most 126 and ascending, the octets of `marshal`
are the (tag, payload) pairs of its tag stream followed by one octet `0x7F`; the low 7 bits of
the tags are field indices of the struct in their order, strictly ascending, and no tag is
`0x7F`. -/
theorem record_shape (S : Schema) (sid : Nat) (o : Rec)
    (hasc : ((S sid).map Field.Index).Pairwise (· < ·)) (hidx : ∀ f ∈ S sid, f.Index ≤ 126) :
    marshal S sid o = ((tagPairs S (S sid) o).map (fun tp => tp.1 :: tp.2)).flatten ++ [127] ∧
    ((tagPairs S (S sid) o).map (fun tp => tp.1 % 128)).Sublist ((S sid).map Field.Index) ∧
    ((tagPairs S (S sid) o).map (fun tp => tp.1 % 128)).Pairwise (· < ·) ∧
    ∀ tp ∈ tagPairs S (S sid) o, tp.1 ≠ 127 := by
  have hs := tagPairs_sublist S (S sid) o hidx
  exact ⟨by rw [tagPairs_flatten]; rfl, hs, hasc.sublist hs, tagPairs_ne S (S sid) o hidx⟩

/-- C8 at schema `O` and the value `{x: 300, s: "hi", ts: (1, 500)}`. -/
theorem record_shape_witness :
    marshal schemaO 0 (valueO 300 [104, 105] 1 500 []) =
      ((tagPairs schemaO (schemaO 0) (valueO 300 [104, 105] 1 500 [])).map
        (fun tp => tp.1 :: tp.2)).flatten ++ [127] ∧
    ((tagPairs schemaO (schemaO 0) (valueO 300 [104, 105] 1 500 [])).map
      (fun tp => tp.1 % 128)).Sublist ((schemaO 0).map Field.Index) ∧
    ((tagPairs schemaO (schemaO 0) (valueO 300 [104, 105] 1 500 [])).map
      (fun tp => tp.1 % 128)).Pairwise (· < ·) ∧
    ∀ tp ∈ tagPairs schemaO (schemaO 0) (valueO 300 [104, 105] 1 500 []), tp.1 ≠ 127 :=
  record_shape schemaO 0 (valueO 300 [104, 105] 1 500 []) (by decide) (by decide)

/-! ### The error kind follows the limiter -/

@[simp] theorem haltOK_pastEnd (enderr : Errno) : HaltOK enderr (.fail enderr true) := by
  intro e b h; cases h; simp

@[simp] theorem haltOK_efbig (enderr : Errno) : HaltOK enderr (.fail .EFBIG false) := by
  intro e b h; cases h; simp

@[simp] theorem haltOK_eilseq (enderr : Errno) : HaltOK enderr (.fail .EILSEQ false) := by
  intro e b h; cases h; simp

@[simp] theorem haltOK_fault (enderr : Errno) : HaltOK enderr .fault := by
  intro e b h; cases h

@[simp] theorem haltOK_fuel (enderr : Errno) : HaltOK enderr .fuel := by
  intro e b h; cases h

theorem haltOK_promote (enderr : Errno) (h : Halt) (hh : HaltOK .EWOULDBLOCK h) :
    HaltOK enderr (promote enderr h) := by
  cases h with
  | fault => simp [promote]
  | fuel => simp [promote]
  | fail e b =>
    intro e' b' heq
    cases heq
    have := hh e b rfl
    constructor
    · intro hb; simp [this.1 hb]
    · intro hne; split
      · exact hne
      · assumption

theorem stepOK_mono {α : Type} {enderr : Errno} {p q : Nat}
    {r : Except Halt (α × Nat × List Nat)}
    (h : StepOK enderr q r) (hpq : p ≤ q) : StepOK enderr p r := by
  cases r with
  | error h' => exact h
  | ok a => obtain ⟨x, p', d'⟩ := a; simp only [StepOK] at *; omega

theorem curOK_mono {enderr : Errno} {p q : Nat} {r : Except Halt Cur}
    (h : CurOK enderr q r) (hpq : p ≤ q) : CurOK enderr p r := by
  cases r with
  | error h' => exact h
  | ok a => simp only [CurOK] at *; omega

theorem next_ok (enderr : Errno) (p : Nat) (d : List Nat) : CurOK enderr p (next p d) := by
  cases d <;> simp [next, CurOK]

theorem nextChk_ok (end_ : Nat) (enderr : Errno) (p : Nat) (d : List Nat) :
    CurOK enderr p (nextChk end_ enderr p d) := by
  unfold nextChk; split
  · simp [CurOK]
  · exact next_ok _ _ _

theorem within_ok {α : Type} (end_ : Nat) (enderr : Errno) (p q k : Nat)
    (r : Except Halt (α × Nat × List Nat)) (h : StepOK enderr p r) :
    StepOK enderr p (within end_ enderr q k r) := by
  unfold within; split
  · simp [StepOK]
  · exact h

theorem finish_ok {α : Type} (enderr : Errno) (p : Nat) (v : Val) (mk : α → Val)
    (r : Except Halt (α × Nat × List Nat)) (h : StepOK enderr p r) :
    CurOK enderr p (finish v mk r).2 := by
  cases r with
  | error h' => exact h
  | ok a =>
    obtain ⟨x, p', d'⟩ := a
    simp only [StepOK] at h
    exact curOK_mono (next_ok enderr p' d') h

theorem intLoop_ok (w : Nat) (lim cut : Option Nat) (end_ : Nat) (enderr : Errno) :
    ∀ (d : List Nat) (x shift p : Nat),
      StepOK enderr p (intLoop w lim cut end_ enderr d x shift p) := by
  intro d
  induction d with
  | nil => intro x shift p; unfold intLoop; split <;> simp [StepOK]
  | cons b d ih =>
    intro x shift p
    unfold intLoop
    split
    · simp only []
      split
      · simp [StepOK]
      · split
        · simp [StepOK]
        · exact stepOK_mono (ih _ _ _) (by omega)
    · simp [StepOK]

theorem lenVarLoop_ok (lim : Option Nat) (end_ : Nat) (enderr : Errno) :
    ∀ (d : List Nat) (n shift p : Nat),
      StepOK enderr p (lenVarLoop lim end_ enderr d n shift p) := by
  intro d
  induction d with
  | nil => intro x shift p; unfold lenVarLoop; split <;> (try split) <;> simp [StepOK]
  | cons b d ih =>
    intro x shift p
    unfold lenVarLoop
    split
    · split
      · simp [StepOK]
      · simp only []
        split
        · simp [StepOK]
        · exact stepOK_mono (ih _ _ _) (by omega)
    · simp [StepOK]

theorem getLen_ok (lim : Option Nat) (end_ : Nat) (enderr : Errno) (p : Nat) (d : List Nat) :
    StepOK enderr p (getLen lim end_ enderr p d) := by
  unfold getLen
  split
  · simp [StepOK]
  · cases d with
    | nil => simp [StepOK]
    | cons n d =>
      simp only []
      split
      · exact stepOK_mono (lenVarLoop_ok _ _ _ _ _ _ _) (by omega)
      · simp [StepOK]

theorem getCount_ok (list_max end_ : Nat) (enderr : Errno) (p : Nat) (d : List Nat) :
    StepOK enderr p (getCount list_max end_ enderr p d) := by
  unfold getCount
  have h1 := getLen_ok none end_ enderr p d
  rcases hr : getLen none end_ enderr p d with h | ⟨n, p1, d1⟩
  · rw [hr] at h1; exact h1
  · rw [hr] at h1
    simp only []
    split
    · simp [StepOK]
    · exact h1

theorem getInt_ok (w : Nat) (lim cut : Option Nat) (end_ : Nat) (enderr : Errno) (p : Nat)
    (d : List Nat) : StepOK enderr p (getInt w lim cut end_ enderr p d) := by
  unfold getInt
  split
  · simp [StepOK]
  · cases d with
    | nil => simp [StepOK]
    | cons n d =>
      simp only []
      split
      · exact stepOK_mono (intLoop_ok _ _ _ _ _ _ _ _ _) (by omega)
      · simp [StepOK]

theorem getU8_ok (enderr : Errno) (p : Nat) (d : List Nat) :
    StepOK enderr p (getU8 p d) := by
  unfold getU8; split <;> simp [StepOK]

theorem getBE16_ok (enderr : Errno) (p : Nat) (d : List Nat) :
    StepOK enderr p (getBE16 p d) := by
  unfold getBE16; split <;> simp [StepOK]

theorem getBE32_ok (enderr : Errno) (p : Nat) (d : List Nat) :
    StepOK enderr p (getBE32 p d) := by
  unfold getBE32; split <;> simp [StepOK]

theorem getBE64_ok (enderr : Errno) (p : Nat) (d : List Nat) :
    StepOK enderr p (getBE64 p d) := by
  unfold getBE64; split <;> simp [StepOK]

theorem getBE_ok (enderr : Errno) (wide : Bool) (p : Nat) (d : List Nat) :
    StepOK enderr p (if wide = true then getBE64 p d else getBE32 p d) := by
  split
  · exact getBE64_ok _ _ _
  · exact getBE32_ok _ _ _

theorem getOctets_ok (enderr : Errno) (n p : Nat) (d : List Nat) :
    StepOK enderr p (getOctets n p d) := by
  unfold getOctets; split <;> simp [StepOK]

theorem getTime_ok (enderr : Errno) (wide : Bool) (p : Nat) (d : List Nat) :
    StepOK enderr p (getTime wide p d) := by
  unfold getTime
  have h1 := getBE_ok enderr wide p d
  rcases hr : (if wide = true then getBE64 p d else getBE32 p d) with h | ⟨x, p1, d1⟩
  · rw [hr] at h1; exact h1
  · rw [hr] at h1
    simp only []
    have h2 := getBE32_ok enderr p1 d1
    rcases hr2 : getBE32 p1 d1 with h | ⟨ns, p2, d2⟩
    · rw [hr2] at h2; exact h2
    · rw [hr2] at h2
      simp only [StepOK] at *
      omega

theorem getFloats_ok (enderr : Errno) (wide : Bool) :
    ∀ (n p : Nat) (d : List Nat), StepOK enderr p (getFloats wide n p d)
  | 0, p, d => by simp [getFloats, StepOK]
  | n + 1, p, d => by
    unfold getFloats
    have h1 := getBE_ok enderr wide p d
    rcases hr : (if wide = true then getBE64 p d else getBE32 p d) with h | ⟨x, p1, d1⟩
    · rw [hr] at h1; exact h1
    · rw [hr] at h1
      simp only []
      have h2 := getFloats_ok enderr wide n p1 d1
      rcases hr2 : getFloats wide n p1 d1 with h | ⟨xs, p2, d2⟩
      · rw [hr2] at h2; exact h2
      · rw [hr2] at h2
        simp only [StepOK] at *
        omega

theorem getFloatList_ok (wide : Bool) (list_max end_ : Nat) (enderr : Errno) (p : Nat)
    (d : List Nat) : StepOK enderr p (getFloatList wide list_max end_ enderr p d) := by
  unfold getFloatList
  have h1 := getCount_ok list_max end_ enderr p d
  rcases hr : getCount list_max end_ enderr p d with h | ⟨n, p1, d1⟩
  · rw [hr] at h1; exact h1
  · rw [hr] at h1
    simp only [StepOK] at h1
    exact within_ok _ _ _ _ _ _ (stepOK_mono (getFloats_ok enderr wide n p1 d1) h1)

theorem getBlob_ok (lim : Option Nat) (size_max end_ : Nat) (enderr : Errno) (p : Nat)
    (d : List Nat) : StepOK enderr p (getBlob lim size_max end_ enderr p d) := by
  unfold getBlob
  have h1 := getLen_ok lim end_ enderr p d
  rcases hr : getLen lim end_ enderr p d with h | ⟨n, p1, d1⟩
  · rw [hr] at h1; exact h1
  · rw [hr] at h1
    simp only [StepOK] at h1
    simp only []
    split
    · simp [StepOK]
    · exact within_ok _ _ _ _ _ _ (stepOK_mono (getOctets_ok enderr n p1 d1) h1)

theorem getBlobs_ok (size_max end_ : Nat) (enderr : Errno) :
    ∀ (n p : Nat) (d : List Nat), PosOK enderr p (getBlobs size_max end_ enderr n p d).2
  | 0, p, d => by simp [getBlobs, PosOK]
  | n + 1, p, d => by
    unfold getBlobs
    have h1 := getBlob_ok none size_max end_ enderr p d
    rcases hr : getBlob none size_max end_ enderr p d with h | ⟨len, p1, d1⟩
    · rw [hr] at h1; simpa [StepOK, PosOK] using h1
    · rw [hr] at h1
      simp only [StepOK] at h1
      simp only []
      have h3 := getBlobs_ok size_max end_ enderr n p1 d1
      revert h3
      rcases (getBlobs size_max end_ enderr n p1 d1).2 with h | ⟨p3, d3⟩
      · simp [PosOK]
      · simp only [PosOK]; omega

theorem getRefs_ok (size_max : Nat) (call : Callee) (hc : CallOK size_max call)
    (fields : List Field) (s end_ : Nat) (enderr : Errno) (hend : end_ ≤ size_max)
    (hpos : 0 < end_) :
    ∀ (n p : Nat) (d : List Nat), 1 ≤ p →
      StepOK enderr p (getRefs call fields s end_ enderr n p d)
  | 0, p, d, _ => by simp [getRefs, StepOK]
  | n + 1, p, d, hp => by
    unfold getRefs
    have h1 := hc s (zeroRec fields) d (end_ - p) (by omega)
    rcases hr : call s (zeroRec fields) d (end_ - p) with ⟨a, h | read⟩
    · rw [hr] at h1
      exact haltOK_promote enderr h (h1 _ rfl)
    · simp only []
      have h2 := getRefs_ok size_max call hc fields s end_ enderr hend hpos n (p + read)
        (d.drop read) (by omega)
      rcases hr2 : getRefs call fields s end_ enderr n (p + read) (d.drop read) with
        h | ⟨as, p2, d2⟩
      · rw [hr2] at h2; simpa [StepOK] using h2
      · rw [hr2] at h2
        simp only [StepOK] at h2 ⊢
        omega

theorem getField_ok (size_max list_max : Nat) (S : Schema) (call : Callee)
    (hc : CallOK size_max call) (end_ : Nat) (enderr : Errno) (hend : end_ ≤ size_max)
    (hpos : 0 < end_) (f : Field) (v : Val) (c : Cur) (hp : 1 ≤ c.p) :
    CurOK enderr c.p (getField size_max list_max S call end_ enderr f v c).2 := by
  have hskip : CurOK enderr c.p (Except.ok c) := by simp [CurOK]
  unfold getField
  split
  -- bool
  · split
    · exact nextChk_ok _ _ _ _
    · exact hskip
  -- uint8
  · split
    · exact finish_ok _ _ _ _ _ (within_ok _ _ _ _ _ _ (getU8_ok _ _ _))
    · exact hskip
  -- uint16
  · split
    · exact finish_ok _ _ _ _ _ (within_ok _ _ _ _ _ _ (getBE16_ok _ _ _))
    · split
      · exact finish_ok _ _ _ _ _ (within_ok _ _ _ _ _ _ (getU8_ok _ _ _))
      · exact hskip
  -- uint32
  · split
    · exact finish_ok _ _ _ _ _ (getInt_ok _ _ _ _ _ _ _)
    · split
      · exact finish_ok _ _ _ _ _ (within_ok _ _ _ _ _ _ (getBE32_ok _ _ _))
      · exact hskip
  -- uint64
  · split
    · exact finish_ok _ _ _ _ _ (getInt_ok _ _ _ _ _ _ _)
    · split
      · exact finish_ok _ _ _ _ _ (within_ok _ _ _ _ _ _ (getBE64_ok _ _ _))
      · exact hskip
  -- int32
  · split
    · exact finish_ok _ _ _ _ _ (getInt_ok _ _ _ _ _ _ _)
    · exact hskip
  -- int64
  · split
    · exact finish_ok _ _ _ _ _ (getInt_ok _ _ _ _ _ _ _)
    · exact hskip
  -- float32
  · split
    · exact finish_ok _ _ _ _ _ (within_ok _ _ _ _ _ _ (getBE32_ok _ _ _))
    · exact hskip
  -- float64
  · split
    · exact finish_ok _ _ _ _ _ (within_ok _ _ _ _ _ _ (getBE64_ok _ _ _))
    · exact hskip
  -- float32 list
  · split
    · exact finish_ok _ _ _ _ _ (getFloatList_ok _ _ _ _ _ _)
    · exact hskip
  -- float64 list
  · split
    · exact finish_ok _ _ _ _ _ (getFloatList_ok _ _ _ _ _ _)
    · exact hskip
  -- timestamp
  · split
    · split
      · exact finish_ok _ _ _ _ _ (within_ok _ _ _ _ _ _ (getTime_ok _ _ _ _))
      · exact finish_ok _ _ _ _ _ (within_ok _ _ _ _ _ _ (getTime_ok _ _ _ _))
    · exact hskip
  -- text
  · split
    · exact finish_ok _ _ _ _ _ (getBlob_ok _ _ _ _ _ _)
    · exact hskip
  -- binary
  · split
    · exact finish_ok _ _ _ _ _ (getBlob_ok _ _ _ _ _ _)
    · exact hskip
  -- text list, binary list
  iterate 2
    · split
      · have h1 := getCount_ok list_max end_ enderr c.p c.d
        rcases hr : getCount list_max end_ enderr c.p c.d with h | ⟨n, p1, d1⟩
        · rw [hr] at h1; exact h1
        · rw [hr] at h1
          simp only [StepOK] at h1
          simp only []
          have h2 := getBlobs_ok size_max end_ enderr n p1 d1
          rcases hr2 : getBlobs size_max end_ enderr n p1 d1 with ⟨as, h | ⟨p2, d2⟩⟩
          · rw [hr2] at h2; exact h2
          · rw [hr2] at h2
            simp only [PosOK] at h2
            exact curOK_mono (nextChk_ok _ _ _ _) (by omega)
      · exact hskip
  -- ref
  · split
    · rename_i s _ _ _
      have h1 := hc s (zeroRec (S s)) c.d (end_ - c.p) (by omega)
      rcases hr : call s (zeroRec (S s)) c.d (end_ - c.p) with ⟨a, h | read⟩
      · rw [hr] at h1
        exact haltOK_promote enderr h (h1 _ rfl)
      · exact curOK_mono (nextChk_ok _ _ _ _) (by omega)
    · exact hskip
  -- ref list
  · split
    · have h1 := getCount_ok list_max end_ enderr c.p c.d
      rcases hr : getCount list_max end_ enderr c.p c.d with h | ⟨n, p1, d1⟩
      · rw [hr] at h1; exact h1
      · rw [hr] at h1
        simp only [StepOK] at h1
        simp only []
        rename_i s _ _ _
        have h2 := getRefs_ok size_max call hc (S s) s end_ enderr hend hpos n p1 d1
          (by omega)
        rcases hr2 : getRefs call (S s) s end_ enderr n p1 d1 with h | ⟨as, p2, d2⟩
        · rw [hr2] at h2; exact h2
        · rw [hr2] at h2
          simp only [StepOK] at h2
          exact curOK_mono (nextChk_ok _ _ _ _) (by omega)
    · exact hskip

theorem getFields_ok (size_max list_max : Nat) (S : Schema) (call : Callee)
    (hc : CallOK size_max call) (end_ : Nat) (enderr : Errno) (hend : end_ ≤ size_max)
    (hpos : 0 < end_) :
    ∀ (fields : List Field) (vals : List Val) (c : Cur), 1 ≤ c.p →
      CurOK enderr c.p (getFields size_max list_max S call end_ enderr fields vals c).2
  | [], _, c, _ => by simp [getFields, CurOK]
  | _ :: _, [], c, _ => by simp [getFields, CurOK]
  | f :: fs, v :: vs, c, hp => by
    unfold getFields
    have h1 := getField_ok size_max list_max S call hc end_ enderr hend hpos f v c hp
    rcases hr : getField size_max list_max S call end_ enderr f v c with ⟨v', h | c'⟩
    · rw [hr] at h1; exact h1
    · rw [hr] at h1
      simp only [CurOK] at h1
      exact curOK_mono (getFields_ok size_max list_max S call hc end_ enderr hend hpos fs vs c'
        (by omega)) h1

theorem unmarshalRun_ok (size_max list_max : Nat) (S : Schema) (call : Callee)
    (hc : CallOK size_max call) (fields : List Field) (o : Rec) (data : List Nat)
    (end_ : Nat) (enderr : Errno) (hend : end_ ≤ size_max) (h : Halt)
    (hr : (unmarshalRun size_max list_max S call fields o data end_ enderr).2 = .error h) :
    HaltOK enderr h := by
  unfold unmarshalRun at hr
  split at hr
  · cases hr; exact haltOK_pastEnd _
  · rename_i hpos
    cases data with
    | nil => simp only [next] at hr; cases hr; simp
    | cons b d =>
      simp only [next] at hr
      have h1 := getFields_ok size_max list_max S call hc end_ enderr hend (by omega) fields o
        ⟨b, 0 + 1, d⟩ (by simp)
      rcases hg : getFields size_max list_max S call end_ enderr fields o
        ⟨b, 0 + 1, d⟩ with ⟨o', h' | c'⟩
      · rw [hg] at h1 hr
        simp only [] at hr
        cases hr
        exact h1
      · rw [hg] at hr
        simp only [] at hr
        split at hr
        · cases hr; simp
        · cases hr

theorem unmarshalBody_ok (size_max list_max : Nat) (S : Schema) (call : Callee)
    (hc : CallOK size_max call) (fields : List Field) (o : Rec) (data : List Nat)
    (datalen : Nat) (h : Halt)
    (hr : (unmarshalBody size_max list_max S call fields o data datalen).2 = .error h) :
    HaltOK (limiter size_max datalen) h :=
  unmarshalRun_ok size_max list_max S call hc fields o data _ _ (by split <;> omega) h hr

theorem unmarshalAux_ok (size_max list_max : Nat) (S : Schema) :
    ∀ (k sid : Nat) (o : Rec) (data : List Nat) (datalen : Nat) (h : Halt),
      (unmarshalAux size_max list_max S k sid o data datalen).2 = .error h →
      HaltOK (limiter size_max datalen) h
  | 0, sid, o, data, datalen, h, hr => by
    refine unmarshalBody_ok size_max list_max S _ ?_ (S sid) o data datalen h hr
    intro s o d dl _ h hh
    cases hh
    simp
  | k + 1, sid, o, data, datalen, h, hr => by
    refine unmarshalBody_ok size_max list_max S _ ?_ (S sid) o data datalen h hr
    intro s o d dl hdl h hh
    have := unmarshalAux_ok size_max list_max S k s o d dl h hh
    simpa [limiter, hdl] using this

/-- C10: when `unmarshal` stops at a comparison of `p` with `end`, in the struct itself or in a
nested struct or list element at any depth, `errno` is `EWOULDBLOCK` if
`datalen < colfer_size_max` and `EFBIG` otherwise; and a call with
`datalen >= colfer_size_max` never reports `EWOULDBLOCK`. -/
theorem error_kind_follows_limiter (size_max list_max : Nat) (S : Schema) (sid : Nat)
    (o : Rec) (data : List Nat) (datalen : Nat) :
    (∀ e, (unmarshal size_max list_max S sid o data datalen).2 = .error (.fail e true) →
      e = if datalen < size_max then .EWOULDBLOCK else .EFBIG) ∧
    (size_max ≤ datalen → ∀ b,
      (unmarshal size_max list_max S sid o data datalen).2 ≠ .error (.fail .EWOULDBLOCK b)) := by
  constructor
  · intro e he
    exact (unmarshalAux_ok size_max list_max S datalen sid o data datalen _ he e true rfl).1 rfl
  · intro hle b he
    have := (unmarshalAux_ok size_max list_max S datalen sid o data datalen _ he
      .EWOULDBLOCK b rfl).2
    simp [limiter, Nat.not_lt.2 hle] at this

/-- C10 at schema `P`: a nested record cut short by `colfer_size_max = 4` and by `datalen = 6`. -/
theorem error_kind_follows_limiter_witness :
    (unmarshal 4 (2 ^ 16) schemaP 0 (zeroRec (schemaP 0)) [0, 1, 7, 2, 9, 127, 127] 7).2 =
      .error (.fail .EFBIG true) ∧
    (unmarshal 8 (2 ^ 16) schemaP 0 (zeroRec (schemaP 0)) [0, 1, 7, 2, 9, 127, 127] 6).2 =
      .error (.fail .EWOULDBLOCK true) ∧
    Errno.EWOULDBLOCK = (if 6 < 8 then Errno.EWOULDBLOCK else Errno.EFBIG) :=
  ⟨rfl, rfl, (error_kind_follows_limiter 8 (2 ^ 16) schemaP 0 (zeroRec (schemaP 0))
    [0, 1, 7, 2, 9, 127, 127] 6).1 _ rfl⟩

/-! ### Declared lengths and counts over the limits -/

theorem unmarshalAux_eq (size_max list_max : Nat) (S : Schema) (k sid : Nat) (o : Rec)
    (data : List Nat) (datalen : Nat) :
    unmarshalAux size_max list_max S k sid o data datalen =
      unmarshalRun size_max list_max S (calleeOf size_max list_max S k) (S sid) o data
        (endOf size_max datalen) (limiter size_max datalen) := by
  cases k <;> rfl

theorem getFields_error_of_enter (size_max list_max : Nat) (S : Schema) (call : Callee)
    (end_ : Nat) (enderr : Errno) (f : Field) (c : Cur) (h : Halt)
    (hf : ∀ v, (getField size_max list_max S call end_ enderr f v c).2 = .error h) :
    ∀ (i : Nat) (fields : List Field) (o : Rec) (c0 : Cur),
      fields.get? i = some f → i < o.length →
      (getFields size_max list_max S call end_ enderr (fields.take i) o c0).2 = .ok c →
      (getFields size_max list_max S call end_ enderr fields o c0).2 = .error h
  | 0, [], _, _, hi, _, _ => by simp at hi
  | 0, g :: fs, [], _, _, ho, _ => by simp at ho
  | 0, g :: fs, v :: vs, c0, hi, _, hr => by
    simp only [List.get?_cons_zero, Option.some.injEq] at hi
    subst hi
    simp only [List.take_zero, getFields, Except.ok.injEq] at hr
    subst hr
    have := hf v
    unfold getFields
    rcases hg : getField size_max list_max S call end_ enderr g v c0 with ⟨v', h' | c'⟩
    · rw [hg] at this; simpa using this
    · rw [hg] at this; simp at this
  | i + 1, [], _, _, hi, _, _ => by simp at hi
  | i + 1, g :: fs, [], _, _, ho, _ => by simp at ho
  | i + 1, g :: fs, v :: vs, c0, hi, ho, hr => by
    simp only [List.take_succ_cons] at hr
    unfold getFields at hr ⊢
    rcases hg : getField size_max list_max S call end_ enderr g v c0 with ⟨v', h' | c'⟩
    · rw [hg] at hr; simp at hr
    · rw [hg] at hr
      simp only [] at hr ⊢
      exact getFields_error_of_enter size_max list_max S call end_ enderr f c h hf i fs vs c'
        (by simpa using hi) (by simpa using ho) hr

theorem unmarshalRun_error_of_enter (size_max list_max : Nat) (S : Schema) (call : Callee)
    (end_ : Nat) (enderr : Errno) (fields : List Field) (o : Rec) (data : List Nat) (i : Nat)
    (f : Field) (c : Cur) (h : Halt)
    (he : Enters size_max list_max S call end_ enderr fields o data i f c)
    (hf : ∀ v, (getField size_max list_max S call end_ enderr f v c).2 = .error h) :
    (unmarshalRun size_max list_max S call fields o data end_ enderr).2 = .error h := by
  obtain ⟨hi, ho, hpos, c0, hn, hr⟩ := he
  have := getFields_error_of_enter size_max list_max S call end_ enderr f c h hf i fields o c0
    hi ho hr
  unfold unmarshalRun
  rw [if_neg (by omega), hn]
  simp only []
  rcases hg : getFields size_max list_max S call end_ enderr fields o c0 with ⟨o', h' | c'⟩
  · rw [hg] at this; simpa using this
  · rw [hg] at this; simp at this

theorem getBlob_overLimit (lim : Option Nat) (size_max end_ : Nat) (enderr : Errno)
    (p : Nat) (d : List Nat) (n p1 : Nat) (d1 : List Nat)
    (h : getLen lim end_ enderr p d = .ok (n, p1, d1)) (hn : n > size_max) :
    getBlob lim size_max end_ enderr p d = .error (.fail .EFBIG false) := by
  unfold getBlob
  rw [h]
  simp [hn]

theorem getCount_overLimit (list_max end_ : Nat) (enderr : Errno)
    (p : Nat) (d : List Nat) (n p1 : Nat) (d1 : List Nat)
    (h : getLen none end_ enderr p d = .ok (n, p1, d1)) (hn : n > list_max) :
    getCount list_max end_ enderr p d = .error (.fail .EFBIG false) := by
  unfold getCount
  rw [h]
  simp [hn]

theorem getCount_of_le (list_max end_ : Nat) (enderr : Errno)
    (p : Nat) (d : List Nat) (n p1 : Nat) (d1 : List Nat)
    (h : getLen none end_ enderr p d = .ok (n, p1, d1)) (hn : ¬ n > list_max) :
    getCount list_max end_ enderr p d = .ok (n, p1, d1) := by
  unfold getCount
  rw [h]
  simp [hn]

theorem getBlobs_error_after (size_max end_ : Nat) (enderr : Errno) (h : Halt) :
    ∀ (j n p : Nat) (d : List Nat) (as : List (List Nat)) (p1 : Nat) (d1 : List Nat),
      j < n → getBlobs size_max end_ enderr j p d = (as, .ok (p1, d1)) →
      getBlob none size_max end_ enderr p1 d1 = .error h →
      (getBlobs size_max end_ enderr n p d).2 = .error h
  | _, 0, _, _, _, _, _, hj, _, _ => by omega
  | 0, n + 1, p, d, as, p1, d1, _, h0, hb => by
    simp only [getBlobs, Prod.mk.injEq, Except.ok.injEq] at h0
    obtain ⟨-, rfl, rfl⟩ := h0
    simp [getBlobs, hb]
  | j + 1, n + 1, p, d, as, p1, d1, hj, h0, hb => by
    unfold getBlobs at h0 ⊢
    rcases hg : getBlob none size_max end_ enderr p d with h' | ⟨a, p2, d2⟩
    · rw [hg] at h0; simp at h0
    · rw [hg] at h0
      simp only [] at h0 ⊢
      have h0' : getBlobs size_max end_ enderr j p2 d2 =
          ((getBlobs size_max end_ enderr j p2 d2).1, .ok (p1, d1)) := by
        rw [Prod.ext_iff]; exact ⟨rfl, by simpa using (Prod.ext_iff.1 h0).2⟩
      exact getBlobs_error_after size_max end_ enderr h j n p2 d2 _ p1 d1 (by omega) h0' hb

theorem getRefs_error_after (call : Callee) (fields : List Field) (s end_ : Nat)
    (enderr : Errno) (h : Halt) :
    ∀ (j n p : Nat) (d : List Nat) (as : List Rec) (p1 : Nat) (d1 : List Nat),
      j < n → getRefs call fields s end_ enderr j p d = .ok (as, p1, d1) →
      (call s (zeroRec fields) d1 (end_ - p1)).2 = .error h →
      getRefs call fields s end_ enderr n p d = .error (promote enderr h)
  | _, 0, _, _, _, _, _, hj, _, _ => by omega
  | 0, n + 1, p, d, as, p1, d1, _, h0, hb => by
    simp only [getRefs, Except.ok.injEq, Prod.mk.injEq] at h0
    obtain ⟨-, rfl, rfl⟩ := h0
    unfold getRefs
    rcases hc : call s (zeroRec fields) d (end_ - p) with ⟨a, h' | read⟩
    · rw [hc] at hb; simp only [Except.error.injEq] at hb; subst hb; rfl
    · rw [hc] at hb; simp at hb
  | j + 1, n + 1, p, d, as, p1, d1, hj, h0, hb => by
    unfold getRefs at h0 ⊢
    rcases hc : call s (zeroRec fields) d (end_ - p) with ⟨a, h' | read⟩
    · rw [hc] at h0; simp at h0
    · rw [hc] at h0
      simp only [] at h0 ⊢
      rcases hg : getRefs call fields s end_ enderr j (p + read) (d.drop read) with
        h' | ⟨as', p2, d2⟩
      · rw [hg] at h0; simp at h0
      · rw [hg] at h0
        simp only [Except.ok.injEq, Prod.mk.injEq] at h0
        obtain ⟨-, rfl, rfl⟩ := h0
        rw [getRefs_error_after call fields s end_ enderr h j n (p + read) (d.drop read) as'
          p2 d2 (by omega) hg hb]

theorem getField_overLimit (size_max list_max : Nat) (S : Schema) (call : Callee)
    (end_ : Nat) (enderr : Errno) (f : Field) (c : Cur)
    (h : OverLimit size_max list_max end_ enderr f c) (v : Val) :
    (getField size_max list_max S call end_ enderr f v c).2 = .error (.fail .EFBIG false) := by
  obtain ⟨hh, h⟩ := h
  unfold getField
  split at h
  · obtain ⟨n, p, d, hl, hn⟩ := h
    simp [*, finish, getBlob_overLimit _ _ _ _ _ _ _ _ _ hl hn]
  · obtain ⟨n, p, d, hl, hn⟩ := h
    simp [*, finish, getBlob_overLimit _ _ _ _ _ _ _ _ _ hl hn]
  · obtain ⟨n, p, d, hl, hn⟩ := h
    simp [*, finish, getFloatList, getCount_overLimit _ _ _ _ _ _ _ _ hl hn]
  · obtain ⟨n, p, d, hl, hn⟩ := h
    simp [*, finish, getFloatList, getCount_overLimit _ _ _ _ _ _ _ _ hl hn]
  · obtain ⟨n, p, d, hl, hn⟩ := h
    simp [*, finish, getFloatList, getCount_overLimit _ _ _ _ _ _ _ _ hl hn]
  · obtain ⟨n, p, d, hl, hn | ⟨j, as, p1, d1, len, p2, d2, hj, hb, hl2, hlen⟩⟩ := h
    · simp [*, getCount_overLimit _ _ _ _ _ _ _ _ hl hn]
    · by_cases hn : n > list_max
      · simp [*, getCount_overLimit _ _ _ _ _ _ _ _ hl hn]
      · have := getBlobs_error_after size_max end_ enderr _ j n p d as p1 d1 hj hb
          (getBlob_overLimit _ _ _ _ _ _ _ _ _ hl2 hlen)
        rename_i hty hlist
        simp only [hty, hlist, if_pos hh, getCount_of_le _ _ _ _ _ _ _ _ hl hn]
        rcases hg : getBlobs size_max end_ enderr n p d with ⟨as', h' | r⟩
        · rw [hg] at this; simpa using this
        · rw [hg] at this; simp at this
  · obtain ⟨n, p, d, hl, hn | ⟨j, as, p1, d1, len, p2, d2, hj, hb, hl2, hlen⟩⟩ := h
    · simp [*, getCount_overLimit _ _ _ _ _ _ _ _ hl hn]
    · by_cases hn : n > list_max
      · simp [*, getCount_overLimit _ _ _ _ _ _ _ _ hl hn]
      · have := getBlobs_error_after size_max end_ enderr _ j n p d as p1 d1 hj hb
          (getBlob_overLimit _ _ _ _ _ _ _ _ _ hl2 hlen)
        rename_i hty hlist
        simp only [hty, hlist, if_pos hh, getCount_of_le _ _ _ _ _ _ _ _ hl hn]
        rcases hg : getBlobs size_max end_ enderr n p d with ⟨as', h' | r⟩
        · rw [hg] at this; simpa using this
        · rw [hg] at this; simp at this
  · exact h.elim

theorem getField_nested_error (size_max list_max : Nat) (S : Schema) (call : Callee)
    (end_ : Nat) (enderr : Errno) (f : Field) (c : Cur) (s : Nat) (h : Halt)
    (hty : f.Ty = .ref s) (hl : f.TypeList = false) (hh : c.header = f.Index)
    (hc : (call s (zeroRec (S s)) c.d (end_ - c.p)).2 = .error h) (v : Val) :
    (getField size_max list_max S call end_ enderr f v c).2 = .error (promote enderr h) := by
  unfold getField
  rw [hty, hl]
  simp only [if_pos hh]
  rcases hg : call s (zeroRec (S s)) c.d (end_ - c.p) with ⟨a, h' | read⟩
  · rw [hg] at hc; simp only [Except.error.injEq] at hc; subst hc; rfl
  · rw [hg] at hc; simp at hc

theorem getField_element_error (size_max list_max : Nat) (S : Schema) (call : Callee)
    (end_ : Nat) (enderr : Errno) (f : Field) (c : Cur) (s : Nat) (h : Halt)
    (hty : f.Ty = .ref s) (hl : f.TypeList = true) (hh : c.header = f.Index)
    (n p : Nat) (d : List Nat) (j : Nat) (as : List Rec) (p1 : Nat) (d1 : List Nat)
    (hcount : getCount list_max end_ enderr c.p c.d = .ok (n, p, d)) (hj : j < n)
    (hrefs : getRefs call (S s) s end_ enderr j p d = .ok (as, p1, d1))
    (hc : (call s (zeroRec (S s)) d1 (end_ - p1)).2 = .error h) (v : Val) :
    (getField size_max list_max S call end_ enderr f v c).2 = .error (promote enderr h) := by
  unfold getField
  rw [hty, hl]
  simp only [if_pos hh, hcount,
    getRefs_error_after call (S s) s end_ enderr h j n p d as p1 d1 hj hrefs hc]

theorem breach_efbig (size_max list_max : Nat) (S : Schema) (k sid : Nat) (o : Rec)
    (data : List Nat) (datalen : Nat) (h : Breach size_max list_max S k sid o data datalen) :
    (unmarshalAux size_max list_max S k sid o data datalen).2 = .error (.fail .EFBIG false) := by
  induction h with
  | here k sid o data datalen i f c he hov =>
    rw [unmarshalAux_eq]
    exact unmarshalRun_error_of_enter _ _ _ _ _ _ _ _ _ _ _ _ _ he
      (getField_overLimit _ _ _ _ _ _ _ _ hov)
  | nested k sid o data datalen i f c s he hty hl hh _ ih =>
    rw [unmarshalAux_eq]
    exact unmarshalRun_error_of_enter _ _ _ _ _ _ _ _ _ _ _ _ _ he
      (getField_nested_error _ _ _ _ _ _ _ _ s _ hty hl hh ih)
  | element k sid o data datalen i f c s n p d j as p1 d1 he hty hl hh hcount hj hrefs _ ih =>
    rw [unmarshalAux_eq]
    exact unmarshalRun_error_of_enter _ _ _ _ _ _ _ _ _ _ _ _ _ he
      (getField_element_error _ _ _ _ _ _ _ _ s _ hty hl hh n p d j as p1 d1 hcount hj hrefs ih)

/-- C9: when a run of `unmarshal` comes to a text or binary field, or an element of a text or
binary list, whose completely read length is over `colfer_size_max`, or to a list field whose
completely read count is over `colfer_list_max` - in the struct itself or at any depth below
it - the call returns 0 with `EFBIG`, whatever octets follow the varint. -/
theorem declared_length_limits (size_max list_max : Nat) (S : Schema) (sid : Nat) (o : Rec)
    (data : List Nat) (datalen : Nat)
    (h : Breach size_max list_max S datalen sid o data datalen) :
    (unmarshal size_max list_max S sid o data datalen).2 = .error (.fail .EFBIG false) :=
  breach_efbig size_max list_max S datalen sid o data datalen h

/-- C9 at schema `O`: a text field declaring `2 ^ 24 + 1` octets under `colfer_size_max = 2 ^ 24`. -/
theorem declared_length_limits_witness :
    Breach (2 ^ 24) (2 ^ 16) schemaO 6 0 (zeroRec (schemaO 0)) [1, 0x81, 0x80, 0x80, 0x08, 0x68] 6 ∧
    (unmarshal (2 ^ 24) (2 ^ 16) schemaO 0 (zeroRec (schemaO 0))
      [1, 0x81, 0x80, 0x80, 0x08, 0x68] 6).2 = .error (.fail .EFBIG false) :=
  have hb : Breach (2 ^ 24) (2 ^ 16) schemaO 6 0 (zeroRec (schemaO 0))
      [1, 0x81, 0x80, 0x80, 0x08, 0x68] 6 :=
    Breach.here 6 0 _ _ 6 1 ⟨1, .text, false⟩ ⟨1, 1, [0x81, 0x80, 0x80, 0x08, 0x68]⟩
      ⟨rfl, by decide, by decide, _, rfl, by rfl⟩
      ⟨rfl, 2 ^ 24 + 1, 5, [0x68], by rfl, by decide⟩
  ⟨hb, declared_length_limits (2 ^ 24) (2 ^ 16) schemaO 0 _ _ 6 hb⟩

/-! ### Round trip: bit operations as arithmetic -/

theorem or_eq_add (hi lo s : Nat) (hlo : lo < 2 ^ s) (hhi : 2 ^ s ∣ hi) : hi ||| lo = hi + lo := by
  obtain ⟨m, rfl⟩ := hhi
  exact (Nat.mul_add_lt_is_or hlo m).symm

theorem or_shiftLeft_of_lt (acc b s : Nat) (h : acc < 2 ^ s) :
    acc ||| (b <<< s) = acc + b * 2 ^ s := by
  rw [Nat.shiftLeft_eq, Nat.or_comm, Nat.mul_comm b, ← Nat.mul_add_lt_is_or h, Nat.add_comm]

theorem and_127 (b : Nat) : b &&& 127 = b % 128 := Nat.and_pow_two_sub_one_eq_mod b 7

set_option maxRecDepth 100000 in
theorem and_128_of_lt : ∀ t < 256, t &&& 128 = if t < 128 then 0 else 128 := by decide

set_option maxRecDepth 100000 in
theorem or_128_of_lt_256 : ∀ z < 256, z ||| 128 = z % 128 + 128 := by decide

theorem or_128_mod (y : Nat) : (y ||| 128) % 256 = y % 128 + 128 := by
  have h1 : (y ||| 128) % 256 = (y % 256) ||| 128 := by
    apply Nat.eq_of_testBit_eq
    intro i
    rw [show (256 : Nat) = 2 ^ 8 from rfl, Nat.testBit_mod_two_pow, Nat.testBit_or, Nat.testBit_or,
      Nat.testBit_mod_two_pow, show (128 : Nat) = 2 ^ 7 from rfl, Nat.testBit_two_pow]
    by_cases hi : 7 = i
    · subst hi; simp
    · simp [hi]
  rw [h1, or_128_of_lt_256 _ (Nat.mod_lt _ (by norm_num))]
  omega

theorem be16_value (x : Nat) (h : x < 2 ^ 16) :
    ((((x >>> 8) % 256) <<< 8) ||| x % 256) % 2 ^ 16 = x := by
  simp only [Nat.shiftLeft_eq, Nat.shiftRight_eq_div_pow]
  rw [or_eq_add _ _ 8 (by omega) (by omega)]
  omega

theorem or4_eq (b0 b1 b2 b3 : Nat) (h1 : b1 < 256) (h2 : b2 < 256) (h3 : b3 < 256) :
    (b0 <<< 24) ||| (b1 <<< 16) ||| (b2 <<< 8) ||| b3
      = b0 * 2 ^ 24 + b1 * 2 ^ 16 + b2 * 2 ^ 8 + b3 := by
  simp only [Nat.shiftLeft_eq]
  rw [or_eq_add (b0 * 2 ^ 24) (b1 * 2 ^ 16) 24 (by omega) (by omega),
    or_eq_add (b0 * 2 ^ 24 + b1 * 2 ^ 16) (b2 * 2 ^ 8) 16 (by omega) (by omega),
    or_eq_add (b0 * 2 ^ 24 + b1 * 2 ^ 16 + b2 * 2 ^ 8) b3 8 (by omega) (by omega)]

theorem or8_eq (b0 b1 b2 b3 b4 b5 b6 b7 : Nat) (h1 : b1 < 256) (h2 : b2 < 256)
    (h3 : b3 < 256) (h4 : b4 < 256) (h5 : b5 < 256) (h6 : b6 < 256) (h7 : b7 < 256) :
    (b0 <<< 56) ||| (b1 <<< 48) ||| (b2 <<< 40) ||| (b3 <<< 32) ||| (b4 <<< 24) |||
      (b5 <<< 16) ||| (b6 <<< 8) ||| b7
      = b0 * 2 ^ 56 + b1 * 2 ^ 48 + b2 * 2 ^ 40 + b3 * 2 ^ 32 + b4 * 2 ^ 24 + b5 * 2 ^ 16
        + b6 * 2 ^ 8 + b7 := by
  simp only [Nat.shiftLeft_eq]
  rw [or_eq_add (b0 * 2 ^ 56) (b1 * 2 ^ 48) 56 (by omega) (by omega),
    or_eq_add (b0 * 2 ^ 56 + b1 * 2 ^ 48) (b2 * 2 ^ 40) 48 (by omega) (by omega),
    or_eq_add (b0 * 2 ^ 56 + b1 * 2 ^ 48 + b2 * 2 ^ 40) (b3 * 2 ^ 32) 40 (by omega) (by omega),
    or_eq_add (b0 * 2 ^ 56 + b1 * 2 ^ 48 + b2 * 2 ^ 40 + b3 * 2 ^ 32) (b4 * 2 ^ 24) 32
      (by omega) (by omega),
    or_eq_add (b0 * 2 ^ 56 + b1 * 2 ^ 48 + b2 * 2 ^ 40 + b3 * 2 ^ 32 + b4 * 2 ^ 24)
      (b5 * 2 ^ 16) 24 (by omega) (by omega),
    or_eq_add (b0 * 2 ^ 56 + b1 * 2 ^ 48 + b2 * 2 ^ 40 + b3 * 2 ^ 32 + b4 * 2 ^ 24
      + b5 * 2 ^ 16) (b6 * 2 ^ 8) 16 (by omega) (by omega),
    or_eq_add (b0 * 2 ^ 56 + b1 * 2 ^ 48 + b2 * 2 ^ 40 + b3 * 2 ^ 32 + b4 * 2 ^ 24
      + b5 * 2 ^ 16 + b6 * 2 ^ 8) b7 8 (by omega) (by omega)]

theorem be32_value (x : Nat) (h : x < 2 ^ 32) :
    ((((x >>> 24) % 256) <<< 24) ||| (((x >>> 16) % 256) <<< 16) ||| (((x >>> 8) % 256) <<< 8)
      ||| x % 256) % 2 ^ 32 = x := by
  rw [or4_eq _ _ _ _ (Nat.mod_lt _ (by norm_num)) (Nat.mod_lt _ (by norm_num))
    (Nat.mod_lt _ (by norm_num))]
  simp only [Nat.shiftRight_eq_div_pow]
  omega

theorem be64_value (x : Nat) (h : x < 2 ^ 64) :
    ((((x >>> 56) % 256) <<< 56) ||| (((x >>> 48) % 256) <<< 48) |||
      (((x >>> 40) % 256) <<< 40) ||| (((x >>> 32) % 256) <<< 32) |||
      (((x >>> 24) % 256) <<< 24) ||| (((x >>> 16) % 256) <<< 16) |||
      (((x >>> 8) % 256) <<< 8) ||| x % 256) % 2 ^ 64 = x := by
  rw [or8_eq _ _ _ _ _ _ _ _ (Nat.mod_lt _ (by norm_num)) (Nat.mod_lt _ (by norm_num))
    (Nat.mod_lt _ (by norm_num)) (Nat.mod_lt _ (by norm_num)) (Nat.mod_lt _ (by norm_num))
    (Nat.mod_lt _ (by norm_num)) (Nat.mod_lt _ (by norm_num))]
  simp only [Nat.shiftRight_eq_div_pow]
  omega

/-! ### Round trip: varints -/

theorem putVarint_length_pos : ∀ (k x : Nat), 0 < (putVarint k x).length
  | 0, x => by simp [putVarint]
  | k + 1, x => by unfold putVarint; split <;> simp

theorem lim_all_of_lt (lim : Option Nat) (y shift : Nat) (hy : 1 ≤ y)
    (h : ∀ m, lim = some m → y * 2 ^ shift < 2 ^ m) :
    lim.all (fun m => decide (shift < m)) = true := by
  cases lim with
  | none => rfl
  | some m =>
    have h1 := h m rfl
    have h2 : 2 ^ shift ≤ y * 2 ^ shift := Nat.le_mul_of_pos_left _ hy
    have h3 : 2 ^ shift < 2 ^ m := Nat.lt_of_le_of_lt h2 h1
    have := (Nat.pow_lt_pow_iff_right (by norm_num : 1 < 2)).1 h3
    simpa using this

theorem split_128 (acc y s : Nat) :
    acc + y % 128 * 2 ^ s + y / 128 * 2 ^ (s + 7) = acc + y * 2 ^ s := by
  have h := Nat.div_add_mod y 128
  rw [Nat.pow_add]
  generalize 2 ^ s = t
  generalize y / 128 = q at *
  generalize y % 128 = r at *
  subst h
  ring

theorem intLoop_putVarint (w : Nat) (lim : Option Nat) (end_ : Nat) (enderr : Errno) :
    ∀ (k y acc shift p : Nat) (rest : List Nat),
      1 ≤ y → y < 128 ^ (k + 1) → acc < 2 ^ shift → acc + y * 2 ^ shift < 2 ^ w →
      (∀ m, lim = some m → y * 2 ^ shift < 2 ^ m) →
      p + (putVarint k y).length < end_ →
      intLoop w lim none end_ enderr (putVarint k y ++ rest) acc shift p
        = .ok (acc + y * 2 ^ shift, p + (putVarint k y).length, rest) := by
  intro k
  induction k with
  | zero =>
    intro y acc shift p rest hy hk hacc hw hlim hp
    have hy' : y < 128 := by simpa using hk
    simp only [putVarint, List.length_singleton] at hp ⊢
    unfold intLoop
    rw [if_pos (lim_all_of_lt lim y shift hy hlim)]
    simp only [List.singleton_append]
    rw [if_neg (by omega), if_pos (Or.inl (by omega))]
    rw [Nat.mod_eq_of_lt (by omega : y < 256), or_shiftLeft_of_lt _ _ _ hacc,
      Nat.mod_eq_of_lt hw]
  | succ k ih =>
    intro y acc shift p rest hy hk hacc hw hlim hp
    unfold putVarint at hp ⊢
    by_cases h128 : y ≥ 128
    · rw [if_pos h128] at hp ⊢
      simp only [List.length_cons] at hp
      unfold intLoop
      rw [if_pos (lim_all_of_lt lim y shift hy hlim)]
      simp only [List.cons_append]
      have hb : (y ||| 128) % 256 = y % 128 + 128 := or_128_mod y
      rw [if_neg (by omega), if_neg (by rw [hb]; simp)]
      have hacc' : (acc ||| (((y ||| 128) % 256 &&& 127) <<< shift)) % 2 ^ w
          = acc + y % 128 * 2 ^ shift := by
        rw [hb, and_127, or_shiftLeft_of_lt _ _ _ hacc, Nat.add_mod_right,
          Nat.mod_mod_of_dvd _ (by norm_num : 128 ∣ 128)]
        apply Nat.mod_eq_of_lt
        have : y % 128 * 2 ^ shift ≤ y * 2 ^ shift :=
          Nat.mul_le_mul_right _ (Nat.mod_le _ _)
        omega
      rw [hacc']
      have hshift : y >>> 7 = y / 128 := by rw [Nat.shiftRight_eq_div_pow]
      rw [hshift] at hp ⊢
      have hsplit := split_128 acc y shift
      have hle : y / 128 * 2 ^ (shift + 7) ≤ y * 2 ^ shift := by
        have := split_128 0 y shift
        omega
      rw [ih (y / 128) (acc + y % 128 * 2 ^ shift) (shift + 7) (p + 1) rest (by omega)
        (by rw [Nat.pow_succ] at hk; omega)
        (by
          rw [Nat.pow_add]
          have : y % 128 * 2 ^ shift ≤ 127 * 2 ^ shift :=
            Nat.mul_le_mul_right _ (by omega)
          omega)
        (by omega)
        (fun m hm => Nat.lt_of_le_of_lt hle (hlim m hm))
        (by omega)]
      rw [hsplit]
      simp only [List.length_cons]
      rw [Nat.add_assoc, Nat.add_comm 1]
    · rw [if_neg h128] at hp ⊢
      simp only [List.length_singleton] at hp
      unfold intLoop
      rw [if_pos (lim_all_of_lt lim y shift hy hlim)]
      simp only [List.singleton_append]
      rw [if_neg (by omega), if_pos (Or.inl (by omega))]
      rw [Nat.mod_eq_of_lt (by omega : y < 256), or_shiftLeft_of_lt _ _ _ hacc,
        Nat.mod_eq_of_lt hw]
      rfl

theorem getInt_putVarint (w : Nat) (lim : Option Nat) (end_ : Nat) (enderr : Errno)
    (K x p : Nat) (rest : List Nat) (hK : x < 128 ^ (K + 1)) (hw : x < 2 ^ w)
    (hlim : ∀ m, lim = some m → x < 2 ^ m) (hp : p + (putVarint K x).length < end_) :
    getInt w lim none end_ enderr p (putVarint K x ++ rest)
      = .ok (x, p + (putVarint K x).length, rest) := by
  have hpos := putVarint_length_pos K x
  unfold getInt
  rw [if_neg (by omega)]
  cases K with
  | zero =>
    have hx : x < 128 := by simpa using hK
    simp only [putVarint, List.singleton_append, List.length_singleton]
    rw [Nat.mod_eq_of_lt (by omega : x < 256), if_neg (by omega)]
  | succ k =>
    unfold putVarint at hp ⊢
    by_cases h128 : x ≥ 128
    · rw [if_pos h128] at hp ⊢
      simp only [List.length_cons] at hp
      simp only [List.cons_append, List.length_cons]
      have hb : (x ||| 128) % 256 = x % 128 + 128 := or_128_mod x
      rw [Nat.shiftRight_eq_div_pow] at hp
      rw [if_pos (by omega), hb, and_127, Nat.add_mod_right,
        Nat.mod_mod_of_dvd _ (by norm_num : 128 ∣ 128), Nat.shiftRight_eq_div_pow]
      have hx : x % 128 + x / 2 ^ 7 * 2 ^ 7 = x := by
        have := Nat.div_add_mod x 128
        norm_num
        omega
      rw [intLoop_putVarint w lim end_ enderr k (x / 2 ^ 7) (x % 128) 7 (p + 1) rest
        (by norm_num; omega) (by rw [Nat.pow_succ] at hK; norm_num; omega)
        (by omega) (by omega)
        (fun m hm => by have := hlim m hm; omega)
        (by norm_num at hp ⊢; omega)]
      rw [hx, Nat.add_assoc, Nat.add_comm 1]
    · rw [if_neg h128] at hp ⊢
      simp only [List.singleton_append, List.length_singleton]
      rw [Nat.mod_eq_of_lt (by omega : x < 256), if_neg (by omega)]

/-- The `int64` loop: at most eight continuation octets, the ninth octet taken whole. -/
theorem intLoop_putVarint_cut (end_ : Nat) (enderr : Errno) :
    ∀ (k y acc shift p : Nat) (rest : List Nat),
      shift + 7 * k = 56 → acc < 2 ^ shift → acc + y * 2 ^ shift < 2 ^ 64 →
      p + (putVarint k y).length < end_ →
      intLoop 64 none (some 56) end_ enderr (putVarint k y ++ rest) acc shift p
        = .ok (acc + y * 2 ^ shift, p + (putVarint k y).length, rest) := by
  intro k
  induction k with
  | zero =>
    intro y acc shift p rest hs hacc hw hp
    have hs' : shift = 56 := by omega
    subst hs'
    have hy : y < 256 := by
      by_contra hcon
      have : 256 * 2 ^ 56 ≤ y * 2 ^ 56 := Nat.mul_le_mul_right _ (by omega)
      omega
    simp only [putVarint, List.length_singleton] at hp ⊢
    unfold intLoop
    simp only [Option.all_none, if_true, List.singleton_append]
    rw [if_neg (by omega), if_pos (Or.inr trivial)]
    rw [Nat.mod_eq_of_lt hy, or_shiftLeft_of_lt _ _ _ hacc, Nat.mod_eq_of_lt hw]
  | succ k ih =>
    intro y acc shift p rest hs hacc hw hp
    unfold putVarint at hp ⊢
    by_cases h128 : y ≥ 128
    · rw [if_pos h128] at hp ⊢
      simp only [List.length_cons] at hp
      unfold intLoop
      simp only [Option.all_none, if_true, List.cons_append]
      have hb : (y ||| 128) % 256 = y % 128 + 128 := or_128_mod y
      rw [if_neg (by omega), if_neg (by
        rw [hb]; intro hcon
        rcases hcon with hcon | hcon
        · omega
        · simp only [Option.some.injEq] at hcon; omega)]
      have hacc' : (acc ||| (((y ||| 128) % 256 &&& 127) <<< shift)) % 2 ^ 64
          = acc + y % 128 * 2 ^ shift := by
        rw [hb, and_127, or_shiftLeft_of_lt _ _ _ hacc, Nat.add_mod_right,
          Nat.mod_mod_of_dvd _ (by norm_num : 128 ∣ 128)]
        apply Nat.mod_eq_of_lt
        have : y % 128 * 2 ^ shift ≤ y * 2 ^ shift :=
          Nat.mul_le_mul_right _ (Nat.mod_le _ _)
        omega
      rw [hacc']
      have hshift : y >>> 7 = y / 128 := by rw [Nat.shiftRight_eq_div_pow]
      rw [hshift] at hp ⊢
      have hsplit := split_128 acc y shift
      rw [ih (y / 128) (acc + y % 128 * 2 ^ shift) (shift + 7) (p + 1) rest (by omega)
        (by
          rw [Nat.pow_add]
          have : y % 128 * 2 ^ shift ≤ 127 * 2 ^ shift :=
            Nat.mul_le_mul_right _ (by omega)
          omega)
        (by omega) (by omega)]
      rw [hsplit]
      simp only [List.length_cons]
      rw [Nat.add_assoc, Nat.add_comm 1]
    · rw [if_neg h128] at hp ⊢
      simp only [List.length_singleton] at hp
      unfold intLoop
      simp only [Option.all_none, if_true, List.singleton_append]
      rw [if_neg (by omega), if_pos (Or.inl (by omega))]
      rw [Nat.mod_eq_of_lt (by omega : y < 256), or_shiftLeft_of_lt _ _ _ hacc,
        Nat.mod_eq_of_lt hw]
      rfl

theorem getInt_putVarint_cut (end_ : Nat) (enderr : Errno) (x p : Nat) (rest : List Nat)
    (hw : x < 2 ^ 64) (hp : p + (putVarint 8 x).length < end_) :
    getInt 64 none (some 56) end_ enderr p (putVarint 8 x ++ rest)
      = .ok (x, p + (putVarint 8 x).length, rest) := by
  unfold getInt
  rw [if_neg (by have := putVarint_length_pos 8 x; omega)]
  unfold putVarint at hp ⊢
  by_cases h128 : x ≥ 128
  · rw [if_pos h128] at hp ⊢
    simp only [List.length_cons] at hp
    simp only [List.cons_append, List.length_cons]
    have hb : (x ||| 128) % 256 = x % 128 + 128 := or_128_mod x
    rw [Nat.shiftRight_eq_div_pow] at hp
    rw [if_pos (by omega), hb, and_127, Nat.add_mod_right,
      Nat.mod_mod_of_dvd _ (by norm_num : 128 ∣ 128), Nat.shiftRight_eq_div_pow]
    have hx : x % 128 + x / 2 ^ 7 * 2 ^ 7 = x := by
      have := Nat.div_add_mod x 128
      norm_num
      omega
    rw [intLoop_putVarint_cut end_ enderr 7 (x / 2 ^ 7) (x % 128) 7 (p + 1) rest
      (by norm_num) (by omega) (by omega) (by norm_num at hp ⊢; omega)]
    rw [hx, Nat.add_assoc, Nat.add_comm 1]
  · rw [if_neg h128] at hp ⊢
    simp only [List.singleton_append, List.length_singleton]
    rw [Nat.mod_eq_of_lt (by omega : x < 256), if_neg (by omega)]

theorem lenVarLoop_putVarint (lim : Option Nat) (end_ : Nat) (enderr : Errno) :
    ∀ (k y acc shift p : Nat) (rest : List Nat),
      1 ≤ y → y < 128 ^ (k + 1) → acc < 2 ^ shift → acc + y * 2 ^ shift < 2 ^ 64 →
      (∀ m, lim = some m → y * 2 ^ shift < 2 ^ m) →
      p + (putVarint k y).length ≤ end_ →
      lenVarLoop lim end_ enderr (putVarint k y ++ rest) acc shift p
        = .ok (acc + y * 2 ^ shift, p + (putVarint k y).length, rest) := by
  intro k
  induction k with
  | zero =>
    intro y acc shift p rest hy hk hacc hw hlim hp
    have hy' : y < 128 := by simpa using hk
    simp only [putVarint, List.length_singleton] at hp ⊢
    unfold lenVarLoop
    rw [if_pos (lim_all_of_lt lim y shift hy hlim), if_neg (by omega)]
    simp only [List.singleton_append]
    rw [if_pos (by omega)]
    rw [Nat.mod_eq_of_lt (by omega : y < 256), or_shiftLeft_of_lt _ _ _ hacc,
      Nat.mod_eq_of_lt hw]
  | succ k ih =>
    intro y acc shift p rest hy hk hacc hw hlim hp
    unfold putVarint at hp ⊢
    by_cases h128 : y ≥ 128
    · rw [if_pos h128] at hp ⊢
      simp only [List.length_cons] at hp
      unfold lenVarLoop
      rw [if_pos (lim_all_of_lt lim y shift hy hlim), if_neg (by omega)]
      simp only [List.cons_append]
      have hb : (y ||| 128) % 256 = y % 128 + 128 := or_128_mod y
      rw [if_neg (by omega)]
      have hacc' : (acc ||| (((y ||| 128) % 256 &&& 127) <<< shift)) % 2 ^ 64
          = acc + y % 128 * 2 ^ shift := by
        rw [hb, and_127, or_shiftLeft_of_lt _ _ _ hacc, Nat.add_mod_right,
          Nat.mod_mod_of_dvd _ (by norm_num : 128 ∣ 128)]
        apply Nat.mod_eq_of_lt
        have : y % 128 * 2 ^ shift ≤ y * 2 ^ shift :=
          Nat.mul_le_mul_right _ (Nat.mod_le _ _)
        omega
      rw [hacc']
      have hshift : y >>> 7 = y / 128 := by rw [Nat.shiftRight_eq_div_pow]
      rw [hshift] at hp ⊢
      have hsplit := split_128 acc y shift
      have hle : y / 128 * 2 ^ (shift + 7) ≤ y * 2 ^ shift := by
        have := split_128 0 y shift
        omega
      rw [ih (y / 128) (acc + y % 128 * 2 ^ shift) (shift + 7) (p + 1) rest (by omega)
        (by rw [Nat.pow_succ] at hk; omega)
        (by
          rw [Nat.pow_add]
          have : y % 128 * 2 ^ shift ≤ 127 * 2 ^ shift :=
            Nat.mul_le_mul_right _ (by omega)
          omega)
        (by omega)
        (fun m hm => Nat.lt_of_le_of_lt hle (hlim m hm))
        (by omega)]
      rw [hsplit]
      simp only [List.length_cons]
      rw [Nat.add_assoc, Nat.add_comm 1]
    · rw [if_neg h128] at hp ⊢
      simp only [List.length_singleton] at hp
      unfold lenVarLoop
      rw [if_pos (lim_all_of_lt lim y shift hy hlim), if_neg (by omega)]
      simp only [List.singleton_append]
      rw [if_pos (by omega)]
      rw [Nat.mod_eq_of_lt (by omega : y < 256), or_shiftLeft_of_lt _ _ _ hacc,
        Nat.mod_eq_of_lt hw]
      rfl

theorem getLen_putVarint (lim : Option Nat) (end_ : Nat) (enderr : Errno)
    (K x p : Nat) (rest : List Nat) (hK : x < 128 ^ (K + 1)) (hw : x < 2 ^ 64)
    (hlim : ∀ m, lim = some m → x < 2 ^ m) (hp : p + (putVarint K x).length ≤ end_) :
    getLen lim end_ enderr p (putVarint K x ++ rest)
      = .ok (x, p + (putVarint K x).length, rest) := by
  have hpos := putVarint_length_pos K x
  unfold getLen
  rw [if_neg (by omega)]
  cases K with
  | zero =>
    have hx : x < 128 := by simpa using hK
    simp only [putVarint, List.singleton_append, List.length_singleton]
    rw [Nat.mod_eq_of_lt (by omega : x < 256), if_neg (by omega)]
  | succ k =>
    unfold putVarint at hp ⊢
    by_cases h128 : x ≥ 128
    · rw [if_pos h128] at hp ⊢
      simp only [List.length_cons] at hp
      simp only [List.cons_append, List.length_cons]
      have hb : (x ||| 128) % 256 = x % 128 + 128 := or_128_mod x
      rw [Nat.shiftRight_eq_div_pow] at hp
      rw [if_pos (by omega), hb, and_127, Nat.add_mod_right,
        Nat.mod_mod_of_dvd _ (by norm_num : 128 ∣ 128), Nat.shiftRight_eq_div_pow]
      have hx : x % 128 + x / 2 ^ 7 * 2 ^ 7 = x := by
        have := Nat.div_add_mod x 128
        norm_num
        omega
      rw [lenVarLoop_putVarint lim end_ enderr k (x / 2 ^ 7) (x % 128) 7 (p + 1) rest
        (by norm_num; omega) (by rw [Nat.pow_succ] at hK; norm_num; omega)
        (by omega) (by omega)
        (fun m hm => by have := hlim m hm; omega)
        (by norm_num at hp ⊢; omega)]
      rw [hx, Nat.add_assoc, Nat.add_comm 1]
    · rw [if_neg h128] at hp ⊢
      simp only [List.singleton_append, List.length_singleton]
      rw [Nat.mod_eq_of_lt (by omega : x < 256), if_neg (by omega)]

/-- A length or count below `2 ^ 32` as `marshal` writes it and `unmarshal` reads it. -/
theorem getLen_put32 (lim : Option Nat) (end_ : Nat) (enderr : Errno) (n p : Nat)
    (rest : List Nat) (hn : n < 2 ^ 32) (hlim : lim = none ∨ lim = some 64)
    (hp : p + (putVarint 10 (n % 2 ^ 32)).length ≤ end_) :
    getLen lim end_ enderr p (putVarint 10 (n % 2 ^ 32) ++ rest)
      = .ok (n, p + (putVarint 10 (n % 2 ^ 32)).length, rest) := by
  rw [Nat.mod_eq_of_lt hn] at hp ⊢
  exact getLen_putVarint lim end_ enderr 10 n p rest (by norm_num; omega) (by omega)
    (fun m hm => by
      rcases hlim with h | h
      · rw [h] at hm; cases hm
      · rw [h] at hm; cases hm; omega) hp

/-! ### Round trip: fixed-width numbers, float lists, texts -/

theorem getBE32_be32 (x p : Nat) (rest : List Nat) (h : x < 2 ^ 32) :
    getBE32 p (be32 x ++ rest) = .ok (x, p + 4, rest) := by
  simp only [be32, getBE32, List.cons_append, List.nil_append]
  rw [be32_value x h]

theorem getBE64_be64 (x p : Nat) (rest : List Nat) (h : x < 2 ^ 64) :
    getBE64 p (be64 x ++ rest) = .ok (x, p + 8, rest) := by
  simp only [be64, getBE64, List.cons_append, List.nil_append]
  rw [be64_value x h]

theorem be32_length (x : Nat) : (be32 x).length = 4 := rfl

theorem be64_length (x : Nat) : (be64 x).length = 8 := rfl

theorem putFloats_length (wide : Bool) :
    ∀ l : List Nat, (putFloats wide l).length = l.length * (if wide then 8 else 4)
  | [] => by simp [putFloats]
  | x :: xs => by
    simp only [putFloats, List.length_append, putFloats_length wide xs, List.length_cons]
    cases wide <;> simp [be32_length, be64_length] <;> omega

theorem getFloats_putFloats (wide : Bool) :
    ∀ (l : List Nat) (p : Nat) (rest : List Nat),
      (∀ x ∈ l, x < 2 ^ (if wide then 64 else 32)) →
      getFloats wide l.length p (putFloats wide l ++ rest)
        = .ok (l, p + (putFloats wide l).length, rest)
  | [], p, rest, _ => by simp [getFloats, putFloats]
  | x :: xs, p, rest, h => by
    have hx := h x (List.mem_cons_self _ _)
    have ih := fun q => getFloats_putFloats wide xs q rest
      (fun y hy => h y (List.mem_cons_of_mem _ hy))
    simp only [List.length_cons, getFloats, putFloats, List.append_assoc]
    cases wide with
    | false =>
      simp only [Bool.false_eq_true, if_false] at hx ⊢
      rw [getBE32_be32 x p _ hx]
      simp only []
      rw [ih (p + 4)]
      simp only [List.length_append, be32_length]
      rw [Nat.add_assoc]
    | true =>
      simp only [if_true] at hx ⊢
      rw [getBE64_be64 x p _ hx]
      simp only []
      rw [ih (p + 8)]
      simp only [List.length_append, be64_length]
      rw [Nat.add_assoc]

theorem getOctets_append (a : List Nat) (p : Nat) (rest : List Nat) :
    getOctets a.length p (a ++ rest) = .ok (a, p + a.length, rest) := by
  unfold getOctets
  rw [if_pos (by simp)]
  simp

theorem getCount_put32 (list_max end_ : Nat) (enderr : Errno) (n p : Nat)
    (rest : List Nat) (hn : n < 2 ^ 32) (hmax : n ≤ list_max)
    (hp : p + (putVarint 10 (n % 2 ^ 32)).length ≤ end_) :
    getCount list_max end_ enderr p (putVarint 10 (n % 2 ^ 32) ++ rest)
      = .ok (n, p + (putVarint 10 (n % 2 ^ 32)).length, rest) := by
  unfold getCount
  rw [getLen_put32 none end_ enderr n p rest hn (Or.inl rfl) hp]
  simp only []
  rw [if_neg (by omega)]

theorem getBlob_put (lim : Option Nat) (size_max end_ : Nat) (enderr : Errno) (a : List Nat)
    (p : Nat) (rest : List Nat) (hn : a.length < 2 ^ 32) (hmax : a.length ≤ size_max)
    (hlim : lim = none ∨ lim = some 64)
    (hp : p + (putVarint 10 (a.length % 2 ^ 32) ++ a).length < end_) :
    getBlob lim size_max end_ enderr p (putVarint 10 (a.length % 2 ^ 32) ++ a ++ rest)
      = .ok (a, p + (putVarint 10 (a.length % 2 ^ 32) ++ a).length, rest) := by
  simp only [List.length_append] at hp ⊢
  unfold getBlob
  rw [List.append_assoc, getLen_put32 lim end_ enderr a.length p (a ++ rest) hn hlim (by omega)]
  simp only []
  rw [if_neg (by omega)]
  unfold within
  rw [if_neg (by omega), getOctets_append, Nat.add_assoc]

theorem putBlobs_length_ge : ∀ l : List (List Nat), l.length ≤ (putBlobs l).length
  | [] => by simp [putBlobs]
  | a :: as => by
    have := putBlobs_length_ge as
    have := putVarint_length_pos 10 (a.length % 2 ^ 32)
    simp only [putBlobs, List.length_append, List.length_cons]
    omega

theorem getBlobs_putBlobs (size_max end_ : Nat) (enderr : Errno) :
    ∀ (l : List (List Nat)) (p : Nat) (rest : List Nat),
      (putBlobs l).length < 2 ^ 32 → p + (putBlobs l).length < end_ → end_ ≤ size_max →
      getBlobs size_max end_ enderr l.length p (putBlobs l ++ rest)
        = (l, .ok (p + (putBlobs l).length, rest))
  | [], p, rest, _, _, _ => by simp [getBlobs, putBlobs]
  | a :: as, p, rest, h32, hp, hend => by
    simp only [putBlobs, List.length_append] at h32 hp
    simp only [List.length_cons, getBlobs, putBlobs]
    rw [List.append_assoc, getBlob_put none size_max end_ enderr a p (putBlobs as ++ rest)
      (by omega) (by omega) (Or.inl rfl) (by simp only [List.length_append]; omega)]
    simp only []
    rw [getBlobs_putBlobs size_max end_ enderr as _ rest (by omega)
      (by simp only [List.length_append]; omega) hend]
    simp only [List.length_append]
    rw [Nat.add_assoc]

/-! ### Round trip: scalar fields -/

theorem idx_or_128 (i : Nat) (h : i ≤ 126) : i ||| 128 = i + 128 :=
  or_128_of_lt i (by omega)

theorem idx_and_127 (i : Nat) (h : i ≤ 126) : i &&& 127 = i := by
  rw [and_127]; omega

theorem idxHi_and_127 (i : Nat) (h : i ≤ 126) : (i + 128) &&& 127 = i := by
  rw [and_127]; omega

theorem idx_and_128 (i : Nat) (h : i ≤ 126) : i &&& 128 = 0 := by
  rw [and_128_of_lt i (by omega), if_pos (by omega)]

theorem idxHi_and_128 (i : Nat) (h : i ≤ 126) : (i + 128) &&& 128 = 128 := by
  rw [and_128_of_lt _ (by omega), if_neg (by omega)]

theorem next_cons (p h : Nat) (d : List Nat) : next p (h :: d) = .ok ⟨h, p + 1, d⟩ := rfl

theorem getField_put_bool (size_max list_max : Nat) (S : Schema) (call : Callee)
    (end_ : Nat) (enderr : Errno) (f : Field) (b : Bool) (v0 : Val) (hidx : f.Index ≤ 126)
    (hv : typed list_max S f (.bool b) = true)
    (t : Nat) (payload : List Nat) (hput : putField S f (.bool b) = t :: payload)
    (p h' : Nat) (rest : List Nat) (hp : p + payload.length < end_) :
    getField size_max list_max S call end_ enderr f v0 ⟨t, p, payload ++ h' :: rest⟩
      = (.bool b, .ok ⟨h', p + payload.length + 1, rest⟩) := by
  obtain ⟨idx, ty, tl⟩ := f
  simp only at hidx
  cases ty <;> simp [typed] at hv
  simp only [putField, tag] at hput
  cases b with
  | false => simp at hput
  | true =>
    simp only [if_true, List.cons.injEq] at hput
    obtain ⟨rfl, rfl⟩ := hput
    rw [Nat.mod_eq_of_lt (by omega)]
    simp only [getField, if_true, nextChk, List.nil_append, List.length_nil, Nat.add_zero]
    rw [if_neg (by simp at hp; omega), next_cons]

theorem getField_put_uint (size_max list_max : Nat) (S : Schema) (call : Callee)
    (end_ : Nat) (enderr : Errno) (f : Field) (x : Nat) (v0 : Val) (hidx : f.Index ≤ 126)
    (hv : typed list_max S f (.uint x) = true)
    (t : Nat) (payload : List Nat) (hput : putField S f (.uint x) = t :: payload)
    (p h' : Nat) (rest : List Nat) (hp : p + payload.length < end_) :
    getField size_max list_max S call end_ enderr f v0 ⟨t, p, payload ++ h' :: rest⟩
      = (.uint x, .ok ⟨h', p + payload.length + 1, rest⟩) := by
  obtain ⟨idx, ty, tl⟩ := f
  simp only at hidx
  have hor := idx_or_128 idx hidx
  cases ty <;> simp [typed] at hv
  -- uint8
  · simp only [putField, tag] at hput
    split at hput
    · simp only [List.cons.injEq] at hput
      obtain ⟨rfl, rfl⟩ := hput
      simp only [List.length_singleton] at hp
      rw [Nat.mod_eq_of_lt (by omega), Nat.mod_eq_of_lt (by omega)]
      simp only [getField, if_true, within, finish, getU8, List.cons_append, List.nil_append,
        List.length_singleton]
      rw [if_neg (by omega)]
      simp only [next_cons]
    · simp at hput
  -- uint16
  · simp only [putField, tag, tagHi, hor] at hput
    split at hput
    · split at hput
      · simp only [List.cons.injEq] at hput
        obtain ⟨rfl, rfl⟩ := hput
        simp only [List.length_singleton] at hp
        rw [Nat.mod_eq_of_lt (by omega), Nat.mod_eq_of_lt (by omega)]
        simp only [getField, hor, if_true, within, finish, getU8, List.cons_append,
          List.nil_append, List.length_singleton]
        rw [if_neg (by omega), if_neg (by omega)]
        simp only [next_cons]
      · simp only [List.cons.injEq] at hput
        obtain ⟨rfl, rfl⟩ := hput
        simp only [List.length_cons, List.length_nil] at hp
        rw [Nat.mod_eq_of_lt (by omega)]
        simp only [getField, if_true, within, finish, getBE16, List.cons_append,
          List.nil_append, List.length_cons, List.length_nil]
        rw [if_neg (by omega), be16_value x hv]
        simp only [next_cons]
    · simp at hput
  -- uint32
  · simp only [putField, tag, tagHi, hor] at hput
    split at hput
    · split at hput
      · simp only [List.cons.injEq] at hput
        obtain ⟨rfl, rfl⟩ := hput
        rw [Nat.mod_eq_of_lt (by omega)]
        simp only [getField, if_true, finish]
        rw [getInt_putVarint 32 none end_ enderr 10 x p (h' :: rest) (by norm_num; omega) hv
          (fun m hm => by cases hm) hp]
        simp only [next_cons]
      · simp only [List.cons.injEq] at hput
        obtain ⟨rfl, rfl⟩ := hput
        simp only [be32_length] at hp
        rw [Nat.mod_eq_of_lt (by omega)]
        simp only [getField, hor, if_true, within, finish, be32_length]
        rw [if_neg (by omega), if_neg (by omega), getBE32_be32 x p _ hv]
        simp only [next_cons]
    · simp at hput
  -- uint64
  · simp only [putField, tag, tagHi, hor] at hput
    split at hput
    · split at hput
      · simp only [List.cons.injEq] at hput
        obtain ⟨rfl, rfl⟩ := hput
        rw [Nat.mod_eq_of_lt (by omega)]
        simp only [getField, if_true, finish]
        rw [getInt_putVarint 64 none end_ enderr 10 x p (h' :: rest) (by norm_num; omega) hv
          (fun m hm => by cases hm) hp]
        simp only [next_cons]
      · simp only [List.cons.injEq] at hput
        obtain ⟨rfl, rfl⟩ := hput
        simp only [be64_length] at hp
        rw [Nat.mod_eq_of_lt (by omega)]
        simp only [getField, hor, if_true, within, finish, be64_length]
        rw [if_neg (by omega), if_neg (by omega), getBE64_be64 x p _ hv]
        simp only [next_cons]
    · simp at hput

theorem toI32_toU32 (v : Int) (h1 : -2 ^ 31 ≤ v) (h2 : v < 2 ^ 31) : toI32 (toU32 v) = v := by
  unfold toI32 toU32
  have h3 : ((v % 2 ^ 32).toNat : Int) = v % 2 ^ 32 :=
    Int.toNat_of_nonneg (Int.emod_nonneg _ (by norm_num))
  have h4 : (v % 2 ^ 32).toNat < 2 ^ 32 := by
    have := Int.emod_lt_of_pos v (by norm_num : (0 : Int) < 2 ^ 32)
    omega
  rw [Nat.mod_eq_of_lt h4]
  split <;> omega

theorem toI64_toU64 (v : Int) (h1 : -2 ^ 63 ≤ v) (h2 : v < 2 ^ 63) : toI64 (toU64 v) = v := by
  unfold toI64 toU64
  have h3 : ((v % 2 ^ 64).toNat : Int) = v % 2 ^ 64 :=
    Int.toNat_of_nonneg (Int.emod_nonneg _ (by norm_num))
  have h4 : (v % 2 ^ 64).toNat < 2 ^ 64 := by
    have := Int.emod_lt_of_pos v (by norm_num : (0 : Int) < 2 ^ 64)
    omega
  rw [Nat.mod_eq_of_lt h4]
  split <;> omega

theorem toU32_lt (v : Int) : toU32 v < 2 ^ 32 := by
  unfold toU32
  have := Int.emod_lt_of_pos v (by norm_num : (0 : Int) < 2 ^ 32)
  have := Int.emod_nonneg v (by norm_num : (2 ^ 32 : Int) ≠ 0)
  omega

theorem toU64_lt (v : Int) : toU64 v < 2 ^ 64 := by
  unfold toU64
  have := Int.emod_lt_of_pos v (by norm_num : (0 : Int) < 2 ^ 64)
  have := Int.emod_nonneg v (by norm_num : (2 ^ 64 : Int) ≠ 0)
  omega

theorem and_pow_31 (x : Nat) (h : x < 2 ^ 32) :
    x &&& 2 ^ 31 = if x < 2 ^ 31 then 0 else 2 ^ 31 := by
  apply Nat.eq_of_testBit_eq
  intro i
  rw [Nat.testBit_and, Nat.testBit_two_pow]
  by_cases hi : 31 = i
  · subst hi
    simp only [decide_True, Bool.and_true]
    split
    · rw [Nat.testBit_lt_two_pow (by assumption)]; simp
    · rw [Nat.testBit_two_pow_self]
      have : x = 2 ^ 31 + (x - 2 ^ 31) := by omega
      rw [this, Nat.testBit_two_pow_add_eq, Nat.testBit_lt_two_pow (by omega)]
      rfl
  · simp only [hi, decide_False, Bool.and_false]
    split
    · simp
    · rw [Nat.testBit_two_pow]; simp [hi]

theorem and_pow_63 (x : Nat) (h : x < 2 ^ 64) :
    x &&& 2 ^ 63 = if x < 2 ^ 63 then 0 else 2 ^ 63 := by
  apply Nat.eq_of_testBit_eq
  intro i
  rw [Nat.testBit_and, Nat.testBit_two_pow]
  by_cases hi : 63 = i
  · subst hi
    simp only [decide_True, Bool.and_true]
    split
    · rw [Nat.testBit_lt_two_pow (by assumption)]; simp
    · rw [Nat.testBit_two_pow_self]
      have : x = 2 ^ 63 + (x - 2 ^ 63) := by omega
      rw [this, Nat.testBit_two_pow_add_eq, Nat.testBit_lt_two_pow (by omega)]
      rfl
  · simp only [hi, decide_False, Bool.and_false]
    split
    · simp
    · rw [Nat.testBit_two_pow]; simp [hi]

theorem getField_put_int (size_max list_max : Nat) (S : Schema) (call : Callee)
    (end_ : Nat) (enderr : Errno) (f : Field) (x : Int) (v0 : Val) (hidx : f.Index ≤ 126)
    (hv : typed list_max S f (.int x) = true)
    (t : Nat) (payload : List Nat) (hput : putField S f (.int x) = t :: payload)
    (p h' : Nat) (rest : List Nat) (hp : p + payload.length < end_) :
    getField size_max list_max S call end_ enderr f v0 ⟨t, p, payload ++ h' :: rest⟩
      = (.int x, .ok ⟨h', p + payload.length + 1, rest⟩) := by
  obtain ⟨idx, ty, tl⟩ := f
  simp only at hidx
  have hor := idx_or_128 idx hidx
  cases ty <;> simp [typed] at hv
  -- int32
  · have hlt := toU32_lt x
    have hback := toI32_toU32 x (by omega) (by omega)
    simp only [putField, tag, tagHi, hor, and_pow_31 _ hlt] at hput
    split at hput
    · split at hput
      · rename_i hlt'
        simp only [ne_eq, not_true_eq_false, if_false, List.cons.injEq] at hput
        obtain ⟨rfl, rfl⟩ := hput
        rw [Nat.mod_eq_of_lt (by omega)]
        simp only [getField, idx_and_127 idx hidx, idx_and_128 idx hidx, if_true, finish]
        rw [getInt_putVarint 32 (some 35) end_ enderr 10 _ p (h' :: rest) (by norm_num; omega)
          (by omega) (fun m hm => by cases hm; omega) hp]
        simp only [next_cons]
        rw [if_neg (by norm_num), hback]
      · rename_i hge
        rw [if_pos (by norm_num)] at hput
        simp only [List.cons.injEq] at hput
        obtain ⟨rfl, rfl⟩ := hput
        rw [Nat.mod_eq_of_lt (by omega)]
        simp only [getField, idxHi_and_127 idx hidx, idxHi_and_128 idx hidx, if_true, finish]
        have hm : (2 ^ 32 - 1 - toU32 x + 1) % 2 ^ 32 = 2 ^ 32 - toU32 x := by omega
        rw [hm] at hp ⊢
        rw [getInt_putVarint 32 (some 35) end_ enderr 10 _ p (h' :: rest) (by norm_num; omega)
          (by omega) (fun m hm => by cases hm; omega) hp]
        simp only [next_cons]
        rw [if_pos (by norm_num)]
        have : (2 ^ 32 - 1 - (2 ^ 32 - toU32 x) + 1) % 2 ^ 32 = toU32 x := by omega
        rw [this, hback]
    · simp at hput
  -- int64
  · have hlt := toU64_lt x
    have hback := toI64_toU64 x (by omega) (by omega)
    simp only [putField, tag, tagHi, hor, and_pow_63 _ hlt] at hput
    split at hput
    · split at hput
      · rename_i hlt'
        simp only [ne_eq, not_true_eq_false, if_false, List.cons.injEq] at hput
        obtain ⟨rfl, rfl⟩ := hput
        rw [Nat.mod_eq_of_lt (by omega)]
        simp only [getField, idx_and_127 idx hidx, idx_and_128 idx hidx, if_true, finish]
        rw [getInt_putVarint_cut end_ enderr _ p (h' :: rest) (by omega) hp]
        simp only [next_cons]
        rw [if_neg (by norm_num), hback]
      · rename_i hge
        rw [if_pos (by norm_num)] at hput
        simp only [List.cons.injEq] at hput
        obtain ⟨rfl, rfl⟩ := hput
        rw [Nat.mod_eq_of_lt (by omega)]
        simp only [getField, idxHi_and_127 idx hidx, idxHi_and_128 idx hidx, if_true, finish]
        have hm : (2 ^ 64 - 1 - toU64 x + 1) % 2 ^ 64 = 2 ^ 64 - toU64 x := by omega
        rw [hm] at hp ⊢
        rw [getInt_putVarint_cut end_ enderr _ p (h' :: rest) (by omega) hp]
        simp only [next_cons]
        rw [if_pos (by norm_num)]
        have : (2 ^ 64 - 1 - (2 ^ 64 - toU64 x) + 1) % 2 ^ 64 = toU64 x := by omega
        rw [this, hback]
    · simp at hput

theorem getField_put_float (size_max list_max : Nat) (S : Schema) (call : Callee)
    (end_ : Nat) (enderr : Errno) (f : Field) (bits : Nat) (v0 : Val) (hidx : f.Index ≤ 126)
    (hv : typed list_max S f (.float bits) = true)
    (t : Nat) (payload : List Nat) (hput : putField S f (.float bits) = t :: payload)
    (p h' : Nat) (rest : List Nat) (hp : p + payload.length < end_) :
    getField size_max list_max S call end_ enderr f v0 ⟨t, p, payload ++ h' :: rest⟩
      = (.float bits, .ok ⟨h', p + payload.length + 1, rest⟩) := by
  obtain ⟨idx, ty, tl⟩ := f
  simp only at hidx
  cases ty <;> cases tl <;> simp [typed] at hv
  -- float32
  · simp only [putField, tag] at hput
    split at hput
    · simp only [List.cons.injEq] at hput
      obtain ⟨rfl, rfl⟩ := hput
      simp only [be32_length] at hp
      rw [Nat.mod_eq_of_lt (by omega)]
      simp only [getField, if_true, within, finish, be32_length]
      rw [if_neg (by omega), getBE32_be32 bits p _ hv]
      simp only [next_cons]
    · simp at hput
  -- float64
  · simp only [putField, tag] at hput
    split at hput
    · simp only [List.cons.injEq] at hput
      obtain ⟨rfl, rfl⟩ := hput
      simp only [be64_length] at hp
      rw [Nat.mod_eq_of_lt (by omega)]
      simp only [getField, if_true, within, finish, be64_length]
      rw [if_neg (by omega), getBE64_be64 bits p _ hv]
      simp only [next_cons]
    · simp at hput

/-! ### Round trip: timestamps, float lists, texts and binaries as fields -/

theorem tmod_bounds (a b : Int) (hb : 0 < b) : -b < Int.tmod a b ∧ Int.tmod a b < b := by
  refine ⟨?_, Int.tmod_lt_of_pos a hb⟩
  by_cases ha : 0 ≤ a
  · have := Int.tmod_nonneg b ha
    omega
  · have h1 : Int.tmod a b = -(Int.tmod (-a) b) := by
      rw [Int.tmod_def, Int.tmod_def, Int.neg_tdiv]
      simp only [Int.mul_neg]
      omega
    have h2 := Int.tmod_lt_of_pos (-a) hb
    omega

theorem normNsec_bounds (ns : Int) : 0 ≤ normNsec ns ∧ normNsec ns < 1000000000 := by
  have := tmod_bounds ns 1000000000 (by norm_num)
  unfold normNsec
  simp only []
  split <;> omega

theorem normSec_of_norm (s ns : Int) (h0 : 0 ≤ ns) (h1 : ns < 1000000000) :
    normSec s ns = s ∧ normNsec ns = ns := by
  unfold normSec normNsec
  simp only [Int.tmod_eq_of_lt h0 h1, Int.tdiv_eq_zero_of_lt h0 h1]
  constructor <;> split <;> omega

theorem toU64_of_nonneg (v : Int) (h0 : 0 ≤ v) (h1 : v < 2 ^ 64) : ((toU64 v : Nat) : Int) = v := by
  unfold toU64
  rw [Int.toNat_of_nonneg (Int.emod_nonneg _ (by norm_num))]
  omega

theorem toU64_small (v : Int) (h1 : -2 ^ 63 ≤ v) (h2 : v < 2 ^ 63) (h : toU64 v < 2 ^ 32) :
    ((toU64 v : Nat) : Int) = v := by
  unfold toU64 at h ⊢
  rw [Int.toNat_of_nonneg (Int.emod_nonneg _ (by norm_num))]
  have : ((v % 2 ^ 64).toNat : Int) = v % 2 ^ 64 :=
    Int.toNat_of_nonneg (Int.emod_nonneg _ (by norm_num))
  omega

theorem getField_put_timespec (size_max list_max : Nat) (S : Schema) (call : Callee)
    (end_ : Nat) (enderr : Errno) (f : Field) (s ns : Int) (v0 : Val) (hidx : f.Index ≤ 126)
    (hv : typed list_max S f (.timespec s ns) = true)
    (t : Nat) (payload : List Nat) (hput : putField S f (.timespec s ns) = t :: payload)
    (p h' : Nat) (rest : List Nat) (hp : p + payload.length < end_) :
    getField size_max list_max S call end_ enderr f v0 ⟨t, p, payload ++ h' :: rest⟩
      = (.timespec (normSec s ns) (normNsec ns), .ok ⟨h', p + payload.length + 1, rest⟩) := by
  obtain ⟨idx, ty, tl⟩ := f
  simp only at hidx
  have hor := idx_or_128 idx hidx
  cases ty <;> simp [typed] at hv
  obtain ⟨-, -, -, -, hs1, hs2⟩ := hv
  have hn := normNsec_bounds ns
  have hnu : ((toU64 (normNsec ns) : Nat) : Int) = normNsec ns :=
    toU64_of_nonneg _ hn.1 (by omega)
  have hnlt : toU64 (normNsec ns) < 2 ^ 32 := by omega
  simp only [putField, tag, tagHi, hor] at hput
  split at hput
  · split at hput
    · rename_i hx
      simp only [List.cons.injEq] at hput
      obtain ⟨rfl, rfl⟩ := hput
      simp only [List.length_append, be32_length] at hp
      rw [Nat.mod_eq_of_lt (by omega)]
      simp only [getField, idx_and_127 idx hidx, idx_and_128 idx hidx, if_true, within, finish,
        getTime, List.length_append, be32_length, List.append_assoc]
      rw [if_neg (by norm_num), if_neg (by omega)]
      simp only [Bool.false_eq_true, if_false]
      rw [getBE32_be32 _ p _ hx]
      simp only []
      rw [getBE32_be32 _ (p + 4) _ hnlt]
      simp only [next_cons, hnu, toU64_small (normSec s ns) (by omega) (by omega) hx, Nat.add_assoc]
    · rename_i hx
      simp only [List.cons.injEq] at hput
      obtain ⟨rfl, rfl⟩ := hput
      simp only [List.length_append, be32_length, be64_length] at hp
      rw [Nat.mod_eq_of_lt (by omega)]
      simp only [getField, idxHi_and_127 idx hidx, idxHi_and_128 idx hidx, if_true, within,
        finish, getTime, List.length_append, be32_length, be64_length, List.append_assoc]
      rw [if_pos (by norm_num), if_neg (by omega)]
      rw [getBE64_be64 _ p _ (toU64_lt _)]
      simp only []
      rw [getBE32_be32 _ (p + 8) _ hnlt]
      simp only [next_cons, hnu, toI64_toU64 (normSec s ns) (by omega) (by omega), Nat.add_assoc]
  · simp at hput

theorem getField_put_floats (size_max list_max : Nat) (S : Schema) (call : Callee)
    (end_ : Nat) (enderr : Errno) (f : Field) (l : List Nat) (v0 : Val) (hidx : f.Index ≤ 126)
    (hv : typed list_max S f (.floats l) = true)
    (t : Nat) (payload : List Nat) (hput : putField S f (.floats l) = t :: payload)
    (h32 : payload.length < 2 ^ 32)
    (p h' : Nat) (rest : List Nat) (hp : p + payload.length < end_) :
    getField size_max list_max S call end_ enderr f v0 ⟨t, p, payload ++ h' :: rest⟩
      = (.floats l, .ok ⟨h', p + payload.length + 1, rest⟩) := by
  obtain ⟨idx, ty, tl⟩ := f
  simp only at hidx
  cases ty <;> cases tl <;> simp [typed] at hv
  -- float32 list
  · obtain ⟨hmax, hall⟩ := hv
    simp only [putField, tag] at hput
    split at hput
    · simp only [List.cons.injEq] at hput
      obtain ⟨rfl, rfl⟩ := hput
      have hfl := putFloats_length false l
      simp only [Bool.false_eq_true, if_false] at hfl
      simp only [List.length_append, hfl] at hp h32
      rw [Nat.mod_eq_of_lt (by omega)]
      simp only [getField, if_true, finish, getFloatList, List.append_assoc]
      rw [getCount_put32 list_max end_ enderr l.length p _ (by omega) hmax (by omega)]
      simp only [within, Bool.false_eq_true, if_false]
      rw [if_neg (by omega), getFloats_putFloats false l _ _ (by simpa using hall)]
      simp only [next_cons, List.length_append, Nat.add_assoc]
    · simp at hput
  -- float64 list
  · obtain ⟨hmax, hall⟩ := hv
    simp only [putField, tag] at hput
    split at hput
    · simp only [List.cons.injEq] at hput
      obtain ⟨rfl, rfl⟩ := hput
      have hfl := putFloats_length true l
      simp only [if_true] at hfl
      simp only [List.length_append, hfl] at hp h32
      rw [Nat.mod_eq_of_lt (by omega)]
      simp only [getField, if_true, finish, getFloatList, List.append_assoc]
      rw [getCount_put32 list_max end_ enderr l.length p _ (by omega) hmax (by omega)]
      simp only [within, if_true]
      rw [if_neg (by omega), getFloats_putFloats true l _ _ (by simpa using hall)]
      simp only [next_cons, List.length_append, Nat.add_assoc]
    · simp at hput

theorem getField_put_blob (size_max list_max : Nat) (S : Schema) (call : Callee)
    (end_ : Nat) (enderr : Errno) (hend : end_ ≤ size_max) (f : Field) (a : List Nat)
    (v0 : Val) (hidx : f.Index ≤ 126)
    (hv : typed list_max S f (.blob a) = true)
    (t : Nat) (payload : List Nat) (hput : putField S f (.blob a) = t :: payload)
    (h32 : payload.length < 2 ^ 32)
    (p h' : Nat) (rest : List Nat) (hp : p + payload.length < end_) :
    getField size_max list_max S call end_ enderr f v0 ⟨t, p, payload ++ h' :: rest⟩
      = (.blob a, .ok ⟨h', p + payload.length + 1, rest⟩) := by
  obtain ⟨idx, ty, tl⟩ := f
  simp only at hidx
  cases ty <;> cases tl <;> simp [typed] at hv
  -- text
  · simp only [putField, tag] at hput
    split at hput
    · simp only [List.cons.injEq] at hput
      obtain ⟨rfl, rfl⟩ := hput
      rw [Nat.mod_eq_of_lt (by omega)]
      simp only [getField, if_true, finish]
      rw [getBlob_put (some 64) size_max end_ enderr a p _
        (by simp only [List.length_append] at h32; omega)
        (by simp only [List.length_append] at hp; omega) (Or.inr rfl) hp]
      simp only [next_cons]
    · simp at hput
  -- binary
  · simp only [putField, tag] at hput
    split at hput
    · simp only [List.cons.injEq] at hput
      obtain ⟨rfl, rfl⟩ := hput
      rw [Nat.mod_eq_of_lt (by omega)]
      simp only [getField, if_true, finish]
      rw [getBlob_put none size_max end_ enderr a p _
        (by simp only [List.length_append] at h32; omega)
        (by simp only [List.length_append] at hp; omega) (Or.inl rfl) hp]
      simp only [next_cons]
    · simp at hput

theorem getField_put_blobs (size_max list_max : Nat) (S : Schema) (call : Callee)
    (end_ : Nat) (enderr : Errno) (hend : end_ ≤ size_max) (f : Field) (l : List (List Nat))
    (v0 : Val) (hidx : f.Index ≤ 126)
    (hv : typed list_max S f (.blobs l) = true)
    (t : Nat) (payload : List Nat) (hput : putField S f (.blobs l) = t :: payload)
    (h32 : payload.length < 2 ^ 32)
    (p h' : Nat) (rest : List Nat) (hp : p + payload.length < end_) :
    getField size_max list_max S call end_ enderr f v0 ⟨t, p, payload ++ h' :: rest⟩
      = (.blobs l, .ok ⟨h', p + payload.length + 1, rest⟩) := by
  obtain ⟨idx, ty, tl⟩ := f
  simp only at hidx
  have hge := putBlobs_length_ge l
  cases ty <;> cases tl <;> simp [typed] at hv
  -- text list
  · simp only [putField, tag] at hput
    split at hput
    · simp only [List.cons.injEq] at hput
      obtain ⟨rfl, rfl⟩ := hput
      simp only [List.length_append] at hp h32
      rw [Nat.mod_eq_of_lt (by omega)]
      simp only [getField, if_true, List.append_assoc]
      rw [getCount_put32 list_max end_ enderr l.length p _ (by omega) hv (by omega)]
      simp only []
      rw [getBlobs_putBlobs size_max end_ enderr l _ _ (by omega) (by omega) hend]
      simp only [nextChk]
      rw [if_neg (by omega), next_cons]
      simp only [List.length_append, Nat.add_assoc]
    · simp at hput
  -- binary list
  · simp only [putField, tag] at hput
    split at hput
    · simp only [List.cons.injEq] at hput
      obtain ⟨rfl, rfl⟩ := hput
      simp only [List.length_append] at hp h32
      rw [Nat.mod_eq_of_lt (by omega)]
      simp only [getField, if_true, List.append_assoc]
      rw [getCount_put32 list_max end_ enderr l.length p _ (by omega) hv (by omega)]
      simp only []
      rw [getBlobs_putBlobs size_max end_ enderr l _ _ (by omega) (by omega) hend]
      simp only [nextChk]
      rw [if_neg (by omega), next_cons]
      simp only [List.length_append, Nat.add_assoc]
    · simp at hput

/-! ### Round trip: nested structs -/

theorem putRefs_length_ge (S : Schema) (fields : List Field) :
    ∀ l : List (List Val), l.length ≤ (putRefs S fields l).length
  | [] => by simp [putRefs]
  | a :: as => by
    have := putRefs_length_ge S fields as
    simp only [putRefs, List.length_append, List.length_cons, List.length_nil]
    omega

theorem getRefs_putRefs (size_max list_max : Nat) (S : Schema) (call : Callee) (N : Nat)
    (hcall : CallRT size_max list_max S call N) (end_ : Nat) (enderr : Errno)
    (hend : end_ ≤ size_max) (s : Nat) :
    ∀ (l : List (List Val)) (p : Nat) (rest : List Nat),
      l.all (fun r => decide (r.length = (S s).length)) = true →
      allRefs (typed list_max S) S (S s) l = true →
      (putRefs S (S s) l).length ≤ N → (putRefs S (S s) l).length < 2 ^ 32 →
      p + (putRefs S (S s) l).length < end_ →
      getRefs call (S s) s end_ enderr l.length p (putRefs S (S s) l ++ rest)
        = .ok (backRefs true S (S s) l, p + (putRefs S (S s) l).length, rest)
  | [], p, rest, _, _, _, _, _ => by simp [getRefs, putRefs, backRefs]
  | a :: as, p, rest, hlen, hall, hN, h32, hp => by
    simp only [List.all_cons, Bool.and_eq_true, decide_eq_true_eq] at hlen
    simp only [allRefs, Bool.and_eq_true] at hall
    have hm : putFields S (S s) a ++ [127] = marshal S s a := rfl
    simp only [putRefs, hm, List.length_append] at hN h32 hp
    simp only [List.length_cons, getRefs, putRefs, hm, List.append_assoc]
    rw [hcall s a _ (end_ - p)
      (by simp only [wellFormed, Bool.and_eq_true, decide_eq_true_eq]; exact ⟨hlen.1, hall.1⟩)
      (by omega) (by omega) (by omega) (by omega)]
    simp only [List.drop_left]
    rw [getRefs_putRefs size_max list_max S call N hcall end_ enderr hend s as _ rest
      hlen.2 hall.2 (by omega) (by omega) (by omega)]
    simp only [backRefs, List.length_append, Nat.add_assoc]

theorem getField_put_ref (size_max list_max : Nat) (S : Schema) (call : Callee) (N : Nat)
    (hcall : CallRT size_max list_max S call N) (end_ : Nat) (enderr : Errno)
    (hend : end_ ≤ size_max) (f : Field) (r : List Val)
    (v0 : Val) (hidx : f.Index ≤ 126)
    (hv : allVal (typed list_max S) S f (.ref (some r)) = true)
    (t : Nat) (payload : List Nat) (hput : putField S f (.ref (some r)) = t :: payload)
    (hN : payload.length ≤ N) (h32 : payload.length < 2 ^ 32)
    (p h' : Nat) (rest : List Nat) (hp : p + payload.length < end_) :
    getField size_max list_max S call end_ enderr f v0 ⟨t, p, payload ++ h' :: rest⟩
      = (backVal true S f (.ref (some r)), .ok ⟨h', p + payload.length + 1, rest⟩) := by
  obtain ⟨idx, ty, tl⟩ := f
  simp only at hidx
  cases ty <;> cases tl <;> simp [allVal, typed] at hv
  rename_i s
  obtain ⟨hlen, hall⟩ := hv
  have hm : putFields S (S s) r ++ [127] = marshal S s r := rfl
  simp only [putField, tag, hm, List.cons.injEq] at hput
  obtain ⟨rfl, rfl⟩ := hput
  rw [Nat.mod_eq_of_lt (by omega)]
  simp only [getField, if_true, backVal]
  rw [hcall s r _ (end_ - p)
    (by simp only [wellFormed, Bool.and_eq_true, decide_eq_true_eq]; exact ⟨hlen, hall⟩)
    hN (by omega) (by omega) h32]
  simp only [nextChk, List.drop_left]
  rw [if_neg (by omega), next_cons]

theorem getField_put_refs (size_max list_max : Nat) (S : Schema) (call : Callee) (N : Nat)
    (hcall : CallRT size_max list_max S call N) (end_ : Nat) (enderr : Errno)
    (hend : end_ ≤ size_max) (f : Field) (l : List (List Val))
    (v0 : Val) (hidx : f.Index ≤ 126)
    (hv : allVal (typed list_max S) S f (.refs l) = true)
    (t : Nat) (payload : List Nat) (hput : putField S f (.refs l) = t :: payload)
    (hN : payload.length ≤ N) (h32 : payload.length < 2 ^ 32)
    (p h' : Nat) (rest : List Nat) (hp : p + payload.length < end_) :
    getField size_max list_max S call end_ enderr f v0 ⟨t, p, payload ++ h' :: rest⟩
      = (backVal true S f (.refs l), .ok ⟨h', p + payload.length + 1, rest⟩) := by
  obtain ⟨idx, ty, tl⟩ := f
  simp only at hidx
  cases ty <;> cases tl <;> simp [allVal, typed] at hv
  rename_i s
  obtain ⟨⟨hmax, hlen⟩, hall⟩ := hv
  have hge := putRefs_length_ge S (S s) l
  simp only [putField, tag] at hput
  split at hput
  · simp only [List.cons.injEq] at hput
    obtain ⟨rfl, rfl⟩ := hput
    simp only [List.length_append] at hp h32 hN
    rw [Nat.mod_eq_of_lt (by omega)]
    simp only [getField, if_true, List.append_assoc, backVal]
    rw [getCount_put32 list_max end_ enderr l.length p _ (by omega) hmax (by omega)]
    simp only []
    rw [getRefs_putRefs size_max list_max S call N hcall end_ enderr hend s l _ _
      (by simpa using hlen) hall (by omega) (by omega) (by omega)]
    simp only [nextChk]
    rw [if_neg (by omega), next_cons]
    simp only [List.length_append, Nat.add_assoc]
  · simp at hput

/-! ### Round trip: one field -/

theorem getField_put (size_max list_max : Nat) (S : Schema) (call : Callee) (N : Nat)
    (hcall : CallRT size_max list_max S call N) (end_ : Nat) (enderr : Errno)
    (hend : end_ ≤ size_max) (f : Field) (v v0 : Val) (hidx : f.Index ≤ 126)
    (hv : allVal (typed list_max S) S f v = true)
    (t : Nat) (payload : List Nat) (hput : putField S f v = t :: payload)
    (hN : payload.length ≤ N) (h32 : payload.length < 2 ^ 32)
    (p h' : Nat) (rest : List Nat) (hp : p + payload.length < end_) :
    getField size_max list_max S call end_ enderr f v0 ⟨t, p, payload ++ h' :: rest⟩
      = (backVal true S f v, .ok ⟨h', p + payload.length + 1, rest⟩) := by
  cases v with
  | bool b =>
    simp only [allVal] at hv
    simpa [backVal] using getField_put_bool size_max list_max S call end_ enderr f b v0 hidx hv
      t payload hput p h' rest hp
  | uint x =>
    simp only [allVal] at hv
    simpa [backVal] using getField_put_uint size_max list_max S call end_ enderr f x v0 hidx hv
      t payload hput p h' rest hp
  | int x =>
    simp only [allVal] at hv
    simpa [backVal] using getField_put_int size_max list_max S call end_ enderr f x v0 hidx hv
      t payload hput p h' rest hp
  | float bits =>
    simp only [allVal] at hv
    have hb : backVal true S f (.float bits) = .float bits := by
      simp only [putField] at hput
      simp only [backVal]
      split at hput <;> first
        | (split at hput
           · rename_i hz; simp_all
           · simp at hput)
        | simp at hput
    rw [hb]
    exact getField_put_float size_max list_max S call end_ enderr f bits v0 hidx hv
      t payload hput p h' rest hp
  | floats l =>
    simp only [allVal] at hv
    simpa [backVal] using getField_put_floats size_max list_max S call end_ enderr f l v0 hidx
      hv t payload hput h32 p h' rest hp
  | timespec s ns =>
    simp only [allVal] at hv
    have hb : backVal true S f (.timespec s ns) = .timespec (normSec s ns) (normNsec ns) := by
      simp only [putField] at hput
      simp only [backVal]
      split at hput
      · split at hput
        · rename_i hz; rw [if_pos hz]
        · simp at hput
      · simp at hput
    rw [hb]
    exact getField_put_timespec size_max list_max S call end_ enderr f s ns v0 hidx hv
      t payload hput p h' rest hp
  | blob a =>
    simp only [allVal] at hv
    simpa [backVal] using getField_put_blob size_max list_max S call end_ enderr hend f a v0
      hidx hv t payload hput h32 p h' rest hp
  | blobs l =>
    simp only [allVal] at hv
    simpa [backVal] using getField_put_blobs size_max list_max S call end_ enderr hend f l v0
      hidx hv t payload hput h32 p h' rest hp
  | ref r =>
    cases r with
    | none => simp [putField] at hput
    | some r =>
      exact getField_put_ref size_max list_max S call N hcall end_ enderr hend f r v0 hidx hv
        t payload hput hN h32 p h' rest hp
  | refs l =>
    exact getField_put_refs size_max list_max S call N hcall end_ enderr hend f l v0 hidx hv
      t payload hput hN h32 p h' rest hp

theorem getField_skip (size_max list_max : Nat) (S : Schema) (call : Callee) (end_ : Nat)
    (enderr : Errno) (f : Field) (v0 : Val) (c : Cur) (hidx : f.Index ≤ 126)
    (hno : c.header % 128 ≠ f.Index) :
    getField size_max list_max S call end_ enderr f v0 c = (v0, .ok c) := by
  have h1 : ¬ c.header = f.Index := by intro h; rw [h] at hno; omega
  have h2 : ¬ c.header = f.Index ||| 128 := by
    intro h; rw [h, idx_or_128 _ hidx] at hno; omega
  have h3 : ¬ c.header &&& 127 = f.Index := by rw [and_127]; exact hno
  unfold getField
  split <;> simp only [h1, h2, h3, if_false]

/-! ### Round trip: all fields of a struct -/

theorem toU32_eq_zero (x : Int) (h1 : -2 ^ 31 ≤ x) (h2 : x < 2 ^ 31) (h : toU32 x = 0) :
    x = 0 := by
  have := toI32_toU32 x h1 h2
  rw [h] at this
  simpa [toI32] using this.symm

theorem toU64_eq_zero (x : Int) (h1 : -2 ^ 63 ≤ x) (h2 : x < 2 ^ 63) (h : toU64 x = 0) :
    x = 0 := by
  have := toI64_toU64 x h1 h2
  rw [h] at this
  simpa [toI64] using this.symm

theorem ite_cons_eq_nil {c : Prop} [Decidable c] {a b : Nat} {as bs : List Nat} :
    (if c then a :: as else b :: bs) = [] ↔ False := by
  split <;> simp

theorem backVal_of_absent (list_max : Nat) (S : Schema) (f : Field) (v : Val)
    (hv : allVal (typed list_max S) S f v = true) (hput : putField S f v = []) :
    backVal true S f v = zeroVal f := by
  obtain ⟨idx, ty, tl⟩ := f
  cases v with
  | bool b =>
    cases ty <;> simp [allVal, typed] at hv
    cases b <;> simp [putField] at hput
    simp [backVal, zeroVal]
  | uint x =>
    cases ty <;> simp [allVal, typed] at hv <;>
      (simp [putField, ite_cons_eq_nil] at hput
       subst hput
       simp [backVal, zeroVal])
  | int x =>
    cases ty <;> simp [allVal, typed] at hv
    · simp [putField, ite_cons_eq_nil] at hput
      have := toU32_eq_zero x (by omega) (by omega) hput
      subst this
      simp [backVal, zeroVal]
    · simp [putField, ite_cons_eq_nil] at hput
      have := toU64_eq_zero x (by omega) (by omega) hput
      subst this
      simp [backVal, zeroVal]
  | float bits =>
    cases ty <;> cases tl <;> simp [allVal, typed] at hv <;>
      (simp [putField] at hput
       simp [backVal, zeroVal, hput])
  | floats l =>
    cases ty <;> cases tl <;> simp [allVal, typed] at hv <;>
      (simp [putField] at hput
       subst hput
       simp [backVal, zeroVal])
  | timespec s ns =>
    cases ty <;> simp [allVal, typed] at hv
    simp [putField, ite_cons_eq_nil] at hput
    obtain ⟨rfl, rfl⟩ := hput
    simp [backVal, zeroVal]
  | blob a =>
    cases ty <;> cases tl <;> simp [allVal, typed] at hv <;>
      (simp [putField] at hput
       subst hput
       simp [backVal, zeroVal])
  | blobs l =>
    cases ty <;> cases tl <;> simp [allVal, typed] at hv <;>
      (simp [putField] at hput
       subst hput
       simp [backVal, zeroVal])
  | ref r =>
    cases r with
    | none =>
      cases ty <;> cases tl <;> simp [allVal, typed] at hv
      simp [backVal, zeroVal]
    | some r =>
      cases ty <;> cases tl <;> simp [allVal, typed] at hv
      simp [putField] at hput
  | refs l =>
    cases ty <;> cases tl <;> simp [allVal, typed] at hv
    simp [putField] at hput
    subst hput
    simp [backVal, backRefs, zeroVal]

theorem putFields_head (S : Schema) :
    ∀ (fs : List Field) (vs : List Val) (header : Nat) (d rest : List Nat),
      (∀ g ∈ fs, g.Index ≤ 126) → header :: d = putFields S fs vs ++ 127 :: rest →
      header = 127 ∨ ∃ g ∈ fs, header % 128 = g.Index
  | [], _, header, d, rest, _, h => by
    simp only [putFields, List.nil_append, List.cons.injEq] at h
    exact Or.inl h.1
  | _ :: _, [], header, d, rest, _, h => by
    simp only [putFields, List.nil_append, List.cons.injEq] at h
    exact Or.inl h.1
  | g :: fs, v :: vs, header, d, rest, hidx, h => by
    simp only [putFields] at h
    cases hp : putField S g v with
    | nil =>
      rw [hp, List.nil_append] at h
      rcases putFields_head S fs vs header d rest
        (fun g' hg' => hidx g' (List.mem_cons_of_mem _ hg')) h with h1 | ⟨g', hg', h1⟩
      · exact Or.inl h1
      · exact Or.inr ⟨g', List.mem_cons_of_mem _ hg', h1⟩
    | cons t payload =>
      rw [hp] at h
      simp only [List.cons_append, List.cons.injEq] at h
      have := head_bounds g (hidx g (List.mem_cons_self _ _)) t
        (putField_head S g v t payload hp)
      exact Or.inr ⟨g, List.mem_cons_self _ _, by rw [h.1]; exact this.1⟩

theorem getFields_put (size_max list_max : Nat) (S : Schema) (call : Callee) (N : Nat)
    (hcall : CallRT size_max list_max S call N) (end_ : Nat) (enderr : Errno)
    (hend : end_ ≤ size_max) :
    ∀ (fields : List Field) (vals : List Val), validFields fields →
      vals.length = fields.length → allFields (typed list_max S) S fields vals = true →
      ∀ (header p : Nat) (d rest : List Nat),
        header :: d = putFields S fields vals ++ 127 :: rest →
        (putFields S fields vals).length ≤ N → (putFields S fields vals).length < 2 ^ 32 →
        p + (putFields S fields vals).length ≤ end_ →
        getFields size_max list_max S call end_ enderr fields (zeroRec fields) ⟨header, p, d⟩
          = (backFields true S fields vals,
              .ok ⟨127, p + (putFields S fields vals).length, rest⟩)
  | [], [], _, _, _, header, p, d, rest, h, _, _, _ => by
    simp only [putFields, List.nil_append, List.cons.injEq] at h
    obtain ⟨rfl, rfl⟩ := h
    simp [getFields, zeroRec, backFields, putFields]
  | [], _ :: _, _, hlen, _, _, _, _, _, _, _, _, _ => by simp at hlen
  | _ :: _, [], _, hlen, _, _, _, _, _, _, _, _, _ => by simp at hlen
  | f :: fs, v :: vs, hvalid, hlen, hall, header, p, d, rest, h, hN, h32, hp => by
    obtain ⟨hnodup, hidx⟩ := hvalid
    simp only [List.map_cons, List.nodup_cons] at hnodup
    have hvalid' : validFields fs :=
      ⟨hnodup.2, fun g hg => hidx g (List.mem_cons_of_mem _ hg)⟩
    simp only [allFields, Bool.and_eq_true] at hall
    have hfi := hidx f (List.mem_cons_self _ _)
    simp only [putFields] at h hN h32 hp ⊢
    simp only [zeroRec, List.map_cons, getFields, backFields]
    cases hput : putField S f v with
    | nil =>
      rw [hput] at h hN h32 hp
      simp only [List.nil_append] at h hN h32 hp ⊢
      have hno : header % 128 ≠ f.Index := by
        rcases putFields_head S fs vs header d rest hvalid'.2 h with h1 | ⟨g, hg, h1⟩
        · rw [h1]; omega
        · rw [h1]; intro hcon
          exact hnodup.1 (List.mem_map.2 ⟨g, hg, hcon⟩)
      rw [getField_skip size_max list_max S call end_ enderr f (zeroVal f) ⟨header, p, d⟩ hfi
        hno]
      simp only []
      have ih := getFields_put size_max list_max S call N hcall end_ enderr hend fs vs hvalid'
        (by simpa using hlen) hall.2 header p d rest h hN h32 hp
      simp only [zeroRec] at ih
      rw [ih, backVal_of_absent list_max S f v hall.1 hput]
    | cons t payload =>
      rw [hput] at h hN h32 hp
      simp only [List.length_append, List.length_cons] at hN h32 hp
      simp only [List.cons_append, List.cons.injEq] at h
      obtain ⟨rfl, rfl⟩ := h
      cases hE : putFields S fs vs ++ 127 :: rest with
      | nil => simp at hE
      | cons h' rest' =>
        rw [List.append_assoc, hE]
        rw [getField_put size_max list_max S call N hcall end_ enderr hend f v (zeroVal f) hfi
          hall.1 header payload hput (by omega) (by omega) p h' rest' (by omega)]
        simp only []
        have ih := getFields_put size_max list_max S call N hcall end_ enderr hend fs vs
          hvalid' (by simpa using hlen) hall.2 h' (p + payload.length + 1) rest' rest hE.symm
          (by omega) (by omega) (by omega)
        simp only [zeroRec] at ih
        rw [ih]
        simp only [List.length_append, List.length_cons]
        have : p + payload.length + 1 + (putFields S fs vs).length
            = p + (payload.length + 1 + (putFields S fs vs).length) := by omega
        rw [this]

/-! ### Round trip: a whole struct -/

theorem marshal_length (S : Schema) (sid : Nat) (o : Rec) :
    (marshal S sid o).length = (putFields S (S sid) o).length + 1 := by
  simp [marshal]

theorem unmarshalRun_marshal (size_max list_max : Nat) (S : Schema) (call : Callee) (N : Nat)
    (hcall : CallRT size_max list_max S call N) (s : Nat) (hvalid : validFields (S s))
    (r : Rec) (d : List Nat) (end_ : Nat) (enderr : Errno)
    (hwf : wellFormed list_max S (S s) r = true)
    (hN : (marshal S s r).length ≤ N + 1) (hend : (marshal S s r).length ≤ end_)
    (hmax : end_ ≤ size_max) (h32 : (marshal S s r).length < 2 ^ 32) :
    unmarshalRun size_max list_max S call (S s) (zeroRec (S s)) (marshal S s r ++ d) end_ enderr
      = (backFields true S (S s) r, .ok (marshal S s r).length) := by
  simp only [wellFormed, Bool.and_eq_true, decide_eq_true_eq] at hwf
  rw [marshal_length] at hN hend h32 ⊢
  unfold unmarshalRun
  rw [if_neg (by omega)]
  cases hE : marshal S s r ++ d with
  | nil => simp [marshal] at hE
  | cons header d' =>
    simp only [next_cons]
    have hE' : header :: d' = putFields S (S s) r ++ 127 :: d := by
      rw [← hE]; simp [marshal]
    rw [getFields_put size_max list_max S call N hcall end_ enderr hmax (S s) r hvalid hwf.1
      hwf.2 header (0 + 1) d' d hE' (by omega) (by omega) (by omega)]
    simp only [ne_eq, not_true_eq_false, if_false]
    congr 2
    omega

theorem callRT_unmarshalAux (size_max list_max : Nat) (S : Schema)
    (hS : ∀ s, validFields (S s)) :
    ∀ k, CallRT size_max list_max S (unmarshalAux size_max list_max S k) k
  | 0 => by
    intro s r d datalen _ hN _ _ _
    rw [marshal_length] at hN
    omega
  | k + 1 => by
    intro s r d datalen hwf hN hlen hmax h32
    show unmarshalRun size_max list_max S (unmarshalAux size_max list_max S k) (S s)
      (zeroRec (S s)) (marshal S s r ++ d) (if datalen < size_max then datalen else size_max)
      (if datalen < size_max then Errno.EWOULDBLOCK else Errno.EFBIG) = _
    exact unmarshalRun_marshal size_max list_max S _ k
      (callRT_unmarshalAux size_max list_max S hS k) s (hS s) r d _ _ hwf hN
      (by split <;> omega) (by split <;> omega) h32

/-- Decoding the octets of a well-formed struct within the limits gives the struct back, up
to the normalization of timestamps and the sign of zero, and reports the octets read. -/
theorem unmarshal_marshal (size_max list_max : Nat) (S : Schema) (sid : Nat) (v : Rec)
    (hS : ∀ s, validFields (S s)) (hwf : wellFormed list_max S (S sid) v = true)
    (hmax : (marshal S sid v).length ≤ size_max) (h32 : (marshal S sid v).length < 2 ^ 32) :
    unmarshal size_max list_max S sid (zeroRec (S sid)) (marshal S sid v)
        (marshal S sid v).length
      = (backFields true S (S sid) v, .ok (marshal S sid v).length) := by
  have := callRT_unmarshalAux size_max list_max S hS (marshal S sid v).length sid v []
    (marshal S sid v).length hwf (Nat.le_refl _) (Nat.le_refl _) hmax h32
  simpa [unmarshal] using this

/-! ### Round trip: what is read back -/

mutual
theorem backVal_eq_of_notNegZero (S : Schema) (f : Field) :
    ∀ v : Val, allVal notNegZero S f v = true → backVal true S f v = backVal false S f v
  | .bool _, _ => rfl
  | .uint _, _ => rfl
  | .int _, _ => rfl
  | .float bits, h => by
    simp only [allVal, notNegZero] at h
    simp only [backVal]
    split at h <;> simp_all [isZero32, isZero64]
  | .floats _, _ => rfl
  | .timespec _ _, _ => rfl
  | .blob _, _ => rfl
  | .blobs _, _ => rfl
  | .ref none, _ => rfl
  | .ref (some r), h => by
    simp only [allVal, Bool.and_eq_true] at h
    simp only [backVal]
    split
    · rename_i s hs
      rw [hs] at h
      simp only at h
      rw [backFields_eq_of_notNegZero S (S s) r h.2]
    · rfl
  | .refs l, h => by
    simp only [allVal, Bool.and_eq_true] at h
    simp only [backVal]
    split
    · rename_i s hs
      rw [hs] at h
      simp only at h
      rw [backRefs_eq_of_notNegZero S (S s) l h.2]
    · rfl

theorem backFields_eq_of_notNegZero (S : Schema) :
    ∀ (fields : List Field) (vals : List Val), allFields notNegZero S fields vals = true →
      backFields true S fields vals = backFields false S fields vals
  | [], _, _ => by simp [backFields]
  | _ :: _, [], _ => by simp [backFields]
  | f :: fs, v :: vs, h => by
    simp only [allFields, Bool.and_eq_true] at h
    simp only [backFields]
    rw [backVal_eq_of_notNegZero S f v h.1, backFields_eq_of_notNegZero S fs vs h.2]

theorem backRefs_eq_of_notNegZero (S : Schema) (fields : List Field) :
    ∀ l : List (List Val), allRefs notNegZero S fields l = true →
      backRefs true S fields l = backRefs false S fields l
  | [], _ => rfl
  | a :: as, h => by
    simp only [allRefs, Bool.and_eq_true] at h
    simp only [backRefs]
    rw [backFields_eq_of_notNegZero S fields a h.1, backRefs_eq_of_notNegZero S fields as h.2]
end

/-! ### Round trip: writing what was read back -/

theorem backRefs_length (z : Bool) (S : Schema) (fields : List Field) :
    ∀ l : List (List Val), (backRefs z S fields l).length = l.length
  | [] => rfl
  | a :: as => by simp [backRefs, backRefs_length z S fields as]

theorem putField_float_back (S : Schema) (f : Field) (bits : Nat) :
    putField S f (backVal true S f (.float bits)) = putField S f (.float bits) := by
  obtain ⟨idx, ty, tl⟩ := f
  cases ty <;> cases tl <;> simp only [backVal, putField, Bool.true_and]
  · by_cases h : isZero32 bits = true
    · have h0 : isZero32 0 = true := rfl
      simp [h, h0]
    · simp [h]
  · by_cases h : isZero64 bits = true
    · have h0 : isZero64 0 = true := rfl
      simp [h, h0]
    · simp [h]

theorem putField_timespec_back (S : Schema) (f : Field) (s ns : Int)
    (h : notZeroNorm f (.timespec s ns) = true) :
    putField S f (backVal true S f (.timespec s ns)) = putField S f (.timespec s ns) := by
  simp only [backVal]
  split
  · rename_i hnz
    have hb := normNsec_bounds ns
    have hn := normSec_of_norm (normSec s ns) (normNsec ns) hb.1 hb.2
    simp only [notZeroNorm, Bool.or_eq_true, Bool.and_eq_true, beq_iff_eq, Bool.not_eq_true',
      Bool.and_eq_false_iff, beq_eq_false_iff_ne, ne_eq] at h
    have hnz' : normSec s ns ≠ 0 ∨ normNsec ns ≠ 0 := by
      rcases h with ⟨h1, h2⟩ | h
      · rcases hnz with h3 | h3
        · exact absurd h1 h3
        · exact absurd h2 h3
      · exact h
    simp only [putField]
    split
    · rw [if_pos hnz', if_pos hnz, hn.1, hn.2]
    · rfl
  · rfl

mutual
theorem putField_backVal (S : Schema) (f : Field) :
    ∀ v : Val, allVal notZeroNorm S f v = true →
      putField S f (backVal true S f v) = putField S f v
  | .bool _, _ => rfl
  | .uint _, _ => rfl
  | .int _, _ => rfl
  | .float bits, _ => putField_float_back S f bits
  | .floats _, _ => rfl
  | .timespec s ns, h => putField_timespec_back S f s ns (by simpa [allVal] using h)
  | .blob _, _ => rfl
  | .blobs _, _ => rfl
  | .ref none, _ => rfl
  | .ref (some r), h => by
    simp only [allVal, Bool.and_eq_true] at h
    obtain ⟨idx, ty, tl⟩ := f
    cases ty <;> try rfl
    rename_i s
    simp only at h
    cases tl
    · simp only [backVal, putField, putFields_backFields S (S s) r h.2]
    · simp only [backVal, putField]
  | .refs l, h => by
    simp only [allVal, Bool.and_eq_true] at h
    obtain ⟨idx, ty, tl⟩ := f
    cases ty <;> try rfl
    rename_i s
    simp only at h
    cases tl
    · simp only [backVal, putField]
    · simp only [backVal, putField, putRefs_backRefs S (S s) l h.2, backRefs_length]

theorem putFields_backFields (S : Schema) :
    ∀ (fields : List Field) (vals : List Val), allFields notZeroNorm S fields vals = true →
      putFields S fields (backFields true S fields vals) = putFields S fields vals
  | [], _, _ => by simp [backFields, putFields]
  | _ :: _, [], _ => by simp [backFields, putFields]
  | f :: fs, v :: vs, h => by
    simp only [allFields, Bool.and_eq_true] at h
    simp only [backFields, putFields]
    rw [putField_backVal S f v h.1, putFields_backFields S fs vs h.2]

theorem putRefs_backRefs (S : Schema) (fields : List Field) :
    ∀ l : List (List Val), allRefs notZeroNorm S fields l = true →
      putRefs S fields (backRefs true S fields l) = putRefs S fields l
  | [], _ => rfl
  | a :: as, h => by
    simp only [allRefs, Bool.and_eq_true] at h
    simp only [backRefs, putRefs]
    rw [putFields_backFields S fields a h.1, putRefs_backRefs S fields as h.2]
end

/-! ### C1: round trip -/

/-- C1 (amended): for a schema whose field indices are pairwise different and at most 126, and
a well-formed value `v` whose lists at every depth have at most `list_max` elements, whose
encoding has at most `size_max` octets and fewer than `2 ^ 32`, and which holds no `float` or
`double` of the bit pattern of negative zero, `unmarshal` of the octets `marshal` writes, with
`datalen` the number of octets written, succeeds, reports exactly that number of octets read,
and stores `v` with every timestamp replaced by its normalized pair of seconds and
nanoseconds; every other member, NaN payloads included, is stored bit for bit. -/
theorem round_trip (size_max list_max : Nat) (S : Schema) (sid : Nat) (v : Rec)
    (hS : ∀ s, validFields (S s)) (hwf : wellFormed list_max S (S sid) v = true)
    (hmax : (marshal S sid v).length ≤ size_max) (h32 : (marshal S sid v).length < 2 ^ 32)
    (hz : allFields notNegZero S (S sid) v = true) :
    unmarshal size_max list_max S sid (zeroRec (S sid)) (marshal S sid v)
        (marshal S sid v).length
      = (normalize S (S sid) v, .ok (marshal S sid v).length) := by
  rw [unmarshal_marshal size_max list_max S sid v hS hwf hmax h32, normalize,
    backFields_eq_of_notNegZero S (S sid) v hz]

/-- The round trip of C1 on a value of schema `O` with a text, a float list and the
timestamp (1, 1000000500), which is read back as (2, 500). -/
theorem round_trip_witness :
    unmarshal (2 ^ 24) (2 ^ 16) schemaO 0 (zeroRec (schemaO 0))
        (marshal schemaO 0 (valueO 300 [104, 105] 1 1000000500 [0x3F800000, 0x7FC00001]))
        (marshal schemaO 0
          (valueO 300 [104, 105] 1 1000000500 [0x3F800000, 0x7FC00001])).length
      = (normalize schemaO (schemaO 0)
          (valueO 300 [104, 105] 1 1000000500 [0x3F800000, 0x7FC00001]),
        .ok (marshal schemaO 0
          (valueO 300 [104, 105] 1 1000000500 [0x3F800000, 0x7FC00001])).length) :=
  round_trip (2 ^ 24) (2 ^ 16) schemaO 0
    (valueO 300 [104, 105] 1 1000000500 [0x3F800000, 0x7FC00001])
    (fun _ => by unfold validFields schemaO; decide) (by decide) (by decide) (by decide)
    (by decide)

/-- C1 as stated fails on a `float` of negative zero: for schema `F` and
`v = {f: -0.0}` (bit pattern `0x80000000`), `marshal_len` returns 1, `marshal` writes the
single octet `0x7F` because the test `o->f != 0.0f` is false, and `unmarshal` of that octet
succeeds with 1 octet read and leaves `f` at positive zero, which is not the bit pattern
of `v`. -/
theorem round_trip_negative_zero :
    marshal_len (2 ^ 24) (2 ^ 16) schemaF 0
      [.float 0x80000000, .float 0, .timespec 0 0, .ref none] = (1, none) ∧
    marshal schemaF 0 [.float 0x80000000, .float 0, .timespec 0 0, .ref none] = [127] ∧
    unmarshal (2 ^ 24) (2 ^ 16) schemaF 0 (zeroRec (schemaF 0))
      (marshal schemaF 0 [.float 0x80000000, .float 0, .timespec 0 0, .ref none]) 1
      = ([.float 0, .float 0, .timespec 0 0, .ref none], .ok 1) ∧
    (unmarshal (2 ^ 24) (2 ^ 16) schemaF 0 (zeroRec (schemaF 0))
      (marshal schemaF 0 [.float 0x80000000, .float 0, .timespec 0 0, .ref none]) 1).1
      ≠ [.float 0x80000000, .float 0, .timespec 0 0, .ref none] := by
  refine ⟨rfl, rfl, rfl, ?_⟩
  rw [show (unmarshal (2 ^ 24) (2 ^ 16) schemaF 0 (zeroRec (schemaF 0))
      (marshal schemaF 0 [.float 0x80000000, .float 0, .timespec 0 0, .ref none]) 1).1
      = [.float 0, .float 0, .timespec 0 0, .ref none] from rfl]
  simp

/-! ### C6: idempotent normalization -/

/-- C6 (amended): for a schema whose field indices are pairwise different and at most 126, and
a well-formed value `v` whose lists at every depth have at most `list_max` elements, whose
encoding has at most `size_max` octets and fewer than `2 ^ 32`, and which holds no
timestamp other than (0, 0) that normalizes to (0, 0), `marshal` of the struct that
`unmarshal` stores for the octets of `marshal v` writes the octets of `marshal v` again;
values holding a `float` or `double` of negative zero are included. -/
theorem idempotent_normalization (size_max list_max : Nat) (S : Schema) (sid : Nat) (v : Rec)
    (hS : ∀ s, validFields (S s)) (hwf : wellFormed list_max S (S sid) v = true)
    (hmax : (marshal S sid v).length ≤ size_max) (h32 : (marshal S sid v).length < 2 ^ 32)
    (hts : allFields notZeroNorm S (S sid) v = true) :
    marshal S sid
        (unmarshal size_max list_max S sid (zeroRec (S sid)) (marshal S sid v)
          (marshal S sid v).length).1
      = marshal S sid v := by
  rw [unmarshal_marshal size_max list_max S sid v hS hwf hmax h32]
  simp only [marshal, putFields_backFields S (S sid) v hts]

/-- The fixpoint of C6 on a value of schema `F` with a `float` of negative zero, a NaN
`double`, the timestamp (-3, -1) and a nested struct holding a `double` of negative zero. -/
theorem idempotent_normalization_witness :
    marshal schemaF 0
        (unmarshal (2 ^ 24) (2 ^ 16) schemaF 0 (zeroRec (schemaF 0))
          (marshal schemaF 0 [.float 0x80000000, .float 0x7FF8000000000001, .timespec (-3) (-1),
            .ref (some [.float 0x3F800000, .float 0x8000000000000000, .timespec 0 0,
              .ref none])])
          (marshal schemaF 0 [.float 0x80000000, .float 0x7FF8000000000001,
            .timespec (-3) (-1),
            .ref (some [.float 0x3F800000, .float 0x8000000000000000, .timespec 0 0,
              .ref none])]).length).1
      = marshal schemaF 0 [.float 0x80000000, .float 0x7FF8000000000001, .timespec (-3) (-1),
          .ref (some [.float 0x3F800000, .float 0x8000000000000000, .timespec 0 0,
            .ref none])] :=
  idempotent_normalization (2 ^ 24) (2 ^ 16) schemaF 0
    [.float 0x80000000, .float 0x7FF8000000000001, .timespec (-3) (-1),
      .ref (some [.float 0x3F800000, .float 0x8000000000000000, .timespec 0 0, .ref none])]
    (fun _ => by unfold validFields schemaF; decide) (by decide) (by decide) (by decide)
    (by decide)

/-- C6 as stated fails on the timestamp (-1, 10^9): for schema `O` and
`v = {ts: (tv_sec -1, tv_nsec 1000000000)}`, `marshal_len` returns 10 and `marshal` writes
the compact timestamp of (0, 0), ten octets, because the test `s || ns` is made before the
normalization; `unmarshal` stores (0, 0), and `marshal` of that struct writes the single
octet `0x7F`. -/
theorem idempotent_normalization_zero_timestamp :
    marshal_len (2 ^ 24) (2 ^ 16) schemaO 0 (valueO 0 [] (-1) 1000000000 []) = (10, none) ∧
    marshal schemaO 0 (valueO 0 [] (-1) 1000000000 []) = [2, 0, 0, 0, 0, 0, 0, 0, 0, 127] ∧
    unmarshal (2 ^ 24) (2 ^ 16) schemaO 0 (zeroRec (schemaO 0))
      (marshal schemaO 0 (valueO 0 [] (-1) 1000000000 [])) 10 = (valueO 0 [] 0 0 [], .ok 10) ∧
    marshal schemaO 0
      (unmarshal (2 ^ 24) (2 ^ 16) schemaO 0 (zeroRec (schemaO 0))
        (marshal schemaO 0 (valueO 0 [] (-1) 1000000000 [])) 10).1 = [127] ∧
    marshal schemaO 0
      (unmarshal (2 ^ 24) (2 ^ 16) schemaO 0 (zeroRec (schemaO 0))
        (marshal schemaO 0 (valueO 0 [] (-1) 1000000000 [])) 10).1
      ≠ marshal schemaO 0 (valueO 0 [] (-1) 1000000000 []) := by
  refine ⟨rfl, rfl, rfl, rfl, ?_⟩
  decide

/-! ### C11: schema mismatch -/

theorem getField_of_not_accepts (size_max list_max : Nat) (S : Schema) (call : Callee)
    (end_ : Nat) (enderr : Errno) (f : Field) (v : Val) (c : Cur)
    (h : accepts f c.header = false) :
    getField size_max list_max S call end_ enderr f v c = (v, .ok c) := by
  obtain ⟨idx, ty, tl⟩ := f
  cases ty <;> cases tl <;> simp [accepts] at h <;> simp [getField, h]

set_option maxRecDepth 100000 in
theorem and_127_cases : ∀ h : Fin 256, h.val = h.val &&& 127 ∨ h.val = (h.val &&& 127) ||| 128 := by
  decide

theorem accepts_of_ne (f : Field) (header : Nat) (hoct : header < 256)
    (h1 : header ≠ f.Index) (h2 : header ≠ f.Index ||| 128) : accepts f header = false := by
  have h3 : header &&& 127 ≠ f.Index := by
    intro h
    rcases and_127_cases ⟨header, hoct⟩ with h' | h'
    · simp only [h] at h'; exact h1 h'
    · simp only [h] at h'; exact h2 h'
  obtain ⟨idx, ty, tl⟩ := f
  cases ty <;> simp [accepts] <;> simp_all

theorem getFields_of_not_accepts (size_max list_max : Nat) (S : Schema) (call : Callee)
    (end_ : Nat) (enderr : Errno) (c : Cur) :
    ∀ (fields : List Field) (o : Rec), (∀ g ∈ fields, accepts g c.header = false) →
      getFields size_max list_max S call end_ enderr fields o c = (o, .ok c)
  | [], o, _ => by simp [getFields]
  | _ :: _, [], _ => by simp [getFields]
  | g :: fs, v :: vs, h => by
    unfold getFields
    rw [getField_of_not_accepts size_max list_max S call end_ enderr g v c
      (h g (List.mem_cons_self _ _))]
    simp only []
    rw [getFields_of_not_accepts size_max list_max S call end_ enderr c fs vs
      (fun g' hg' => h g' (List.mem_cons_of_mem _ hg'))]

/-- The fields before number `i` are decoded first: the run over all fields is the run over
the first `i` of them followed by the run over the others. -/
theorem getFields_split (size_max list_max : Nat) (S : Schema) (call : Callee)
    (end_ : Nat) (enderr : Errno) :
    ∀ (i : Nat) (fields : List Field) (o : Rec) (c0 c : Cur),
      (getFields size_max list_max S call end_ enderr (fields.take i) o c0).2 = .ok c →
      (getFields size_max list_max S call end_ enderr fields o c0).2 =
        (getFields size_max list_max S call end_ enderr (fields.drop i) (o.drop i) c).2
  | 0, fields, o, c0, c, h => by
    simp only [List.take_zero, getFields, Except.ok.injEq] at h
    subst h
    simp
  | i + 1, [], o, c0, c, h => by
    simp only [List.take_nil, getFields, Except.ok.injEq] at h
    subst h
    simp [getFields]
  | i + 1, g :: fs, [], c0, c, h => by
    simp only [getFields, Except.ok.injEq] at h
    subst h
    simp [getFields]
  | i + 1, g :: fs, v :: vs, c0, c, h => by
    simp only [List.take_succ_cons] at h
    unfold getFields at h
    rw [List.drop_succ_cons, List.drop_succ_cons]
    conv_lhs => unfold getFields
    rcases hg : getField size_max list_max S call end_ enderr g v c0 with ⟨v', h' | c'⟩
    · rw [hg] at h; simp at h
    · rw [hg] at h
      simp only [] at h ⊢
      exact getFields_split size_max list_max S call end_ enderr i fs vs c' c h

/-- C11: when `unmarshal` has decoded the fields before number `i` within bounds and the
octet then in `header` is not 0x7F and is neither the index nor the index with the high bit
set of any field from number `i` on (so also when it is the tag of a field already passed),
`unmarshal` returns 0 with `errno = EILSEQ`. -/
theorem schema_mismatch (size_max list_max : Nat) (S : Schema) (sid : Nat) (o : Rec)
    (data : List Nat) (datalen i : Nat) (c0 c : Cur)
    (hend : 0 < endOf size_max datalen) (h0 : next 0 data = .ok c0)
    (hrun : (getFields size_max list_max S (calleeOf size_max list_max S datalen)
      (endOf size_max datalen) (limiter size_max datalen) ((S sid).take i) o c0).2 = .ok c)
    (hoct : c.header < 256) (h127 : c.header ≠ 127)
    (hno : ∀ g ∈ (S sid).drop i, c.header ≠ g.Index ∧ c.header ≠ g.Index ||| 128) :
    (unmarshal size_max list_max S sid o data datalen).2 = .error (.fail .EILSEQ false) := by
  have h1 := getFields_split size_max list_max S (calleeOf size_max list_max S datalen)
    (endOf size_max datalen) (limiter size_max datalen) i (S sid) o c0 c hrun
  rw [getFields_of_not_accepts size_max list_max S _ _ _ c ((S sid).drop i) (o.drop i)
    (fun g hg => accepts_of_ne g c.header hoct (hno g hg).1 (hno g hg).2)] at h1
  rw [unmarshal, unmarshalAux_eq, unmarshalRun, if_neg (by omega), h0]
  simp only []
  rcases hr : getFields size_max list_max S (calleeOf size_max list_max S datalen)
    (endOf size_max datalen) (limiter size_max datalen) (S sid) o c0 with ⟨o', h' | c'⟩
  · rw [hr] at h1; simp at h1
  · rw [hr] at h1
    simp only [Except.ok.injEq] at h1
    subst h1
    simp [h127]

/-- The two inputs of C11 on schema `O`: a wrong terminator after field 0, and the tag of
field 0 after field 1. -/
theorem schema_mismatch_witness :
    (unmarshal (2 ^ 24) (2 ^ 16) schemaO 0 (zeroRec (schemaO 0)) [0x00, 0xAC, 0x02, 0x55] 4).2
      = .error (.fail .EILSEQ false) ∧
    (unmarshal (2 ^ 24) (2 ^ 16) schemaO 0 (zeroRec (schemaO 0))
      [0x01, 0x01, 0x61, 0x00, 0x05, 0x7F] 6).2 = .error (.fail .EILSEQ false) :=
  ⟨schema_mismatch (2 ^ 24) (2 ^ 16) schemaO 0 (zeroRec (schemaO 0)) [0x00, 0xAC, 0x02, 0x55] 4
      1 ⟨0, 1, [0xAC, 0x02, 0x55]⟩ ⟨0x55, 4, []⟩ (by decide) (by rfl) (by rfl) (by decide)
      (by decide) (by decide),
   schema_mismatch (2 ^ 24) (2 ^ 16) schemaO 0 (zeroRec (schemaO 0))
      [0x01, 0x01, 0x61, 0x00, 0x05, 0x7F] 6
      2 ⟨1, 1, [0x01, 0x61, 0x00, 0x05, 0x7F]⟩ ⟨0, 4, [0x05, 0x7F]⟩ (by decide) (by rfl)
      (by rfl) (by decide) (by decide) (by decide)⟩

/-! ### The encodings of `marshal` and the encodings of the format -/

theorem be32_eq_bigEndian (x : Nat) : be32 x = bigEndian 4 x := by
  simp [be32, bigEndian, Nat.shiftRight_eq_div_pow]

theorem be64_eq_bigEndian (x : Nat) : be64 x = bigEndian 8 x := by
  simp [be64, bigEndian, Nat.shiftRight_eq_div_pow]

theorem leb128Aux_fuel : ∀ (n m x : Nat), x ≤ n → x ≤ m → leb128Aux n x = leb128Aux m x
  | 0, 0, x, _, _ => rfl
  | 0, m + 1, x, h, _ => by
    have : x = 0 := by omega
    subst this
    simp [leb128Aux]
  | n + 1, 0, x, _, h => by
    have : x = 0 := by omega
    subst this
    simp [leb128Aux]
  | n + 1, m + 1, x, hn, hm => by
    unfold leb128Aux
    split
    · rfl
    · rw [leb128Aux_fuel n m (x / 128) (by omega) (by omega)]

theorem leb128_eq (x : Nat) :
    leb128 x = if x < 128 then [x] else (x % 128 + 128) :: leb128 (x / 128) := by
  unfold leb128
  cases x with
  | zero => rfl
  | succ n =>
    rw [leb128Aux]
    split
    · rfl
    · rw [leb128Aux_fuel n ((n + 1) / 128) ((n + 1) / 128) (by omega) (le_refl _)]

theorem tagHi_eq_or (f : Field) (h : f.Index < 128) : tagHi f = f.Index ||| 128 := by
  unfold tagHi
  rw [or_128_of_lt _ h]
  omega

theorem tag_eq_of_lt (f : Field) (h : f.Index < 128) : tag f = f.Index := by
  unfold tag
  omega

/-- The varint loop of `marshal` writes the LEB128 varint while it has fewer than `k`
octets in front of the last, and otherwise `k` octets of it and the remaining bits. -/
theorem putVarint_eq : ∀ (k x : Nat),
    putVarint k x =
      if x < 128 ^ k then leb128 x else (leb128 x).take k ++ [(x / 128 ^ k) % 256]
  | 0, x => by
    by_cases h : x = 0
    · subst h; rfl
    · simp [putVarint, h]
  | k + 1, x => by
    unfold putVarint
    rw [leb128_eq x]
    have hp : 0 < 128 ^ k := by positivity
    have e7 : x >>> 7 = x / 128 := by rw [Nat.shiftRight_eq_div_pow]
    by_cases h : x < 128
    · have : x < 128 ^ (k + 1) := by
        calc x < 128 := h
          _ = 128 * 1 := rfl
          _ ≤ 128 * 128 ^ k := Nat.mul_le_mul_left _ hp
          _ = 128 ^ (k + 1) := by rw [Nat.pow_succ, Nat.mul_comm]
      rw [if_neg (by omega), if_pos h, if_pos this]
      congr 1
      omega
    · rw [if_pos (by omega), if_neg h, putVarint_eq k (x >>> 7), or_128_mod, e7]
      have hlt : x / 128 < 128 ^ k ↔ x < 128 ^ (k + 1) := by
        rw [Nat.div_lt_iff_lt_mul (by norm_num), Nat.pow_succ]
      have hdiv : x / 128 / 128 ^ k = x / 128 ^ (k + 1) := by
        rw [Nat.div_div_eq_div_mul, Nat.pow_succ, Nat.mul_comm]
      by_cases h2 : x < 128 ^ (k + 1)
      · rw [if_pos (hlt.2 h2), if_pos h2]
      · rw [if_neg (fun h' => h2 (hlt.1 h')), if_neg h2, hdiv]
        simp

theorem putVarint_10 (x : Nat) (h : x < 2 ^ 64) : putVarint 10 x = leb128 x := by
  rw [putVarint_eq, if_pos (by norm_num; omega)]

theorem putVarint_8 (x : Nat) (h : x < 2 ^ 64) : putVarint 8 x = varint9 x := by
  rw [putVarint_eq, varint9, show (128 : Nat) ^ 8 = 2 ^ 56 from by norm_num]
  split
  · rfl
  · congr 2
    apply Nat.mod_eq_of_lt
    rw [Nat.div_lt_iff_lt_mul (by norm_num)]
    norm_num
    omega

/-! ### C12: timestamp normalization -/

theorem normalized_sum (s ns : Int) :
    normSec s ns * 1000000000 + normNsec ns = s * 1000000000 + ns := by
  have h := Int.tmod_add_tdiv ns 1000000000
  unfold normSec normNsec
  simp only []
  split <;> omega

theorem toU64_lt_iff (v : Int) (h1 : -2 ^ 63 ≤ v) (h2 : v < 2 ^ 63) :
    toU64 v < 2 ^ 32 ↔ 0 ≤ v ∧ v < 2 ^ 32 := by
  unfold toU64
  omega

theorem toU64_toNat (v : Int) (h0 : 0 ≤ v) (h1 : v < 2 ^ 64) : toU64 v = v.toNat := by
  unfold toU64
  omega

/-- C12: for a timestamp (s, ns) other than (0, 0) whose seconds stay in 64 bits, `marshal`
writes seconds `s'` and nanoseconds `ns'` with `0 <= ns' < 10^9` and
`s' * 10^9 + ns' = s * 10^9 + ns`: the tag `idx`, 4 octets of `s'` and 4 octets of `ns'`,
big-endian, exactly when `0 <= s' < 2^32`, and otherwise the tag `idx | 0x80`, the 8 octets of
the two's complement of `s'` and 4 octets of `ns'`, big-endian. -/
theorem timestamp_normalization (S : Schema) (f : Field) (s ns : Int)
    (hty : f.Ty = .timestamp) (hidx : f.Index < 128) (hne : s ≠ 0 ∨ ns ≠ 0)
    (hov : -2 ^ 63 ≤ normSec s ns ∧ normSec s ns < 2 ^ 63) :
    ∃ s' ns' : Int, 0 ≤ ns' ∧ ns' < 10 ^ 9 ∧ s' * 10 ^ 9 + ns' = s * 10 ^ 9 + ns ∧
      putField S f (.timespec s ns) =
        if 0 ≤ s' ∧ s' < 2 ^ 32 then
          f.Index :: (bigEndian 4 s'.toNat ++ bigEndian 4 ns'.toNat)
        else
          (f.Index ||| 128) :: (bigEndian 8 (s' % 2 ^ 64).toNat ++ bigEndian 4 ns'.toNat) := by
  have hb := normNsec_bounds ns
  refine ⟨normSec s ns, normNsec ns, hb.1, by simpa using hb.2, by
    simpa using normalized_sum s ns, ?_⟩
  have hlt := toU64_lt_iff (normSec s ns) hov.1 hov.2
  simp only [putField, hty, hne, if_true, be32_eq_bigEndian, be64_eq_bigEndian,
    tag_eq_of_lt f hidx, tagHi_eq_or f hidx, toU64_toNat (normNsec ns) hb.1 (by omega)]
  by_cases h : 0 ≤ normSec s ns ∧ normSec s ns < 2 ^ 32
  · rw [if_pos (hlt.2 h), if_pos h, toU64_toNat (normSec s ns) h.1 (by omega)]
  · rw [if_neg (fun h' => h (hlt.1 h')), if_neg h]
    rfl

/-- C12 on the timestamps (1, 500) and (2^32, 0) of schema `O`, with the octets written. -/
theorem timestamp_normalization_witness :
    (∃ s' ns' : Int, 0 ≤ ns' ∧ ns' < 10 ^ 9 ∧ s' * 10 ^ 9 + ns' = 1 * 10 ^ 9 + 500 ∧
      putField schemaO ⟨2, .timestamp, false⟩ (.timespec 1 500) =
        if 0 ≤ s' ∧ s' < 2 ^ 32 then
          2 :: (bigEndian 4 s'.toNat ++ bigEndian 4 ns'.toNat)
        else
          (2 ||| 128) :: (bigEndian 8 (s' % 2 ^ 64).toNat ++ bigEndian 4 ns'.toNat)) ∧
    marshal schemaO 0 (valueO 0 [] 1 500 []) =
      [0x02, 0x00, 0x00, 0x00, 0x01, 0x00, 0x00, 0x01, 0xF4, 0x7F] ∧
    marshal schemaO 0 (valueO 0 [] (2 ^ 32) 0 []) =
      [0x82, 0x00, 0x00, 0x00, 0x01, 0x00, 0x00, 0x00, 0x00, 0x00, 0x00, 0x00, 0x00, 0x7F] ∧
    marshal schemaO 0 (valueO 0 [] (-1) 1500000000 []) =
      [0x02, 0x00, 0x00, 0x00, 0x00, 0x1D, 0xCD, 0x65, 0x00, 0x7F] ∧
    marshal schemaO 0 (valueO 0 [] 0 (-1) []) =
      [0x82, 0xFF, 0xFF, 0xFF, 0xFF, 0xFF, 0xFF, 0xFF, 0xFF, 0x3B, 0x9A, 0xC9, 0xFF, 0x7F] :=
  ⟨timestamp_normalization schemaO ⟨2, .timestamp, false⟩ 1 500 rfl (by decide) (by decide)
    (by decide), by rfl, by rfl, by rfl, by rfl⟩

/-! ### C13: the compact and the fixed form of unsigned integers -/

theorem or_128_ne (i : Nat) (h : i < 128) : ¬ (i ||| 128 = i) := by
  rw [or_128_of_lt i h]
  omega

theorem getBE64_be64_append (x p : Nat) (rest : List Nat) (h : x < 2 ^ 64) :
    getBE64 p (bigEndian 8 x ++ rest) = .ok (x, p + 8, rest) := by
  rw [← be64_eq_bigEndian]
  exact getBE64_be64 x p rest h

theorem getBE32_be32_append (x p : Nat) (rest : List Nat) (h : x < 2 ^ 32) :
    getBE32 p (bigEndian 4 x ++ rest) = .ok (x, p + 4, rest) := by
  rw [← be32_eq_bigEndian]
  exact getBE32_be32 x p rest h

theorem getInt_leb128 (w : Nat) (end_ : Nat) (enderr : Errno) (x p : Nat) (rest : List Nat)
    (hw : x < 2 ^ w) (h64 : x < 2 ^ 64) (hp : p + (leb128 x).length < end_) :
    getInt w none none end_ enderr p (leb128 x ++ rest)
      = .ok (x, p + (leb128 x).length, rest) := by
  rw [← putVarint_10 x h64] at hp ⊢
  exact getInt_putVarint w none end_ enderr 10 x p rest (by norm_num; omega) hw
    (by intro m hm; cases hm) hp

/-- C13: for a non-zero `uint32` value `x` in field `idx`, `marshal` writes the tag `idx` and
the LEB128 varint of `x` when `x < 2^21`, and the tag `idx | 0x80` and the 4 octets of `x` in
big-endian order otherwise; for `uint64` the threshold is `2^49` and the fixed form has 8
octets; and `unmarshal` reads either form of `x`, whichever side of the threshold `x` is on,
back as `x`. -/
theorem unsigned_split (size_max list_max : Nat) (S : Schema) (call : Callee) (end_ : Nat)
    (enderr : Errno) (f : Field) (x : Nat) (hidx : f.Index < 128) (hx : x ≠ 0) :
    (f.Ty = .uint32 → x < 2 ^ 32 →
      putField S f (.uint x) =
        (if x < 2 ^ 21 then f.Index :: leb128 x else (f.Index ||| 128) :: bigEndian 4 x) ∧
      ∀ (v0 : Val) (p h' : Nat) (rest : List Nat),
        (p + (leb128 x).length < end_ →
          getField size_max list_max S call end_ enderr f v0
              ⟨f.Index, p, leb128 x ++ h' :: rest⟩
            = (.uint x, .ok ⟨h', p + (leb128 x).length + 1, rest⟩)) ∧
        (p + 4 < end_ →
          getField size_max list_max S call end_ enderr f v0
              ⟨f.Index ||| 128, p, bigEndian 4 x ++ h' :: rest⟩
            = (.uint x, .ok ⟨h', p + 4 + 1, rest⟩))) ∧
    (f.Ty = .uint64 → x < 2 ^ 64 →
      putField S f (.uint x) =
        (if x < 2 ^ 49 then f.Index :: leb128 x else (f.Index ||| 128) :: bigEndian 8 x) ∧
      ∀ (v0 : Val) (p h' : Nat) (rest : List Nat),
        (p + (leb128 x).length < end_ →
          getField size_max list_max S call end_ enderr f v0
              ⟨f.Index, p, leb128 x ++ h' :: rest⟩
            = (.uint x, .ok ⟨h', p + (leb128 x).length + 1, rest⟩)) ∧
        (p + 8 < end_ →
          getField size_max list_max S call end_ enderr f v0
              ⟨f.Index ||| 128, p, bigEndian 8 x ++ h' :: rest⟩
            = (.uint x, .ok ⟨h', p + 8 + 1, rest⟩))) := by
  obtain ⟨idx, ty, tl⟩ := f
  simp only at hidx
  refine ⟨?_, ?_⟩
  · intro hty hlt
    simp only at hty
    subst hty
    refine ⟨?_, ?_⟩
    · simp only [putField, hx, ne_eq, not_false_eq_true, if_true, be32_eq_bigEndian,
        tag_eq_of_lt ⟨idx, .uint32, tl⟩ hidx, tagHi_eq_or ⟨idx, .uint32, tl⟩ hidx,
        putVarint_10 x (by omega)]
    · intro v0 p h' rest
      refine ⟨?_, ?_⟩
      · intro hp
        simp only [getField, if_true]
        rw [getInt_leb128 32 end_ enderr x p (h' :: rest) hlt (by omega) hp]
        rfl
      · intro hp
        simp only [getField, or_128_ne idx hidx, if_false, if_true, within]
        rw [if_neg (by omega), getBE32_be32_append x p (h' :: rest) hlt]
        rfl
  · intro hty hlt
    simp only at hty
    subst hty
    refine ⟨?_, ?_⟩
    · simp only [putField, hx, ne_eq, not_false_eq_true, if_true, be64_eq_bigEndian,
        tag_eq_of_lt ⟨idx, .uint64, tl⟩ hidx, tagHi_eq_or ⟨idx, .uint64, tl⟩ hidx,
        putVarint_10 x hlt]
    · intro v0 p h' rest
      refine ⟨?_, ?_⟩
      · intro hp
        simp only [getField, if_true]
        rw [getInt_leb128 64 end_ enderr x p (h' :: rest) hlt hlt hp]
        rfl
      · intro hp
        simp only [getField, or_128_ne idx hidx, if_false, if_true, within]
        rw [if_neg (by omega), getBE64_be64_append x p (h' :: rest) hlt]
        rfl

/-- C13 at `x = 300` in field 0 of schema `O`, with the two records of the format description:
`x = 300` is written `00 AC 02 7F`, `x = 0x01000000` is written `80 01 00 00 00 7F`, and both
are read back. -/
theorem unsigned_split_witness :
    (putField schemaO ⟨0, .uint32, false⟩ (.uint 300) =
        (if 300 < 2 ^ 21 then 0 :: leb128 300 else (0 ||| 128) :: bigEndian 4 300) ∧
      ∀ (v0 : Val) (p h' : Nat) (rest : List Nat),
        (p + (leb128 300).length < 6 →
          getField (2 ^ 24) (2 ^ 16) schemaO (unmarshalAux (2 ^ 24) (2 ^ 16) schemaO 5) 6
              .EWOULDBLOCK ⟨0, .uint32, false⟩ v0 ⟨0, p, leb128 300 ++ h' :: rest⟩
            = (.uint 300, .ok ⟨h', p + (leb128 300).length + 1, rest⟩)) ∧
        (p + 4 < 6 →
          getField (2 ^ 24) (2 ^ 16) schemaO (unmarshalAux (2 ^ 24) (2 ^ 16) schemaO 5) 6
              .EWOULDBLOCK ⟨0, .uint32, false⟩ v0 ⟨0 ||| 128, p, bigEndian 4 300 ++ h' :: rest⟩
            = (.uint 300, .ok ⟨h', p + 4 + 1, rest⟩))) ∧
    marshal schemaO 0 (valueO 300 [] 0 0 []) = [0x00, 0xAC, 0x02, 0x7F] ∧
    marshal schemaO 0 (valueO 0x01000000 [] 0 0 []) = [0x80, 0x01, 0x00, 0x00, 0x00, 0x7F] ∧
    unmarshal (2 ^ 24) (2 ^ 16) schemaO 0 (zeroRec (schemaO 0)) [0x00, 0xAC, 0x02, 0x7F] 4
      = (valueO 300 [] 0 0 [], .ok 4) ∧
    unmarshal (2 ^ 24) (2 ^ 16) schemaO 0 (zeroRec (schemaO 0))
      [0x80, 0x01, 0x00, 0x00, 0x00, 0x7F] 6 = (valueO 0x01000000 [] 0 0 [], .ok 6) ∧
    unmarshal (2 ^ 24) (2 ^ 16) schemaO 0 (zeroRec (schemaO 0))
      [0x80, 0x00, 0x00, 0x01, 0x2C, 0x7F] 6 = (valueO 300 [] 0 0 [], .ok 6) :=
  ⟨(unsigned_split (2 ^ 24) (2 ^ 16) schemaO (unmarshalAux (2 ^ 24) (2 ^ 16) schemaO 5) 6
      .EWOULDBLOCK ⟨0, .uint32, false⟩ 300 (by decide) (by decide)).1 rfl (by decide),
    by rfl, by rfl, by rfl, by rfl, by rfl⟩

/-! ### C14: signed integers -/

theorem leb128_length_le : ∀ (k x : Nat), x < 128 ^ (k + 1) → (leb128 x).length ≤ k + 1
  | 0, x, h => by
    rw [leb128_eq, if_pos (by simpa using h)]
    simp
  | k + 1, x, h => by
    rw [leb128_eq]
    split
    · simp
    · have : x / 128 < 128 ^ (k + 1) := by
        rw [Nat.div_lt_iff_lt_mul (by norm_num)]
        rw [Nat.pow_succ] at h
        exact h
      have := leb128_length_le k (x / 128) this
      simp only [List.length_cons]
      omega

theorem varint9_length (x : Nat) : (varint9 x).length ≤ 9 := by
  unfold varint9
  split
  · have := leb128_length_le 7 x (by norm_num; omega)
    omega
  · simp only [List.length_append, List.length_take, List.length_singleton]
    omega

theorem toU32_of_nonneg (x : Int) (h0 : 0 ≤ x) (h1 : x < 2 ^ 32) : toU32 x = x.natAbs := by
  unfold toU32
  omega

theorem toU32_of_neg (x : Int) (h0 : x < 0) (h1 : -2 ^ 32 < x) :
    toU32 x = 2 ^ 32 - x.natAbs := by
  unfold toU32
  omega

theorem toU64_of_nonneg_abs (x : Int) (h0 : 0 ≤ x) (h1 : x < 2 ^ 64) :
    toU64 x = x.natAbs := by
  unfold toU64
  omega

theorem toU64_of_neg (x : Int) (h0 : x < 0) (h1 : -2 ^ 64 < x) :
    toU64 x = 2 ^ 64 - x.natAbs := by
  unfold toU64
  omega

theorem putField_int32 (S : Schema) (f : Field) (x : Int) (hty : f.Ty = .int32)
    (hidx : f.Index < 128) (hx : x ≠ 0) (h1 : -2 ^ 31 ≤ x) (h2 : x < 2 ^ 31) :
    putField S f (.int x) =
      (if x < 0 then f.Index ||| 128 else f.Index) :: leb128 x.natAbs := by
  have hlt := toU32_lt x
  simp only [putField, hty, and_pow_31 _ hlt, tag_eq_of_lt f hidx, tagHi_eq_or f hidx]
  by_cases hneg : x < 0
  · have hu := toU32_of_neg x hneg (by omega)
    have hm : (2 ^ 32 - 1 - toU32 x + 1) % 2 ^ 32 = x.natAbs := by omega
    have hnz : toU32 x ≠ 0 := by omega
    have hs : ¬ toU32 x < 2 ^ 31 := by omega
    rw [if_pos hnz, if_neg hs, if_pos (by norm_num), if_pos hneg, hm,
      putVarint_10 _ (by omega)]
  · have hu := toU32_of_nonneg x (by omega) (by omega)
    have hnz : toU32 x ≠ 0 := by omega
    have hs : toU32 x < 2 ^ 31 := by omega
    rw [if_pos hnz, if_pos hs, if_neg (by norm_num), if_neg hneg, hu,
      putVarint_10 _ (by omega)]

theorem putField_int64 (S : Schema) (f : Field) (x : Int) (hty : f.Ty = .int64)
    (hidx : f.Index < 128) (hx : x ≠ 0) (h1 : -2 ^ 63 ≤ x) (h2 : x < 2 ^ 63) :
    putField S f (.int x) =
      (if x < 0 then f.Index ||| 128 else f.Index) :: varint9 x.natAbs := by
  have hlt := toU64_lt x
  simp only [putField, hty, and_pow_63 _ hlt, tag_eq_of_lt f hidx, tagHi_eq_or f hidx]
  by_cases hneg : x < 0
  · have hu := toU64_of_neg x hneg (by omega)
    have hm : (2 ^ 64 - 1 - toU64 x + 1) % 2 ^ 64 = x.natAbs := by omega
    have hnz : toU64 x ≠ 0 := by omega
    have hs : ¬ toU64 x < 2 ^ 63 := by omega
    rw [if_pos hnz, if_neg hs, if_pos (by norm_num), if_pos hneg, hm,
      putVarint_8 _ (by omega)]
  · have hu := toU64_of_nonneg_abs x (by omega) (by omega)
    have hnz : toU64 x ≠ 0 := by omega
    have hs : toU64 x < 2 ^ 63 := by omega
    rw [if_pos hnz, if_pos hs, if_neg (by norm_num), if_neg hneg, hu,
      putVarint_8 _ (by omega)]

/-- C14: for a non-zero `int32` or `int64` value `x` (the least value of the type included),
`marshal` writes a tag with the high bit set exactly when `x < 0`, followed by the varint of
the magnitude `|x|`: the LEB128 varint for `int32`; for `int64` a varint of at most 9 octets,
which is the LEB128 varint below `2^56` and otherwise its first 8 octets and a 9th octet that
holds the top 8 bits of `|x|` unmasked; and `unmarshal` reads the field back as `x`. -/
theorem signed_integers (size_max list_max : Nat) (S : Schema) (call : Callee) (end_ : Nat)
    (enderr : Errno) (f : Field) (x : Int) (hidx : f.Index ≤ 126) (hx : x ≠ 0) :
    (f.Ty = .int32 → -2 ^ 31 ≤ x → x < 2 ^ 31 →
      putField S f (.int x) =
        (if x < 0 then f.Index ||| 128 else f.Index) :: leb128 x.natAbs ∧
      ∀ (v0 : Val) (p h' : Nat) (rest : List Nat), p + (leb128 x.natAbs).length < end_ →
        getField size_max list_max S call end_ enderr f v0
            ⟨if x < 0 then f.Index ||| 128 else f.Index, p, leb128 x.natAbs ++ h' :: rest⟩
          = (.int x, .ok ⟨h', p + (leb128 x.natAbs).length + 1, rest⟩)) ∧
    (f.Ty = .int64 → -2 ^ 63 ≤ x → x < 2 ^ 63 →
      putField S f (.int x) =
        (if x < 0 then f.Index ||| 128 else f.Index) :: varint9 x.natAbs ∧
      (varint9 x.natAbs).length ≤ 9 ∧
      ∀ (v0 : Val) (p h' : Nat) (rest : List Nat), p + (varint9 x.natAbs).length < end_ →
        getField size_max list_max S call end_ enderr f v0
            ⟨if x < 0 then f.Index ||| 128 else f.Index, p, varint9 x.natAbs ++ h' :: rest⟩
          = (.int x, .ok ⟨h', p + (varint9 x.natAbs).length + 1, rest⟩)) := by
  refine ⟨?_, ?_⟩
  · intro hty h1 h2
    have hput := putField_int32 S f x hty (by omega) hx h1 h2
    refine ⟨hput, ?_⟩
    intro v0 p h' rest hp
    exact getField_put_int size_max list_max S call end_ enderr f x v0 hidx
      (by simp [typed, hty]; omega) _ _ hput p h' rest hp
  · intro hty h1 h2
    have hput := putField_int64 S f x hty (by omega) hx h1 h2
    refine ⟨hput, varint9_length _, ?_⟩
    intro v0 p h' rest hp
    exact getField_put_int size_max list_max S call end_ enderr f x v0 hidx
      (by simp [typed, hty]; omega) _ _ hput p h' rest hp

/-- C14 at `INT64_MIN` in field 1 of a struct with an `int32` and an `int64` field, with the
octets of the least values of both types and their decoding. -/
theorem signed_integers_witness :
    (putField schemaI ⟨1, .int64, false⟩ (.int (-2 ^ 63)) =
        (if (-2 ^ 63 : Int) < 0 then 1 ||| 128 else 1) :: varint9 (-2 ^ 63 : Int).natAbs ∧
      (varint9 (-2 ^ 63 : Int).natAbs).length ≤ 9 ∧
      ∀ (v0 : Val) (p h' : Nat) (rest : List Nat),
        p + (varint9 (-2 ^ 63 : Int).natAbs).length < 16 →
        getField (2 ^ 24) (2 ^ 16) schemaI (unmarshalAux (2 ^ 24) (2 ^ 16) schemaI 15) 16
            .EWOULDBLOCK ⟨1, .int64, false⟩ v0
            ⟨if (-2 ^ 63 : Int) < 0 then 1 ||| 128 else 1, p,
              varint9 (-2 ^ 63 : Int).natAbs ++ h' :: rest⟩
          = (.int (-2 ^ 63),
              .ok ⟨h', p + (varint9 (-2 ^ 63 : Int).natAbs).length + 1, rest⟩)) ∧
    marshal schemaI 0 [.int (-2 ^ 31), .int (-2 ^ 63)] =
      [0x80, 0x80, 0x80, 0x80, 0x80, 0x08,
       0x81, 0x80, 0x80, 0x80, 0x80, 0x80, 0x80, 0x80, 0x80, 0x80, 0x7F] ∧
    unmarshal (2 ^ 24) (2 ^ 16) schemaI 0 (zeroRec (schemaI 0))
      [0x80, 0x80, 0x80, 0x80, 0x80, 0x08,
       0x81, 0x80, 0x80, 0x80, 0x80, 0x80, 0x80, 0x80, 0x80, 0x80, 0x7F] 17
      = ([.int (-2 ^ 31), .int (-2 ^ 63)], .ok 17) ∧
    marshal schemaI 0 [.int 300, .int (-1)] = [0x00, 0xAC, 0x02, 0x81, 0x01, 0x7F] :=
  ⟨(signed_integers (2 ^ 24) (2 ^ 16) schemaI (unmarshalAux (2 ^ 24) (2 ^ 16) schemaI 15) 16
      .EWOULDBLOCK ⟨1, .int64, false⟩ (-2 ^ 63) (by decide) (by decide)).2 rfl (by decide)
      (by decide),
    by rfl, by rfl, by rfl⟩

/-! ### C15: octets after the record -/

/-- Decoding the octets of a well-formed struct within the limits, followed by any octets
`t` and with `datalen` their whole number, gives what decoding the octets of the struct alone
gives, and reports the octets of the struct as read. -/
theorem unmarshal_marshal_append (size_max list_max : Nat) (S : Schema) (sid : Nat) (v : Rec)
    (t : List Nat) (hS : ∀ s, validFields (S s)) (hwf : wellFormed list_max S (S sid) v = true)
    (hmax : (marshal S sid v).length ≤ size_max) (h32 : (marshal S sid v).length < 2 ^ 32) :
    unmarshal size_max list_max S sid (zeroRec (S sid)) (marshal S sid v ++ t)
        (marshal S sid v ++ t).length
      = unmarshal size_max list_max S sid (zeroRec (S sid)) (marshal S sid v)
          (marshal S sid v).length ∧
    (unmarshal size_max list_max S sid (zeroRec (S sid)) (marshal S sid v ++ t)
        (marshal S sid v ++ t).length).2 = .ok (marshal S sid v).length := by
  have h := callRT_unmarshalAux size_max list_max S hS (marshal S sid v ++ t).length sid v t
    (marshal S sid v ++ t).length hwf (by simp) (by simp) hmax h32
  rw [unmarshal_marshal size_max list_max S sid v hS hwf hmax h32]
  exact ⟨h, by rw [unmarshal, h]⟩

/-- C15, at the failing input: for schema `P` with `colfer_list_max = 2` and
`colfer_size_max = 100`, the struct whose child holds a list of 3 floats has
`marshal_len = 2`, not 0, and `marshal` writes 17 octets; `unmarshal` of these octets followed
by two more, 19 in all, returns 0 with `errno = EFBIG`, and so does `unmarshal` of the 17
octets alone. -/
theorem trailing_octets_nested_list :
    (marshal_len 100 2 schemaP 0
      [.ref (some [.floats [1, 2, 3], .uint 0, .uint 0]), .refs []]).1 = 2 ∧
    marshal schemaP 0 [.ref (some [.floats [1, 2, 3], .uint 0, .uint 0]), .refs []] =
      [0, 0, 3, 0, 0, 0, 1, 0, 0, 0, 2, 0, 0, 0, 3, 127, 127] ∧
    (unmarshal 100 2 schemaP 0 (zeroRec (schemaP 0))
      (marshal schemaP 0 [.ref (some [.floats [1, 2, 3], .uint 0, .uint 0]), .refs []]
        ++ [9, 9]) 19).2 = .error (.fail .EFBIG false) ∧
    (unmarshal 100 2 schemaP 0 (zeroRec (schemaP 0))
      (marshal schemaP 0 [.ref (some [.floats [1, 2, 3], .uint 0, .uint 0]), .refs []])
      17).2 = .error (.fail .EFBIG false) := by
  refine ⟨?_, ?_, ?_, ?_⟩ <;> rfl

/-! ### C18: fields whose tag is not in `header` -/

/-- When the run over all fields ends without an early return, so does the run over the
first `i` of them. -/
theorem getFields_take_ok (size_max list_max : Nat) (S : Schema) (call : Callee)
    (end_ : Nat) (enderr : Errno) :
    ∀ (i : Nat) (fields : List Field) (o : Rec) (c0 c' : Cur),
      (getFields size_max list_max S call end_ enderr fields o c0).2 = .ok c' →
      ∃ c, (getFields size_max list_max S call end_ enderr (fields.take i) o c0).2 = .ok c
  | 0, fields, o, c0, c', _ => ⟨c0, by simp [getFields]⟩
  | i + 1, [], o, c0, c', _ => ⟨c0, by simp [getFields]⟩
  | i + 1, g :: fs, [], c0, c', _ => ⟨c0, by simp [getFields]⟩
  | i + 1, g :: fs, v :: vs, c0, c', h => by
    simp only [List.take_succ_cons]
    unfold getFields at h ⊢
    rcases hg : getField size_max list_max S call end_ enderr g v c0 with ⟨v', h' | c1⟩
    · rw [hg] at h; simp at h
    · rw [hg] at h
      simp only [] at h ⊢
      exact getFields_take_ok size_max list_max S call end_ enderr i fs vs c1 c' h

/-- A field that the run comes to with a `header` its test does not accept keeps its
member. -/
theorem getFields_untouched (size_max list_max : Nat) (S : Schema) (call : Callee)
    (end_ : Nat) (enderr : Errno) (f : Field) (c : Cur) (hno : accepts f c.header = false) :
    ∀ (i : Nat) (fields : List Field) (o : Rec) (c0 : Cur),
      fields.get? i = some f → i < o.length →
      (getFields size_max list_max S call end_ enderr (fields.take i) o c0).2 = .ok c →
      (getFields size_max list_max S call end_ enderr fields o c0).1.get? i = o.get? i
  | 0, [], _, _, hi, _, _ => by simp at hi
  | 0, g :: fs, [], _, _, ho, _ => by simp at ho
  | 0, g :: fs, v :: vs, c0, hi, _, hr => by
    simp only [List.get?_cons_zero, Option.some.injEq] at hi
    subst hi
    simp only [List.take_zero, getFields, Except.ok.injEq] at hr
    subst hr
    unfold getFields
    rw [getField_of_not_accepts size_max list_max S call end_ enderr g v c0 hno]
    simp
  | i + 1, [], _, _, hi, _, _ => by simp at hi
  | i + 1, g :: fs, [], _, _, ho, _ => by simp at ho
  | i + 1, g :: fs, v :: vs, c0, hi, ho, hr => by
    simp only [List.take_succ_cons] at hr
    unfold getFields at hr ⊢
    rcases hg : getField size_max list_max S call end_ enderr g v c0 with ⟨v', h' | c1⟩
    · rw [hg] at hr; simp at hr
    · rw [hg] at hr
      simp only [] at hr ⊢
      simpa using getFields_untouched size_max list_max S call end_ enderr f c hno i fs vs c1
        (by simpa using hi) (by simpa using ho) hr

theorem zeroRec_get (fields : List Field) (i : Nat) (f : Field) (h : fields.get? i = some f) :
    (zeroRec fields).get? i = some (zeroVal f) := by
  rw [List.get?_eq_getElem?] at h ⊢
  rw [zeroRec, List.getElem?_map, h]
  rfl

/-- A run of `unmarshal` that returns an octet count has read a first `header`, has gone
through all fields without an early return, and has found 0x7F in `header` at the end. -/
theorem unmarshalRun_ok_inv (size_max list_max : Nat) (S : Schema) (call : Callee)
    (fields : List Field) (o : Rec) (data : List Nat) (end_ : Nat) (enderr : Errno) (n : Nat)
    (h : (unmarshalRun size_max list_max S call fields o data end_ enderr).2 = .ok n) :
    0 < end_ ∧ ∃ c0 o' c', next 0 data = .ok c0 ∧
      getFields size_max list_max S call end_ enderr fields o c0 = (o', .ok c') ∧
      c'.header = 127 ∧ c'.p = n ∧
      unmarshalRun size_max list_max S call fields o data end_ enderr = (o', .ok n) := by
  unfold unmarshalRun at h ⊢
  by_cases hend : 0 ≥ end_
  · rw [if_pos hend] at h; simp at h
  · rw [if_neg hend] at h ⊢
    refine ⟨by omega, ?_⟩
    rcases hn : next 0 data with h' | c0
    · rw [hn] at h; simp at h
    · rw [hn] at h
      simp only [] at h ⊢
      rcases hr : getFields size_max list_max S call end_ enderr fields o c0 with
        ⟨o', h' | c'⟩
      · rw [hr] at h; simp at h
      · rw [hr] at h
        simp only [] at h ⊢
        by_cases h127 : c'.header = 127
        · simp only [h127, ne_eq, not_true_eq_false, if_false, Except.ok.injEq] at h ⊢
          exact ⟨c0, o', c', rfl, hr, h127, h, by rw [h]⟩
        · simp [h127] at h

/-- C18: when `unmarshal` succeeds, its run comes to every field of the struct, and a field
it comes to with a `header` that the test of the field does not accept - the tag of the field,
in either variant, is not the octet taken from the input - has in `o` the member it had
before the call; after a zero-initialised `o` that member is the zero value of the field. -/
theorem absent_fields_untouched (size_max list_max : Nat) (S : Schema) (sid : Nat) (o : Rec)
    (data : List Nat) (datalen n : Nat)
    (hok : (unmarshal size_max list_max S sid o data datalen).2 = .ok n)
    (i : Nat) (f : Field) (hf : (S sid).get? i = some f) (hi : i < o.length) :
    ∃ c, Enters size_max list_max S (calleeOf size_max list_max S datalen)
        (endOf size_max datalen) (limiter size_max datalen) (S sid) o data i f c ∧
      (accepts f c.header = false →
        (unmarshal size_max list_max S sid o data datalen).1.get? i = o.get? i ∧
        (o = zeroRec (S sid) →
          (unmarshal size_max list_max S sid o data datalen).1.get? i = some (zeroVal f))) := by
  rw [unmarshal, unmarshalAux_eq] at hok ⊢
  obtain ⟨hend, c0, o', c', hn, hr, _, _, hrun⟩ := unmarshalRun_ok_inv size_max list_max S _ _ _ _
    _ _ n hok
  obtain ⟨c, hc⟩ := getFields_take_ok size_max list_max S
    (calleeOf size_max list_max S datalen) (endOf size_max datalen)
    (limiter size_max datalen) i (S sid) o c0 c' (by rw [hr])
  refine ⟨c, ⟨hf, hi, hend, c0, hn, hc⟩, ?_⟩
  intro hno
  have hu := getFields_untouched size_max list_max S
    (calleeOf size_max list_max S datalen) (endOf size_max datalen)
    (limiter size_max datalen) f c hno i (S sid) o c0 hf hi hc
  rw [hr] at hu
  rw [hrun]
  refine ⟨hu, ?_⟩
  intro ho
  simp only [] at hu ⊢
  rw [hu, ho]
  exact zeroRec_get (S sid) i f hf

/-- C18 on schema `O` and the octets `02 00 00 00 01 00 00 01 F4 7F` written into a struct
that already holds `x = 7`: the run comes to field 0 with the tag of field 2 in `header`, and
`x` is 7 afterwards. -/
theorem absent_fields_untouched_witness :
    (unmarshal (2 ^ 24) (2 ^ 16) schemaO 0 (valueO 7 [] 0 0 [])
      [0x02, 0x00, 0x00, 0x00, 0x01, 0x00, 0x00, 0x01, 0xF4, 0x7F] 10).2 = .ok 10 ∧
    (∃ c, Enters (2 ^ 24) (2 ^ 16) schemaO (calleeOf (2 ^ 24) (2 ^ 16) schemaO 10)
        (endOf (2 ^ 24) 10) (limiter (2 ^ 24) 10) (schemaO 0) (valueO 7 [] 0 0 [])
        [0x02, 0x00, 0x00, 0x00, 0x01, 0x00, 0x00, 0x01, 0xF4, 0x7F] 0 ⟨0, .uint32, false⟩ c ∧
      (accepts ⟨0, .uint32, false⟩ c.header = false →
        (unmarshal (2 ^ 24) (2 ^ 16) schemaO 0 (valueO 7 [] 0 0 [])
          [0x02, 0x00, 0x00, 0x00, 0x01, 0x00, 0x00, 0x01, 0xF4, 0x7F] 10).1.get? 0
          = (valueO 7 [] 0 0 []).get? 0 ∧
        (valueO 7 [] 0 0 [] = zeroRec (schemaO 0) →
          (unmarshal (2 ^ 24) (2 ^ 16) schemaO 0 (valueO 7 [] 0 0 [])
            [0x02, 0x00, 0x00, 0x00, 0x01, 0x00, 0x00, 0x01, 0xF4, 0x7F] 10).1.get? 0
            = some (zeroVal ⟨0, .uint32, false⟩)))) ∧
    unmarshal (2 ^ 24) (2 ^ 16) schemaO 0 (valueO 7 [] 0 0 [])
      [0x02, 0x00, 0x00, 0x00, 0x01, 0x00, 0x00, 0x01, 0xF4, 0x7F] 10
      = (valueO 7 [] 1 500 [], .ok 10) :=
  ⟨by rfl,
   absent_fields_untouched (2 ^ 24) (2 ^ 16) schemaO 0 (valueO 7 [] 0 0 [])
    [0x02, 0x00, 0x00, 0x00, 0x01, 0x00, 0x00, 0x01, 0xF4, 0x7F] 10 10 (by rfl) 0
    ⟨0, .uint32, false⟩ (by rfl) (by decide),
   by rfl⟩

/-! ### C19: the struct left behind by a failed call -/

/-- C19, at the failing input: for schema `T` and the octets `02 02 00 01 01 61 7F 55`, a
list `kids` of two structs whose element 0 is decoded and whose element 1 fails with
`EILSEQ`, `unmarshal` returns 0 and the member `kids` of `o` is still the empty list of the
zero-initialised struct: `o->kids.len` and `o->kids.list` are only set after the element
loop, so element 0 is not reachable from `o`.  The sibling paths keep what they decoded: a
text list of two elements that fails in element 1 has `len` 2 and its array in `o`, with
element 0 in the first entry and a second entry that was not written, and a nested struct
that fails holds its decoded member. -/
theorem struct_list_dropped_on_failure :
    unmarshal (2 ^ 24) (2 ^ 16) schemaT 0 (zeroRec (schemaT 0))
        [0x02, 0x02, 0x00, 0x01, 0x01, 0x61, 0x7F, 0x55] 8
      = ([.blobs [], .ref none, .refs []], .error (.fail .EILSEQ false)) ∧
    (unmarshal (2 ^ 24) (2 ^ 16) schemaT 0 (zeroRec (schemaT 0))
        [0x00, 0x01, 0x01, 0x61, 0x7F] 5).1 = [.blobs [[0x61]], .ref none, .refs []] ∧
    (∃ entry : List Nat,
      unmarshal (2 ^ 24) (2 ^ 16) schemaT 0 (zeroRec (schemaT 0))
          [0x00, 0x02, 0x01, 0x61, 0x05, 0x62] 6
        = ([.blobs [[0x61], entry], .ref none, .refs []],
            .error (.fail .EWOULDBLOCK true))) ∧
    unmarshal (2 ^ 24) (2 ^ 16) schemaT 0 (zeroRec (schemaT 0))
        [0x01, 0x00, 0x01, 0x01, 0x61, 0x55] 6
      = ([.blobs [], .ref (some [.blobs [[0x61]], .ref none, .refs []]), .refs []],
          .error (.fail .EILSEQ false)) :=
  ⟨by rfl, by rfl, ⟨uninit, by rfl⟩, by rfl⟩

/-! ### C20: overlong `int32` varints -/

/-- The `int32` loop with `shift + 7 * k = 35` takes at most `k` octets. -/
theorem intLoop_int32_le (end_ : Nat) (enderr : Errno) :
    ∀ (d : List Nat) (k x shift p y p' : Nat) (d' : List Nat), shift + 7 * k = 35 →
      intLoop 32 (some 35) none end_ enderr d x shift p = .ok (y, p', d') → p' ≤ p + k
  | [], k, x, shift, p, y, p', d', hk, h => by
    unfold intLoop at h
    split at h
    · simp at h
    · simp only [Except.ok.injEq, Prod.mk.injEq] at h
      omega
  | b :: d, k, x, shift, p, y, p', d', hk, h => by
    unfold intLoop at h
    split at h
    · rename_i hlim
      simp only [Option.all_some, decide_eq_true_eq] at hlim
      simp only [] at h
      split at h
      · simp at h
      · split at h
        · simp only [Except.ok.injEq, Prod.mk.injEq] at h
          omega
        · have := intLoop_int32_le end_ enderr d (k - 1) _ (shift + 7) (p + 1) y p' d'
            (by omega) h
          omega
    · simp only [Except.ok.injEq, Prod.mk.injEq] at h
      omega

theorem getInt_int32_le (end_ : Nat) (enderr : Errno) (d : List Nat) (p y p' : Nat)
    (d' : List Nat) (h : getInt 32 (some 35) none end_ enderr p d = .ok (y, p', d')) :
    p' ≤ p + 5 := by
  unfold getInt at h
  split at h
  · simp at h
  · split at h
    · simp at h
    · split at h
      · have := intLoop_int32_le end_ enderr _ 4 _ 7 (p + 1) y p' d' (by norm_num) h
        omega
      · simp only [Except.ok.injEq, Prod.mk.injEq] at h
        omega

/-- C20: the `int32` reader takes at most 5 varint octets, and for a struct with the single
`int32` field `idx` the octets `idx 81 00 7F` decode to the value 1 with 4 octets read, like
the octets `idx 01 7F` that `marshal` writes for 1: `unmarshal` is not injective. -/
theorem int32_overlong (size_max list_max idx : Nat) (hidx : idx ≤ 126) (hmax : 4 ≤ size_max) :
    (∀ (end_ : Nat) (enderr : Errno) (d : List Nat) (p y p' : Nat) (d' : List Nat),
      getInt 32 (some 35) none end_ enderr p d = .ok (y, p', d') → p' ≤ p + 5) ∧
    unmarshal size_max list_max (schemaInt32 idx) 0 (zeroRec (schemaInt32 idx 0))
      [idx, 0x81, 0x00, 0x7F] 4 = ([.int 1], .ok 4) ∧
    marshal (schemaInt32 idx) 0 [.int 1] = [idx, 0x01, 0x7F] ∧
    unmarshal size_max list_max (schemaInt32 idx) 0 (zeroRec (schemaInt32 idx 0))
      [idx, 0x01, 0x7F] 3 = ([.int 1], .ok 3) ∧
    [idx, 0x81, 0x00, 0x7F] ≠ [idx, 0x01, 0x7F] := by
  have h127 := idx_and_127 idx hidx
  have h128 := idx_and_128 idx hidx
  refine ⟨fun end_ enderr d p y p' d' h => getInt_int32_le end_ enderr d p y p' d' h,
    ?_, ?_, ?_, by simp⟩
  · rw [unmarshal, unmarshalAux_eq]
    have he : 4 ≤ endOf size_max 4 := by unfold endOf; split <;> omega
    have he' : endOf size_max 4 ≤ 4 := by unfold endOf; split <;> omega
    have : endOf size_max 4 = 4 := by omega
    rw [this]
    have hb : (129 : Nat) &&& 127 = 1 := by decide
    simp [unmarshalRun, next, schemaInt32, zeroRec, zeroVal, getFields, getField, h127, h128,
      finish, getInt, intLoop, toI32, hb]
  · simp [marshal, schemaInt32, putFields, putField, toU32, tag, putVarint]
    omega
  · rw [unmarshal, unmarshalAux_eq]
    by_cases h3 : 3 < size_max
    · have : endOf size_max 3 = 3 := by unfold endOf; rw [if_pos h3]
      rw [this]
      simp [unmarshalRun, next, schemaInt32, zeroRec, zeroVal, getFields, getField, h127, h128,
        finish, getInt, intLoop, toI32]
    · have : endOf size_max 3 = 3 := by unfold endOf; split <;> omega
      rw [this]
      simp [unmarshalRun, next, schemaInt32, zeroRec, zeroVal, getFields, getField, h127, h128,
        finish, getInt, intLoop, toI32]

/-- C20 for field 0 with the limits `2^24` and `2^16`. -/
theorem int32_overlong_witness :
    (∀ (end_ : Nat) (enderr : Errno) (d : List Nat) (p y p' : Nat) (d' : List Nat),
      getInt 32 (some 35) none end_ enderr p d = .ok (y, p', d') → p' ≤ p + 5) ∧
    unmarshal (2 ^ 24) (2 ^ 16) (schemaInt32 0) 0 (zeroRec (schemaInt32 0 0))
      [0, 0x81, 0x00, 0x7F] 4 = ([.int 1], .ok 4) ∧
    marshal (schemaInt32 0) 0 [.int 1] = [0, 0x01, 0x7F] ∧
    unmarshal (2 ^ 24) (2 ^ 16) (schemaInt32 0) 0 (zeroRec (schemaInt32 0 0))
      [0, 0x01, 0x7F] 3 = ([.int 1], .ok 3) ∧
    [0, 0x81, 0x00, 0x7F] ≠ [0, 0x01, 0x7F] :=
  int32_overlong (2 ^ 24) (2 ^ 16) 0 (by decide) (by decide)

/-! ### Reads move `p` forward and stop only by a return of the code or outside the data -/

theorem keeps_mono {Q : Halt → Prop} {α : Type} {p q : Nat}
    {r : Except Halt (α × Nat × List Nat)} (h : Keeps Q q r) (hpq : p ≤ q) : Keeps Q p r := by
  cases r with
  | error h' => exact h
  | ok a => obtain ⟨x, p', d'⟩ := a; simp only [Keeps] at *; omega

theorem keepsCur_mono {Q : Halt → Prop} {p q : Nat} {r : Except Halt Cur}
    (h : KeepsCur Q q r) (hpq : p ≤ q) : KeepsCur Q p r := by
  cases r with
  | error h' => exact h
  | ok a => simp only [KeepsCur] at *; omega

theorem next_keeps (Q : Halt → Prop) (hQf : Q .fault) (p : Nat) (d : List Nat) :
    KeepsCur Q p (next p d) := by
  cases d <;> simp [next, KeepsCur, hQf]

theorem nextChk_keeps (Q : Halt → Prop) (hQf : Q .fault) (hQ : ∀ e b, Q (.fail e b))
    (end_ : Nat) (enderr : Errno) (p : Nat) (d : List Nat) :
    KeepsCur Q p (nextChk end_ enderr p d) := by
  unfold nextChk; split
  · simp [KeepsCur, hQ]
  · exact next_keeps Q hQf _ _

theorem within_keeps (Q : Halt → Prop) (hQ : ∀ e b, Q (.fail e b)) {α : Type}
    (end_ : Nat) (enderr : Errno) (p q k : Nat)
    (r : Except Halt (α × Nat × List Nat)) (h : Keeps Q p r) :
    Keeps Q p (within end_ enderr q k r) := by
  unfold within; split
  · simp [Keeps, hQ]
  · exact h

theorem finish_keeps (Q : Halt → Prop) (hQf : Q .fault) {α : Type} (p : Nat) (v : Val)
    (mk : α → Val) (r : Except Halt (α × Nat × List Nat)) (h : Keeps Q p r) :
    KeepsCur Q p (finish v mk r).2 := by
  cases r with
  | error h' => exact h
  | ok a =>
    obtain ⟨x, p', d'⟩ := a
    simp only [Keeps] at h
    exact keepsCur_mono (next_keeps Q hQf p' d') h

theorem intLoop_keeps (Q : Halt → Prop) (hQf : Q .fault) (hQ : ∀ e b, Q (.fail e b))
    (w : Nat) (lim cut : Option Nat) (end_ : Nat) (enderr : Errno) :
    ∀ (d : List Nat) (x shift p : Nat),
      Keeps Q p (intLoop w lim cut end_ enderr d x shift p) := by
  intro d
  induction d with
  | nil => intro x shift p; unfold intLoop; split <;> simp [Keeps, hQf]
  | cons b d ih =>
    intro x shift p
    unfold intLoop
    split
    · simp only []
      split
      · simp [Keeps, hQ]
      · split
        · simp [Keeps]
        · exact keeps_mono (ih _ _ _) (by omega)
    · simp [Keeps]

theorem lenVarLoop_keeps (Q : Halt → Prop) (hQf : Q .fault) (hQ : ∀ e b, Q (.fail e b))
    (lim : Option Nat) (end_ : Nat) (enderr : Errno) :
    ∀ (d : List Nat) (n shift p : Nat),
      Keeps Q p (lenVarLoop lim end_ enderr d n shift p) := by
  intro d
  induction d with
  | nil =>
    intro x shift p; unfold lenVarLoop; split <;> (try split) <;> simp [Keeps, hQf, hQ]
  | cons b d ih =>
    intro x shift p
    unfold lenVarLoop
    split
    · split
      · simp [Keeps, hQ]
      · simp only []
        split
        · simp [Keeps]
        · exact keeps_mono (ih _ _ _) (by omega)
    · simp [Keeps]

theorem getLen_keeps (Q : Halt → Prop) (hQf : Q .fault) (hQ : ∀ e b, Q (.fail e b))
    (lim : Option Nat) (end_ : Nat) (enderr : Errno) (p : Nat) (d : List Nat) :
    Keeps Q p (getLen lim end_ enderr p d) := by
  unfold getLen
  split
  · simp [Keeps, hQ]
  · cases d with
    | nil => simp [Keeps, hQf]
    | cons n d =>
      simp only []
      split
      · exact keeps_mono (lenVarLoop_keeps Q hQf hQ _ _ _ _ _ _ _) (by omega)
      · simp [Keeps]

theorem getCount_keeps (Q : Halt → Prop) (hQf : Q .fault) (hQ : ∀ e b, Q (.fail e b))
    (list_max end_ : Nat) (enderr : Errno) (p : Nat) (d : List Nat) :
    Keeps Q p (getCount list_max end_ enderr p d) := by
  unfold getCount
  have h1 := getLen_keeps Q hQf hQ none end_ enderr p d
  rcases hr : getLen none end_ enderr p d with h | ⟨n, p1, d1⟩
  · rw [hr] at h1; exact h1
  · rw [hr] at h1
    simp only []
    split
    · simp [Keeps, hQ]
    · exact h1

theorem getInt_keeps (Q : Halt → Prop) (hQf : Q .fault) (hQ : ∀ e b, Q (.fail e b))
    (w : Nat) (lim cut : Option Nat) (end_ : Nat) (enderr : Errno) (p : Nat)
    (d : List Nat) : Keeps Q p (getInt w lim cut end_ enderr p d) := by
  unfold getInt
  split
  · simp [Keeps, hQ]
  · cases d with
    | nil => simp [Keeps, hQf]
    | cons n d =>
      simp only []
      split
      · exact keeps_mono (intLoop_keeps Q hQf hQ _ _ _ _ _ _ _ _ _) (by omega)
      · simp [Keeps]

theorem getU8_keeps (Q : Halt → Prop) (hQf : Q .fault) (p : Nat) (d : List Nat) :
    Keeps Q p (getU8 p d) := by
  unfold getU8; split <;> simp [Keeps, hQf]

theorem getBE16_keeps (Q : Halt → Prop) (hQf : Q .fault) (p : Nat) (d : List Nat) :
    Keeps Q p (getBE16 p d) := by
  unfold getBE16; split <;> simp [Keeps, hQf]

theorem getBE32_keeps (Q : Halt → Prop) (hQf : Q .fault) (p : Nat) (d : List Nat) :
    Keeps Q p (getBE32 p d) := by
  unfold getBE32; split <;> simp [Keeps, hQf]

theorem getBE64_keeps (Q : Halt → Prop) (hQf : Q .fault) (p : Nat) (d : List Nat) :
    Keeps Q p (getBE64 p d) := by
  unfold getBE64; split <;> simp [Keeps, hQf]

theorem getBE_keeps (Q : Halt → Prop) (hQf : Q .fault) (wide : Bool) (p : Nat)
    (d : List Nat) : Keeps Q p (if wide = true then getBE64 p d else getBE32 p d) := by
  split
  · exact getBE64_keeps Q hQf _ _
  · exact getBE32_keeps Q hQf _ _

theorem getOctets_keeps (Q : Halt → Prop) (hQf : Q .fault) (n p : Nat) (d : List Nat) :
    Keeps Q p (getOctets n p d) := by
  unfold getOctets; split <;> simp [Keeps, hQf]

theorem getTime_keeps (Q : Halt → Prop) (hQf : Q .fault) (wide : Bool) (p : Nat)
    (d : List Nat) : Keeps Q p (getTime wide p d) := by
  unfold getTime
  have h1 := getBE_keeps Q hQf wide p d
  rcases hr : (if wide = true then getBE64 p d else getBE32 p d) with h | ⟨x, p1, d1⟩
  · rw [hr] at h1; exact h1
  · rw [hr] at h1
    simp only []
    have h2 := getBE32_keeps Q hQf p1 d1
    rcases hr2 : getBE32 p1 d1 with h | ⟨ns, p2, d2⟩
    · rw [hr2] at h2; exact h2
    · rw [hr2] at h2
      simp only [Keeps] at *
      omega

theorem getFloats_keeps (Q : Halt → Prop) (hQf : Q .fault) (wide : Bool) :
    ∀ (n p : Nat) (d : List Nat), Keeps Q p (getFloats wide n p d)
  | 0, p, d => by simp [getFloats, Keeps]
  | n + 1, p, d => by
    unfold getFloats
    have h1 := getBE_keeps Q hQf wide p d
    rcases hr : (if wide = true then getBE64 p d else getBE32 p d) with h | ⟨x, p1, d1⟩
    · rw [hr] at h1; exact h1
    · rw [hr] at h1
      simp only []
      have h2 := getFloats_keeps Q hQf wide n p1 d1
      rcases hr2 : getFloats wide n p1 d1 with h | ⟨xs, p2, d2⟩
      · rw [hr2] at h2; exact h2
      · rw [hr2] at h2
        simp only [Keeps] at *
        omega

theorem getFloatList_keeps (Q : Halt → Prop) (hQf : Q .fault) (hQ : ∀ e b, Q (.fail e b))
    (wide : Bool) (list_max end_ : Nat) (enderr : Errno) (p : Nat) (d : List Nat) :
    Keeps Q p (getFloatList wide list_max end_ enderr p d) := by
  unfold getFloatList
  have h1 := getCount_keeps Q hQf hQ list_max end_ enderr p d
  rcases hr : getCount list_max end_ enderr p d with h | ⟨n, p1, d1⟩
  · rw [hr] at h1; exact h1
  · rw [hr] at h1
    simp only [Keeps] at h1
    exact within_keeps Q hQ _ _ _ _ _ _ (keeps_mono (getFloats_keeps Q hQf wide n p1 d1) h1)

theorem getBlob_keeps (Q : Halt → Prop) (hQf : Q .fault) (hQ : ∀ e b, Q (.fail e b))
    (lim : Option Nat) (size_max end_ : Nat) (enderr : Errno) (p : Nat) (d : List Nat) :
    Keeps Q p (getBlob lim size_max end_ enderr p d) := by
  unfold getBlob
  have h1 := getLen_keeps Q hQf hQ lim end_ enderr p d
  rcases hr : getLen lim end_ enderr p d with h | ⟨n, p1, d1⟩
  · rw [hr] at h1; exact h1
  · rw [hr] at h1
    simp only [Keeps] at h1
    simp only []
    split
    · simp [Keeps, hQ]
    · exact within_keeps Q hQ _ _ _ _ _ _ (keeps_mono (getOctets_keeps Q hQf n p1 d1) h1)

theorem getBlobs_keeps (Q : Halt → Prop) (hQf : Q .fault) (hQ : ∀ e b, Q (.fail e b))
    (size_max end_ : Nat) (enderr : Errno) :
    ∀ (n p : Nat) (d : List Nat), KeepsPos Q p (getBlobs size_max end_ enderr n p d).2
  | 0, p, d => by simp [getBlobs, KeepsPos]
  | n + 1, p, d => by
    unfold getBlobs
    have h1 := getBlob_keeps Q hQf hQ none size_max end_ enderr p d
    rcases hr : getBlob none size_max end_ enderr p d with h | ⟨len, p1, d1⟩
    · rw [hr] at h1; simpa [Keeps, KeepsPos] using h1
    · rw [hr] at h1
      simp only [Keeps] at h1
      simp only []
      have h3 := getBlobs_keeps Q hQf hQ size_max end_ enderr n p1 d1
      revert h3
      rcases (getBlobs size_max end_ enderr n p1 d1).2 with h | ⟨p3, d3⟩
      · simp [KeepsPos]
      · simp only [KeepsPos]; omega

theorem getRefs_keeps (Q : Halt → Prop) (call : Callee) (fields : List Field)
    (s end_ : Nat) (enderr : Errno) (hpos : 0 < end_)
    (hc : ∀ s o d dl h, dl < end_ → (call s o d dl).2 = .error h → Q (promote enderr h)) :
    ∀ (n p : Nat) (d : List Nat), 1 ≤ p →
      Keeps Q p (getRefs call fields s end_ enderr n p d)
  | 0, p, d, _ => by simp [getRefs, Keeps]
  | n + 1, p, d, hp => by
    unfold getRefs
    rcases hr : call s (zeroRec fields) d (end_ - p) with ⟨a, h | read⟩
    · exact hc s (zeroRec fields) d (end_ - p) h (by omega) (by rw [hr])
    · simp only []
      have h2 := getRefs_keeps Q call fields s end_ enderr hpos hc n (p + read)
        (d.drop read) (by omega)
      rcases hr2 : getRefs call fields s end_ enderr n (p + read) (d.drop read) with
        h | ⟨as, p2, d2⟩
      · rw [hr2] at h2; simpa [Keeps] using h2
      · rw [hr2] at h2
        simp only [Keeps] at h2 ⊢
        omega

theorem getField_keeps (Q : Halt → Prop) (hQf : Q .fault) (hQ : ∀ e b, Q (.fail e b))
    (size_max list_max : Nat) (S : Schema) (call : Callee) (end_ : Nat) (enderr : Errno)
    (hpos : 0 < end_)
    (hc : ∀ s o d dl h, dl < end_ → (call s o d dl).2 = .error h → Q (promote enderr h))
    (f : Field) (v : Val) (c : Cur) (hp : 1 ≤ c.p) :
    KeepsCur Q c.p (getField size_max list_max S call end_ enderr f v c).2 := by
  have hskip : KeepsCur Q c.p (Except.ok c) := by simp [KeepsCur]
  unfold getField
  split
  -- bool
  · split
    · exact nextChk_keeps Q hQf hQ _ _ _ _
    · exact hskip
  -- uint8
  · split
    · exact finish_keeps Q hQf _ _ _ _ (within_keeps Q hQ _ _ _ _ _ _ (getU8_keeps Q hQf _ _))
    · exact hskip
  -- uint16
  · split
    · exact finish_keeps Q hQf _ _ _ _ (within_keeps Q hQ _ _ _ _ _ _ (getBE16_keeps Q hQf _ _))
    · split
      · exact finish_keeps Q hQf _ _ _ _
          (within_keeps Q hQ _ _ _ _ _ _ (getU8_keeps Q hQf _ _))
      · exact hskip
  -- uint32
  · split
    · exact finish_keeps Q hQf _ _ _ _ (getInt_keeps Q hQf hQ _ _ _ _ _ _ _)
    · split
      · exact finish_keeps Q hQf _ _ _ _
          (within_keeps Q hQ _ _ _ _ _ _ (getBE32_keeps Q hQf _ _))
      · exact hskip
  -- uint64
  · split
    · exact finish_keeps Q hQf _ _ _ _ (getInt_keeps Q hQf hQ _ _ _ _ _ _ _)
    · split
      · exact finish_keeps Q hQf _ _ _ _
          (within_keeps Q hQ _ _ _ _ _ _ (getBE64_keeps Q hQf _ _))
      · exact hskip
  -- int32
  · split
    · exact finish_keeps Q hQf _ _ _ _ (getInt_keeps Q hQf hQ _ _ _ _ _ _ _)
    · exact hskip
  -- int64
  · split
    · exact finish_keeps Q hQf _ _ _ _ (getInt_keeps Q hQf hQ _ _ _ _ _ _ _)
    · exact hskip
  -- float32
  · split
    · exact finish_keeps Q hQf _ _ _ _ (within_keeps Q hQ _ _ _ _ _ _ (getBE32_keeps Q hQf _ _))
    · exact hskip
  -- float64
  · split
    · exact finish_keeps Q hQf _ _ _ _ (within_keeps Q hQ _ _ _ _ _ _ (getBE64_keeps Q hQf _ _))
    · exact hskip
  -- float32 list
  · split
    · exact finish_keeps Q hQf _ _ _ _ (getFloatList_keeps Q hQf hQ _ _ _ _ _ _)
    · exact hskip
  -- float64 list
  · split
    · exact finish_keeps Q hQf _ _ _ _ (getFloatList_keeps Q hQf hQ _ _ _ _ _ _)
    · exact hskip
  -- timestamp
  · split
    · split
      · exact finish_keeps Q hQf _ _ _ _
          (within_keeps Q hQ _ _ _ _ _ _ (getTime_keeps Q hQf _ _ _))
      · exact finish_keeps Q hQf _ _ _ _
          (within_keeps Q hQ _ _ _ _ _ _ (getTime_keeps Q hQf _ _ _))
    · exact hskip
  -- text
  · split
    · exact finish_keeps Q hQf _ _ _ _ (getBlob_keeps Q hQf hQ _ _ _ _ _ _)
    · exact hskip
  -- binary
  · split
    · exact finish_keeps Q hQf _ _ _ _ (getBlob_keeps Q hQf hQ _ _ _ _ _ _)
    · exact hskip
  -- text list, binary list
  iterate 2
    · split
      · have h1 := getCount_keeps Q hQf hQ list_max end_ enderr c.p c.d
        rcases hr : getCount list_max end_ enderr c.p c.d with h | ⟨n, p1, d1⟩
        · rw [hr] at h1; exact h1
        · rw [hr] at h1
          simp only [Keeps] at h1
          simp only []
          have h2 := getBlobs_keeps Q hQf hQ size_max end_ enderr n p1 d1
          rcases hr2 : getBlobs size_max end_ enderr n p1 d1 with ⟨as, h | ⟨p2, d2⟩⟩
          · rw [hr2] at h2; exact h2
          · rw [hr2] at h2
            simp only [KeepsPos] at h2
            exact keepsCur_mono (nextChk_keeps Q hQf hQ _ _ _ _) (by omega)
      · exact hskip
  -- ref
  · split
    · rename_i s _ _ _
      rcases hr : call s (zeroRec (S s)) c.d (end_ - c.p) with ⟨a, h | read⟩
      · exact hc s (zeroRec (S s)) c.d (end_ - c.p) h (by omega) (by rw [hr])
      · exact keepsCur_mono (nextChk_keeps Q hQf hQ _ _ _ _) (by omega)
    · exact hskip
  -- ref list
  · split
    · have h1 := getCount_keeps Q hQf hQ list_max end_ enderr c.p c.d
      rcases hr : getCount list_max end_ enderr c.p c.d with h | ⟨n, p1, d1⟩
      · rw [hr] at h1; exact h1
      · rw [hr] at h1
        simp only [Keeps] at h1
        simp only []
        rename_i s _ _ _
        have h2 := getRefs_keeps Q call (S s) s end_ enderr hpos hc n p1 d1 (by omega)
        rcases hr2 : getRefs call (S s) s end_ enderr n p1 d1 with h | ⟨as, p2, d2⟩
        · rw [hr2] at h2; exact h2
        · rw [hr2] at h2
          simp only [Keeps] at h2
          exact keepsCur_mono (nextChk_keeps Q hQf hQ _ _ _ _) (by omega)
    · exact hskip

theorem getFields_keeps (Q : Halt → Prop) (hQf : Q .fault) (hQ : ∀ e b, Q (.fail e b))
    (size_max list_max : Nat) (S : Schema) (call : Callee) (end_ : Nat) (enderr : Errno)
    (hpos : 0 < end_)
    (hc : ∀ s o d dl h, dl < end_ → (call s o d dl).2 = .error h → Q (promote enderr h)) :
    ∀ (fields : List Field) (vals : List Val) (c : Cur), 1 ≤ c.p →
      KeepsCur Q c.p (getFields size_max list_max S call end_ enderr fields vals c).2
  | [], _, c, _ => by simp [getFields, KeepsCur]
  | _ :: _, [], c, _ => by simp [getFields, KeepsCur]
  | f :: fs, v :: vs, c, hp => by
    unfold getFields
    have h1 := getField_keeps Q hQf hQ size_max list_max S call end_ enderr hpos hc f v c hp
    rcases hr : getField size_max list_max S call end_ enderr f v c with ⟨v', h | c'⟩
    · rw [hr] at h1; exact h1
    · rw [hr] at h1
      simp only [KeepsCur] at h1
      exact keepsCur_mono (getFields_keeps Q hQf hQ size_max list_max S call end_ enderr hpos hc
        fs vs c' (by omega)) h1

/-- A run of `unmarshal` stops like a run out of nesting depth only if a nested call with
fewer than `end - data` octets does. -/
theorem unmarshalRun_ne_fuel (size_max list_max : Nat) (S : Schema) (call : Callee)
    (fields : List Field) (o : Rec) (data : List Nat) (end_ : Nat) (enderr : Errno)
    (hc : ∀ s o d dl, dl < end_ → (call s o d dl).2 ≠ .error .fuel) :
    (unmarshalRun size_max list_max S call fields o data end_ enderr).2 ≠ .error .fuel := by
  have hc' : ∀ s o d dl h, dl < end_ → (call s o d dl).2 = .error h →
      promote enderr h ≠ .fuel := by
    intro s o d dl h hdl hr
    have := hc s o d dl hdl
    cases h with
    | fail e b => simp [promote]
    | fault => simp [promote]
    | fuel => exact absurd hr this
  unfold unmarshalRun
  split
  · simp
  · rename_i hpos
    cases data with
    | nil => simp [next]
    | cons b d =>
      simp only [next]
      have h1 := getFields_keeps (· ≠ .fuel) (by simp) (by simp) size_max list_max S call end_
        enderr (by omega) hc' fields o ⟨b, 0 + 1, d⟩ (by simp)
      rcases hg : getFields size_max list_max S call end_ enderr fields o
        ⟨b, 0 + 1, d⟩ with ⟨o', h' | c'⟩
      · rw [hg] at h1
        simp only [KeepsCur] at h1
        simpa using h1
      · simp only []
        split <;> simp

theorem unmarshalAux_ne_fuel (size_max list_max : Nat) (S : Schema) :
    ∀ (k sid : Nat) (o : Rec) (data : List Nat) (datalen : Nat),
      endOf size_max datalen ≤ k →
      (unmarshalAux size_max list_max S k sid o data datalen).2 ≠ .error .fuel
  | 0, sid, o, data, datalen, hk => by
    rw [unmarshalAux_eq]
    exact unmarshalRun_ne_fuel size_max list_max S _ _ _ _ _ _ (fun s o d dl hdl => by omega)
  | k + 1, sid, o, data, datalen, hk => by
    rw [unmarshalAux_eq]
    refine unmarshalRun_ne_fuel size_max list_max S _ _ _ _ _ _ (fun s o d dl hdl => ?_)
    refine unmarshalAux_ne_fuel size_max list_max S k s o d dl ?_
    have h1 : endOf size_max dl ≤ dl := by unfold endOf; split <;> omega
    omega

/-! ### Nested calls get fewer octets than their caller -/

theorem restrict_of_lt (m : Nat) (call : Callee) (s : Nat) (o : Rec) (d : List Nat)
    (dl : Nat) (h : dl < m) : restrict m call s o d dl = call s o d dl := by
  simp [restrict, h]

theorem getRefs_restrict (call : Callee) (fields : List Field) (s end_ : Nat)
    (enderr : Errno) (hpos : 0 < end_) :
    ∀ (n p : Nat) (d : List Nat), 1 ≤ p →
      getRefs (restrict end_ call) fields s end_ enderr n p d
        = getRefs call fields s end_ enderr n p d
  | 0, p, d, _ => by simp [getRefs]
  | n + 1, p, d, hp => by
    unfold getRefs
    rw [restrict_of_lt end_ call s _ d (end_ - p) (by omega)]
    rcases hr : call s (zeroRec fields) d (end_ - p) with ⟨a, h | read⟩
    · rfl
    · simp only []
      rw [getRefs_restrict call fields s end_ enderr hpos n (p + read) (d.drop read) (by omega)]

theorem getField_restrict (size_max list_max : Nat) (S : Schema) (call : Callee)
    (end_ : Nat) (enderr : Errno) (hpos : 0 < end_) (f : Field) (v : Val) (c : Cur)
    (hp : 1 ≤ c.p) :
    getField size_max list_max S (restrict end_ call) end_ enderr f v c
      = getField size_max list_max S call end_ enderr f v c := by
  obtain ⟨idx, ty, tl⟩ := f
  cases ty <;> cases tl <;> simp only [getField] <;> try rfl
  -- ref
  · split
    · rw [restrict_of_lt end_ call _ _ c.d (end_ - c.p) (by omega)]
    · rfl
  -- ref list
  · split
    · have h1 := getCount_keeps (fun _ => True) trivial (fun _ _ => trivial) list_max end_ enderr
        c.p c.d
      rcases hr : getCount list_max end_ enderr c.p c.d with h | ⟨n, p1, d1⟩
      · rfl
      · rw [hr] at h1
        simp only [Keeps] at h1
        simp only []
        rw [getRefs_restrict call _ _ end_ enderr hpos n p1 d1 (by omega)]
    · rfl

theorem getFields_restrict (size_max list_max : Nat) (S : Schema) (call : Callee)
    (end_ : Nat) (enderr : Errno) (hpos : 0 < end_) :
    ∀ (fields : List Field) (vals : List Val) (c : Cur), 1 ≤ c.p →
      getFields size_max list_max S (restrict end_ call) end_ enderr fields vals c
        = getFields size_max list_max S call end_ enderr fields vals c
  | [], _, c, _ => by simp [getFields]
  | _ :: _, [], c, _ => by simp [getFields]
  | f :: fs, v :: vs, c, hp => by
    unfold getFields
    rw [getField_restrict size_max list_max S call end_ enderr hpos f v c hp]
    have h1 := getField_keeps (fun _ => True) trivial (fun _ _ => trivial) size_max list_max S
      call end_ enderr hpos (fun _ _ _ _ _ _ _ => trivial) f v c hp
    rcases hr : getField size_max list_max S call end_ enderr f v c with ⟨v', h | c'⟩
    · rfl
    · rw [hr] at h1
      simp only [KeepsCur] at h1
      simp only []
      rw [getFields_restrict size_max list_max S call end_ enderr hpos fs vs c' (by omega)]

/-- A run of `unmarshal` passes fewer than `end - data` octets to every nested call: the
nested calls may be replaced by their restriction to such calls. -/
theorem unmarshalRun_restrict (size_max list_max : Nat) (S : Schema) (call : Callee)
    (fields : List Field) (o : Rec) (data : List Nat) (end_ : Nat) (enderr : Errno) :
    unmarshalRun size_max list_max S (restrict end_ call) fields o data end_ enderr
      = unmarshalRun size_max list_max S call fields o data end_ enderr := by
  unfold unmarshalRun
  split
  · rfl
  · cases data with
    | nil => rfl
    | cons b d =>
      simp only [next]
      rw [getFields_restrict size_max list_max S call end_ enderr (by omega) fields o
        ⟨b, 0 + 1, d⟩ (by simp)]

theorem endOf_le (size_max datalen : Nat) : endOf size_max datalen ≤ datalen := by
  unfold endOf; split <;> omega

theorem endOf_eq_min (size_max datalen : Nat) :
    endOf size_max datalen = min datalen size_max := by
  unfold endOf; split <;> omega

/-- The result of `unmarshal` is the same for every nesting depth of the embedding from
`min datalen colfer_size_max` on. -/
theorem unmarshalAux_depth (size_max list_max : Nat) (S : Schema) :
    ∀ (k k' sid : Nat) (o : Rec) (data : List Nat) (datalen : Nat),
      endOf size_max datalen ≤ k → endOf size_max datalen ≤ k' →
      unmarshalAux size_max list_max S k sid o data datalen
        = unmarshalAux size_max list_max S k' sid o data datalen := by
  intro k
  induction k with
  | zero =>
    intro k' sid o data datalen hk hk'
    rw [unmarshalAux_eq, unmarshalAux_eq]
    have h0 : endOf size_max datalen = 0 := by omega
    rw [h0]
    simp [unmarshalRun]
  | succ k ih =>
    intro k' sid o data datalen hk hk'
    rw [unmarshalAux_eq, unmarshalAux_eq,
      ← unmarshalRun_restrict size_max list_max S (calleeOf size_max list_max S (k + 1)),
      ← unmarshalRun_restrict size_max list_max S (calleeOf size_max list_max S k')]
    congr 1
    funext s o' d dl
    unfold restrict
    split
    · rename_i hdl
      have h1 := endOf_le size_max dl
      cases k' with
      | zero => omega
      | succ k0 =>
        exact ih k0 s o' d dl (by omega) (by omega)
    · rfl

/-! ### The varint loops stop before `end` -/

theorem intLoop_bound (w : Nat) (cut : Option Nat) (end_ : Nat) (enderr : Errno) :
    ∀ (d : List Nat) (x shift p y p' : Nat) (d' : List Nat),
      intLoop w none cut end_ enderr d x shift p = .ok (y, p', d') → p < p' ∧ p' < end_
  | [], x, shift, p, y, p', d', h => by
    simp [intLoop] at h
  | b :: d, x, shift, p, y, p', d', h => by
    unfold intLoop at h
    simp only [Option.all_none, if_true] at h
    split at h
    · simp at h
    · split at h
      · simp only [Except.ok.injEq, Prod.mk.injEq] at h
        omega
      · have := intLoop_bound w cut end_ enderr d _ _ _ y p' d' h
        omega

theorem getInt_bound (w : Nat) (cut : Option Nat) (end_ : Nat) (enderr : Errno) (p : Nat)
    (d : List Nat) (y p' : Nat) (d' : List Nat)
    (h : getInt w none cut end_ enderr p d = .ok (y, p', d')) : p < p' ∧ p' < end_ := by
  unfold getInt at h
  split at h
  · simp at h
  · split at h
    · simp at h
    · split at h
      · have := intLoop_bound w cut end_ enderr _ _ _ _ y p' d' h
        omega
      · simp only [Except.ok.injEq, Prod.mk.injEq] at h
        omega

theorem lenVarLoop_bound (lim : Option Nat) (end_ : Nat) (enderr : Errno) :
    ∀ (d : List Nat) (n shift p y p' : Nat) (d' : List Nat), p ≤ end_ →
      lenVarLoop lim end_ enderr d n shift p = .ok (y, p', d') → p ≤ p' ∧ p' ≤ end_
  | [], n, shift, p, y, p', d', hp, h => by
    unfold lenVarLoop at h
    split at h
    · split at h <;> simp at h
    · simp only [Except.ok.injEq, Prod.mk.injEq] at h
      omega
  | c :: d, n, shift, p, y, p', d', hp, h => by
    unfold lenVarLoop at h
    split at h
    · split at h
      · simp at h
      · simp only [] at h
        split at h
        · simp only [Except.ok.injEq, Prod.mk.injEq] at h
          omega
        · have := lenVarLoop_bound lim end_ enderr d _ _ _ y p' d' (by omega) h
          omega
    · simp only [Except.ok.injEq, Prod.mk.injEq] at h
      omega

theorem getLen_bound (lim : Option Nat) (end_ : Nat) (enderr : Errno) (p : Nat)
    (d : List Nat) (y p' : Nat) (d' : List Nat)
    (h : getLen lim end_ enderr p d = .ok (y, p', d')) : p < p' ∧ p' ≤ end_ := by
  unfold getLen at h
  split at h
  · simp at h
  · split at h
    · simp at h
    · split at h
      · have := lenVarLoop_bound lim end_ enderr _ _ _ _ y p' d' (by omega) h
        omega
      · simp only [Except.ok.injEq, Prod.mk.injEq] at h
        omega

/-! ### C17: `unmarshal` terminates -/

/-- C17: `unmarshal` returns on every schema (structs that refer to themselves included) and
every input: the embedding never runs out of nesting depth, and its result is the same for
every depth from `min datalen colfer_size_max` on; every nested call gets fewer octets than
`min datalen colfer_size_max` of its caller, so that the nested calls may be restricted to
such calls; and the varint loops without a bound on the shift, those of `uint32`, `uint64`
and of the lengths and counts, end before `end` (at `end` at the latest for a length). -/
theorem decode_terminates (size_max list_max : Nat) (S : Schema) (sid : Nat) (o : Rec)
    (data : List Nat) (datalen : Nat) :
    (unmarshal size_max list_max S sid o data datalen).2 ≠ .error .fuel ∧
    (∀ k, min datalen size_max ≤ k →
      unmarshalAux size_max list_max S k sid o data datalen
        = unmarshal size_max list_max S sid o data datalen) ∧
    (∀ call : Callee,
      unmarshalBody size_max list_max S (restrict (min datalen size_max) call) (S sid) o data
          datalen
        = unmarshalBody size_max list_max S call (S sid) o data datalen) ∧
    (∀ (w : Nat) (cut : Option Nat) (end_ : Nat) (enderr : Errno) (p : Nat) (d : List Nat)
      (x p' : Nat) (d' : List Nat),
      getInt w none cut end_ enderr p d = .ok (x, p', d') → p < p' ∧ p' < end_) ∧
    (∀ (lim : Option Nat) (end_ : Nat) (enderr : Errno) (p : Nat) (d : List Nat)
      (n p' : Nat) (d' : List Nat),
      getLen lim end_ enderr p d = .ok (n, p', d') → p < p' ∧ p' ≤ end_) := by
  have hE := endOf_eq_min size_max datalen
  have hle := endOf_le size_max datalen
  refine ⟨unmarshalAux_ne_fuel size_max list_max S datalen sid o data datalen hle, ?_, ?_,
    fun w cut end_ enderr p d x p' d' h => getInt_bound w cut end_ enderr p d x p' d' h,
    fun lim end_ enderr p d n p' d' h => getLen_bound lim end_ enderr p d n p' d' h⟩
  · intro k hk
    exact unmarshalAux_depth size_max list_max S k datalen sid o data datalen (by omega) hle
  · intro call
    have := unmarshalRun_restrict size_max list_max S call (S sid) o data
      (endOf size_max datalen) (limiter size_max datalen)
    rw [← hE]
    exact this

/-! ### C16: reads inside the data -/

/-- C16, at the failing input: for schema `O` with `colfer_list_max = 2^62` and the 12
octets `03 80 80 80 80 80 80 80 80 40 01 02`, `datalen = 12`, the count of the float list is
read as `2^62`, which is within `colfer_list_max`; the product `n*4` of the test
`p+n*4 >= end` wraps to 0 in `size_t`, the test passes at offset 10, and the element loop
(the one of a build without `COLFER_ENDIAN`) reads 4 octets from offset 10 on, past the 12
octets of the data. -/
theorem float_list_count_overflow :
    ([3, 0x80, 0x80, 0x80, 0x80, 0x80, 0x80, 0x80, 0x80, 0x40, 1, 2] : List Nat).length = 12 ∧
    getCount (2 ^ 62) 12 .EWOULDBLOCK 1
      [0x80, 0x80, 0x80, 0x80, 0x80, 0x80, 0x80, 0x80, 0x40, 1, 2] = .ok (2 ^ 62, 10, [1, 2]) ∧
    (2 ^ 62 * 4) % 2 ^ 64 = 0 ∧
    (unmarshal (2 ^ 24) (2 ^ 62) schemaO 0 (zeroRec (schemaO 0))
      [3, 0x80, 0x80, 0x80, 0x80, 0x80, 0x80, 0x80, 0x80, 0x40, 1, 2] 12).2
      = .error .fault := by
  refine ⟨rfl, by rfl, by norm_num, by rfl⟩

/-! ### Reads stay inside the data: reads of a fixed number of octets -/

theorem rawRead_ok {α : Type} (K : Nat) (f : List Nat → α) (p : Nat) (d : List Nat)
    (h : K ≤ d.length) : rawRead K f p d = .ok (f (d.take K), p + K, d.drop K) := by
  unfold rawRead; rw [if_pos h]

theorem rawRead_fault {α : Type} (K : Nat) (f : List Nat → α) (p : Nat) (d : List Nat)
    (h : ¬ K ≤ d.length) : rawRead K f p d = .error .fault := by
  unfold rawRead; rw [if_neg h]

/-- Two reads in a row, of `K` and of `K'` octets, are one read of `K + K'` octets. -/
theorem rawRead_pair {α β γ : Type} (K K' : Nat) (f : List Nat → α) (f' : List Nat → β)
    (g : α → β → γ) (p : Nat) (d : List Nat) :
    (K + K' ≤ d.length ∧ K ≤ d.length ∧ K' ≤ (d.drop K).length ∧
      rawRead K f p d = .ok (f (d.take K), p + K, d.drop K) ∧
      rawRead K' f' (p + K) (d.drop K)
        = .ok (f' ((d.drop K).take K'), p + K + K', (d.drop K).drop K') ∧
      rawRead (K + K') (fun l => g (f (l.take K)) (f' (l.drop K))) p d
        = .ok (g (f (d.take K)) (f' ((d.drop K).take K')), p + K + K',
            (d.drop K).drop K')) ∨
    (¬ K + K' ≤ d.length ∧
      rawRead (K + K') (fun l => g (f (l.take K)) (f' (l.drop K))) p d = .error .fault ∧
      (rawRead K f p d = .error .fault ∨
        (rawRead K f p d = .ok (f (d.take K), p + K, d.drop K) ∧
          rawRead K' f' (p + K) (d.drop K) = .error .fault))) := by
  by_cases h : K + K' ≤ d.length
  · left
    have h1 : K ≤ d.length := by omega
    have h2 : K' ≤ (d.drop K).length := by rw [List.length_drop]; omega
    refine ⟨h, h1, h2, rawRead_ok K f p d h1, rawRead_ok K' f' _ _ h2, ?_⟩
    rw [rawRead_ok _ _ p d h]
    simp only [List.take_take, List.drop_take, List.drop_drop, Nat.add_assoc,
      Nat.add_sub_cancel_left, Nat.le_add_right, min_eq_left]
  · right
    refine ⟨h, rawRead_fault _ _ p d h, ?_⟩
    by_cases h1 : K ≤ d.length
    · right
      exact ⟨rawRead_ok K f p d h1, rawRead_fault K' f' _ _ (by rw [List.length_drop]; omega)⟩
    · left
      exact rawRead_fault K f p d h1

theorem getOctets_raw (n p : Nat) (d : List Nat) : getOctets n p d = rawRead n id p d := rfl

theorem getU8_raw : ∃ f : List Nat → Nat, ∀ p d, getU8 p d = rawRead 1 f p d := by
  refine ⟨fun l => l.headD 0, ?_⟩
  intro p d
  cases d <;> simp [getU8, rawRead]

theorem getBE16_raw : ∃ f : List Nat → Nat, ∀ p d, getBE16 p d = rawRead 2 f p d := by
  refine ⟨fun l => match getBE16 0 l with | .ok (x, _, _) => x | _ => 0, ?_⟩
  intro p d
  rcases d with _ | ⟨b0, _ | ⟨b1, d⟩⟩ <;> simp [getBE16, rawRead]

theorem getBE32_raw : ∃ f : List Nat → Nat, ∀ p d, getBE32 p d = rawRead 4 f p d := by
  refine ⟨fun l => match getBE32 0 l with | .ok (x, _, _) => x | _ => 0, ?_⟩
  intro p d
  rcases d with _ | ⟨b0, _ | ⟨b1, _ | ⟨b2, _ | ⟨b3, d⟩⟩⟩⟩ <;> simp [getBE32, rawRead]

theorem getBE64_raw : ∃ f : List Nat → Nat, ∀ p d, getBE64 p d = rawRead 8 f p d := by
  refine ⟨fun l => match getBE64 0 l with | .ok (x, _, _) => x | _ => 0, ?_⟩
  intro p d
  rcases d with _ | ⟨b0, _ | ⟨b1, _ | ⟨b2, _ | ⟨b3, _ | ⟨b4, _ | ⟨b5, _ | ⟨b6, _ | ⟨b7, d⟩⟩⟩⟩⟩⟩⟩⟩ <;>
    simp [getBE64, rawRead]

theorem getTime_raw (wide : Bool) :
    ∃ f : List Nat → Int × Int, ∀ p d,
      getTime wide p d = rawRead (if wide then 12 else 8) f p d := by
  obtain ⟨f4, h4⟩ := getBE32_raw
  obtain ⟨f8, h8⟩ := getBE64_raw
  cases wide
  · refine ⟨fun l => ((f4 (l.take 4) : Int), (f4 (l.drop 4) : Int)), fun p d => ?_⟩
    simp only [getTime, Bool.false_eq_true, if_false, h4]
    rcases rawRead_pair 4 4 f4 f4 (fun x ns => ((x : Int), (ns : Int))) p d with
      ⟨_, _, _, e1, e2, e3⟩ | ⟨_, e3, e1 | ⟨e1, e2⟩⟩
    · rw [e1]; simp only []; rw [e2, e3]
    · rw [e1, e3]
    · rw [e1]; simp only []; rw [e2, e3]
  · refine ⟨fun l => (toI64 (f8 (l.take 8)), (f4 (l.drop 8) : Int)), fun p d => ?_⟩
    simp only [getTime, if_true, h4, h8]
    rcases rawRead_pair 8 4 f8 f4 (fun x ns => (toI64 x, (ns : Int))) p d with
      ⟨_, _, _, e1, e2, e3⟩ | ⟨_, e3, e1 | ⟨e1, e2⟩⟩
    · rw [e1]; simp only []; rw [e2, e3]
    · rw [e1, e3]
    · rw [e1]; simp only []; rw [e2, e3]

theorem getFloats_raw (wide : Bool) :
    ∀ n : Nat, ∃ f : List Nat → List Nat, ∀ p d,
      getFloats wide n p d = rawRead (n * (if wide then 8 else 4)) f p d
  | 0 => ⟨fun _ => [], fun p d => by simp [getFloats, rawRead]⟩
  | n + 1 => by
    obtain ⟨f4, h4⟩ := getBE32_raw
    obtain ⟨f8, h8⟩ := getBE64_raw
    obtain ⟨fn, hn⟩ := getFloats_raw wide n
    cases wide
    · simp only [Bool.false_eq_true, if_false] at hn ⊢
      refine ⟨fun l => f4 (l.take 4) :: fn (l.drop 4), fun p d => ?_⟩
      simp only [getFloats, Bool.false_eq_true, if_false, h4, hn]
      rw [show (n + 1) * 4 = 4 + n * 4 from by omega]
      rcases rawRead_pair 4 (n * 4) f4 fn (fun x xs => x :: xs) p d with
        ⟨_, _, _, e1, e2, e3⟩ | ⟨_, e3, e1 | ⟨e1, e2⟩⟩
      · rw [e1]; simp only []; rw [e2, e3]
      · rw [e1, e3]
      · rw [e1]; simp only []; rw [e2, e3]
    · simp only [if_true] at hn ⊢
      refine ⟨fun l => f8 (l.take 8) :: fn (l.drop 8), fun p d => ?_⟩
      simp only [getFloats, if_true, h8, hn]
      rw [show (n + 1) * 8 = 8 + n * 8 from by omega]
      rcases rawRead_pair 8 (n * 8) f8 fn (fun x xs => x :: xs) p d with
        ⟨_, _, _, e1, e2, e3⟩ | ⟨_, e3, e1 | ⟨e1, e2⟩⟩
      · rw [e1]; simp only []; rw [e2, e3]
      · rw [e1, e3]
      · rw [e1]; simp only []; rw [e2, e3]

theorem rawRead_append {α : Type} (K : Nat) (f : List Nat → α) (p : Nat) (d t : List Nat)
    (h : K ≤ d.length) : rawRead K f p (d ++ t) = extR t (rawRead K f p d) := by
  unfold rawRead
  rw [if_pos h, if_pos (by rw [List.length_append]; omega)]
  simp only [extR, List.take_append_of_le_length h, List.drop_append_of_le_length h]

/-- A read of `K` octets behind the test `if (p+K >= end)` stays inside data that reaches
`end`, ends before `end`, and does not depend on octets appended to the data. -/
theorem within_raw {α : Type} (end_ : Nat) (enderr : Errno) (K : Nat) (f : List Nat → α)
    (p : Nat) (d : List Nat) (hcov : end_ ≤ p + d.length) :
    SafeLt end_ (within end_ enderr p K (rawRead K f p d)) ∧
    ∀ t, within end_ enderr p K (rawRead K f p (d ++ t))
      = extR t (within end_ enderr p K (rawRead K f p d)) := by
  unfold within
  by_cases h : p + K ≥ end_
  · simp only [if_pos h]
    exact ⟨by simp [SafeLt], fun t => rfl⟩
  · simp only [if_neg h]
    have hK : K ≤ d.length := by omega
    refine ⟨?_, fun t => rawRead_append K f p d t hK⟩
    unfold rawRead
    rw [if_pos hK]
    simp only [SafeLt, List.length_drop]
    omega

/-! ### Reads stay inside the data: tags, varints, lengths -/

theorem next_read (end_ p : Nat) (d : List Nat) (hp : p < end_) (hcov : end_ ≤ p + d.length) :
    SafeCur end_ (next p d) ∧ ∀ t, next p (d ++ t) = extC t (next p d) := by
  cases d with
  | nil => simp at hcov; omega
  | cons b d =>
    simp only [next, SafeCur, List.cons_append, extC, List.length_cons] at hcov ⊢
    exact ⟨⟨by omega, by omega⟩, fun _ => by trivial⟩

theorem nextChk_read (end_ : Nat) (enderr : Errno) (p : Nat) (d : List Nat)
    (hcov : end_ ≤ p + d.length) :
    SafeCur end_ (nextChk end_ enderr p d) ∧
    ∀ t, nextChk end_ enderr p (d ++ t) = extC t (nextChk end_ enderr p d) := by
  unfold nextChk
  by_cases h : p ≥ end_
  · simp only [if_pos h]
    exact ⟨by simp [SafeCur], fun _ => by trivial⟩
  · simp only [if_neg h]
    exact next_read end_ p d (by omega) hcov

theorem finish_read {α : Type} (end_ : Nat) (v : Val) (mk : α → Val)
    (r : Except Halt (α × Nat × List Nat)) (h : SafeLt end_ r) :
    SafeCur end_ (finish v mk r).2 ∧
    ∀ t, finish v mk (extR t r) = ((finish v mk r).1, extC t (finish v mk r).2) := by
  cases r with
  | error h' => exact ⟨h, fun _ => by trivial⟩
  | ok a =>
    obtain ⟨x, p', d'⟩ := a
    simp only [SafeLt] at h
    have := next_read end_ p' d' h.1 h.2
    exact ⟨this.1, fun t => by simp only [finish, extR, this.2 t]⟩

theorem intLoop_read (w : Nat) (lim cut : Option Nat) (end_ : Nat) (enderr : Errno) :
    ∀ (d : List Nat) (x shift p : Nat), p < end_ → end_ ≤ p + d.length →
      SafeLt end_ (intLoop w lim cut end_ enderr d x shift p) ∧
      ∀ t, intLoop w lim cut end_ enderr (d ++ t) x shift p
        = extR t (intLoop w lim cut end_ enderr d x shift p)
  | [], x, shift, p, hp, hcov => by simp at hcov; omega
  | b :: d, x, shift, p, hp, hcov => by
    simp only [List.length_cons] at hcov
    have ih := intLoop_read w lim cut end_ enderr d
      ((x ||| ((b &&& 127) <<< shift)) % 2 ^ w) (shift + 7) (p + 1)
    simp only [List.cons_append]
    unfold intLoop
    by_cases hl : lim.all (fun m => shift < m) = true
    · simp only [hl, if_true]
      by_cases he : p + 1 ≥ end_
      · simp only [if_pos he]
        exact ⟨by simp [SafeLt], fun _ => by trivial⟩
      · simp only [if_neg he]
        by_cases ha : b ≤ 127 ∨ cut = some shift
        · simp only [if_pos ha, SafeLt, extR]
          exact ⟨⟨by omega, by omega⟩, fun _ => by trivial⟩
        · simp only [if_neg ha]
          exact ih (by omega) (by omega)
    · simp only [hl, Bool.false_eq_true, if_false, SafeLt, extR, List.length_cons,
        List.cons_append]
      exact ⟨⟨hp, by omega⟩, fun _ => by trivial⟩

theorem getInt_read (w : Nat) (lim cut : Option Nat) (end_ : Nat) (enderr : Errno) (p : Nat)
    (d : List Nat) (hcov : end_ ≤ p + d.length) :
    SafeLt end_ (getInt w lim cut end_ enderr p d) ∧
    ∀ t, getInt w lim cut end_ enderr p (d ++ t) = extR t (getInt w lim cut end_ enderr p d) := by
  unfold getInt
  by_cases he : p + 1 ≥ end_
  · simp only [if_pos he]
    exact ⟨by simp [SafeLt], fun _ => by trivial⟩
  · simp only [if_neg he]
    cases d with
    | nil => simp at hcov; omega
    | cons b d =>
      simp only [List.length_cons] at hcov
      simp only [List.cons_append]
      by_cases hb : b > 127
      · simp only [if_pos hb]
        exact intLoop_read w lim cut end_ enderr d _ 7 (p + 1) (by omega) (by omega)
      · simp only [if_neg hb, SafeLt, extR]
        exact ⟨⟨by omega, by omega⟩, fun _ => by trivial⟩

theorem lenVarLoop_read (lim : Option Nat) (end_ : Nat) (enderr : Errno) :
    ∀ (d : List Nat) (n shift p : Nat), p ≤ end_ → end_ ≤ p + d.length →
      SafeLe end_ (lenVarLoop lim end_ enderr d n shift p) ∧
      ∀ t, lenVarLoop lim end_ enderr (d ++ t) n shift p
        = extR t (lenVarLoop lim end_ enderr d n shift p)
  | [], n, shift, p, hp, hcov => by
    simp only [List.length_nil, Nat.add_zero] at hcov
    have hpe : p ≥ end_ := hcov
    have hd : ∀ t : List Nat, lenVarLoop lim end_ enderr t n shift p
        = if lim.all (fun m => shift < m) = true then .error (.fail enderr true)
          else .ok (n, p, t) := by
      intro t
      cases t <;> (unfold lenVarLoop; simp only [if_pos hpe])
    simp only [List.nil_append, hd]
    split
    · exact ⟨by simp [SafeLe], fun _ => by trivial⟩
    · simp only [SafeLe, extR, List.length_nil, List.nil_append]
      exact ⟨⟨hp, by omega⟩, fun _ => by trivial⟩
  | c :: d, n, shift, p, hp, hcov => by
    simp only [List.length_cons] at hcov
    have ih := lenVarLoop_read lim end_ enderr d
      ((n ||| ((c &&& 127) <<< shift)) % 2 ^ 64) (shift + 7) (p + 1)
    simp only [List.cons_append]
    unfold lenVarLoop
    by_cases hl : lim.all (fun m => shift < m) = true
    · simp only [hl, if_true]
      by_cases he : p ≥ end_
      · simp only [if_pos he]
        exact ⟨by simp [SafeLe], fun _ => by trivial⟩
      · simp only [if_neg he]
        by_cases ha : c ≤ 127
        · simp only [if_pos ha, SafeLe, extR]
          exact ⟨⟨by omega, by omega⟩, fun _ => by trivial⟩
        · simp only [if_neg ha]
          exact ih (by omega) (by omega)
    · simp only [hl, Bool.false_eq_true, if_false, SafeLe, extR, List.length_cons,
        List.cons_append]
      exact ⟨⟨hp, by omega⟩, fun _ => by trivial⟩

theorem getLen_read (lim : Option Nat) (end_ : Nat) (enderr : Errno) (p : Nat) (d : List Nat)
    (hcov : end_ ≤ p + d.length) :
    SafeLe end_ (getLen lim end_ enderr p d) ∧
    ∀ t, getLen lim end_ enderr p (d ++ t) = extR t (getLen lim end_ enderr p d) := by
  unfold getLen
  by_cases he : p ≥ end_
  · simp only [if_pos he]
    exact ⟨by simp [SafeLe], fun _ => by trivial⟩
  · simp only [if_neg he]
    cases d with
    | nil => simp at hcov; omega
    | cons b d =>
      simp only [List.length_cons] at hcov
      simp only [List.cons_append]
      by_cases hb : b > 127
      · simp only [if_pos hb]
        exact lenVarLoop_read lim end_ enderr d _ 7 (p + 1) (by omega) (by omega)
      · simp only [if_neg hb, SafeLe, extR]
        exact ⟨⟨by omega, by omega⟩, fun _ => by trivial⟩

theorem getCount_read (list_max end_ : Nat) (enderr : Errno) (p : Nat) (d : List Nat)
    (hcov : end_ ≤ p + d.length) :
    SafeLe end_ (getCount list_max end_ enderr p d) ∧
    (∀ t, getCount list_max end_ enderr p (d ++ t)
      = extR t (getCount list_max end_ enderr p d)) ∧
    ∀ n p' d', getCount list_max end_ enderr p d = .ok (n, p', d') → n ≤ list_max := by
  unfold getCount
  obtain ⟨h1, h2⟩ := getLen_read none end_ enderr p d hcov
  simp only [h2]
  rcases hr : getLen none end_ enderr p d with h | ⟨n, p1, d1⟩
  · rw [hr] at h1
    exact ⟨h1, fun _ => by trivial, fun _ _ _ h => by simp at h⟩
  · rw [hr] at h1
    simp only [extR]
    by_cases hn : n > list_max
    · simp only [if_pos hn]
      exact ⟨by simp [SafeLe], fun _ => by trivial, fun _ _ _ h => by simp at h⟩
    · simp only [if_neg hn]
      refine ⟨h1, fun _ => by trivial, fun n' p' d' h => ?_⟩
      simp only [Except.ok.injEq, Prod.mk.injEq] at h
      omega

theorem getFloatList_read (wide : Bool) (list_max end_ : Nat) (enderr : Errno) (p : Nat)
    (d : List Nat) (hG : list_max * 8 < 2 ^ 64) (hcov : end_ ≤ p + d.length) :
    SafeLt end_ (getFloatList wide list_max end_ enderr p d) ∧
    ∀ t, getFloatList wide list_max end_ enderr p (d ++ t)
      = extR t (getFloatList wide list_max end_ enderr p d) := by
  unfold getFloatList
  obtain ⟨h1, h2, h3⟩ := getCount_read list_max end_ enderr p d hcov
  simp only [h2]
  rcases hr : getCount list_max end_ enderr p d with h | ⟨n, p1, d1⟩
  · rw [hr] at h1
    exact ⟨h1, fun _ => by trivial⟩
  · rw [hr] at h1
    have hn := h3 n p1 d1 hr
    simp only [SafeLe] at h1
    simp only [extR]
    obtain ⟨f, hf⟩ := getFloats_raw wide n
    have hm : (n * (if wide = true then 8 else 4)) % 2 ^ 64
        = n * (if wide = true then 8 else 4) := by
      apply Nat.mod_eq_of_lt
      split <;> omega
    simp only [hf, hm]
    exact within_raw end_ enderr _ f p1 d1 h1.2

theorem getBlob_read (lim : Option Nat) (size_max end_ : Nat) (enderr : Errno) (p : Nat)
    (d : List Nat) (hcov : end_ ≤ p + d.length) :
    SafeLt end_ (getBlob lim size_max end_ enderr p d) ∧
    ∀ t, getBlob lim size_max end_ enderr p (d ++ t)
      = extR t (getBlob lim size_max end_ enderr p d) := by
  unfold getBlob
  obtain ⟨h1, h2⟩ := getLen_read lim end_ enderr p d hcov
  simp only [h2]
  rcases hr : getLen lim end_ enderr p d with h | ⟨n, p1, d1⟩
  · rw [hr] at h1
    exact ⟨h1, fun _ => by trivial⟩
  · rw [hr] at h1
    simp only [SafeLe] at h1
    simp only [extR]
    by_cases hn : n > size_max
    · simp only [if_pos hn]
      exact ⟨by simp [SafeLt], fun _ => by trivial⟩
    · simp only [if_neg hn, getOctets_raw]
      exact within_raw end_ enderr n id p1 d1 h1.2

theorem getBlobs_read (size_max end_ : Nat) (enderr : Errno) :
    ∀ (n p : Nat) (d : List Nat), p ≤ end_ → end_ ≤ p + d.length →
      SafePos end_ (getBlobs size_max end_ enderr n p d).2 ∧
      ∀ t, getBlobs size_max end_ enderr n p (d ++ t)
        = ((getBlobs size_max end_ enderr n p d).1,
            extP t (getBlobs size_max end_ enderr n p d).2)
  | 0, p, d, hp, hcov => by
    simp only [getBlobs, SafePos, extP]
    exact ⟨⟨hp, hcov⟩, fun _ => by trivial⟩
  | n + 1, p, d, hp, hcov => by
    unfold getBlobs
    obtain ⟨h1, h2⟩ := getBlob_read none size_max end_ enderr p d hcov
    simp only [h2]
    rcases hr : getBlob none size_max end_ enderr p d with h | ⟨a, p1, d1⟩
    · rw [hr] at h1
      exact ⟨h1, fun _ => by trivial⟩
    · rw [hr] at h1
      simp only [SafeLt] at h1
      simp only [extR]
      obtain ⟨h3, h4⟩ := getBlobs_read size_max end_ enderr n p1 d1 (by omega) h1.2
      exact ⟨h3, fun t => by rw [h4 t]⟩

/-- The element loop of a list of structs stays inside the data when the nested calls
do. -/
theorem getRefs_read (call : Callee) (hc : CallSafe call) (fields : List Field)
    (s end_ : Nat) (enderr : Errno) :
    ∀ (n p : Nat) (d : List Nat), p ≤ end_ → end_ ≤ p + d.length →
      SafeLe end_ (getRefs call fields s end_ enderr n p d) ∧
      ∀ t, getRefs call fields s end_ enderr n p (d ++ t)
        = extR t (getRefs call fields s end_ enderr n p d)
  | 0, p, d, hp, hcov => by
    simp only [getRefs, SafeLe, extR]
    exact ⟨⟨hp, hcov⟩, fun _ => by trivial⟩
  | n + 1, p, d, hp, hcov => by
    unfold getRefs
    obtain ⟨h1, h2, h3⟩ := hc s (zeroRec fields) d (end_ - p) (by omega)
    simp only [h3]
    rcases hr : call s (zeroRec fields) d (end_ - p) with ⟨a, h | read⟩
    · rw [hr] at h1
      simp only [SafeLe, extR]
      refine ⟨?_, fun _ => by trivial⟩
      intro hf
      cases h <;> simp [promote] at hf
      exact h1 rfl
    · rw [hr] at h2
      have hread := h2 read rfl
      simp only []
      have hdrop : ∀ t, (d ++ t).drop read = d.drop read ++ t :=
        fun t => List.drop_append_of_le_length (by omega)
      simp only [hdrop]
      obtain ⟨h4, h5⟩ := getRefs_read call hc fields s end_ enderr n (p + read) (d.drop read)
        (by omega) (by rw [List.length_drop]; omega)
      simp only [h5]
      rcases hr2 : getRefs call fields s end_ enderr n (p + read) (d.drop read) with
        h | ⟨as, p2, d2⟩
      · rw [hr2] at h4
        exact ⟨h4, fun _ => by trivial⟩
      · rw [hr2] at h4
        exact ⟨h4, fun _ => by trivial⟩

/-! ### Reads stay inside the data: fields -/

theorem finish_of_read {α : Type} (end_ : Nat) (v : Val) (mk : α → Val)
    (r : Except Halt (α × Nat × List Nat)) (r' : List Nat → Except Halt (α × Nat × List Nat))
    (h : SafeLt end_ r ∧ ∀ t, r' t = extR t r) :
    SafeCur end_ (finish v mk r).2 ∧
    ∀ t, finish v mk (r' t) = ((finish v mk r).1, extC t (finish v mk r).2) := by
  obtain ⟨h1, h2⟩ := finish_read end_ v mk r h.1
  exact ⟨h1, fun t => by rw [h.2 t, h2 t]⟩

theorem within_getU8 (end_ : Nat) (enderr : Errno) (p : Nat) (d : List Nat)
    (hcov : end_ ≤ p + d.length) :
    SafeLt end_ (within end_ enderr p 1 (getU8 p d)) ∧
    ∀ t, within end_ enderr p 1 (getU8 p (d ++ t))
      = extR t (within end_ enderr p 1 (getU8 p d)) := by
  obtain ⟨f, hf⟩ := getU8_raw
  simp only [hf]
  exact within_raw end_ enderr 1 f p d hcov

theorem within_getBE16 (end_ : Nat) (enderr : Errno) (p : Nat) (d : List Nat)
    (hcov : end_ ≤ p + d.length) :
    SafeLt end_ (within end_ enderr p 2 (getBE16 p d)) ∧
    ∀ t, within end_ enderr p 2 (getBE16 p (d ++ t))
      = extR t (within end_ enderr p 2 (getBE16 p d)) := by
  obtain ⟨f, hf⟩ := getBE16_raw
  simp only [hf]
  exact within_raw end_ enderr 2 f p d hcov

theorem within_getBE32 (end_ : Nat) (enderr : Errno) (p : Nat) (d : List Nat)
    (hcov : end_ ≤ p + d.length) :
    SafeLt end_ (within end_ enderr p 4 (getBE32 p d)) ∧
    ∀ t, within end_ enderr p 4 (getBE32 p (d ++ t))
      = extR t (within end_ enderr p 4 (getBE32 p d)) := by
  obtain ⟨f, hf⟩ := getBE32_raw
  simp only [hf]
  exact within_raw end_ enderr 4 f p d hcov

theorem within_getBE64 (end_ : Nat) (enderr : Errno) (p : Nat) (d : List Nat)
    (hcov : end_ ≤ p + d.length) :
    SafeLt end_ (within end_ enderr p 8 (getBE64 p d)) ∧
    ∀ t, within end_ enderr p 8 (getBE64 p (d ++ t))
      = extR t (within end_ enderr p 8 (getBE64 p d)) := by
  obtain ⟨f, hf⟩ := getBE64_raw
  simp only [hf]
  exact within_raw end_ enderr 8 f p d hcov

theorem within_getTime (wide : Bool) (end_ : Nat) (enderr : Errno) (p : Nat) (d : List Nat)
    (hcov : end_ ≤ p + d.length) :
    SafeLt end_ (within end_ enderr p (if wide then 12 else 8) (getTime wide p d)) ∧
    ∀ t, within end_ enderr p (if wide then 12 else 8) (getTime wide p (d ++ t))
      = extR t (within end_ enderr p (if wide then 12 else 8) (getTime wide p d)) := by
  obtain ⟨f, hf⟩ := getTime_raw wide
  simp only [hf]
  exact within_raw end_ enderr _ f p d hcov

/-- The code of one field stays inside data that reaches `end`, leaves `p` at `end` at the
latest, and does not depend on octets appended to the data. -/
theorem getField_read (size_max list_max : Nat) (S : Schema) (call : Callee)
    (hc : CallSafe call) (end_ : Nat) (enderr : Errno) (hG : list_max * 8 < 2 ^ 64)
    (f : Field) (v : Val) (hd p : Nat) (d : List Nat) (hp : p ≤ end_)
    (hcov : end_ ≤ p + d.length) :
    SafeCur end_ (getField size_max list_max S call end_ enderr f v ⟨hd, p, d⟩).2 ∧
    ∀ t, getField size_max list_max S call end_ enderr f v ⟨hd, p, d ++ t⟩
      = ((getField size_max list_max S call end_ enderr f v ⟨hd, p, d⟩).1,
          extC t (getField size_max list_max S call end_ enderr f v ⟨hd, p, d⟩).2) := by
  have hskip : SafeCur end_ (Except.ok (⟨hd, p, d⟩ : Cur)) := ⟨hp, hcov⟩
  obtain ⟨idx, ty, tl⟩ := f
  cases ty <;> cases tl <;> simp only [getField]
  -- bool
  iterate 2
    · by_cases h1 : hd = idx
      · simp only [h1, if_true]
        obtain ⟨h2, h3⟩ := nextChk_read end_ enderr p d hcov
        exact ⟨h2, fun t => by rw [h3 t]⟩
      · simp only [h1, if_false]
        exact ⟨hskip, fun _ => rfl⟩
  -- uint8
  iterate 2
    · by_cases h1 : hd = idx
      · simp only [h1, if_true]
        exact finish_of_read end_ v .uint _ _ (within_getU8 end_ enderr p d hcov)
      · simp only [h1, if_false]
        exact ⟨hskip, fun _ => rfl⟩
  -- uint16
  iterate 2
    · by_cases h1 : hd = idx
      · simp only [h1, if_true]
        exact finish_of_read end_ v .uint _ _ (within_getBE16 end_ enderr p d hcov)
      · simp only [h1, if_false]
        by_cases h2 : hd = idx ||| 128
        · simp only [h2, if_true]
          exact finish_of_read end_ v .uint _ _ (within_getU8 end_ enderr p d hcov)
        · simp only [h2, if_false]
          exact ⟨hskip, fun _ => rfl⟩
  -- uint32
  iterate 2
    · by_cases h1 : hd = idx
      · simp only [h1, if_true]
        exact finish_of_read end_ v .uint _ _ (getInt_read 32 none none end_ enderr p d hcov)
      · simp only [h1, if_false]
        by_cases h2 : hd = idx ||| 128
        · simp only [h2, if_true]
          exact finish_of_read end_ v .uint _ _ (within_getBE32 end_ enderr p d hcov)
        · simp only [h2, if_false]
          exact ⟨hskip, fun _ => rfl⟩
  -- uint64
  iterate 2
    · by_cases h1 : hd = idx
      · simp only [h1, if_true]
        exact finish_of_read end_ v .uint _ _ (getInt_read 64 none none end_ enderr p d hcov)
      · simp only [h1, if_false]
        by_cases h2 : hd = idx ||| 128
        · simp only [h2, if_true]
          exact finish_of_read end_ v .uint _ _ (within_getBE64 end_ enderr p d hcov)
        · simp only [h2, if_false]
          exact ⟨hskip, fun _ => rfl⟩
  -- int32
  iterate 2
    · by_cases h1 : hd &&& 127 = idx
      · simp only [h1, if_true]
        exact finish_of_read end_ v _ _ _ (getInt_read 32 (some 35) none end_ enderr p d hcov)
      · simp only [h1, if_false]
        exact ⟨hskip, fun _ => rfl⟩
  -- int64
  iterate 2
    · by_cases h1 : hd &&& 127 = idx
      · simp only [h1, if_true]
        exact finish_of_read end_ v _ _ _ (getInt_read 64 none (some 56) end_ enderr p d hcov)
      · simp only [h1, if_false]
        exact ⟨hskip, fun _ => rfl⟩
  -- float32
  · by_cases h1 : hd = idx
    · simp only [h1, if_true]
      exact finish_of_read end_ v .float _ _ (within_getBE32 end_ enderr p d hcov)
    · simp only [h1, if_false]
      exact ⟨hskip, fun _ => rfl⟩
  -- float32 list
  · by_cases h1 : hd = idx
    · simp only [h1, if_true]
      exact finish_of_read end_ v .floats _ _
        (getFloatList_read false list_max end_ enderr p d hG hcov)
    · simp only [h1, if_false]
      exact ⟨hskip, fun _ => rfl⟩
  -- float64
  · by_cases h1 : hd = idx
    · simp only [h1, if_true]
      exact finish_of_read end_ v .float _ _ (within_getBE64 end_ enderr p d hcov)
    · simp only [h1, if_false]
      exact ⟨hskip, fun _ => rfl⟩
  -- float64 list
  · by_cases h1 : hd = idx
    · simp only [h1, if_true]
      exact finish_of_read end_ v .floats _ _
        (getFloatList_read true list_max end_ enderr p d hG hcov)
    · simp only [h1, if_false]
      exact ⟨hskip, fun _ => rfl⟩
  -- timestamp
  iterate 2
    · by_cases h1 : hd &&& 127 = idx
      · simp only [h1, if_true]
        by_cases h2 : hd &&& 128 ≠ 0
        · simp only [if_pos h2]
          exact finish_of_read end_ v _ _ _ (within_getTime true end_ enderr p d hcov)
        · simp only [if_neg h2]
          exact finish_of_read end_ v _ _ _ (within_getTime false end_ enderr p d hcov)
      · simp only [h1, if_false]
        exact ⟨hskip, fun _ => rfl⟩
  -- text
  · by_cases h1 : hd = idx
    · simp only [h1, if_true]
      exact finish_of_read end_ v .blob _ _
        (getBlob_read (some 64) size_max end_ enderr p d hcov)
    · simp only [h1, if_false]
      exact ⟨hskip, fun _ => rfl⟩
  -- text list
  · by_cases h1 : hd = idx
    · simp only [h1, if_true]
      obtain ⟨h2, h3, _⟩ := getCount_read list_max end_ enderr p d hcov
      simp only [h3]
      rcases hr : getCount list_max end_ enderr p d with h | ⟨n, p1, d1⟩
      · rw [hr] at h2
        exact ⟨h2, fun _ => rfl⟩
      · rw [hr] at h2
        simp only [SafeLe] at h2
        simp only [extR]
        obtain ⟨h4, h5⟩ := getBlobs_read size_max end_ enderr n p1 d1 h2.1 h2.2
        simp only [h5]
        rcases hr2 : getBlobs size_max end_ enderr n p1 d1 with ⟨as, h | ⟨p2, d2⟩⟩
        · rw [hr2] at h4
          exact ⟨h4, fun _ => rfl⟩
        · rw [hr2] at h4
          simp only [SafePos] at h4
          simp only [extP]
          obtain ⟨h6, h7⟩ := nextChk_read end_ enderr p2 d2 h4.2
          exact ⟨h6, fun t => by rw [h7 t]⟩
    · simp only [h1, if_false]
      exact ⟨hskip, fun _ => rfl⟩
  -- binary
  · by_cases h1 : hd = idx
    · simp only [h1, if_true]
      exact finish_of_read end_ v .blob _ _ (getBlob_read none size_max end_ enderr p d hcov)
    · simp only [h1, if_false]
      exact ⟨hskip, fun _ => rfl⟩
  -- binary list
  · by_cases h1 : hd = idx
    · simp only [h1, if_true]
      obtain ⟨h2, h3, _⟩ := getCount_read list_max end_ enderr p d hcov
      simp only [h3]
      rcases hr : getCount list_max end_ enderr p d with h | ⟨n, p1, d1⟩
      · rw [hr] at h2
        exact ⟨h2, fun _ => rfl⟩
      · rw [hr] at h2
        simp only [SafeLe] at h2
        simp only [extR]
        obtain ⟨h4, h5⟩ := getBlobs_read size_max end_ enderr n p1 d1 h2.1 h2.2
        simp only [h5]
        rcases hr2 : getBlobs size_max end_ enderr n p1 d1 with ⟨as, h | ⟨p2, d2⟩⟩
        · rw [hr2] at h4
          exact ⟨h4, fun _ => rfl⟩
        · rw [hr2] at h4
          simp only [SafePos] at h4
          simp only [extP]
          obtain ⟨h6, h7⟩ := nextChk_read end_ enderr p2 d2 h4.2
          exact ⟨h6, fun t => by rw [h7 t]⟩
    · simp only [h1, if_false]
      exact ⟨hskip, fun _ => rfl⟩
  -- ref
  · rename_i s
    by_cases h1 : hd = idx
    · simp only [h1, if_true]
      obtain ⟨h2, h3, h4⟩ := hc s (zeroRec (S s)) d (end_ - p) (by omega)
      simp only [h4]
      rcases hr : call s (zeroRec (S s)) d (end_ - p) with ⟨a, h | read⟩
      · rw [hr] at h2
        simp only [SafeCur]
        refine ⟨?_, fun _ => rfl⟩
        intro hf
        cases h <;> simp [promote] at hf
        exact h2 rfl
      · rw [hr] at h3
        have hread := h3 read rfl
        simp only []
        have hdrop : ∀ t, (d ++ t).drop read = d.drop read ++ t :=
          fun t => List.drop_append_of_le_length (by omega)
        simp only [hdrop]
        obtain ⟨h6, h7⟩ := nextChk_read end_ enderr (p + read) (d.drop read)
          (by rw [List.length_drop]; omega)
        exact ⟨h6, fun t => by rw [h7 t]⟩
    · simp only [h1, if_false]
      exact ⟨hskip, fun _ => rfl⟩
  -- ref list
  · rename_i s
    by_cases h1 : hd = idx
    · simp only [h1, if_true]
      obtain ⟨h2, h3, _⟩ := getCount_read list_max end_ enderr p d hcov
      simp only [h3]
      rcases hr : getCount list_max end_ enderr p d with h | ⟨n, p1, d1⟩
      · rw [hr] at h2
        exact ⟨h2, fun _ => rfl⟩
      · rw [hr] at h2
        simp only [SafeLe] at h2
        simp only [extR]
        obtain ⟨h4, h5⟩ := getRefs_read call hc (S s) s end_ enderr n p1 d1 h2.1 h2.2
        simp only [h5]
        rcases hr2 : getRefs call (S s) s end_ enderr n p1 d1 with h | ⟨as, p2, d2⟩
        · rw [hr2] at h4
          exact ⟨h4, fun _ => rfl⟩
        · rw [hr2] at h4
          simp only [SafeLe] at h4
          simp only [extR]
          obtain ⟨h6, h7⟩ := nextChk_read end_ enderr p2 d2 h4.2
          exact ⟨h6, fun t => by rw [h7 t]⟩
    · simp only [h1, if_false]
      exact ⟨hskip, fun _ => rfl⟩

theorem getFields_read (size_max list_max : Nat) (S : Schema) (call : Callee)
    (hc : CallSafe call) (end_ : Nat) (enderr : Errno) (hG : list_max * 8 < 2 ^ 64) :
    ∀ (fields : List Field) (vals : List Val) (hd p : Nat) (d : List Nat), p ≤ end_ →
      end_ ≤ p + d.length →
      SafeCur end_ (getFields size_max list_max S call end_ enderr fields vals ⟨hd, p, d⟩).2 ∧
      ∀ t, getFields size_max list_max S call end_ enderr fields vals ⟨hd, p, d ++ t⟩
        = ((getFields size_max list_max S call end_ enderr fields vals ⟨hd, p, d⟩).1,
            extC t (getFields size_max list_max S call end_ enderr fields vals ⟨hd, p, d⟩).2)
  | [], _, hd, p, d, hp, hcov => by
    simp only [getFields, SafeCur, extC]
    exact ⟨⟨hp, hcov⟩, fun _ => by trivial⟩
  | _ :: _, [], hd, p, d, hp, hcov => by
    simp only [getFields, SafeCur, extC]
    exact ⟨⟨hp, hcov⟩, fun _ => by trivial⟩
  | f :: fs, v :: vs, hd, p, d, hp, hcov => by
    unfold getFields
    obtain ⟨h1, h2⟩ := getField_read size_max list_max S call hc end_ enderr hG f v hd p d hp
      hcov
    simp only [h2]
    rcases hr : getField size_max list_max S call end_ enderr f v ⟨hd, p, d⟩ with
      ⟨v', h | ⟨hd', p', d'⟩⟩
    · rw [hr] at h1
      exact ⟨h1, fun _ => rfl⟩
    · rw [hr] at h1
      simp only [SafeCur] at h1
      simp only [extC]
      obtain ⟨h3, h4⟩ := getFields_read size_max list_max S call hc end_ enderr hG fs vs hd' p'
        d' h1.1 h1.2
      exact ⟨h3, fun t => by rw [h4 t]; rfl⟩

/-- A run of `unmarshal` on data that reaches `end` does not read outside the data, returns
at most `end - data`, and does not depend on octets appended to the data. -/
theorem unmarshalRun_read (size_max list_max : Nat) (S : Schema) (call : Callee)
    (hc : CallSafe call) (fields : List Field) (o : Rec) (data : List Nat) (end_ : Nat)
    (enderr : Errno) (hG : list_max * 8 < 2 ^ 64) (hcov : end_ ≤ data.length) :
    (unmarshalRun size_max list_max S call fields o data end_ enderr).2 ≠ .error .fault ∧
    (∀ n, (unmarshalRun size_max list_max S call fields o data end_ enderr).2 = .ok n →
      n ≤ end_) ∧
    ∀ t, unmarshalRun size_max list_max S call fields o (data ++ t) end_ enderr
      = unmarshalRun size_max list_max S call fields o data end_ enderr := by
  unfold unmarshalRun
  by_cases he : 0 ≥ end_
  · simp only [if_pos he]
    exact ⟨by simp, fun n h => by simp at h, fun _ => by trivial⟩
  · simp only [if_neg he]
    cases data with
    | nil => simp at hcov; omega
    | cons b d =>
      simp only [List.length_cons] at hcov
      simp only [List.cons_append, next]
      obtain ⟨h1, h2⟩ := getFields_read size_max list_max S call hc end_ enderr hG fields o b
        (0 + 1) d (by omega) (by omega)
      simp only [h2]
      rcases hr : getFields size_max list_max S call end_ enderr fields o ⟨b, 0 + 1, d⟩ with
        ⟨o', h | c'⟩
      · rw [hr] at h1
        simp only [SafeCur] at h1
        simp only [extC]
        exact ⟨by simpa using h1, fun n h => by simp at h, fun _ => by trivial⟩
      · rw [hr] at h1
        simp only [SafeCur] at h1
        simp only [extC]
        by_cases h127 : c'.header ≠ 127
        · simp only [if_pos h127]
          exact ⟨by simp, fun n h => by simp at h, fun _ => by trivial⟩
        · simp only [if_neg h127]
          refine ⟨by simp, fun n h => ?_, fun _ => by trivial⟩
          simp only [Except.ok.injEq] at h
          omega

theorem callSafe_calleeOf (size_max list_max : Nat) (S : Schema)
    (hG : list_max * 8 < 2 ^ 64) : ∀ k, CallSafe (calleeOf size_max list_max S k)
  | 0 => by
    intro s o d dl _
    simp [calleeOf]
  | k + 1 => by
    intro s o d dl hdl
    show (unmarshalAux size_max list_max S k s o d dl).2 ≠ _ ∧
      (∀ n, (unmarshalAux size_max list_max S k s o d dl).2 = .ok n → n ≤ dl) ∧
      ∀ t, unmarshalAux size_max list_max S k s o (d ++ t) dl
        = unmarshalAux size_max list_max S k s o d dl
    have hle := endOf_le size_max dl
    obtain ⟨h1, h2, h3⟩ := unmarshalRun_read size_max list_max S
      (calleeOf size_max list_max S k) (callSafe_calleeOf size_max list_max S hG k) (S s) o d
      (endOf size_max dl) (limiter size_max dl) hG (by omega)
    simp only [unmarshalAux_eq]
    exact ⟨h1, fun n h => by have := h2 n h; omega, h3⟩

/-- When `colfer_list_max * 8` does not wrap in `size_t`, `unmarshal` reads no octet at an
offset of `min datalen colfer_size_max` or more: on data that holds that many octets it
never reads outside the data, and on two buffers that agree on their first
`min datalen colfer_size_max` octets it returns the same count or error and leaves the same
struct. -/
theorem bounded_reads (size_max list_max : Nat) (S : Schema) (sid : Nat) (o : Rec)
    (data : List Nat) (datalen : Nat) (hG : list_max * 8 < 2 ^ 64) :
    (min datalen size_max ≤ data.length →
      (unmarshal size_max list_max S sid o data datalen).2 ≠ .error .fault) ∧
    (∀ data' : List Nat,
      data.take (min datalen size_max) = data'.take (min datalen size_max) →
      unmarshal size_max list_max S sid o data datalen
        = unmarshal size_max list_max S sid o data' datalen) := by
  have hE := endOf_eq_min size_max datalen
  have key : ∀ d : List Nat, min datalen size_max ≤ d.length →
      (unmarshal size_max list_max S sid o d datalen).2 ≠ .error .fault ∧
      ∀ t, unmarshal size_max list_max S sid o (d ++ t) datalen
        = unmarshal size_max list_max S sid o d datalen := by
    intro d hd
    obtain ⟨h1, _, h3⟩ := unmarshalRun_read size_max list_max S
      (calleeOf size_max list_max S datalen) (callSafe_calleeOf size_max list_max S hG datalen)
      (S sid) o d (endOf size_max datalen) (limiter size_max datalen) hG (by omega)
    simp only [unmarshal, unmarshalAux_eq]
    exact ⟨h1, h3⟩
  refine ⟨fun h => (key data h).1, ?_⟩
  intro data' hagree
  by_cases hlen : min datalen size_max ≤ data.length
  · have hlen' : min datalen size_max ≤ data'.length := by
      have := congrArg List.length hagree
      simp only [List.length_take] at this
      omega
    have e1 := (key (data.take (min datalen size_max)) (by simp; omega)).2
      (data.drop (min datalen size_max))
    have e2 := (key (data'.take (min datalen size_max)) (by simp; omega)).2
      (data'.drop (min datalen size_max))
    rw [List.take_append_drop] at e1 e2
    rw [e1, e2, hagree]
  · have hl := congrArg List.length hagree
    simp only [List.length_take] at hl
    have h1 : data.take (min datalen size_max) = data := List.take_of_length_le (by omega)
    have h2 : data'.take (min datalen size_max) = data' := List.take_of_length_le (by omega)
    rw [h1, h2] at hagree
    rw [hagree]

/-! ### C21: the threshold of the fixed form of `uint32` -/

theorem leb128_length_pos (x : Nat) : 0 < (leb128 x).length := by
  rw [leb128_eq]; split <;> simp

theorem leb128_length_gt : ∀ (k x : Nat), 128 ^ k ≤ x → k < (leb128 x).length
  | 0, x, _ => leb128_length_pos x
  | k + 1, x, h => by
    have hp : 0 < 128 ^ k := by positivity
    have h128 : 128 ≤ x := by
      calc 128 = 128 * 1 := rfl
        _ ≤ 128 * 128 ^ k := Nat.mul_le_mul_left _ hp
        _ = 128 ^ (k + 1) := by rw [Nat.pow_succ, Nat.mul_comm]
        _ ≤ x := h
    rw [leb128_eq, if_neg (by omega)]
    have : 128 ^ k ≤ x / 128 := by
      rw [Nat.le_div_iff_mul_le (by norm_num), ← Nat.pow_succ]
      exact h
    have := leb128_length_gt k (x / 128) this
    simp only [List.length_cons]
    omega

theorem bigEndian_length : ∀ (n x : Nat), (bigEndian n x).length = n
  | 0, _ => rfl
  | n + 1, x => by simp [bigEndian, bigEndian_length n x]

/-- C21 (amended): for a `uint32` value `x >= 2^21` the LEB128 varint of `x` has 4 octets or
more, and the fixed form that `marshal` writes and `marshal_len` counts, the tag and 4
octets, is never longer than the tag and that varint: as long for `x < 2^28`, shorter
exactly for `x >= 2^28`; for `x < 2^21` the varint has at most 3 octets. -/
theorem uint32_threshold (size_max list_max : Nat) (S : Schema) (f : Field) (x l : Nat)
    (e : Option Errno) (hty : f.Ty = .uint32) (hx : x < 2 ^ 32) :
    (2 ^ 21 ≤ x →
      4 ≤ (leb128 x).length ∧
      putField S f (.uint x) = tagHi f :: bigEndian 4 x ∧
      lenField size_max list_max S f (.uint x) l e = some ((l + 5) % 2 ^ 64, e) ∧
      (putField S f (.uint x)).length ≤ (tag f :: leb128 x).length ∧
      ((putField S f (.uint x)).length < (tag f :: leb128 x).length ↔ 2 ^ 28 ≤ x)) ∧
    (x < 2 ^ 21 → (leb128 x).length ≤ 3) := by
  refine ⟨fun h => ?_, fun h => leb128_length_le 2 x (by norm_num; omega)⟩
  have h4 := leb128_length_gt 3 x (by norm_num; omega)
  have hput : putField S f (.uint x) = tagHi f :: bigEndian 4 x := by
    simp only [putField, hty, be32_eq_bigEndian]
    rw [if_pos (by omega), if_neg (by omega)]
  have hlen : lenField size_max list_max S f (.uint x) l e = some ((l + 5) % 2 ^ 64, e) := by
    simp only [lenField, hty]
    rw [if_pos (by omega), if_pos (by omega)]
  refine ⟨h4, hput, hlen, ?_, ?_⟩
  · rw [hput]
    simp only [List.length_cons, bigEndian_length]
    omega
  · rw [hput]
    simp only [List.length_cons, bigEndian_length]
    constructor
    · intro hlt
      by_contra hx28
      have := leb128_length_le 3 x (by norm_num; omega)
      omega
    · intro hx28
      have := leb128_length_gt 4 x (by norm_num; omega)
      omega

/-- The amended C21 at `x = 2^28` in field 0 of schema `O`. -/
theorem uint32_threshold_witness :
    (2 ^ 21 ≤ 2 ^ 28 →
      4 ≤ (leb128 (2 ^ 28)).length ∧
      putField schemaO ⟨0, .uint32, false⟩ (.uint (2 ^ 28))
        = tagHi ⟨0, .uint32, false⟩ :: bigEndian 4 (2 ^ 28) ∧
      lenField (2 ^ 24) (2 ^ 16) schemaO ⟨0, .uint32, false⟩ (.uint (2 ^ 28)) 1 none
        = some ((1 + 5) % 2 ^ 64, none) ∧
      (putField schemaO ⟨0, .uint32, false⟩ (.uint (2 ^ 28))).length
        ≤ (tag ⟨0, .uint32, false⟩ :: leb128 (2 ^ 28)).length ∧
      ((putField schemaO ⟨0, .uint32, false⟩ (.uint (2 ^ 28))).length
        < (tag ⟨0, .uint32, false⟩ :: leb128 (2 ^ 28)).length ↔ 2 ^ 28 ≤ 2 ^ 28)) ∧
    (2 ^ 28 < 2 ^ 21 → (leb128 (2 ^ 28)).length ≤ 3) :=
  uint32_threshold (2 ^ 24) (2 ^ 16) schemaO ⟨0, .uint32, false⟩ (2 ^ 28) 1 none rfl (by decide)

/-- C21 as stated fails at `x = 2^21`: `marshal` writes the fixed form `80 00 20 00 00`,
4 octets after the tag, and the LEB128 varint of `x` is `80 80 80 01`, 4 octets as well, so
the fixed form is not shorter than the varint. -/
theorem uint32_threshold_equal_length :
    marshal schemaO 0 (valueO (2 ^ 21) [] 0 0 []) = [0x80, 0x00, 0x20, 0x00, 0x00, 0x7F] ∧
    bigEndian 4 (2 ^ 21) = [0x00, 0x20, 0x00, 0x00] ∧
    leb128 (2 ^ 21) = [0x80, 0x80, 0x80, 0x01] ∧
    ¬ (bigEndian 4 (2 ^ 21)).length < (leb128 (2 ^ 21)).length := by
  refine ⟨by rfl, by rfl, by rfl, by decide⟩

/-! ### The length loops of `marshal_len` and the varints of `marshal` -/

/-- The loop `for (; x > 127; x >>= 7, ++l);`, entered with the first octet counted, counts
the octets of the varint loop of `marshal`. -/
theorem lenLoop_putVarint : ∀ (k x l : Nat), l + (putVarint k x).length ≤ 2 ^ 64 →
    lenLoop k x l + 1 = l + (putVarint k x).length
  | 0, x, l, _ => by simp [lenLoop, putVarint]
  | k + 1, x, l, h => by
    unfold lenLoop putVarint
    by_cases hx : x > 127
    · rw [if_pos hx, if_pos (by omega)]
      rw [putVarint, if_pos (by omega)] at h
      simp only [List.length_cons] at h ⊢
      have hpos := putVarint_length_pos k (x >>> 7)
      rw [Nat.mod_eq_of_lt (by omega)]
      have := lenLoop_putVarint k (x >>> 7) (l + 1) (by omega)
      omega
    · rw [if_neg hx, if_neg (by omega)]
      simp

theorem putVarint_32 (n : Nat) (h : n < 2 ^ 32) : putVarint 10 (n % 2 ^ 32) = leb128 n := by
  rw [Nat.mod_eq_of_lt h, putVarint_10 n (by omega)]

theorem putFloats_eq_flatten : ∀ l : List Nat,
    putFloats false l = (l.map (bigEndian 4)).flatten
  | [] => rfl
  | x :: xs => by
    simp only [putFloats, Bool.false_eq_true, if_false, List.map_cons, List.flatten_cons,
      be32_eq_bigEndian, putFloats_eq_flatten xs]

/-! ### C22: the layout of a `float32` list -/

/-- C22: for a non-empty list of `n` `float32` values, `n <= colfer_list_max`, in field `idx`,
`marshal` writes the tag `idx`, the LEB128 varint of `n` and then the 4 octets of the bit
pattern of each element in big-endian order, in the order of the list; `marshal_len` adds
`1 + (octets of the varint of n) + 4 * n`; and `unmarshal` reads the `n` bit patterns back
in order.  The count is below `2^32`, the width taken for `uint_fast32_t`. -/
theorem float32_list_layout (size_max list_max : Nat) (S : Schema) (call : Callee)
    (end_ : Nat) (enderr : Errno) (f : Field) (list : List Nat)
    (hty : f.Ty = .float32) (htl : f.TypeList = true) (hidx : f.Index ≤ 126)
    (hne : list ≠ []) (hmax : list.length ≤ list_max) (h32 : list.length < 2 ^ 32)
    (hbits : ∀ x ∈ list, x < 2 ^ 32) :
    putField S f (.floats list)
      = f.Index :: (leb128 list.length ++ (list.map (bigEndian 4)).flatten) ∧
    ((list.map (bigEndian 4)).flatten).length = 4 * list.length ∧
    (∀ (l : Nat) (e : Option Errno),
      l + (1 + (leb128 list.length).length + 4 * list.length) < 2 ^ 64 →
      lenField size_max list_max S f (.floats list) l e
        = some (l + (1 + (leb128 list.length).length + 4 * list.length), e)) ∧
    (∀ (v0 : Val) (p h' : Nat) (rest : List Nat),
      p + ((leb128 list.length).length + 4 * list.length) < end_ →
      getField size_max list_max S call end_ enderr f v0
          ⟨f.Index, p, (leb128 list.length ++ (list.map (bigEndian 4)).flatten) ++ h' :: rest⟩
        = (.floats list,
            .ok ⟨h', p + ((leb128 list.length).length + 4 * list.length) + 1, rest⟩)) := by
  obtain ⟨idx, ty, tl⟩ := f
  simp only at hty htl hidx
  subst hty htl
  have hn0 : list.length ≠ 0 := by
    intro h; exact hne (List.length_eq_zero.1 h)
  have hfl := putFloats_length false list
  simp only [Bool.false_eq_true, if_false] at hfl
  have hv := putVarint_32 list.length h32
  have hflat : ((list.map (bigEndian 4)).flatten).length = 4 * list.length := by
    rw [← putFloats_eq_flatten, hfl]; omega
  refine ⟨?_, hflat, ?_, ?_⟩
  · simp only [putField, hn0, ne_eq, not_false_eq_true, if_true, hv, putFloats_eq_flatten,
      tag_eq_of_lt ⟨idx, .float32, true⟩ (by simp only; omega)]
  · intro l e hl
    simp only [lenField, hn0, ne_eq, not_false_eq_true, if_true]
    rw [if_neg (by omega)]
    have hpos := leb128_length_pos list.length
    have h1 := lenLoop_putVarint 10 list.length ((l + (list.length * 4 + 2)) % 2 ^ 64)
      (by rw [putVarint_10 _ (by omega), Nat.mod_eq_of_lt (by omega)]; omega)
    rw [putVarint_10 _ (by omega), Nat.mod_eq_of_lt (by omega)] at h1
    rw [Nat.mod_eq_of_lt (by omega)]
    congr 2
    omega
  · intro v0 p h' rest hp
    rw [← hv] at hp
    rw [← hv, ← putFloats_eq_flatten]
    simp only [getField, if_true, finish, getFloatList, List.append_assoc]
    rw [getCount_put32 list_max end_ enderr list.length p _ h32 hmax (by omega)]
    simp only [within, Bool.false_eq_true, if_false]
    rw [if_neg (by omega), getFloats_putFloats false list _ _ (by simpa using hbits)]
    simp only [next_cons]
    rw [hfl]
    congr 4
    omega

/-- C22 on the list `[1.0f, 2.0f]` in field 3 of schema `O`, with the record
`03 02 3F 80 00 00 40 00 00 00 7F` of 11 octets, its size and its decoding. -/
theorem float32_list_layout_witness :
    (putField schemaO ⟨3, .float32, true⟩ (.floats [0x3F800000, 0x40000000])
      = 3 :: (leb128 2 ++ ([0x3F800000, 0x40000000].map (bigEndian 4)).flatten) ∧
    (([0x3F800000, 0x40000000].map (bigEndian 4)).flatten).length = 4 * 2 ∧
    (∀ (l : Nat) (e : Option Errno),
      l + (1 + (leb128 2).length + 4 * 2) < 2 ^ 64 →
      lenField (2 ^ 24) (2 ^ 16) schemaO ⟨3, .float32, true⟩
          (.floats [0x3F800000, 0x40000000]) l e
        = some (l + (1 + (leb128 2).length + 4 * 2), e)) ∧
    (∀ (v0 : Val) (p h' : Nat) (rest : List Nat),
      p + ((leb128 2).length + 4 * 2) < 11 →
      getField (2 ^ 24) (2 ^ 16) schemaO (unmarshalAux (2 ^ 24) (2 ^ 16) schemaO 10) 11
          .EWOULDBLOCK ⟨3, .float32, true⟩ v0
          ⟨3, p, (leb128 2 ++ ([0x3F800000, 0x40000000].map (bigEndian 4)).flatten)
            ++ h' :: rest⟩
        = (.floats [0x3F800000, 0x40000000],
            .ok ⟨h', p + ((leb128 2).length + 4 * 2) + 1, rest⟩))) ∧
    marshal schemaO 0 (valueO 0 [] 0 0 [0x3F800000, 0x40000000])
      = [0x03, 0x02, 0x3F, 0x80, 0x00, 0x00, 0x40, 0x00, 0x00, 0x00, 0x7F] ∧
    marshal_len (2 ^ 24) (2 ^ 16) schemaO 0 (valueO 0 [] 0 0 [0x3F800000, 0x40000000])
      = (11, none) ∧
    unmarshal (2 ^ 24) (2 ^ 16) schemaO 0 (zeroRec (schemaO 0))
      [0x03, 0x02, 0x3F, 0x80, 0x00, 0x00, 0x40, 0x00, 0x00, 0x00, 0x7F] 11
      = (valueO 0 [] 0 0 [0x3F800000, 0x40000000], .ok 11) ∧
    marshal schemaO 0 (valueO 0 [] 0 0 [0, 0x3F800000])
      = [0x03, 0x02, 0x00, 0x00, 0x00, 0x00, 0x3F, 0x80, 0x00, 0x00, 0x7F] :=
  ⟨float32_list_layout (2 ^ 24) (2 ^ 16) schemaO (unmarshalAux (2 ^ 24) (2 ^ 16) schemaO 10) 11
      .EWOULDBLOCK ⟨3, .float32, true⟩ [0x3F800000, 0x40000000] rfl rfl (by decide)
      (by decide) (by decide) (by decide) (by decide),
    by rfl, by rfl, by rfl, by rfl⟩

/-! ### The count of `marshal_len` does not depend on `errno` -/

mutual
theorem lenField_fst (size_max list_max : Nat) (S : Schema) (f : Field) :
    ∀ (v : Val) (l : Nat) (e e' : Option Errno),
      (lenField size_max list_max S f v l e).map Prod.fst
        = (lenField size_max list_max S f v l e').map Prod.fst
  | .bool b, l, e, e' => by simp only [lenField]; split <;> rfl
  | .uint x, l, e, e' => by simp only [lenField]; split <;> rfl
  | .int x, l, e, e' => by simp only [lenField]; split <;> rfl
  | .float x, l, e, e' => by simp only [lenField]; split <;> rfl
  | .floats x, l, e, e' => by
    simp only [lenField]; split <;> (try split) <;> (try split) <;> rfl
  | .timespec s ns, l, e, e' => by simp only [lenField]; split <;> (try split) <;> rfl
  | .blob x, l, e, e' => by simp only [lenField]; split <;> (try split) <;> rfl
  | .blobs x, l, e, e' => by
    simp only [lenField]
    split <;> (try split) <;> (try split) <;> (try split) <;> (try split) <;> rfl
  | .ref none, l, e, e' => by simp only [lenField, Option.map]
  | .ref (some r), l, e, e' => by
    simp only [lenField]
    split
    · rename_i s _ _
      simp only [Option.map]
      rw [lenFields_fst size_max list_max S (S s) r 1 e e']
    · rfl
  | .refs list, l, e, e' => by
    simp only [lenField]
    split
    · rename_i s _ _
      rw [lenRefs_fst size_max list_max S (S s) list l e e']
      split <;> (try split) <;> (try split) <;> rfl
    · rfl

theorem lenFields_fst (size_max list_max : Nat) (S : Schema) :
    ∀ (fs : List Field) (vs : List Val) (l : Nat) (e e' : Option Errno),
      (lenFields size_max list_max S fs vs l e).1 = (lenFields size_max list_max S fs vs l e').1
  | [], vs, l, e, e' => by simp only [lenFields]; split <;> rfl
  | f :: fs, [], l, e, e' => by simp only [lenFields]; split <;> rfl
  | f :: fs, v :: vs, l, e, e' => by
    have h := lenField_fst size_max list_max S f v l e e'
    simp only [lenFields]
    rcases h1 : lenField size_max list_max S f v l e with _ | ⟨l1, e1⟩
    · rcases h2 : lenField size_max list_max S f v l e' with _ | ⟨l2, e2⟩
      · rfl
      · rw [h1, h2] at h; simp [Option.map] at h
    · rcases h2 : lenField size_max list_max S f v l e' with _ | ⟨l2, e2⟩
      · rw [h1, h2] at h; simp [Option.map] at h
      · rw [h1, h2] at h
        simp only [Option.map, Option.some.injEq] at h
        subst h
        exact lenFields_fst size_max list_max S fs vs l1 e1 e2

theorem lenRefs_fst (size_max list_max : Nat) (S : Schema) (fields : List Field) :
    ∀ (list : List (List Val)) (l : Nat) (e e' : Option Errno),
      (lenRefs size_max list_max S fields list l e).1
        = (lenRefs size_max list_max S fields list l e').1
  | [], l, e, e' => by simp only [lenRefs]
  | a :: as, l, e, e' => by
    simp only [lenRefs]
    rw [lenFields_fst size_max list_max S fields a 1 e e']
    exact lenRefs_fst size_max list_max S fields as _ _ _
end

/-! ### C23: `marshal_len` counts the octets of `marshal` -/

theorem lenLoopMax_putVarint : ∀ (k j x l : Nat), j ≤ k → l + j < 2 ^ 64 →
    lenLoopMax k x l (l + j) + 1 = l + (putVarint j x).length
  | 0, j, x, l, hj, _ => by
    have : j = 0 := by omega
    subst this
    simp [lenLoopMax, putVarint]
  | k + 1, 0, x, l, _, _ => by
    simp [lenLoopMax, putVarint]
  | k + 1, j + 1, x, l, hj, hl => by
    unfold lenLoopMax putVarint
    by_cases hx : x > 127
    · rw [if_pos ⟨hx, by omega⟩, if_pos (by omega)]
      rw [Nat.mod_eq_of_lt (by omega)]
      have := lenLoopMax_putVarint k j (x >>> 7) (l + 1) (by omega) (by omega)
      rw [show l + 1 + j = l + (j + 1) from by omega] at this
      simp only [List.length_cons]
      omega
    · rw [if_neg (by omega), if_neg (by omega)]
      simp

theorem lenBlobs_eq (size_max : Nat) :
    ∀ (list : List (List Nat)) (l l' : Nat), (∀ a ∈ list, a.length < 2 ^ 32) →
      l + (putBlobs list).length < 2 ^ 63 → lenBlobs size_max list l = some l' →
      l' = l + (putBlobs list).length
  | [], l, l', _, _, h => by
    simp only [lenBlobs, Option.some.injEq] at h
    simp [putBlobs, h]
  | a :: as, l, l', ha, hb, h => by
    unfold lenBlobs at h
    have ha32 := ha a (List.mem_cons_self _ _)
    simp only [putBlobs, List.length_append, Nat.mod_eq_of_lt ha32] at hb ⊢
    by_cases hs : a.length > size_max
    · rw [if_pos hs] at h; simp at h
    · rw [if_neg hs] at h
      have h1 := lenLoop_putVarint 10 a.length ((l + a.length + 1) % 2 ^ 64) (by omega)
      have h2 := lenBlobs_eq size_max as _ l' (fun x hx => ha x (List.mem_cons_of_mem _ hx))
        (by omega) h
      omega

theorem lenField_eq_bool (size_max list_max : Nat) (S : Schema) (f : Field) (b : Bool)
    (l l' : Nat) (e e' : Option Errno) (hb : l + (putField S f (.bool b)).length < 2 ^ 63)
    (h : lenField size_max list_max S f (.bool b) l e = some (l', e')) :
    l' = l + (putField S f (.bool b)).length := by
  obtain ⟨idx, ty, tl⟩ := f
  cases ty <;> simp only [lenField, putField, Option.some.injEq, Prod.mk.injEq] at h hb ⊢ <;>
    obtain ⟨h, _⟩ := h <;> subst h <;> (try split_ifs at hb ⊢) <;>
    simp only [List.length_cons, List.length_nil] at hb ⊢ <;> omega

theorem lenField_eq_uint (size_max list_max : Nat) (S : Schema) (f : Field) (x : Nat)
    (l l' : Nat) (e e' : Option Errno) (hb : l + (putField S f (.uint x)).length < 2 ^ 63)
    (h : lenField size_max list_max S f (.uint x) l e = some (l', e')) :
    l' = l + (putField S f (.uint x)).length := by
  have h1 := lenLoop_putVarint 10 x ((l + 2) % 2 ^ 64)
  obtain ⟨idx, ty, tl⟩ := f
  cases ty <;> simp only [lenField, putField, Option.some.injEq, Prod.mk.injEq] at h hb ⊢ <;>
    obtain ⟨h, _⟩ := h <;> subst h <;> (try split_ifs at hb ⊢) <;>
    simp only [List.length_cons, List.length_nil, be32_length, be64_length] at hb ⊢ <;>
    omega

theorem lenField_eq_int (size_max list_max : Nat) (S : Schema) (f : Field) (x : Int)
    (l l' : Nat) (e e' : Option Errno) (hb : l + (putField S f (.int x)).length < 2 ^ 63)
    (h : lenField size_max list_max S f (.int x) l e = some (l', e')) :
    l' = l + (putField S f (.int x)).length := by
  have h1 := fun y => lenLoop_putVarint 10 y ((l + 2) % 2 ^ 64)
  have h2 : ∀ y, l + 10 < 2 ^ 64 →
      lenLoopMax 10 y (l + 2) (l + 10) + 1 = l + 2 + (putVarint 8 y).length := by
    intro y hy
    have := lenLoopMax_putVarint 10 8 y (l + 2) (by omega) (by omega)
    rwa [show l + 2 + 8 = l + 10 from by omega] at this
  obtain ⟨idx, ty, tl⟩ := f
  cases ty <;> simp only [lenField, putField, Option.some.injEq, Prod.mk.injEq] at h hb ⊢ <;>
    obtain ⟨h, _⟩ := h <;> subst h <;> (try split_ifs at hb ⊢) <;>
    simp only [List.length_cons, List.length_nil] at hb ⊢
  all_goals first
    | omega
    | (have h3 := h1 (toU32 x); omega)
    | (have h3 := h1 (((2 ^ 32 - 1 - toU32 x) + 1) % 2 ^ 32); omega)
    | (rw [Nat.mod_eq_of_lt (show l + 2 < 2 ^ 64 by omega),
        Nat.mod_eq_of_lt (show l + 10 < 2 ^ 64 by omega)]
       have h3 := h2 (toU64 x) (by omega); omega)
    | (rw [Nat.mod_eq_of_lt (show l + 2 < 2 ^ 64 by omega),
        Nat.mod_eq_of_lt (show l + 10 < 2 ^ 64 by omega)]
       have h3 := h2 (((2 ^ 64 - 1 - toU64 x) + 1) % 2 ^ 64) (by omega); omega)

theorem lenField_eq_float (size_max list_max : Nat) (S : Schema) (f : Field) (x : Nat)
    (l l' : Nat) (e e' : Option Errno) (hb : l + (putField S f (.float x)).length < 2 ^ 63)
    (h : lenField size_max list_max S f (.float x) l e = some (l', e')) :
    l' = l + (putField S f (.float x)).length := by
  obtain ⟨idx, ty, tl⟩ := f
  cases ty <;> cases tl <;>
    simp only [lenField, putField, Option.some.injEq, Prod.mk.injEq] at h hb ⊢ <;>
    obtain ⟨h, _⟩ := h <;> subst h <;> (try split_ifs at hb ⊢) <;>
    simp only [List.length_cons, List.length_nil, be32_length, be64_length] at hb ⊢ <;>
    omega

theorem lenField_eq_floats (size_max list_max : Nat) (S : Schema) (f : Field) (x : List Nat)
    (l l' : Nat) (e e' : Option Errno) (hn : normalizedVal (.floats x) = true)
    (hb : l + (putField S f (.floats x)).length < 2 ^ 63)
    (h : lenField size_max list_max S f (.floats x) l e = some (l', e')) :
    l' = l + (putField S f (.floats x)).length := by
  simp only [normalizedVal, decide_eq_true_eq] at hn
  have h4 := putFloats_length false x
  have h8 := putFloats_length true x
  simp only [Bool.false_eq_true, if_false] at h4
  simp only [if_true] at h8
  have h1 := lenLoop_putVarint 10 x.length ((l + (x.length * 4 + 2)) % 2 ^ 64)
  have h2 := lenLoop_putVarint 10 x.length ((l + (x.length * 8 + 2)) % 2 ^ 64)
  obtain ⟨idx, ty, tl⟩ := f
  cases ty <;> cases tl <;>
    simp only [lenField, putField, Nat.mod_eq_of_lt hn] at h hb ⊢ <;>
    (try split_ifs at h hb ⊢) <;>
    simp only [Option.some.injEq, Prod.mk.injEq, reduceCtorEq] at h <;>
    obtain ⟨h, _⟩ := h <;> subst h <;>
    simp only [List.length_cons, List.length_nil, List.length_append] at hb ⊢ <;>
    omega

theorem lenField_eq_timespec (size_max list_max : Nat) (S : Schema) (f : Field)
    (tv_sec tv_nsec : Int)
    (l l' : Nat) (e e' : Option Errno) (hn : normalizedVal (.timespec tv_sec tv_nsec) = true)
    (hb : l + (putField S f (.timespec tv_sec tv_nsec)).length < 2 ^ 63)
    (h : lenField size_max list_max S f (.timespec tv_sec tv_nsec) l e = some (l', e')) :
    l' = l + (putField S f (.timespec tv_sec tv_nsec)).length := by
  simp only [normalizedVal, decide_eq_true_eq] at hn
  obtain ⟨hn1, hn2, hs1, hs2⟩ := hn
  have hd : Int.tdiv tv_nsec 1000000000 = 0 := Int.tdiv_eq_zero_of_lt hn1 hn2
  have hm : Int.tmod tv_nsec 1000000000 = tv_nsec := Int.tmod_eq_of_lt hn1 hn2
  have hsec : normSec tv_sec tv_nsec = tv_sec := by
    simp only [normSec, hd, hm, Int.add_zero]
    rw [if_neg (by omega)]
  have hlt := toU64_lt_iff tv_sec hs1 hs2
  obtain ⟨idx, ty, tl⟩ := f
  cases ty <;>
    simp only [lenField, putField, hd, hsec, Int.add_zero] at h hb ⊢ <;>
    (try split_ifs at h hb ⊢) <;>
    simp only [Option.some.injEq, Prod.mk.injEq, reduceCtorEq] at h <;>
    obtain ⟨h, _⟩ := h <;> subst h <;>
    simp only [List.length_cons, List.length_nil, List.length_append, be32_length,
      be64_length] at hb ⊢ <;>
    omega

theorem lenField_eq_blob (size_max list_max : Nat) (S : Schema) (f : Field) (x : List Nat)
    (l l' : Nat) (e e' : Option Errno) (hn : normalizedVal (.blob x) = true)
    (hb : l + (putField S f (.blob x)).length < 2 ^ 63)
    (h : lenField size_max list_max S f (.blob x) l e = some (l', e')) :
    l' = l + (putField S f (.blob x)).length := by
  simp only [normalizedVal, decide_eq_true_eq] at hn
  have h1 := lenLoop_putVarint 10 x.length ((l + (2 + x.length)) % 2 ^ 64)
  obtain ⟨idx, ty, tl⟩ := f
  cases ty <;> cases tl <;>
    simp only [lenField, putField, Nat.mod_eq_of_lt hn] at h hb ⊢ <;>
    (try split_ifs at h hb ⊢) <;>
    simp only [Option.some.injEq, Prod.mk.injEq, reduceCtorEq] at h <;>
    obtain ⟨h, _⟩ := h <;> subst h <;>
    simp only [List.length_cons, List.length_nil, List.length_append] at hb ⊢ <;>
    omega

theorem lenField_eq_blobs (size_max list_max : Nat) (S : Schema) (f : Field)
    (x : List (List Nat))
    (l l' : Nat) (e e' : Option Errno) (hn : normalizedVal (.blobs x) = true)
    (hb : l + (putField S f (.blobs x)).length < 2 ^ 63)
    (h : lenField size_max list_max S f (.blobs x) l e = some (l', e')) :
    l' = l + (putField S f (.blobs x)).length := by
  simp only [normalizedVal, Bool.and_eq_true, decide_eq_true_eq, List.all_eq_true] at hn
  obtain ⟨hn, hall⟩ := hn
  have key : x.length ≠ 0 → l + (1 + ((putVarint 10 x.length).length + (putBlobs x).length))
        < 2 ^ 63 →
      (if x.length > list_max then none
        else
          match lenBlobs size_max x l with
          | none => none
          | some l =>
            if lenLoop 10 x.length ((l + 2) % 2 ^ 64) > size_max then none
            else some (lenLoop 10 x.length ((l + 2) % 2 ^ 64), e)) = some (l', e') →
      l' = l + (1 + ((putVarint 10 x.length).length + (putBlobs x).length)) := by
    intro h0 hb h
    split_ifs at h
    rcases hl : lenBlobs size_max x l with _ | l1
    · rw [hl] at h; simp at h
    · rw [hl] at h
      simp only [] at h
      have h2 := lenBlobs_eq size_max x l l1 hall (by omega) hl
      have h1 := lenLoop_putVarint 10 x.length ((l1 + 2) % 2 ^ 64) (by omega)
      split_ifs at h
      simp only [Option.some.injEq, Prod.mk.injEq] at h
      omega
  obtain ⟨idx, ty, tl⟩ := f
  cases ty <;> cases tl <;>
    simp only [lenField, putField, Nat.mod_eq_of_lt hn] at h hb ⊢
  case text.true =>
    by_cases h0 : x.length ≠ 0
    · rw [if_pos h0] at h hb ⊢
      simp only [List.length_cons, List.length_append] at hb ⊢
      have := key h0 (by omega) h
      omega
    · rw [if_neg h0] at h ⊢
      simp only [Option.some.injEq, Prod.mk.injEq] at h
      simp [h.1]
  case binary.true =>
    by_cases h0 : x.length ≠ 0
    · rw [if_pos h0] at h hb ⊢
      simp only [List.length_cons, List.length_append] at hb ⊢
      have := key h0 (by omega) h
      omega
    · rw [if_neg h0] at h ⊢
      simp only [Option.some.injEq, Prod.mk.injEq] at h
      simp [h.1]
  all_goals
    simp only [Option.some.injEq, Prod.mk.injEq] at h
    simp [h.1]

mutual
theorem lenField_eq (size_max list_max : Nat) (S : Schema) (f : Field) :
    ∀ (v : Val) (l l' : Nat) (e e' : Option Errno),
      allVal (fun _ v => normalizedVal v) S f v = true →
      allVal (sizedVal size_max list_max S) S f v = true →
      l + (putField S f v).length < 2 ^ 63 →
      lenField size_max list_max S f v l e = some (l', e') →
      l' = l + (putField S f v).length
  | .bool b, l, l', e, e', _, _, hb, h =>
    lenField_eq_bool size_max list_max S f b l l' e e' hb h
  | .uint x, l, l', e, e', _, _, hb, h =>
    lenField_eq_uint size_max list_max S f x l l' e e' hb h
  | .int x, l, l', e, e', _, _, hb, h =>
    lenField_eq_int size_max list_max S f x l l' e e' hb h
  | .float x, l, l', e, e', _, _, hb, h =>
    lenField_eq_float size_max list_max S f x l l' e e' hb h
  | .floats x, l, l', e, e', hn, _, hb, h =>
    lenField_eq_floats size_max list_max S f x l l' e e' (by simpa [allVal] using hn) hb h
  | .timespec s ns, l, l', e, e', hn, _, hb, h =>
    lenField_eq_timespec size_max list_max S f s ns l l' e e' (by simpa [allVal] using hn) hb h
  | .blob x, l, l', e, e', hn, _, hb, h =>
    lenField_eq_blob size_max list_max S f x l l' e e' (by simpa [allVal] using hn) hb h
  | .blobs x, l, l', e, e', hn, _, hb, h =>
    lenField_eq_blobs size_max list_max S f x l l' e e' (by simpa [allVal] using hn) hb h
  | .ref none, l, l', e, e', _, _, _, h => by
    simp only [lenField, Option.some.injEq, Prod.mk.injEq] at h
    simp [putField, h.1]
  | .ref (some r), l, l', e, e', hn, hs, hb, h => by
    simp only [allVal, Bool.and_eq_true] at hn hs
    simp only [lenField, putField] at h hb ⊢
    split at h
    · rename_i s hty htl
      simp only [hty] at hn hs hb ⊢
      simp only [htl] at hb ⊢
      simp only [sizedVal, hty, decide_eq_true_eq, marshal_len] at hs
      simp only [List.length_cons, List.length_append, List.length_nil] at hb ⊢
      have hnz : (lenFields size_max list_max S (S s) r 1 e).1 ≠ 0 := by
        rw [lenFields_fst size_max list_max S (S s) r 1 e none]; exact hs.1
      have ih := lenFields_eq size_max list_max S (S s) r 1 e hn.2 hs.2 (by omega) hnz
      simp only [Option.some.injEq, Prod.mk.injEq] at h
      omega
    · rename_i hne
      simp only [Option.some.injEq, Prod.mk.injEq] at h
      simp [h.1]
  | .refs list, l, l', e, e', hn, hs, hb, h => by
    simp only [allVal, Bool.and_eq_true] at hn hs
    simp only [lenField, putField] at h hb ⊢
    split at h
    · rename_i s hty htl
      simp only [hty] at hn hs hb ⊢
      simp only [htl] at hb ⊢
      simp only [sizedVal, hty, List.all_eq_true, decide_eq_true_eq, marshal_len,
        normalizedVal] at hs hn
      by_cases h0 : list.length ≠ 0
      · rw [if_pos h0] at h hb ⊢
        rw [Nat.mod_eq_of_lt hn.1] at hb ⊢
        simp only [List.length_cons, List.length_append] at hb ⊢
        split_ifs at h
        have ih := lenRefs_eq size_max list_max S (S s) list l e hn.2 hs.2 hs.1 (by omega)
        have h1 := lenLoop_putVarint 10 list.length
          (((lenRefs size_max list_max S (S s) list l e).1 + 2) % 2 ^ 64) (by omega)
        simp only [Option.some.injEq, Prod.mk.injEq] at h
        omega
      · rw [if_neg h0] at h ⊢
        simp only [Option.some.injEq, Prod.mk.injEq] at h
        simp [h.1]
    · rename_i hne
      simp only [Option.some.injEq, Prod.mk.injEq] at h
      simp [h.1]

theorem lenFields_eq (size_max list_max : Nat) (S : Schema) :
    ∀ (fs : List Field) (vs : List Val) (l : Nat) (e : Option Errno),
      allFields (fun _ v => normalizedVal v) S fs vs = true →
      allFields (sizedVal size_max list_max S) S fs vs = true →
      l + (putFields S fs vs).length < 2 ^ 63 →
      (lenFields size_max list_max S fs vs l e).1 ≠ 0 →
      (lenFields size_max list_max S fs vs l e).1 = l + (putFields S fs vs).length
  | [], vs, l, e, _, _, _, h => by
    simp only [lenFields] at h ⊢
    split_ifs at h ⊢
    · simp at h
    · simp [putFields]
  | f :: fs, [], l, e, _, _, _, h => by
    simp only [lenFields] at h ⊢
    split_ifs at h ⊢
    · simp at h
    · simp [putFields]
  | f :: fs, v :: vs, l, e, hn, hs, hb, h => by
    simp only [allFields, Bool.and_eq_true] at hn hs
    simp only [lenFields, putFields, List.length_append] at h hb ⊢
    rcases hf : lenField size_max list_max S f v l e with _ | ⟨l1, e1⟩
    · rw [hf] at h; simp at h
    · rw [hf] at h
      simp only [] at h ⊢
      have h1 := lenField_eq size_max list_max S f v l l1 e e1 hn.1 hs.1 (by omega) hf
      have h2 := lenFields_eq size_max list_max S fs vs l1 e1 hn.2 hs.2 (by omega) h
      omega

theorem lenRefs_eq (size_max list_max : Nat) (S : Schema) (fields : List Field) :
    ∀ (list : List (List Val)) (l : Nat) (e : Option Errno),
      allRefs (fun _ v => normalizedVal v) S fields list = true →
      allRefs (sizedVal size_max list_max S) S fields list = true →
      (∀ a ∈ list, (lenFields size_max list_max S fields a 1 none).1 ≠ 0) →
      l + (putRefs S fields list).length < 2 ^ 63 →
      (lenRefs size_max list_max S fields list l e).1 = l + (putRefs S fields list).length
  | [], l, e, _, _, _, _ => by simp [lenRefs, putRefs]
  | a :: as, l, e, hn, hs, hz, hb => by
    simp only [allRefs, Bool.and_eq_true] at hn hs
    simp only [lenRefs, putRefs, List.length_append, List.length_cons, List.length_nil] at hb ⊢
    have hnz : (lenFields size_max list_max S fields a 1 e).1 ≠ 0 := by
      rw [lenFields_fst size_max list_max S fields a 1 e none]
      exact hz a (List.mem_cons_self _ _)
    have h1 := lenFields_eq size_max list_max S fields a 1 e hn.1 hs.1 (by omega) hnz
    have h2 := lenRefs_eq size_max list_max S fields as
      ((l + (lenFields size_max list_max S fields a 1 e).1) % 2 ^ 64)
      (lenFields size_max list_max S fields a 1 e).2 hn.2 hs.2
      (fun b hb' => hz b (List.mem_cons_of_mem _ hb')) (by omega)
    omega
end

/-- C23: for a value in which every timestamp has `0 <= tv_nsec < 10^9`, every length of a
text or binary and every count of a list is below `2^32`, and for which `marshal_len` returns
nonzero, as it does for every struct reachable from the value, `marshal_len` returns the
number of octets that `marshal` writes.  The value is a C object: the seconds of a timestamp
are in the 64 bits of `time_t`, and the encoding has fewer than `2^63` octets. -/
theorem length_agreement (size_max list_max : Nat) (S : Schema) (sid : Nat) (v : Rec)
    (hnorm : allFields (fun _ v => normalizedVal v) S (S sid) v = true)
    (hsized : allFields (sizedVal size_max list_max S) S (S sid) v = true)
    (hobj : (marshal S sid v).length < 2 ^ 63)
    (hnz : (marshal_len size_max list_max S sid v).1 ≠ 0) :
    (marshal_len size_max list_max S sid v).1 = (marshal S sid v).length := by
  rw [marshal_length] at hobj ⊢
  unfold marshal_len at hnz ⊢
  rw [lenFields_eq size_max list_max S (S sid) v 1 none hnorm hsized (by omega) hnz]
  omega

/-- C23 on a struct of schema `P` with a nested struct and a list of two structs: 29 octets
by `marshal_len` and by `marshal`. -/
theorem length_agreement_witness :
    allFields (fun _ v => normalizedVal v) schemaP (schemaP 0)
      [.ref (some [.floats [1, 2], .uint 7, .uint 200]),
        .refs [[.floats [], .uint 1, .uint 0], [.floats [5], .uint 0, .uint 0]]] = true ∧
    allFields (sizedVal (2 ^ 24) (2 ^ 16) schemaP) schemaP (schemaP 0)
      [.ref (some [.floats [1, 2], .uint 7, .uint 200]),
        .refs [[.floats [], .uint 1, .uint 0], [.floats [5], .uint 0, .uint 0]]] = true ∧
    (marshal schemaP 0
      [.ref (some [.floats [1, 2], .uint 7, .uint 200]),
        .refs [[.floats [], .uint 1, .uint 0], [.floats [5], .uint 0, .uint 0]]]).length
      < 2 ^ 63 ∧
    (marshal_len (2 ^ 24) (2 ^ 16) schemaP 0
      [.ref (some [.floats [1, 2], .uint 7, .uint 200]),
        .refs [[.floats [], .uint 1, .uint 0], [.floats [5], .uint 0, .uint 0]]]).1 ≠ 0 ∧
    (marshal_len (2 ^ 24) (2 ^ 16) schemaP 0
      [.ref (some [.floats [1, 2], .uint 7, .uint 200]),
        .refs [[.floats [], .uint 1, .uint 0], [.floats [5], .uint 0, .uint 0]]]).1
      = (marshal schemaP 0
          [.ref (some [.floats [1, 2], .uint 7, .uint 200]),
            .refs [[.floats [], .uint 1, .uint 0], [.floats [5], .uint 0, .uint 0]]]).length ∧
    (marshal schemaP 0
      [.ref (some [.floats [1, 2], .uint 7, .uint 200]),
        .refs [[.floats [], .uint 1, .uint 0], [.floats [5], .uint 0, .uint 0]]]).length
      = 29 :=
  ⟨by rfl, by rfl, by decide, by decide,
    length_agreement (2 ^ 24) (2 ^ 16) schemaP 0
      [.ref (some [.floats [1, 2], .uint 7, .uint 200]),
        .refs [[.floats [], .uint 1, .uint 0], [.floats [5], .uint 0, .uint 0]]]
      (by rfl) (by rfl) (by decide) (by decide), by rfl⟩

/-! ### C24: where a successful `unmarshal` ends -/

theorem drop_cons_at {data d : List Nat} {b p : Nat} (h : b :: d = data.drop p) :
    d = data.drop (p + 1) ∧ data[p]? = some b := by
  constructor
  · have : (b :: d).drop 1 = (data.drop p).drop 1 := by rw [h]
    simpa [List.drop_drop, Nat.add_comm] using this
  · have : (b :: d)[0]? = (data.drop p)[0]? := by rw [h]
    simpa using this.symm

theorem next_at {data d : List Nat} {p : Nat} {c : Cur} (hd : d = data.drop p)
    (h : next p d = .ok c) :
    c.p = p + 1 ∧ c.d = data.drop (p + 1) ∧ data[p]? = some c.header := by
  cases d with
  | nil => simp [next] at h
  | cons b d =>
    simp only [next, Except.ok.injEq] at h
    subst h
    obtain ⟨h1, h2⟩ := drop_cons_at hd
    exact ⟨rfl, h1, h2⟩

theorem next_curAt {data d : List Nat} {end_ p : Nat} {c : Cur} (hd : d = data.drop p)
    (hp : p < end_) (h : next p d = .ok c) : CurAt data end_ c := by
  obtain ⟨h1, h2, h3⟩ := next_at hd h
  refine ⟨by omega, by omega, by rw [h1]; exact h2, ?_⟩
  rw [h1]; simpa using h3

theorem nextChk_curAt {data d : List Nat} {end_ p : Nat} {enderr : Errno} {c : Cur}
    (hd : d = data.drop p) (h : nextChk end_ enderr p d = .ok c) : CurAt data end_ c := by
  unfold nextChk at h
  by_cases he : p ≥ end_
  · rw [if_pos he] at h; simp at h
  · rw [if_neg he] at h
    exact next_curAt hd (by omega) h

theorem finish_curAt {α : Type} {data : List Nat} {end_ : Nat} (v : Val) (mk : α → Val)
    (r : Except Halt (α × Nat × List Nat)) {c : Cur}
    (hr : ∀ x p' d', r = .ok (x, p', d') → p' < end_ ∧ d' = data.drop p')
    (h : (finish v mk r).2 = .ok c) : CurAt data end_ c := by
  rcases r with e | ⟨x, p', d'⟩
  · simp [finish] at h
  · obtain ⟨h1, h2⟩ := hr x p' d' rfl
    simp only [finish] at h
    exact next_curAt h2 h1 h

theorem rawRead_at {α : Type} {data d : List Nat} {K p : Nat} {f : List Nat → α}
    {x : α} {p' : Nat} {d' : List Nat} (hd : d = data.drop p)
    (h : rawRead K f p d = .ok (x, p', d')) :
    p' = p + K ∧ K ≤ d.length ∧ d' = data.drop p' := by
  unfold rawRead at h
  by_cases hK : K ≤ d.length
  · rw [if_pos hK] at h
    simp only [Except.ok.injEq, Prod.mk.injEq] at h
    obtain ⟨_, h2, h3⟩ := h
    refine ⟨h2.symm, hK, ?_⟩
    rw [← h3, ← h2, hd, List.drop_drop, Nat.add_comm]
  · rw [if_neg hK] at h; simp at h

theorem within_raw_at {α : Type} {data d : List Nat} {end_ : Nat} {enderr : Errno}
    {K p : Nat} {f : List Nat → α} {x : α} {p' : Nat} {d' : List Nat} (hd : d = data.drop p)
    (h : within end_ enderr p K (rawRead K f p d) = .ok (x, p', d')) :
    p' < end_ ∧ d' = data.drop p' := by
  unfold within at h
  by_cases he : p + K ≥ end_
  · rw [if_pos he] at h; simp at h
  · rw [if_neg he] at h
    obtain ⟨h1, _, h3⟩ := rawRead_at hd h
    exact ⟨by omega, h3⟩

theorem intLoop_at (data : List Nat) (w : Nat) (lim cut : Option Nat) (end_ : Nat)
    (enderr : Errno) :
    ∀ (d : List Nat) (x shift p y p' : Nat) (d' : List Nat), d = data.drop p → p < end_ →
      intLoop w lim cut end_ enderr d x shift p = .ok (y, p', d') →
      p' < end_ ∧ d' = data.drop p'
  | [], x, shift, p, y, p', d', hd, hp, h => by
    unfold intLoop at h
    by_cases hl : lim.all (fun m => shift < m) = true
    · simp [hl] at h
    · simp only [hl, Bool.false_eq_true, if_false, Except.ok.injEq, Prod.mk.injEq] at h
      obtain ⟨_, h2, h3⟩ := h
      subst h2 h3
      exact ⟨hp, hd⟩
  | b :: d, x, shift, p, y, p', d', hd, hp, h => by
    unfold intLoop at h
    obtain ⟨hd1, _⟩ := drop_cons_at hd
    by_cases hl : lim.all (fun m => shift < m) = true
    · simp only [hl, if_true] at h
      by_cases he : p + 1 ≥ end_
      · rw [if_pos he] at h; simp at h
      · rw [if_neg he] at h
        by_cases hb : b ≤ 127 ∨ cut = some shift
        · rw [if_pos hb] at h
          simp only [Except.ok.injEq, Prod.mk.injEq] at h
          obtain ⟨_, h2, h3⟩ := h
          subst h2 h3
          exact ⟨by omega, hd1⟩
        · rw [if_neg hb] at h
          exact intLoop_at data w lim cut end_ enderr d _ _ _ y p' d' hd1 (by omega) h
    · simp only [hl, Bool.false_eq_true, if_false, Except.ok.injEq, Prod.mk.injEq] at h
      obtain ⟨_, h2, h3⟩ := h
      subst h2 h3
      exact ⟨hp, hd⟩

theorem getInt_at {data d : List Nat} {w : Nat} {lim cut : Option Nat} {end_ : Nat}
    {enderr : Errno} {p y p' : Nat} {d' : List Nat} (hd : d = data.drop p)
    (h : getInt w lim cut end_ enderr p d = .ok (y, p', d')) :
    p' < end_ ∧ d' = data.drop p' := by
  unfold getInt at h
  by_cases he : p + 1 ≥ end_
  · rw [if_pos he] at h; simp at h
  · rw [if_neg he] at h
    cases d with
    | nil => simp at h
    | cons b d =>
      obtain ⟨hd1, _⟩ := drop_cons_at hd
      simp only [] at h
      by_cases hb : b > 127
      · rw [if_pos hb] at h
        exact intLoop_at data w lim cut end_ enderr d _ _ _ y p' d' hd1 (by omega) h
      · rw [if_neg hb] at h
        simp only [Except.ok.injEq, Prod.mk.injEq] at h
        obtain ⟨_, h2, h3⟩ := h
        subst h2 h3
        exact ⟨by omega, hd1⟩

theorem lenVarLoop_at (data : List Nat) (lim : Option Nat) (end_ : Nat) (enderr : Errno) :
    ∀ (d : List Nat) (n shift p y p' : Nat) (d' : List Nat), d = data.drop p → p ≤ end_ →
      lenVarLoop lim end_ enderr d n shift p = .ok (y, p', d') →
      p' ≤ end_ ∧ d' = data.drop p'
  | [], n, shift, p, y, p', d', hd, hp, h => by
    unfold lenVarLoop at h
    by_cases hl : lim.all (fun m => shift < m) = true
    · simp only [hl, if_true] at h
      by_cases he : p ≥ end_
      · rw [if_pos he] at h; simp at h
      · rw [if_neg he] at h; simp at h
    · simp only [hl, Bool.false_eq_true, if_false, Except.ok.injEq, Prod.mk.injEq] at h
      obtain ⟨_, h2, h3⟩ := h
      subst h2 h3
      exact ⟨hp, hd⟩
  | b :: d, n, shift, p, y, p', d', hd, hp, h => by
    unfold lenVarLoop at h
    obtain ⟨hd1, _⟩ := drop_cons_at hd
    by_cases hl : lim.all (fun m => shift < m) = true
    · simp only [hl, if_true] at h
      by_cases he : p ≥ end_
      · rw [if_pos he] at h; simp at h
      · rw [if_neg he] at h
        by_cases hb : b ≤ 127
        · rw [if_pos hb] at h
          simp only [Except.ok.injEq, Prod.mk.injEq] at h
          obtain ⟨_, h2, h3⟩ := h
          subst h2 h3
          exact ⟨by omega, hd1⟩
        · rw [if_neg hb] at h
          exact lenVarLoop_at data lim end_ enderr d _ _ _ y p' d' hd1 (by omega) h
    · simp only [hl, Bool.false_eq_true, if_false, Except.ok.injEq, Prod.mk.injEq] at h
      obtain ⟨_, h2, h3⟩ := h
      subst h2 h3
      exact ⟨hp, hd⟩

theorem getLen_at {data d : List Nat} {lim : Option Nat} {end_ : Nat}
    {enderr : Errno} {p y p' : Nat} {d' : List Nat} (hd : d = data.drop p)
    (h : getLen lim end_ enderr p d = .ok (y, p', d')) :
    p' ≤ end_ ∧ d' = data.drop p' := by
  unfold getLen at h
  by_cases he : p ≥ end_
  · rw [if_pos he] at h; simp at h
  · rw [if_neg he] at h
    cases d with
    | nil => simp at h
    | cons b d =>
      obtain ⟨hd1, _⟩ := drop_cons_at hd
      simp only [] at h
      by_cases hb : b > 127
      · rw [if_pos hb] at h
        exact lenVarLoop_at data lim end_ enderr d _ _ _ y p' d' hd1 (by omega) h
      · rw [if_neg hb] at h
        simp only [Except.ok.injEq, Prod.mk.injEq] at h
        obtain ⟨_, h2, h3⟩ := h
        subst h2 h3
        exact ⟨by omega, hd1⟩

theorem getCount_at {data d : List Nat} {list_max end_ : Nat}
    {enderr : Errno} {p y p' : Nat} {d' : List Nat} (hd : d = data.drop p)
    (h : getCount list_max end_ enderr p d = .ok (y, p', d')) :
    p' ≤ end_ ∧ d' = data.drop p' := by
  unfold getCount at h
  rcases hr : getLen none end_ enderr p d with e | ⟨n, p1, d1⟩
  · rw [hr] at h; simp at h
  · rw [hr] at h
    simp only [] at h
    by_cases hn : n > list_max
    · rw [if_pos hn] at h; simp at h
    · rw [if_neg hn] at h
      simp only [Except.ok.injEq, Prod.mk.injEq] at h
      obtain ⟨_, h2, h3⟩ := h
      subst h2 h3
      exact getLen_at hd hr

theorem length_drop_lt {data : List Nat} (p : Nat) (h : data.length < 2 ^ 64) :
    (data.drop p).length < 2 ^ 64 := by
  rw [List.length_drop]; omega

theorem getFloatList_at {data d : List Nat} {wide : Bool} {list_max end_ : Nat}
    {enderr : Errno} {p : Nat} {y : List Nat} {p' : Nat} {d' : List Nat}
    (hlen : data.length < 2 ^ 64) (hd : d = data.drop p)
    (h : getFloatList wide list_max end_ enderr p d = .ok (y, p', d')) :
    p' < end_ ∧ d' = data.drop p' := by
  unfold getFloatList at h
  rcases hr : getCount list_max end_ enderr p d with e | ⟨n, p1, d1⟩
  · rw [hr] at h; simp at h
  · rw [hr] at h
    simp only [] at h
    obtain ⟨_, hd1⟩ := getCount_at hd hr
    obtain ⟨f, hf⟩ := getFloats_raw wide n
    rw [hf] at h
    unfold within at h
    by_cases he : p1 + (n * (if wide = true then 8 else 4)) % 2 ^ 64 ≥ end_
    · rw [if_pos he] at h; simp at h
    · rw [if_neg he] at h
      obtain ⟨h1, h2, h3⟩ := rawRead_at hd1 h
      have h4 := length_drop_lt p1 hlen
      rw [← hd1] at h4
      rw [Nat.mod_eq_of_lt (by omega)] at he
      exact ⟨by omega, h3⟩

theorem getBlob_at {data d : List Nat} {lim : Option Nat} {size_max end_ : Nat}
    {enderr : Errno} {p : Nat} {y : List Nat} {p' : Nat} {d' : List Nat}
    (hd : d = data.drop p)
    (h : getBlob lim size_max end_ enderr p d = .ok (y, p', d')) :
    p' < end_ ∧ d' = data.drop p' := by
  unfold getBlob at h
  rcases hr : getLen lim end_ enderr p d with e | ⟨n, p1, d1⟩
  · rw [hr] at h; simp at h
  · rw [hr] at h
    simp only [] at h
    obtain ⟨_, hd1⟩ := getLen_at hd hr
    by_cases hn : n > size_max
    · rw [if_pos hn] at h; simp at h
    · rw [if_neg hn, getOctets_raw] at h
      exact within_raw_at hd1 h

theorem getBlobs_at (data : List Nat) (size_max end_ : Nat) (enderr : Errno) :
    ∀ (n p : Nat) (d : List Nat) (p' : Nat) (d' : List Nat), d = data.drop p →
      (getBlobs size_max end_ enderr n p d).2 = .ok (p', d') → d' = data.drop p'
  | 0, p, d, p', d', hd, h => by
    simp only [getBlobs, Except.ok.injEq, Prod.mk.injEq] at h
    obtain ⟨h1, h2⟩ := h
    subst h1 h2
    exact hd
  | n + 1, p, d, p', d', hd, h => by
    unfold getBlobs at h
    rcases hr : getBlob none size_max end_ enderr p d with e | ⟨a, p1, d1⟩
    · rw [hr] at h; simp at h
    · rw [hr] at h
      simp only [] at h
      exact getBlobs_at data size_max end_ enderr n p1 d1 p' d' (getBlob_at hd hr).2 h

theorem getRefs_at (data : List Nat) (call : Callee) (fields : List Field) (s end_ : Nat)
    (enderr : Errno) :
    ∀ (n p : Nat) (d : List Nat) (as : List Rec) (p' : Nat) (d' : List Nat),
      d = data.drop p →
      getRefs call fields s end_ enderr n p d = .ok (as, p', d') → d' = data.drop p'
  | 0, p, d, as, p', d', hd, h => by
    simp only [getRefs, Except.ok.injEq, Prod.mk.injEq] at h
    obtain ⟨_, h1, h2⟩ := h
    subst h1 h2
    exact hd
  | n + 1, p, d, as, p', d', hd, h => by
    unfold getRefs at h
    rcases hc : call s (zeroRec fields) d (end_ - p) with ⟨a, e | read⟩
    · rw [hc] at h; simp at h
    · rw [hc] at h
      simp only [] at h
      rcases hr : getRefs call fields s end_ enderr n (p + read) (d.drop read) with
        e | ⟨as1, p1, d1⟩
      · rw [hr] at h; simp at h
      · rw [hr] at h
        simp only [Except.ok.injEq, Prod.mk.injEq] at h
        obtain ⟨_, h1, h2⟩ := h
        subst h1 h2
        exact getRefs_at data call fields s end_ enderr n (p + read) (d.drop read) as1 p1 d1
          (by rw [hd, List.drop_drop, Nat.add_comm]) hr

theorem within_fixed_at {α : Type} {data d : List Nat} {end_ : Nat} {enderr : Errno}
    {K p : Nat} {g : Nat → List Nat → Except Halt (α × Nat × List Nat)}
    (hg : ∃ f : List Nat → α, ∀ p d, g p d = rawRead K f p d)
    {x : α} {p' : Nat} {d' : List Nat} (hd : d = data.drop p)
    (h : within end_ enderr p K (g p d) = .ok (x, p', d')) :
    p' < end_ ∧ d' = data.drop p' := by
  obtain ⟨f, hf⟩ := hg
  rw [hf] at h
  exact within_raw_at hd h

theorem getField_curAt (size_max list_max : Nat) (S : Schema) (call : Callee) (end_ : Nat)
    (enderr : Errno) (data : List Nat) (hlen : data.length < 2 ^ 64) (f : Field) (v : Val)
    (c c' : Cur) (hc : CurAt data end_ c)
    (h : (getField size_max list_max S call end_ enderr f v c).2 = .ok c') :
    CurAt data end_ c' := by
  have hd := hc.2.2.1
  have hsame : ∀ v : Val, ((v, (Except.ok c : Except Halt Cur)).2 = .ok c') →
      CurAt data end_ c' := by
    intro v h
    simp only [Except.ok.injEq] at h
    subst h
    exact hc
  have hblobs : ∀ v : Val,
      (match getCount list_max end_ enderr c.p c.d with
        | .error h => (v, Except.error h)
        | .ok (n, p, d) =>
          match getBlobs size_max end_ enderr n p d with
          | (as, .error h) => (Val.blobs as, Except.error h)
          | (as, .ok (p, d)) => (Val.blobs as, nextChk end_ enderr p d)).2 = .ok c' →
      CurAt data end_ c' := by
    intro v h
    rcases hr : getCount list_max end_ enderr c.p c.d with e | ⟨n, p1, d1⟩
    · rw [hr] at h; simp at h
    · rw [hr] at h
      simp only [] at h
      obtain ⟨_, hd1⟩ := getCount_at hd hr
      rcases hb : getBlobs size_max end_ enderr n p1 d1 with ⟨as, e | ⟨p2, d2⟩⟩
      · rw [hb] at h; simp at h
      · rw [hb] at h
        simp only [] at h
        have hd2 := getBlobs_at data size_max end_ enderr n p1 d1 p2 d2 hd1 (by rw [hb])
        exact nextChk_curAt hd2 h
  obtain ⟨idx, ty, tl⟩ := f
  cases ty <;> cases tl <;> simp only [getField] at h
  case ref.false s =>
    split at h
    · rcases hcall : call s (zeroRec (S s)) c.d (end_ - c.p) with ⟨r, e | read⟩
      · rw [hcall] at h; simp at h
      · rw [hcall] at h
        simp only [] at h
        exact nextChk_curAt (by rw [hd, List.drop_drop, Nat.add_comm]) h
    · exact hsame _ h
  case ref.true s =>
    split at h
    · rcases hr : getCount list_max end_ enderr c.p c.d with e | ⟨n, p1, d1⟩
      · rw [hr] at h; simp at h
      · rw [hr] at h
        simp only [] at h
        obtain ⟨_, hd1⟩ := getCount_at hd hr
        rcases hb : getRefs call (S s) s end_ enderr n p1 d1 with e | ⟨as, p2, d2⟩
        · rw [hb] at h; simp at h
        · rw [hb] at h
          simp only [] at h
          exact nextChk_curAt
            (getRefs_at data call (S s) s end_ enderr n p1 d1 as p2 d2 hd1 hb) h
    · exact hsame _ h
  case text.true =>
    split at h
    · exact hblobs _ h
    · exact hsame _ h
  case binary.true =>
    split at h
    · exact hblobs _ h
    · exact hsame _ h
  all_goals
    split_ifs at h
    all_goals first
      | exact hsame _ h
      | exact nextChk_curAt hd h
      | exact finish_curAt _ _ _ (fun x p' d' hr => getInt_at hd hr) h
      | exact finish_curAt _ _ _ (fun x p' d' hr => getBlob_at hd hr) h
      | exact finish_curAt _ _ _ (fun x p' d' hr => getFloatList_at hlen hd hr) h
      | exact finish_curAt _ _ _ (fun x p' d' hr => within_fixed_at getU8_raw hd hr) h
      | exact finish_curAt _ _ _ (fun x p' d' hr => within_fixed_at getBE16_raw hd hr) h
      | exact finish_curAt _ _ _ (fun x p' d' hr => within_fixed_at getBE32_raw hd hr) h
      | exact finish_curAt _ _ _ (fun x p' d' hr => within_fixed_at getBE64_raw hd hr) h
      | exact finish_curAt _ _ _
          (fun x p' d' hr => within_fixed_at (getTime_raw true) hd hr) h
      | exact finish_curAt _ _ _
          (fun x p' d' hr => within_fixed_at (getTime_raw false) hd hr) h

theorem getFields_curAt (size_max list_max : Nat) (S : Schema) (call : Callee) (end_ : Nat)
    (enderr : Errno) (data : List Nat) (hlen : data.length < 2 ^ 64) :
    ∀ (fields : List Field) (o : Rec) (c c' : Cur), CurAt data end_ c →
      (getFields size_max list_max S call end_ enderr fields o c).2 = .ok c' →
      CurAt data end_ c'
  | [], o, c, c', hc, h => by
    simp only [getFields, Except.ok.injEq] at h
    subst h; exact hc
  | f :: fs, [], c, c', hc, h => by
    simp only [getFields, Except.ok.injEq] at h
    subst h; exact hc
  | f :: fs, v :: vs, c, c', hc, h => by
    unfold getFields at h
    rcases hf : getField size_max list_max S call end_ enderr f v c with ⟨v1, e | c1⟩
    · rw [hf] at h; simp at h
    · rw [hf] at h
      simp only [] at h
      have h1 := getField_curAt size_max list_max S call end_ enderr data hlen f v c c1 hc
        (by rw [hf])
      exact getFields_curAt size_max list_max S call end_ enderr data hlen fs vs c1 c' h1 h

/-- A successful run of the body of `unmarshal` returns a count between 1 and `end - data`,
and the octet before that offset is the `0x7F` that ends the record, whatever the nested
calls return. -/
theorem unmarshalRun_post (size_max list_max : Nat) (S : Schema) (call : Callee)
    (fields : List Field) (o : Rec) (data : List Nat) (end_ : Nat) (enderr : Errno) (n : Nat)
    (hlen : data.length < 2 ^ 64)
    (h : (unmarshalRun size_max list_max S call fields o data end_ enderr).2 = .ok n) :
    1 ≤ n ∧ n ≤ end_ ∧ data[n - 1]? = some 127 := by
  obtain ⟨hend, c0, o', c', h0, hf, h127, hp, _⟩ :=
    unmarshalRun_ok_inv size_max list_max S call fields o data end_ enderr n h
  have hc0 : CurAt data end_ c0 := next_curAt (by simp) hend h0
  have hc := getFields_curAt size_max list_max S call end_ enderr data hlen fields o c0 c' hc0
    (by rw [hf])
  obtain ⟨h1, h2, _, h4⟩ := hc
  rw [hp] at h1 h2 h4
  rw [h127] at h4
  exact ⟨h1, h2, h4⟩

/-- C24: when `unmarshal` returns a count `n` (its success; the failures return 0), then
`1 <= n <= min(datalen, colfer_size_max)` and the octet at offset `n - 1` of `data` is the
`0x7F` that ends the record.  The data are a buffer of fewer than `2^64` octets. -/
theorem decode_postcondition (size_max list_max : Nat) (S : Schema) (sid : Nat) (o : Rec)
    (data : List Nat) (datalen n : Nat) (hlen : data.length < 2 ^ 64)
    (h : (unmarshal size_max list_max S sid o data datalen).2 = .ok n) :
    1 ≤ n ∧ n ≤ min datalen size_max ∧ n ≤ data.length ∧ data[n - 1]? = some 127 := by
  unfold unmarshal at h
  rw [unmarshalAux_eq] at h
  obtain ⟨h1, h2, h3⟩ := unmarshalRun_post size_max list_max S _ _ o data _ _ n hlen h
  rw [endOf_eq_min] at h2
  refine ⟨h1, h2, ?_, h3⟩
  have := List.getElem?_eq_some_iff.1 h3
  obtain ⟨hlt, _⟩ := this
  omega

/-- C24 on the record `03 02 3F 80 00 00 40 00 00 00 7F` of schema `O` followed by two more
octets: `unmarshal` returns 11, and the octet at offset 10 is `0x7F`. -/
theorem decode_postcondition_witness :
    1 ≤ 11 ∧ 11 ≤ min 13 (2 ^ 24) ∧
    11 ≤ [0x03, 0x02, 0x3F, 0x80, 0x00, 0x00, 0x40, 0x00, 0x00, 0x00, 0x7F, 0x01, 0x7F].length ∧
    [0x03, 0x02, 0x3F, 0x80, 0x00, 0x00, 0x40, 0x00, 0x00, 0x00, 0x7F, 0x01, 0x7F][11 - 1]?
      = some 127 :=
  decode_postcondition (2 ^ 24) (2 ^ 16) schemaO 0 (zeroRec (schemaO 0))
    [0x03, 0x02, 0x3F, 0x80, 0x00, 0x00, 0x40, 0x00, 0x00, 0x00, 0x7F, 0x01, 0x7F] 13 11
    (by decide) (by rfl)

/-! ### C25: reserved words of C in field names -/

theorem fields_cKeywords : Fields cKeywords = keywordList := by decide

theorem isCKeyword_iff (s : String) : IsCKeyword s = true ↔ s ∈ keywordList := by
  unfold IsCKeyword
  rw [fields_cKeywords, List.any_eq_true]
  constructor
  · rintro ⟨k, hk, he⟩
    have : k = s := by simpa using he
    exact this ▸ hk
  · intro h
    exact ⟨s, h, by simp⟩

theorem escaped_not_keyword : ∀ s ∈ keywordList, IsCKeyword (s ++ "_") = false := by decide

/-- C25: `IsCKeyword s` is true exactly when `s` is one of the words of `cKeywords`
separated by white space, which are 32 different words; for every such `s` the name
`s ++ "_"` is not one of them; so the name `GenerateC` assigns to a field, `name.SnakeCase`
of its name with `_` appended when that is a reserved word, is never a word of the list. -/
theorem c_keyword_escaping :
    Fields cKeywords = keywordList ∧ keywordList.length = 32 ∧ keywordList.Nodup ∧
    (∀ s : String, IsCKeyword s = true ↔ s ∈ Fields cKeywords) ∧
    (∀ s : String, IsCKeyword s = true → IsCKeyword (s ++ "_") = false) ∧
    (∀ snake : String, IsCKeyword (nameNative snake) = false) := by
  have hesc : ∀ s : String, IsCKeyword s = true → IsCKeyword (s ++ "_") = false :=
    fun s h => escaped_not_keyword s ((isCKeyword_iff s).1 h)
  have hiff : ∀ s : String, IsCKeyword s = true ↔ s ∈ Fields cKeywords := by
    intro s
    rw [fields_cKeywords]
    exact isCKeyword_iff s
  refine ⟨fields_cKeywords, rfl, by decide, hiff, hesc, ?_⟩
  intro snake
  unfold nameNative
  by_cases h : IsCKeyword snake = true
  · rw [if_pos h]
    exact hesc snake h
  · rw [if_neg h]
    simpa using h

end Colfer
